import Mathlib

/-!
# clockon: the event log and reporting engine (`log.go`)

A shallow embedding of `log.go` (and of the `state` enumeration of `main.go`).

Conventions of the embedding

* Go strings are modelled by `String`; where the code works on the bytes of a
  line (scanner, `strings.SplitN`, the time and duration parsers) the model
  works on the list of characters.  All delimiters involved are ASCII.
* `time.Duration` is an `Int` number of nanoseconds; every Go addition on
  durations is wrapped to 64 bits with `wrap64`.
* `time.Time` is an instant (seconds since 0001-01-01T00:00:00Z, which is the
  zero `time.Time`, and nanoseconds) together with its location.  The rules of
  the machine's local zone are a parameter `tz` (offset in seconds east of UTC
  in effect at an instant).  The monotonic clock reading is not modelled.
* The file system is the one log file, see `Disk`.
-/

namespace Clockon

/-! ## Machine integers -/

/-- Two's complement wrap-around of an integer to the range of `int64`. -/
def wrap64 (x : Int) : Int := (x + 2 ^ 63) % 2 ^ 64 - 2 ^ 63

/-- Go's `+` on `int64` / `time.Duration`. -/
def add64 (x y : Int) : Int := wrap64 (x + y)

/-- Largest `time.Duration`. -/
def maxDuration : Int := 2 ^ 63 - 1

/-- Smallest `time.Duration`. -/
def minDuration : Int := -(2 ^ 63)

/-! ## `main.go`: the state enumeration -/

/-- The `state` type of main.go (`uint8`, constants numbered by `iota`). -/
inductive state where
  | ready
  | adding
  | removing
  | selecting
  | working
  | resting
  | weekly
  | yearly
  | quitting
  deriving DecidableEq, Repr

/-- Numeric value of a `state` constant. -/
def state.toNat : state → Nat
  | .ready => 0
  | .adding => 1
  | .removing => 2
  | .selecting => 3
  | .working => 4
  | .resting => 5
  | .weekly => 6
  | .yearly => 7
  | .quitting => 8

/-! ## Go's `time` package: instants, locations, the civil calendar -/

/-- A `*time.Location`: UTC, the machine's local zone, or a fixed offset
(`time.FixedZone`). -/
inductive Location where
  | utc
  | localZone
  | fixed (offset : Int)
  deriving DecidableEq, Repr

/-- A `time.Time`: seconds since 0001-01-01T00:00:00Z, nanoseconds within the
second, and location. -/
structure Time where
  sec : Int
  nsec : Int
  loc : Location
  deriving DecidableEq, Repr

/-- The zero value `time.Time{}`: January 1, year 1, 00:00:00 UTC. -/
def Time.zero : Time := ⟨0, 0, .utc⟩

/-- Offset (seconds east of UTC) in effect at `t` in `t`'s location. -/
def Time.offset (tz : Int → Int) (t : Time) : Int :=
  match t.loc with
  | .utc => 0
  | .localZone => tz t.sec
  | .fixed o => o

/-- Go's `t.abs()`: seconds of civil time elapsed since 0001-01-01T00:00:00. -/
def Time.abs (tz : Int → Int) (t : Time) : Int := t.sec + t.offset tz

/-- The instant of `t` in nanoseconds since the zero time. -/
def Time.nanos (t : Time) : Int := t.sec * 1000000000 + t.nsec

/-- Go's `t.Add(d)`. -/
def Time.Add (t : Time) (d : Int) : Time :=
  let dsec := Int.tdiv d 1000000000
  let nsec := t.nsec + Int.tmod d 1000000000
  if nsec ≥ 1000000000 then ⟨t.sec + (dsec + 1), nsec - 1000000000, t.loc⟩
  else if nsec < 0 then ⟨t.sec + (dsec - 1), nsec + 1000000000, t.loc⟩
  else ⟨t.sec + dsec, nsec, t.loc⟩

/-- Go's `isLeap`. -/
def isLeap (year : Int) : Bool :=
  year % 4 = 0 && (year % 100 != 0 || year % 400 = 0)

/-- Go's `daysBefore` table: days in a non-leap year before month `m + 1`. -/
def daysBefore : Nat → Int
  | 0 => 0
  | 1 => 31
  | 2 => 59
  | 3 => 90
  | 4 => 120
  | 5 => 151
  | 6 => 181
  | 7 => 212
  | 8 => 243
  | 9 => 273
  | 10 => 304
  | 11 => 334
  | _ => 365

/-- Go's `daysIn(m, year)`. -/
def daysIn (m : Nat) (year : Int) : Int :=
  if m = 2 ∧ isLeap year then 29 else daysBefore m - daysBefore (m - 1)

/-- Go's `daysSinceEpoch`, relative to year 1: days from 0001-01-01 to
January 1 of `year`. -/
def daysSinceEpoch (year : Int) : Int :=
  let y := year - 1
  let n400 := y / 400
  let y := y - 400 * n400
  let n100 := y / 100
  let y := y - 100 * n100
  let n4 := y / 4
  let y := y - 4 * n4
  146097 * n400 + 36524 * n100 + 1461 * n4 + 365 * y

/-- Year and day of the year (from 0) of the day number `days`; the first half
of Go's `absDate`. -/
def absYear (days : Int) : Int × Int :=
  let n400 := days / 146097
  let d := days - 146097 * n400
  let n100 := d / 36524
  let n100 := n100 - n100 / 4
  let d := d - 36524 * n100
  let n4 := d / 1461
  let d := d - 1461 * n4
  let n := d / 365
  let n := n - n / 4
  let d := d - 365 * n
  (400 * n400 + 100 * n100 + 4 * n4 + n + 1, d)

/-- Month (1..12) and day of the month of day `yday` of a year; the second
half of Go's `absDate`. -/
def monthDay (leap : Bool) (yday : Int) : Nat × Int :=
  if leap ∧ yday = 31 + 29 - 1 then (2, 29)
  else
    let day := if leap ∧ yday > 31 + 29 - 1 then yday - 1 else yday
    let month := (day / 31).toNat
    let e := daysBefore (month + 1)
    if day ≥ e then (month + 2, day - e + 1)
    else (month + 1, day - daysBefore month + 1)

/-- Go's `absDate(abs, true)`: year, month, day, day of year. -/
def absDate (abs : Int) : Int × Nat × Int × Int :=
  let yd := absYear (abs / 86400)
  let md := monthDay (isLeap yd.1) yd.2
  (yd.1, md.1, md.2, yd.2)

/-- Go's `t.Date()`: year, month and day in `t`'s location. -/
def Time.Date (tz : Int → Int) (t : Time) : Int × Nat × Int :=
  let r := absDate (t.abs tz)
  (r.1, r.2.1, r.2.2.1)

/-- Go's `t.Year()`. -/
def Time.Year (tz : Int → Int) (t : Time) : Int := (absDate (t.abs tz)).1

/-- Go's `t.Month()`. -/
def Time.Month (tz : Int → Int) (t : Time) : Nat := (absDate (t.abs tz)).2.1

/-- Go's `t.Day()`. -/
def Time.Day (tz : Int → Int) (t : Time) : Int := (absDate (t.abs tz)).2.2.1

/-- Go's `t.Weekday()`, Sunday = 0 (0001-01-01 is a Monday). -/
def Time.Weekday (tz : Int → Int) (t : Time) : Nat :=
  ((t.abs tz / 86400 + 1) % 7).toNat

/-- Go's `t.ISOWeek()`: the ISO 8601 year and week of `t`. -/
def Time.ISOWeek (tz : Int → Int) (t : Time) : Int × Int :=
  let wd : Int := ((t.abs tz / 86400 + 1) % 7)
  let d := if 4 - wd = 4 then -3 else 4 - wd
  let yd := absYear (t.abs tz / 86400 + d)
  (yd.1, yd.2 / 7 + 1)

/-- Go's `time.Date(year, month, day, hour, min, sec, nsec, time.UTC)` for
arguments that are already in range (no normalisation is needed). -/
def dateUTC (year : Int) (month : Nat) (day hour min sec nsec : Int) : Time :=
  let d := daysSinceEpoch year + daysBefore (month - 1)
  let d := if isLeap year ∧ month ≥ 3 then d + 1 else d
  let d := d + (day - 1)
  ⟨d * 86400 + (hour * 3600 + min * 60 + sec), nsec, .utc⟩

/-! ## Go's `time` package: durations -/

/-- The nanosecond count of `time.Second`. -/
def Second : Int := 1000000000

/-- Go's `d.Round(m)`: `d` rounded to the nearest multiple of `m`, halves
away from zero; the extreme durations on overflow. -/
def Round (d m : Int) : Int :=
  if m ≤ 0 then d
  else
    let r := Int.tmod d m
    if d < 0 then
      let r := -r
      if r + r < m then d + r
      else
        let d1 := wrap64 (d - m + r)
        if d1 < d then d1 else minDuration
    else
      if r + r < m then d - r
      else
        let d1 := wrap64 (d + m - r)
        if d1 > d then d1 else maxDuration

/-- The character of a decimal digit (`byte(v) + '0'`). -/
def digitChar (n : Nat) : Char := Char.ofNat (48 + n)

/-- Whether a character is one of `'0'..'9'`. -/
def isDigit (c : Char) : Bool := decide (48 ≤ c.toNat) && decide (c.toNat ≤ 57)

/-- Value of a decimal digit character (`c - '0'`). -/
def digitVal (c : Char) : Nat := c.toNat - 48

/-- Go's `fmtInt`: the decimal digits of `v` put in front of `acc`.  The first
argument bounds the number of iterations of the loop. -/
def fmtIntLoop : Nat → Nat → List Char → List Char
  | 0, _, acc => acc
  | fuel + 1, v, acc =>
    if v = 0 then acc else fmtIntLoop fuel (v / 10) (digitChar (v % 10) :: acc)

/-- Go's `fmtInt(buf, v)`. -/
def fmtInt (v : Nat) (acc : List Char) : List Char :=
  if v = 0 then '0' :: acc else fmtIntLoop v v acc

/-- Go's `fmtFrac` loop: the low `prec` digits of `v`, without trailing zeros. -/
def fmtFracLoop : Nat → Nat → Bool → List Char → List Char × Nat × Bool
  | 0, v, pr, acc => (acc, v, pr)
  | prec + 1, v, pr, acc =>
    let digit := v % 10
    let pr := pr || decide (digit ≠ 0)
    fmtFracLoop prec (v / 10) pr (if pr then digitChar digit :: acc else acc)

/-- Go's `fmtFrac(buf, v, prec)`: the fraction of `v / 10^prec` put in front of
`acc`, and `v / 10^prec`. -/
def fmtFrac (v prec : Nat) (acc : List Char) : List Char × Nat :=
  let r := fmtFracLoop prec v false acc
  (if r.2.2 then '.' :: r.1 else r.1, r.2.1)

/-- Go's `d.String()`. -/
def Duration.String (d : Int) : List Char :=
  let u := d.natAbs
  let body : List Char :=
    if u < 1000000000 then
      if u = 0 then ['0', 's']
      else if u < 1000 then fmtInt u ['n', 's']
      else if u < 1000000 then
        let r := fmtFrac u 3 ['µ', 's']
        fmtInt r.2 r.1
      else
        let r := fmtFrac u 6 ['m', 's']
        fmtInt r.2 r.1
    else
      let r := fmtFrac u 9 ['s']
      let w := fmtInt (r.2 % 60) r.1
      let u := r.2 / 60
      if u > 0 then
        let w := fmtInt (u % 60) ('m' :: w)
        let u := u / 60
        if u > 0 then fmtInt u ('h' :: w) else w
      else w
  if d < 0 then '-' :: body else body

/-- Go's `leadingInt`: the leading decimal number of `s` and the rest of `s`;
`none` on overflow. -/
def leadingInt : List Char → Nat → Option (Nat × List Char)
  | [], x => some (x, [])
  | c :: s, x =>
    if !isDigit c then some (x, c :: s)
    else if x > 2 ^ 63 / 10 then none
    else
      let x := x * 10 + digitVal c
      if x > 2 ^ 63 then none else leadingInt s x

/-- Go's `leadingFraction`: the digits after a decimal point, as a number and
the count of digits used for it (`scale = 10^count`), and the rest of `s`. -/
def leadingFraction : List Char → Nat → Nat → Bool → Nat × Nat × List Char
  | [], x, k, _ => (x, k, [])
  | c :: s, x, k, overflow =>
    if !isDigit c then (x, k, c :: s)
    else if overflow then leadingFraction s x k overflow
    else if x > (2 ^ 63 - 1) / 10 then leadingFraction s x k true
    else
      let y := x * 10 + digitVal c
      if y > 2 ^ 63 then leadingFraction s x k true
      else leadingFraction s y (k + 1) false

/-- Go's `unitMap`: nanoseconds per unit. -/
def unitMap (u : List Char) : Option Nat :=
  if u = ['n', 's'] then some 1
  else if u = ['u', 's'] then some 1000
  else if u = ['µ', 's'] then some 1000
  else if u = ['μ', 's'] then some 1000
  else if u = ['m', 's'] then some 1000000
  else if u = ['s'] then some 1000000000
  else if u = ['m'] then some 60000000000
  else if u = ['h'] then some 3600000000000
  else none

/-- What the model needs from the machine and from the parts of Go's library
that are not embedded. -/
structure GoEnv where
  /-- Rules of the local zone: offset in seconds east of UTC at an instant. -/
  tz : Int → Int
  /-- The general layout-driven `time.parse(RFC3339, value, UTC, Local)`, used
  when the RFC 3339 fast path rejects the value. -/
  parseLayout : List Char → Option Time
  /-- The `float64` product `uint64(float64(f) * (float64(unit) / scale))` of
  `time.ParseDuration`, for the fraction `f` with `scale = 10^k`. -/
  fracNanos : Nat → Nat → Nat → Nat

/-- The loop of Go's `time.ParseDuration` over the `number unit` groups; the
first argument bounds the number of groups. -/
def parseDurationLoop (env : GoEnv) : Nat → List Char → Nat → Option Nat
  | 0, _, _ => none
  | fuel + 1, s, d =>
    match s with
    | [] => some d
    | c :: _ =>
      if !(c = '.' || isDigit c) then none
      else
        match leadingInt s 0 with
        | none => none
        | some (v, s1) =>
          let pre := decide (s1.length ≠ s.length)
          let fr : Nat × Nat × List Char × Bool :=
            match s1 with
            | '.' :: s2 =>
              let r := leadingFraction s2 0 0 false
              (r.1, r.2.1, r.2.2, decide (r.2.2.length ≠ s2.length))
            | _ => (0, 0, s1, false)
          let f := fr.1
          let k := fr.2.1
          let s3 := fr.2.2.1
          let post := fr.2.2.2
          if !pre && !post then none
          else
            let u := s3.takeWhile (fun c => !(c = '.' || isDigit c))
            let s4 := s3.dropWhile (fun c => !(c = '.' || isDigit c))
            if u = [] then none
            else
              match unitMap u with
              | none => none
              | some unit =>
                if v > 2 ^ 63 / unit then none
                else
                  let v := v * unit
                  let v := if f > 0 then v + env.fracNanos f k unit else v
                  if f > 0 ∧ v > 2 ^ 63 then none
                  else
                    let d := d + v
                    if d > 2 ^ 63 then none else parseDurationLoop env fuel s4 d

/-- Go's `time.ParseDuration`; `none` is an error return. -/
def ParseDuration (env : GoEnv) (s : List Char) : Option Int :=
  let neg := decide (s.head? = some '-')
  let s := if s.head? = some '-' ∨ s.head? = some '+' then s.tail else s
  if s = ['0'] then some 0
  else if s = [] then none
  else
    match parseDurationLoop env (s.length + 1) s 0 with
    | none => none
    | some d =>
      if neg then some (-(d : Int))
      else if d > 2 ^ 63 - 1 then none
      else some (d : Int)

/-! ## Go's `time` package: RFC 3339 text -/

/-- Go's `appendInt(b, x, width)`: `x` in decimal, zero-padded to `width`. -/
def appendInt (x : Int) (width : Nat) : List Char :=
  let u := x.natAbs
  let sign : List Char := if x < 0 then ['-'] else []
  if width = 2 ∧ u < 100 then
    sign ++ [digitChar (u / 10), digitChar (u % 10)]
  else if width = 4 ∧ u < 10000 then
    sign ++ [digitChar (u / 1000), digitChar (u / 100 % 10), digitChar (u / 10 % 10),
      digitChar (u % 10)]
  else
    let ds := fmtInt u []
    sign ++ List.replicate (width - ds.length) '0' ++ ds

/-- Go's `t.Format(time.RFC3339)` (`appendFormatRFC3339` without
nanoseconds). -/
def Time.Format (tz : Int → Int) (t : Time) : List Char :=
  let offset := t.offset tz
  let abs := t.abs tz
  let r := absDate abs
  let sod := abs % 86400
  let date := appendInt r.1 4 ++ ['-'] ++ appendInt r.2.1 2 ++ ['-'] ++ appendInt r.2.2.1 2
  let clock := appendInt (sod / 3600) 2 ++ [':'] ++ appendInt (sod % 3600 / 60) 2 ++ [':'] ++
    appendInt (sod % 60) 2
  let zone : List Char :=
    if offset = 0 then ['Z']
    else
      let z := Int.tdiv offset 60
      let sign := if z < 0 then '-' else '+'
      let z := if z < 0 then -z else z
      [sign] ++ appendInt (Int.tdiv z 60) 2 ++ [':'] ++ appendInt (Int.tmod z 60) 2
  date ++ ['T'] ++ clock ++ zone

/-- The `parseUint` closure of Go's `parseRFC3339`: an unsigned decimal number
within `[min, max]`. -/
def parseUint (s : List Char) (min max : Int) : Option Int :=
  if s.all isDigit then
    let x : Int := (s.foldl (fun x c => x * 10 + digitVal c) 0 : Nat)
    if x < min ∨ max < x then none else some x
  else none

/-- Go's `parseNanoseconds(s, n)` on the `n - 1` digits that follow the
decimal point: at most nine of them count. -/
def parseNanoseconds (digits : List Char) : Int :=
  let ds := digits.take 9
  ((ds.foldl (fun x c => x * 10 + digitVal c) 0) * 10 ^ (9 - ds.length) : Nat)

/-- Go's `parseRFC3339(s, Local)`: the strict RFC 3339 fast path of
`time.Parse`. -/
def parseRFC3339 (tz : Int → Int) (s : List Char) : Option Time :=
  if s.length < 19 then none
  else
    match parseUint (s.take 4) 0 9999, parseUint ((s.drop 5).take 2) 1 12 with
    | some year, some month =>
      match parseUint ((s.drop 8).take 2) 1 (daysIn month.toNat year),
          parseUint ((s.drop 11).take 2) 0 23, parseUint ((s.drop 14).take 2) 0 59,
          parseUint ((s.drop 17).take 2) 0 59 with
      | some day, some hour, some min, some sec =>
        if !(s.getD 4 ' ' = '-' ∧ s.getD 7 ' ' = '-' ∧ s.getD 10 ' ' = 'T' ∧
            s.getD 13 ' ' = ':' ∧ s.getD 16 ' ' = ':') then none
        else
          let s := s.drop 19
          let fr : Int × List Char :=
            match s with
            | '.' :: c :: s1 =>
              if isDigit c then
                (parseNanoseconds (c :: s1.takeWhile isDigit), s1.dropWhile isDigit)
              else (0, s)
            | _ => (0, s)
          let t := dateUTC year month.toNat day hour min sec fr.1
          let s := fr.2
          if s = ['Z'] then some t
          else if s.length ≠ 6 then none
          else
            match parseUint ((s.drop 1).take 2) 0 23, parseUint ((s.drop 4).take 2) 0 59 with
            | some hr, some mm =>
              if !((s.getD 0 ' ' = '-' ∨ s.getD 0 ' ' = '+') ∧ s.getD 3 ' ' = ':') then none
              else
                let zoneOffset := (hr * 60 + mm) * 60
                let zoneOffset := if s.getD 0 ' ' = '-' then zoneOffset * -1 else zoneOffset
                let sec := t.sec + -zoneOffset
                if tz sec = zoneOffset then some ⟨sec, t.nsec, .localZone⟩
                else some ⟨sec, t.nsec, .fixed zoneOffset⟩
            | _, _ => none
      | _, _, _, _ => none
    | _, _ => none

/-- Go's `time.Parse(time.RFC3339, value)`; `none` is an error return. -/
def Parse (env : GoEnv) (value : List Char) : Option Time :=
  match parseRFC3339 env.tz value with
  | some t => some t
  | none => env.parseLayout value

/-! ## Go's `bufio.Scanner` (line splitting) and `strings.SplitN` -/

/-- Number of bytes of the UTF-8 encoding of a list of characters. -/
def byteLen (s : List Char) : Nat := (s.map Char.utf8Size).sum

/-- The `dropCR` of `bufio.ScanLines`: a final carriage return is removed. -/
def dropCR (line : List Char) : List Char :=
  if line.getLast? = some '\r' then line.dropLast else line

/-- Largest token of a `bufio.Scanner` (`bufio.MaxScanTokenSize`). -/
def MaxScanTokenSize : Nat := 64 * 1024

/-- What Go functions of this file report in their `error` result. -/
inductive error where
  | EOF
  | ErrTooLong
  | badEntry
  | parseTime
  | parseDuration
  | notExist
  deriving DecidableEq, Repr

/-- A run-time panic of the Go program. -/
inductive Panic where
  | indexOutOfRange
  deriving DecidableEq, Repr

/-- A `*bufio.Scanner` over the log file: the input not yet consumed. -/
structure Scanner where
  rest : List Char
  deriving DecidableEq, Repr

/-- One `s.Scan()` followed by `s.Text()` / `s.Err()`: the next line without
its end-of-line marker, or the reason why there is none (`none` when the input
is exhausted, so that `s.Err()` is nil). -/
def Scanner.Scan (s : Scanner) : Except (Option error) (List Char × Scanner) :=
  if s.rest = [] then .error none
  else
    let line := s.rest.takeWhile (fun c => c ≠ '\n')
    if byteLen line ≥ MaxScanTokenSize then .error (some .ErrTooLong)
    else .ok (dropCR line, ⟨(s.rest.dropWhile (fun c => c ≠ '\n')).tail⟩)

/-- Go's `strings.SplitN(s, " ", n)`. -/
def SplitN : Nat → List Char → List (List Char)
  | 0, _ => []
  | 1, s => [s]
  | n + 2, s =>
    if s.contains ' ' then
      s.takeWhile (fun c => c ≠ ' ') :: SplitN (n + 1) ((s.dropWhile (fun c => c ≠ ' ')).tail)
    else [s]

/-! ## `log.go`: entries and their text -/

/-- The `entry` struct of log.go. -/
structure entry where
  a : String
  typ : state
  t : Time
  d : Int
  deriving DecidableEq, Repr

/-- The zero value `entry{}`. -/
def entry.zero : entry := ⟨"", .ready, Time.zero, 0⟩

/-- The method `entry.String` of log.go. -/
def entry.String (tz : Int → Int) (e : entry) : List Char :=
  match e.typ with
  | .selecting => e.a.data ++ ['\n', 'c', ' '] ++ e.t.Format tz ++ ['\n']
  | .removing => e.a.data ++ ['\n', 'd', ' '] ++ e.t.Format tz ++ ['\n']
  | .working =>
    e.a.data ++ ['\n', 'w', ' '] ++ e.t.Format tz ++ [' '] ++
      Duration.String (Round e.d Second) ++ ['\n']
  | .resting =>
    e.a.data ++ ['\n', 'b', ' '] ++ e.t.Format tz ++ [' '] ++
      Duration.String (Round e.d Second) ++ ['\n']
  | _ => []

/-- The function `load` of log.go: one entry read from the scanner.  The
result is the pair `(entry, error)` and the scanner after the call; an index
out of range is a panic. -/
def load (env : GoEnv) (s : Scanner) : Except Panic (entry × Option error × Scanner) :=
  match s.Scan with
  | .error err => .ok (entry.zero, some (err.getD .EOF), s)
  | .ok (text, s) =>
    let e : entry := { entry.zero with a := String.mk text }
    match s.Scan with
    | .error err => .ok (entry.zero, some (err.getD .EOF), s)
    | .ok (text, s) =>
      let triplet := SplitN 3 text
      if triplet.length < 1 ∨ byteLen (triplet.getD 0 []) ≠ 1 then
        .ok (entry.zero, some .badEntry, s)
      else
        let typ? : Option state :=
          if triplet.getD 0 [] = ['c'] then some .selecting
          else if triplet.getD 0 [] = ['d'] then some .removing
          else if triplet.getD 0 [] = ['w'] then some .working
          else if triplet.getD 0 [] = ['b'] then some .resting
          else none
        match typ? with
        | none => .ok (entry.zero, some .badEntry, s)
        | some typ =>
          let e := { e with typ := typ }
          if e.typ = .selecting ∨ e.typ = .removing then .ok (e, none, s)
          else
            match triplet.get? 1 with
            | none => .error .indexOutOfRange
            | some tok1 =>
              match Parse env tok1 with
              | none => .ok (entry.zero, some .parseTime, s)
              | some et =>
                let e := { e with t := et }
                match triplet.get? 2 with
                | none => .error .indexOutOfRange
                | some tok2 =>
                  match ParseDuration env tok2 with
                  | none => .ok (entry.zero, some .parseDuration, s)
                  | some ed => .ok ({ e with d := ed }, none, s)

/-- The `for` loop of `loadAll`: entries are appended while `load` reports no
error.  The first argument bounds the number of iterations. -/
def loadAllLoop (env : GoEnv) : Nat → Scanner → List entry → Except Panic (List entry)
  | 0, _, ret => .ok ret
  | fuel + 1, s, ret =>
    match load env s with
    | .error p => .error p
    | .ok (e, none, s) => loadAllLoop env fuel s (ret ++ [e])
    | .ok (_, some _, _) => .ok ret

/-- The function `loadAll` of log.go.  The `err` of the `for` statement is a
new variable that shadows the `err` declared before the loop, so the `err`
tested and returned after the loop is still nil. -/
def loadAll (env : GoEnv) (f : List Char) : Except Panic (List entry × Option error) :=
  match loadAllLoop env (f.length + 1) ⟨f⟩ [] with
  | .error p => .error p
  | .ok ret =>
    let err : Option error := none
    if err = some .EOF then .ok (ret, none) else .ok (ret, err)

/-! ## `log.go`: the logger and its cursor -/

/-- The log file `clockon.log` as the program sees it: its content (`none`
when it cannot be opened for reading, e.g. when it does not exist) and
whether it can be created or opened for writing. -/
structure Disk where
  file : Option (List Char)
  writable : Bool
  deriving DecidableEq, Repr

/-- The `logger` struct of log.go. -/
structure logger where
  sidx : Nat
  bidx : Nat
  bread : Bool
  session : List entry
  buffered : List entry
  deriving DecidableEq, Repr

/-- The function `newlogger` of log.go. -/
def newlogger : logger := ⟨0, 0, false, [], []⟩

/-- The method `send` of log.go. -/
def logger.send (l : logger) (e : entry) : logger :=
  let e := if e.d > 0 then { e with t := e.t.Add (wrap64 (e.d * -1)) } else e
  { l with session := l.session ++ [e] }

/-- The method `flush` of log.go: the session entries are appended to the
file. -/
def logger.flush (tz : Int → Int) (disk : Disk) (l : logger) : Disk :=
  if !disk.writable then disk
  else { disk with file := some (disk.file.getD [] ++ (l.session.map (entry.String tz)).flatten) }

/-- The common first part of `next` and `prev`: the committed entries are read
from the file on the first call. -/
def logger.fill (env : GoEnv) (disk : Disk) (l : logger) :
    Except Panic (Option error × logger) :=
  if !l.bread then
    let l := { l with bread := true }
    match disk.file with
    | none => .ok (some .notExist, l)
    | some f =>
      match loadAll env f with
      | .error p => .error p
      | .ok (es, err) =>
        if err ≠ none then .ok (err, l) else .ok (none, { l with buffered := es })
  else .ok (none, l)

/-- The method `next` of log.go: the pair `(entry, error)` and the logger
after the call. -/
def logger.next (env : GoEnv) (disk : Disk) (l : logger) :
    Except Panic (entry × Option error × logger) :=
  match l.fill env disk with
  | .error p => .error p
  | .ok (some err, l) => .ok (entry.zero, some err, l)
  | .ok (none, l) =>
    if l.bidx < l.buffered.length then
      let l := { l with bidx := l.bidx + 1 }
      .ok (l.buffered.getD (l.bidx - 1) entry.zero, none, l)
    else if l.sidx < l.session.length then
      let l := { l with sidx := l.sidx + 1 }
      .ok (l.session.getD (l.sidx - 1) entry.zero, none, l)
    else .ok (entry.zero, some .EOF, l)

/-- The method `prev` of log.go. -/
def logger.prev (env : GoEnv) (disk : Disk) (l : logger) :
    Except Panic (entry × Option error × logger) :=
  match l.fill env disk with
  | .error p => .error p
  | .ok (some err, l) => .ok (entry.zero, some err, l)
  | .ok (none, l) =>
    if l.sidx < l.session.length then
      let l := { l with sidx := l.sidx + 1 }
      .ok (l.session.getD (l.session.length - l.sidx) entry.zero, none, l)
    else if l.bidx < l.buffered.length then
      let l := { l with bidx := l.bidx + 1 }
      .ok (l.buffered.getD (l.buffered.length - l.bidx) entry.zero, none, l)
    else .ok (entry.zero, some .EOF, l)

/-- What one iteration of a loop body asks for: go on (also after `continue`)
or `break`. -/
inductive Flow (σ : Type) where
  | cont (s : σ)
  | brk (s : σ)

/-- The loop `for e, err := step(); err == nil; e, err = step() { body }` over
a cursor method `step` (`l.next` or `l.prev`).  The first argument bounds the
number of calls of `step`. -/
def forCursor {σ : Type} (step : logger → Except Panic (entry × Option error × logger))
    (body : σ → entry → Flow σ) : Nat → logger → σ → Except Panic (σ × logger)
  | 0, l, s => .ok (s, l)
  | fuel + 1, l, s =>
    match step l with
    | .error p => .error p
    | .ok (_, some _, l) => .ok (s, l)
    | .ok (e, none, l) =>
      match body s e with
      | .cont s => forCursor step body fuel l s
      | .brk s => .ok (s, l)

/-- A bound on the number of successful cursor calls between two resets of the
indices: the committed entries (at most one per character of the file when
they are not read yet) and the session entries. -/
def logger.bound (disk : Disk) (l : logger) : Nat :=
  l.buffered.length + l.session.length + (disk.file.getD []).length + 2

/-- The assignments `l.bidx = 0; l.sidx = 0`. -/
def logger.reset (l : logger) : logger := { l with bidx := 0, sidx := 0 }

/-! ## `log.go`: queries -/

/-- The inner loop of `tally`: the duration of `e` is added to the cell of the
first activity of the list that is `e.a`. -/
def tallyAdd (e : entry) : List String → List (Int × Int) → List (Int × Int)
  | v :: vs, r :: rs =>
    if v ≠ e.a then r :: tallyAdd e vs rs
    else if e.typ = .working then (add64 r.1 e.d, r.2) :: rs
    else (r.1, add64 r.2 e.d) :: rs
  | _, rs => rs

/-- The body of the loop of `tally`. -/
def tallyBody (tz : Int → Int) (today : Int × Nat × Int) (activities : List String)
    (ret : List (Int × Int)) (e : entry) : Flow (List (Int × Int)) :=
  if e.t.Date tz ≠ today then .brk ret
  else if e.typ ≠ .working ∧ e.typ ≠ .resting then .cont ret
  else .cont (tallyAdd e activities ret)

/-- The method `tally` of log.go; `now` is the value of `time.Now()`. -/
def logger.tally (env : GoEnv) (disk : Disk) (now : Time) (l : logger)
    (activities : List String) : Except Panic (List (Int × Int) × logger) :=
  let l := l.reset
  forCursor (logger.prev env disk) (tallyBody env.tz (now.Date env.tz) activities)
    (l.bound disk) l (List.replicate activities.length (0, 0))

/-- The body of the first loop of `refresh`; the map `scratch` is the list of
its keys. -/
def refreshBody1 (scratch : List String) (e : entry) : Flow (List String) :=
  if e.typ = .removing then .cont (scratch.erase e.a)
  else if e.a ∈ scratch then .cont scratch
  else .cont (scratch ++ [e.a])

/-- The body of the second loop of `refresh`: the most recently selected
activity. -/
def refreshBody2 (scratch : List String) (this : String) (e : entry) : Flow String :=
  if e.typ = .removing then .cont this
  else if e.a ∈ scratch then .brk e.a
  else .cont this

/-- The first loop after `sort.Strings(ret)` in `refresh`: index of `this`. -/
def refreshIndex (this : String) : List String → Nat → Nat
  | [], _ => 0
  | v :: vs, i => if v = this then i else refreshIndex this vs (i + 1)

/-- The variables `thisWk`, `prevWk`, `prevYr` of `refresh`. -/
structure Anchors where
  thisWk : Int × Int
  prevWk : Int × Int
  prevYr : Int
  deriving DecidableEq, Repr

/-- The body of the third loop of `refresh`: weeks and years. -/
def refreshBody3 (tz : Int → Int) (scratch : List String) (s : Anchors) (e : entry) :
    Flow Anchors :=
  if e.typ ≠ .working ∧ e.typ ≠ .resting then .cont s
  else if e.a ∉ scratch then .cont s
  else
    let yw := e.t.ISOWeek tz
    if s.thisWk.1 = 0 then .cont { s with thisWk := yw }
    else
      let s := if s.prevWk.1 = 0 ∧ (yw.2 < s.thisWk.2 ∨ yw.1 < s.thisWk.1)
        then { s with prevWk := yw } else s
      if s.prevYr = 0 ∧ yw.1 < s.thisWk.1 then .brk { s with prevYr := s.thisWk.1 }
      else .cont s

/-- Go's `sort.Strings`. -/
def sortStrings (xs : List String) : List String :=
  xs.insertionSort (fun a b => a ≤ b)

/-- The result of `refresh`. -/
structure Refreshed where
  activities : List String
  selected : Nat
  thisWk : Int × Int
  prevWk : Int × Int
  thisYr : Int
  prevYr : Int
  deriving DecidableEq, Repr

/-- The method `refresh` of log.go. -/
def logger.refresh (env : GoEnv) (disk : Disk) (l : logger) :
    Except Panic (Refreshed × logger) :=
  match forCursor (logger.next env disk) refreshBody1 (l.bound disk) l.reset [] with
  | .error p => .error p
  | .ok (scratch, l) =>
    match forCursor (logger.prev env disk) (refreshBody2 scratch) (l.bound disk) l.reset "" with
    | .error p => .error p
    | .ok (this, l) =>
      let ret := sortStrings scratch
      let ridx := refreshIndex this ret 0
      match forCursor (logger.prev env disk) (refreshBody3 env.tz scratch) (l.bound disk)
          l.reset ⟨(0, 0), (0, 0), 0⟩ with
      | .error p => .error p
      | .ok (s, l) => .ok (⟨ret, ridx, s.thisWk, s.prevWk, s.thisWk.1, s.prevYr⟩, l)

/-! ## `log.go`: reports -/

/-- Go's `fmt.Sprintf("%d", x)`. -/
def fmtD (x : Int) : List Char :=
  if x < 0 then '-' :: fmtInt x.natAbs [] else fmtInt x.natAbs []

/-- Go's `fmt.Sprintf("%02d", x)`: zero padding to width two, sign included. -/
def fmt02d (x : Int) : List Char :=
  if x < 0 then '-' :: fmtInt x.natAbs []
  else if x < 10 then '0' :: fmtInt x.natAbs []
  else fmtInt x.natAbs []

/-- The nanosecond count of `time.Minute`. -/
def Minute : Int := 60 * 1000000000

/-- The nanosecond count of `time.Hour`. -/
def Hour : Int := 3600 * 1000000000

/-- The function `fmtDuration` of log.go. -/
def fmtDuration (d : Int) : List Char :=
  let d := Round d Minute
  let h := Int.tdiv d Hour
  let d := wrap64 (d - wrap64 (h * Hour))
  let m := Int.tdiv d Minute
  if h = 0 then fmtD m ++ ['m']
  else fmtD h ++ ['h'] ++ fmt02d m ++ ['m']

/-- The loop of `toRows`: the three cells of every column, and the totals. -/
def toRowsLoop : List (Int × Int) → Int × Int →
    (List String × List String × List String) × (Int × Int)
  | [], totals => (([], [], []), totals)
  | v :: vs, totals =>
    let r := toRowsLoop vs (add64 totals.1 v.1, add64 totals.2 v.2)
    ((String.mk (fmtDuration (Round v.1 Minute)) :: r.1.1,
      String.mk (fmtDuration (Round v.2 Minute)) :: r.1.2.1,
      String.mk (fmtDuration (Round (add64 v.1 v.2) Minute)) :: r.1.2.2), r.2)

/-- The function `toRows` of log.go: the rows "work", "break" and "total". -/
def toRows (d : List (Int × Int)) : List (List String) :=
  let r := toRowsLoop d (0, 0)
  let totals := r.2
  [ "work" :: r.1.1 ++ [String.mk (fmtDuration (Round totals.1 Minute))],
    "break" :: r.1.2.1 ++ [String.mk (fmtDuration (Round totals.2 Minute))],
    "total" :: r.1.2.2 ++ [String.mk (fmtDuration (Round (add64 totals.1 totals.2) Minute))] ]

/-- The function `dayIndex` of log.go. -/
def dayIndex (tz : Int → Int) (t : Time) : Nat :=
  let day := t.Weekday tz
  let day := if day = 0 then 7 else day
  day - 1

/-- The statement `d[i][k] += x` on a slice of `[2]time.Duration`. -/
def bump : List (Int × Int) → Nat → Nat → Int → List (Int × Int)
  | [], _, _, _ => []
  | r :: rs, 0, k, x =>
    (if k = 0 then (add64 r.1 x, r.2) else if k = 1 then (r.1, add64 r.2 x) else r) :: rs
  | r :: rs, i + 1, k, x => r :: bump rs i k x

/-- The variables `d`, `nxt`, `prev` of `weeks`. -/
structure WeekAcc where
  d : List (Int × Int)
  nxt : Int × Int
  prev : Int × Int
  deriving DecidableEq, Repr

/-- The body of the loop of `weeks`. -/
def weeksBody (tz : Int → Int) (activity : String) (week : Int × Int) (s : WeekAcc)
    (e : entry) : Flow WeekAcc :=
  if e.typ ≠ .working ∧ e.typ ≠ .resting then .cont s
  else if e.a ≠ activity then .cont s
  else
    let yw := e.t.ISOWeek tz
    if yw.2 = week.2 ∧ yw.1 = week.1 then
      .cont { s with d := bump s.d (dayIndex tz e.t) (e.typ.toNat - 4) e.d }
    else if yw.1 < week.1 ∨ (yw.1 = week.1 ∧ yw.2 < week.2) then .cont { s with prev := yw }
    else .brk { s with nxt := yw }

/-- The loop of the method `weeks` of log.go: the grid `d` before it is
formatted, and the two anchors. -/
def logger.weeksGrid (env : GoEnv) (disk : Disk) (l : logger) (activity : String)
    (week : Int × Int) : Except Panic (WeekAcc × logger) :=
  let l := l.reset
  forCursor (logger.next env disk) (weeksBody env.tz activity week) (l.bound disk) l
    ⟨List.replicate 7 (0, 0), (0, 0), (0, 0)⟩

/-- The method `weeks` of log.go: `toRows(d), nxt, prev`. -/
def logger.weeks (env : GoEnv) (disk : Disk) (l : logger) (activity : String)
    (week : Int × Int) : Except Panic ((List (List String) × (Int × Int) × (Int × Int)) × logger) :=
  match l.weeksGrid env disk activity week with
  | .error p => .error p
  | .ok (s, l) => .ok ((toRows s.d, s.nxt, s.prev), l)

/-- The variables `d`, `nxt`, `prev` of `years`. -/
structure YearAcc where
  d : List (Int × Int)
  nxt : Int
  prev : Int
  deriving DecidableEq, Repr

/-- The body of the loop of `years`. -/
def yearsBody (tz : Int → Int) (activity : String) (year : Int) (s : YearAcc)
    (e : entry) : Flow YearAcc :=
  if e.typ ≠ .working ∧ e.typ ≠ .resting then .cont s
  else if e.a ≠ activity then .cont s
  else
    let thisYr := e.t.Year tz
    if thisYr = year then
      .cont { s with d := bump s.d (e.t.Month tz - 1) (e.typ.toNat - 4) e.d }
    else if thisYr < year then .cont { s with prev := thisYr }
    else .brk { s with nxt := thisYr }

/-- The loop of the method `years` of log.go. -/
def logger.yearsGrid (env : GoEnv) (disk : Disk) (l : logger) (activity : String)
    (year : Int) : Except Panic (YearAcc × logger) :=
  let l := l.reset
  forCursor (logger.next env disk) (yearsBody env.tz activity year) (l.bound disk) l
    ⟨List.replicate 12 (0, 0), 0, 0⟩

/-- The method `years` of log.go: `toRows(d), nxt, prev`. -/
def logger.years (env : GoEnv) (disk : Disk) (l : logger) (activity : String)
    (year : Int) : Except Panic ((List (List String) × Int × Int) × logger) :=
  match l.yearsGrid env disk activity year with
  | .error p => .error p
  | .ok (s, l) => .ok ((toRows s.d, s.nxt, s.prev), l)

/-! ## `log.go`: compaction -/

/-- The function `sameDay` of log.go. -/
def sameDay (tz : Int → Int) (a b : Time) : Bool :=
  if a.Day tz = b.Day tz ∧ a.Month tz = b.Month tz ∧ a.Year tz = b.Year tz then true
  else false

/-- The function `zero` of log.go. -/
def zero (buf : List entry) : List entry :=
  buf.map (fun v => { v with t := Time.zero, d := 0 })

/-- The assignment `m[k] = v` on a Go map kept as the list of its pairs. -/
def mapSet (m : List (String × Nat)) (k : String) (v : Nat) : List (String × Nat) :=
  match m with
  | [] => [(k, v)]
  | (k1, v1) :: rest => if k1 = k then (k, v) :: rest else (k1, v1) :: mapSet rest k v

/-- The lookup `v, ok := m[k]` on a Go map kept as the list of its pairs. -/
def mapGet (m : List (String × Nat)) (k : String) : Option Nat :=
  match m with
  | [] => none
  | (k1, v1) :: rest => if k1 = k then some v1 else mapGet rest k

/-- The first loop of `shrink`: `actIdx[v] = i * 2` for every activity. -/
def mkActIdx : List String → Nat → List (String × Nat) → List (String × Nat)
  | [], _, m => m
  | v :: vs, i, m => mkActIdx vs (i + 1) (mapSet m v (i * 2))

/-- The assignment of the fields `a` and `typ` of `buffer[i]`. -/
def setSlot (buffer : List entry) (i : Nat) (k : String) (typ : state) : List entry :=
  buffer.modify (fun v => { v with a := k, typ := typ }) i

/-- The second loop of `shrink`: the two slots of every activity of the map
are labelled. -/
def mkBuffer : List (String × Nat) → List entry → List entry
  | [], buffer => buffer
  | (k, v) :: rest, buffer =>
    mkBuffer rest (setSlot (setSlot buffer v k .working) (v + 1) k .resting)

/-- The end of the loop body of `shrink`:
`buffer[idx].t = e.t; buffer[idx].d += e.d`. -/
def accumulate (buffer : List entry) (idx : Nat) (e : entry) : List entry :=
  buffer.modify (fun v => { v with t := e.t, d := add64 v.d e.d }) idx

/-- The variables `this` and `buffer` of `shrink`, and the entries written to
the file so far. -/
structure ShrinkAcc where
  this : Time
  buffer : List entry
  out : List entry
  deriving DecidableEq, Repr

/-- The body of the main loop of `shrink`, for the pair `(e, err)` that `next`
returned. -/
def shrinkBody (tz : Int → Int) (actIdx : List (String × Nat)) (s : ShrinkAcc) (e : entry)
    (err : Option error) : Flow ShrinkAcc :=
  let flush := !sameDay tz s.this e.t
  let out := if flush then s.out ++ s.buffer.filter (fun v => v.d > 0) else s.out
  if flush ∧ err ≠ none then .brk { s with out := out }
  else
    let buffer := if flush then zero s.buffer else s.buffer
    let this := if flush then e.t else s.this
    if e.typ ≠ .working ∧ e.typ ≠ .resting then .cont ⟨this, buffer, out⟩
    else
      match mapGet actIdx e.a with
      | none => .cont ⟨this, buffer, out⟩
      | some idx =>
        let idx := if e.typ = .resting then idx + 1 else idx
        .cont ⟨this, accumulate buffer idx e, out⟩

/-- The main loop of `shrink`, `for e, err := l.next(); ; e, err = l.next()`.
The first argument bounds the number of iterations; the result is `none` when
the loop has not ended within that bound. -/
def shrinkLoop (env : GoEnv) (disk : Disk) (actIdx : List (String × Nat)) :
    Nat → logger → ShrinkAcc → Option (Except Panic (List entry × logger))
  | 0, _, _ => none
  | fuel + 1, l, s =>
    match l.next env disk with
    | .error p => some (.error p)
    | .ok (e, err, l) =>
      match shrinkBody env.tz actIdx s e err with
      | .cont s => shrinkLoop env disk actIdx fuel l s
      | .brk s => some (.ok (s.out, l))

/-- The result of a call of `shrink` that returns. -/
structure Shrunk where
  /-- The entries whose text was written to the new file, in order. -/
  written : List entry
  disk : Disk
  log : logger
  deriving DecidableEq, Repr

/-- The method `shrink` of log.go.  The first argument bounds the number of
iterations of the main loop; the result is `none` when the loop has not ended
within that bound. -/
def logger.shrink (fuel : Nat) (env : GoEnv) (disk : Disk) (l : logger)
    (activities : List String) : Option (Except Panic Shrunk) :=
  let l := l.reset
  if !disk.writable then some (.ok ⟨[], disk, l⟩)
  else
    let disk : Disk := { disk with file := some [] }
    let actIdx := mkActIdx activities 0 []
    let buffer := mkBuffer actIdx (List.replicate (activities.length * 2) entry.zero)
    match shrinkLoop env disk actIdx fuel l ⟨Time.zero, buffer, []⟩ with
    | none => none
    | some (.error p) => some (.error p)
    | some (.ok (out, l)) =>
      some (.ok ⟨out, { disk with file := some (out.map (entry.String env.tz)).flatten }, l⟩)

/-! ## Vocabulary of the statements -/

/-- The sequence `committed ++ session` that the cursor presents. -/
def logger.all (l : logger) : List entry := l.buffered ++ l.session

/-- What the cursor has still to yield going forward: the committed entries
from `bidx` on, then the session entries from `sidx` on. -/
def logger.fwd (l : logger) : List entry := l.buffered.drop l.bidx ++ l.session.drop l.sidx

/-- What the cursor has still to yield going backward. -/
def logger.bwd (l : logger) : List entry :=
  l.session.reverse.drop l.sidx ++ l.buffered.reverse.drop l.bidx

/-- The pairs `(entry, error)` returned by `n` successive calls of a cursor
method. -/
def calls (step : logger → Except Panic (entry × Option error × logger)) :
    Nat → logger → Except Panic (List (entry × Option error))
  | 0, _ => .ok []
  | n + 1, l =>
    match step l with
    | .error p => .error p
    | .ok (e, err, l) =>
      match calls step n l with
      | .error p => .error p
      | .ok rs => .ok ((e, err) :: rs)

/-- A loop body run over a list of entries: what `forCursor` computes when the
cursor yields exactly these entries and then an error. -/
def foldFlow {σ : Type} (body : σ → entry → Flow σ) : List entry → σ → σ
  | [], s => s
  | e :: es, s =>
    match body s e with
    | .cont s => foldFlow body es s
    | .brk s => s

/-- The last entry of a sequence whose activity is `name`. -/
def lastOf (seq : List entry) (name : String) : Option entry :=
  (seq.filter (fun e => e.a = name)).getLast?

/-- The activity `name` is alive after a sequence: it has an entry and its
last entry is not a `Deleted` entry. -/
def liveIn (seq : List entry) (name : String) : Prop :=
  ∃ e, lastOf seq name = some e ∧ e.typ ≠ .removing

/-- The trailing run of a sequence whose entries are all dated `today`, newest
first: what a reverse pass meets before the first entry of another day. -/
def todayRun (tz : Int → Int) (today : Int × Nat × Int) (seq : List entry) : List entry :=
  seq.reverse.takeWhile (fun e => e.t.Date tz = today)

/-- Exact sum of the durations of the entries of kind `kind` and activity
`name` in a list. -/
def kindSum (kind : state) (name : String) (es : List entry) : Int :=
  ((es.filter (fun e => e.typ = kind ∧ e.a = name)).map entry.d).sum

/-- The entries of a sequence dated `today`. -/
def datedToday (tz : Int → Int) (today : Int × Nat × Int) (seq : List entry) : List entry :=
  seq.filter (fun e => e.t.Date tz = today)

/-- A Work or Break entry of the activity `name`. -/
def isWorkBreakOf (name : String) (e : entry) : Bool :=
  (e.typ = .working ∨ e.typ = .resting) ∧ e.a = name

/-- The ISO week of `e` is strictly after `week` in (year, week) order. -/
def weekAfter (tz : Int → Int) (week : Int × Int) (e : entry) : Bool :=
  week.1 < (e.t.ISOWeek tz).1 ∨ (week.1 = (e.t.ISOWeek tz).1 ∧ week.2 < (e.t.ISOWeek tz).2)

/-- The entries of a sequence that come before the first Work/Break entry of
`name` dated in a week after `week`. -/
def untilLaterWeek (tz : Int → Int) (name : String) (week : Int × Int) (seq : List entry) :
    List entry :=
  seq.takeWhile (fun e => !(isWorkBreakOf name e && weekAfter tz week e))

/-- Exact sum of the durations of the Work and Break entries of `name` dated in
the ISO week `week`. -/
def weekSum (tz : Int → Int) (name : String) (week : Int × Int) (es : List entry) : Int :=
  ((es.filter (fun e => isWorkBreakOf name e ∧ e.t.ISOWeek tz = week)).map entry.d).sum

/-- Exact sum of all the cells of a grid. -/
def gridTotal (d : List (Int × Int)) : Int := (d.map (fun c => c.1 + c.2)).sum

/-- The calendar day of an instant (in its own location). -/
def dayOf (tz : Int → Int) (t : Time) : Int × Nat × Int := t.Date tz

/-- One iteration of the main loop of `shrink` on an entry that `next`
returned without error. -/
def shrinkStep (tz : Int → Int) (actIdx : List (String × Nat)) (s : ShrinkAcc) (e : entry) :
    ShrinkAcc :=
  let flush := !sameDay tz s.this e.t
  let out := if flush then s.out ++ s.buffer.filter (fun v => v.d > 0) else s.out
  let buffer := if flush then zero s.buffer else s.buffer
  let this := if flush then e.t else s.this
  if e.typ ≠ .working ∧ e.typ ≠ .resting then ⟨this, buffer, out⟩
  else
    match mapGet actIdx e.a with
    | none => ⟨this, buffer, out⟩
    | some idx => ⟨this, accumulate buffer (if e.typ = .resting then idx + 1 else idx) e, out⟩

/-- What `shrink` has written when the loop ends in state `s`. -/
def shrinkEnd (s : ShrinkAcc) : List entry := s.out ++ s.buffer.filter (fun v => v.d > 0)

/-- The index map that `shrink` builds for a list of activities. -/
def actIdxOf (A : List String) : List (String × Nat) := mkActIdx A 0 []

/-- The buffer of `shrink` when the main loop starts. -/
def buffer0 (A : List String) : List entry :=
  mkBuffer (actIdxOf A) (List.replicate (A.length * 2) entry.zero)

/-- The state of the main loop of `shrink` after the entries of `seq`. -/
def compacted (tz : Int → Int) (A : List String) (seq : List entry) : ShrinkAcc :=
  seq.foldl (shrinkStep tz (actIdxOf A)) ⟨Time.zero, buffer0 A, []⟩

/-- First half of an iteration of `shrink`: a change of day writes and clears
the buffer. -/
def flushPhase (tz : Int → Int) (s : ShrinkAcc) (e : entry) : ShrinkAcc :=
  if sameDay tz s.this e.t then s
  else ⟨e.t, zero s.buffer, s.out ++ s.buffer.filter (fun v => v.d > 0)⟩

/-- Second half of an iteration of `shrink`: a Work or Break entry of a listed
activity is added to its slot. -/
def accPhase (m : List (String × Nat)) (s : ShrinkAcc) (e : entry) : ShrinkAcc :=
  if e.typ ≠ .working ∧ e.typ ≠ .resting then s
  else
    match mapGet m e.a with
    | none => s
    | some idx =>
      { s with buffer := accumulate s.buffer (if e.typ = .resting then idx + 1 else idx) e }

/-- Every name of the index map has its Work slot at its index and its Break
slot right after. -/
def Labelled (m : List (String × Nat)) (buf : List entry) : Prop :=
  ∀ a idx, mapGet m a = some idx → ∃ v w, buf[idx]? = some v ∧ v.a = a ∧ v.typ = .working ∧
    buf[idx + 1]? = some w ∧ w.a = a ∧ w.typ = .resting

/-- The entry `v` at position `i` of the buffer sits in the slot that the index
map gives to its activity and kind. -/
def Canon (m : List (String × Nat)) (i : Nat) (v : entry) : Prop :=
  (v.typ = .working ∧ mapGet m v.a = some i) ∨
  (v.typ = .resting ∧ ∃ j, mapGet m v.a = some j ∧ i = j + 1)

/-- Exact sum of the durations of the entries of activity `a` and kind `k`
dated on the calendar day `dy`. -/
def bucketSum (tz : Int → Int) (a : String) (k : state) (dy : Int × Nat × Int)
    (es : List entry) : Int :=
  ((es.filter (fun e => e.a = a ∧ e.typ = k ∧ dayOf tz e.t = dy)).map entry.d).sum

/-- Exact sum of the durations of the entries of activity `a` and kind `k`. -/
def labelSum (a : String) (k : state) (es : List entry) : Int :=
  ((es.filter (fun e => e.a = a ∧ e.typ = k)).map entry.d).sum

/-- What holds of the state of the main loop of `shrink` after the entries
`p`, whatever their times and durations. -/
def SInv (tz : Int → Int) (A : List String) (p : List entry) (s : ShrinkAcc) : Prop :=
  Labelled (actIdxOf A) s.buffer ∧
  (∀ v ∈ s.buffer, v.d ≠ 0 →
    dayOf tz v.t = dayOf tz s.this ∧ ∃ e ∈ p, dayOf tz e.t = dayOf tz v.t) ∧
  (∀ (i : Nat) (v : entry), s.buffer[i]? = some v → v.d ≠ 0 → Canon (actIdxOf A) i v) ∧
  (∀ v ∈ s.out, (v.typ = .working ∨ v.typ = .resting) ∧ v.a ∈ A ∧ 0 < v.d ∧
    ∃ e ∈ p, dayOf tz e.t = dayOf tz v.t) ∧
  (∀ e, p.getLast? = some e → dayOf tz s.this = dayOf tz e.t)

/-- The calendar days of the entries of a sequence, in order. -/
def daysOf (tz : Int → Int) (seq : List entry) : List (Int × Nat × Int) :=
  seq.map (fun e => dayOf tz e.t)

/-- The entries of every calendar day are consecutive in the sequence: an
entry whose day occurred before it directly follows an entry of that day. -/
def DaysContiguous (tz : Int → Int) (seq : List entry) : Prop :=
  ∀ i, i < seq.length → ∀ k, k < i → (daysOf tz seq)[k]? = (daysOf tz seq)[i]? →
    (daysOf tz seq)[i - 1]? = (daysOf tz seq)[i]?

instance decContig (tz : Int → Int) (seq : List entry) : Decidable (DaysContiguous tz seq) := by
  unfold DaysContiguous
  exact Nat.decidableBallLT _ (fun i _ => ∀ k, k < i →
    (daysOf tz seq)[k]? = (daysOf tz seq)[i]? → (daysOf tz seq)[i - 1]? = (daysOf tz seq)[i]?)

/-- The entries of activity `a` and kind `k` dated on day `dy`. -/
def bucket (tz : Int → Int) (a : String) (k : state) (dy : Int × Nat × Int)
    (es : List entry) : List entry :=
  es.filter (fun e => e.a = a ∧ e.typ = k ∧ dayOf tz e.t = dy)

/-- What contiguous days add to `SInv`: nothing written is dated on the day
of the current run, and no bucket was written twice. -/
def UInv (tz : Int → Int) (s : ShrinkAcc) : Prop :=
  (∀ v ∈ s.out, dayOf tz v.t ≠ dayOf tz s.this) ∧
  ∀ a k dy, (bucket tz a k dy s.out).length ≤ 1

/-- What whole, non-negative durations whose daily totals fit in a
`time.Duration` add to `SInv`: the buffer and the output hold whole,
non-negative durations, and for every listed activity, kind and day the
durations written plus the duration held in the buffer are the durations
read. -/
def QInv (tz : Int → Int) (A : List String) (p : List entry) (s : ShrinkAcc) : Prop :=
  (∀ v ∈ s.buffer, 0 ≤ v.d ∧ v.d % Second = 0) ∧
  (∀ v ∈ s.out, 0 ≤ v.d ∧ v.d % Second = 0) ∧
  ∀ a k dy, a ∈ A → (k = .working ∨ k = .resting) →
    bucketSum tz a k dy s.out + (if dy = dayOf tz s.this then labelSum a k s.buffer else 0) =
      bucketSum tz a k dy p

/-- A cursor method that yields the entries of `rem l` one by one and then
keeps reporting an error, on the loggers that satisfy `P`. -/
def Yields (step : logger → Except Panic (entry × Option error × logger))
    (rem : logger → List entry) (P : logger → Prop) : Prop :=
  (∀ l, P l → rem l = [] → step l = .ok (entry.zero, some .EOF, l)) ∧
  (∀ l e es, P l → rem l = e :: es → ∃ l1, step l = .ok (e, none, l1) ∧ rem l1 = es ∧ P l1)

/-- The loggers whose committed entries are read and are `B`, with session `S`. -/
def Loaded (B S : List entry) (l : logger) : Prop :=
  l.bread = true ∧ l.buffered = B ∧ l.session = S

/-- The slot of the buffer of `shrink` that the index map gives to the
activity and kind of an entry. -/
def slotOf (m : List (String × Nat)) (v : entry) : Nat :=
  (mapGet m v.a).getD 0 + (if v.typ = .resting then 1 else 0)

/-- Consecutive entries of the same calendar day are in the order of their
slots: the shape of a log written by `shrink` when no two flushes of the same
day follow each other. -/
def SlotOrdered (tz : Int → Int) (m : List (String × Nat)) (seq : List entry) : Prop :=
  List.Chain' (fun v w => dayOf tz v.t = dayOf tz w.t → slotOf m v < slotOf m w) seq

/-- The entries that `shrink` can write for the activities `A`: Work or Break
of a listed activity with a positive duration. -/
def Writable (A : List String) (seq : List entry) : Prop :=
  ∀ v ∈ seq, (v.typ = .working ∨ v.typ = .resting) ∧ v.a ∈ A ∧ 0 < v.d ∧ v.d ≤ maxDuration

/-- The time that `time.Parse` gives back for the text of `t`: the same
instant without nanoseconds, in UTC for `Z`, in the local zone when the offset
is the one in effect there, in a fixed zone otherwise. -/
def reread (tz : Int → Int) (t : Time) : Time :=
  if t.offset tz = 0 then ⟨t.sec, 0, .utc⟩
  else ⟨t.sec, 0, if tz t.sec = t.offset tz then .localZone else .fixed (t.offset tz)⟩

/-- A Work or Break entry as `load` reads it back from its text. -/
def entry.reread (tz : Int → Int) (e : entry) : entry := { e with t := Clockon.reread tz e.t }

/-- The side conditions of the text of a time: a year of four digits and a
zone offset of whole minutes, less than a day. -/
def TimeOK (tz : Int → Int) (t : Time) : Prop :=
  (0 ≤ t.Year tz ∧ t.Year tz ≤ 9999) ∧ -86400 < t.offset tz ∧ t.offset tz < 86400 ∧
    t.offset tz % 60 = 0

/-- The side conditions of an activity line: no newline, no final carriage
return, and a length that the scanner accepts. -/
def NameOK (a : String) : Prop :=
  (∀ c ∈ a.data, c ≠ '\n') ∧ a.data.getLast? ≠ some '\r' ∧ byteLen a.data < MaxScanTokenSize

/-- The text of a log: the texts of its entries one after the other. -/
def logText (tz : Int → Int) (seq : List entry) : List Char :=
  (seq.map (entry.String tz)).flatten

/-- What holds of the state of the main loop of `shrink` after the entries `p`
of a log that `shrink` wrote: nothing was merged or dropped, and the slots in
use are not after the slot of the last entry. -/
def RInv (m : List (String × Nat)) (p : List entry) (s : ShrinkAcc) : Prop :=
  shrinkEnd s = p ∧
  (∀ v ∈ s.buffer, 0 ≤ v.d) ∧
  (∀ (i : Nat) (v : entry), s.buffer[i]? = some v → v.d ≠ 0 →
    ∃ x, p.getLast? = some x ∧ i ≤ slotOf m x)

/-- A property of times and the range of `time.Duration` hold of the buffer
and of the output of `shrink`. -/
def KInv (P : Time → Prop) (s : ShrinkAcc) : Prop :=
  (∀ v ∈ s.buffer, v.d ≤ maxDuration ∧ P v.t) ∧ (∀ v ∈ s.out, v.d ≤ maxDuration ∧ P v.t)

/-- The order of ISO weeks: `a` is strictly before `b` in (year, week) order. -/
def weekLt (a b : Int × Int) : Prop := a.1 < b.1 ∨ (a.1 = b.1 ∧ a.2 < b.2)

instance decWeekLt (a b : Int × Int) : Decidable (weekLt a b) := by
  unfold weekLt
  exact inferInstance

/-- The ISO weeks of the Work and Break entries of `name`, in the order of the
sequence. -/
def weeksOf (tz : Int → Int) (name : String) (seq : List entry) : List (Int × Int) :=
  (seq.filter (isWorkBreakOf name)).map (fun e => e.t.ISOWeek tz)

/-- The weeks of a list are in non-decreasing (year, week) order. -/
def WeeksAscending (ws : List (Int × Int)) : Prop :=
  ws.Pairwise (fun a b => ¬ weekLt b a)

instance decAscending (ws : List (Int × Int)) : Decidable (WeeksAscending ws) := by
  unfold WeeksAscending
  exact inferInstance

/-- The anchor `p` is the greatest week of `ws` strictly before `week`, or
`(0, 0)` when `ws` has no week before `week`. -/
def GreatestBefore (week : Int × Int) (ws : List (Int × Int)) (p : Int × Int) : Prop :=
  ((∃ w ∈ ws, weekLt w week) → p ∈ ws ∧ weekLt p week ∧ ∀ w ∈ ws, weekLt w week → ¬ weekLt p w) ∧
  ((¬ ∃ w ∈ ws, weekLt w week) → p = (0, 0))

/-- The anchor `n` is the least week of `ws` strictly after `week`, or `(0, 0)`
when `ws` has no week after `week`. -/
def LeastAfter (week : Int × Int) (ws : List (Int × Int)) (n : Int × Int) : Prop :=
  ((∃ w ∈ ws, weekLt week w) → n ∈ ws ∧ weekLt week n ∧ ∀ w ∈ ws, weekLt week w → ¬ weekLt w n) ∧
  ((¬ ∃ w ∈ ws, weekLt week w) → n = (0, 0))

/-- A non-negative duration rounded to the nearest whole minute, halves up,
in minutes. -/
def nearestMinute (d : Int) : Nat := ((d + 30000000000) / 60000000000).toNat

/-- The activity `name` is alive after a sequence, as a test: its last entry
exists and is not a `Deleted` entry. -/
def alive (seq : List entry) (name : String) : Bool :=
  match lastOf seq name with
  | some e => decide (e.typ ≠ .removing)
  | none => false

/-- A Work or Break entry of an activity of the list `A`. -/
def isWorkBreakIn (A : List String) (e : entry) : Bool :=
  (e.typ = .working ∨ e.typ = .resting) ∧ e.a ∈ A

/-- The ISO weeks of the Work and Break entries of the activities that are
alive after the sequence, latest entry first. -/
def activeWeeks (tz : Int → Int) (seq : List entry) : List (Int × Int) :=
  (seq.reverse.filter (fun e => decide ((e.typ = .working ∨ e.typ = .resting) ∧
    alive seq e.a = true))).map (fun e => e.t.ISOWeek tz)

/-- The test of `refresh` for a week `w` before the anchor `t`:
`wk < thisWk[1] || yr < thisWk[0]`. -/
def beforeAnchor (t w : Int × Int) : Bool := decide (w.2 < t.2 ∨ w.1 < t.1)

/-- What a loop leaves unread of the entries that the cursor would yield: the
entries after the one at which the body breaks, nothing when it never breaks. -/
def restFlow {σ : Type} (body : σ → entry → Flow σ) : List entry → σ → List entry
  | [], _ => []
  | e :: es, s =>
    match body s e with
    | .cont s => restFlow body es s
    | .brk _ => es

/-- The calendar years of the Work and Break entries of `name`, in the order of
the sequence. -/
def yearsOf (tz : Int → Int) (name : String) (seq : List entry) : List Int :=
  (seq.filter (isWorkBreakOf name)).map (fun e => e.t.Year tz)

/-- Exact sum of the durations of the entries of kind `kind` and activity
`name` dated in the month `m` (1 to 12) of the year `year`. -/
def monthSum (tz : Int → Int) (kind : state) (name : String) (year : Int) (m : Nat)
    (es : List entry) : Int :=
  ((es.filter (fun e => e.typ = kind ∧ e.a = name ∧ e.t.Year tz = year ∧
    e.t.Month tz = m)).map entry.d).sum

/-- The anchor `p` is the greatest year of `ys` below `year`, or 0 when `ys` has
no year below `year`. -/
def GreatestBelow (year : Int) (ys : List Int) (p : Int) : Prop :=
  ((∃ y ∈ ys, y < year) → p ∈ ys ∧ p < year ∧ ∀ y ∈ ys, y < year → y ≤ p) ∧
  ((¬ ∃ y ∈ ys, y < year) → p = 0)

/-- The anchor `n` is the least year of `ys` above `year`, or 0 when `ys` has no
year above `year`. -/
def LeastAbove (year : Int) (ys : List Int) (n : Int) : Prop :=
  ((∃ y ∈ ys, year < y) → n ∈ ys ∧ year < n ∧ ∀ y ∈ ys, year < y → n ≤ y) ∧
  ((¬ ∃ y ∈ ys, year < y) → n = 0)

/-- One call of a cursor method (`forward` for `next`, otherwise `prev`) with
the logger before it, the pair `(entry, error)` that it returns and the logger
after it. -/
structure CursorCall where
  forward : Bool
  before : logger
  e : entry
  err : Option error
  after : logger

/-- Successive calls of `next` and `prev` in the given directions (`true` for
`next`), without any reset of the indices between them. -/
def mixedCalls (env : GoEnv) (disk : Disk) : List Bool → logger →
    Except Panic (List CursorCall)
  | [], _ => .ok []
  | d :: ds, l =>
    match (if d then l.next env disk else l.prev env disk) with
    | .error p => .error p
    | .ok (e, err, l1) =>
      match mixedCalls env disk ds l1 with
      | .error p => .error p
      | .ok rest => .ok (⟨d, l, e, err, l1⟩ :: rest)

/-- A cursor call over the committed entries `B` and the session entries `S`
keeps the indices within the slices.  After the call the committed entries are
still read and the slices are unchanged, `bidx ≤ len(B)` and `sidx ≤ len(S)`.
A call that succeeds advances exactly one index by one and returns the element
of that slice at the index that the method computes from the new value
(`i - 1` for `next`, `len - i` for `prev`), which lies within the slice.  A
call that fails returns `entry{}` and `io.EOF` and leaves the logger as it
was. -/
def CallInBounds (B S : List entry) (c : CursorCall) : Prop :=
  c.after.bread = true ∧ c.after.buffered = B ∧ c.after.session = S ∧
  c.after.bidx ≤ B.length ∧ c.after.sidx ≤ S.length ∧
  (c.err = none →
    (c.after.bidx = c.before.bidx + 1 ∧ c.after.sidx = c.before.sidx ∧
      (if c.forward = true then c.after.bidx - 1 else B.length - c.after.bidx) < B.length ∧
      B[if c.forward = true then c.after.bidx - 1 else B.length - c.after.bidx]? = some c.e) ∨
    (c.after.sidx = c.before.sidx + 1 ∧ c.after.bidx = c.before.bidx ∧
      (if c.forward = true then c.after.sidx - 1 else S.length - c.after.sidx) < S.length ∧
      S[if c.forward = true then c.after.sidx - 1 else S.length - c.after.sidx]? = some c.e)) ∧
  (c.err ≠ none → c.err = some .EOF ∧ c.e = entry.zero ∧ c.after = c.before)

/-- Two decimal digits. -/
def two (n : Nat) : List Char := [digitChar (n / 10), digitChar (n % 10)]

/-- Four decimal digits. -/
def four (n : Nat) : List Char :=
  [digitChar (n / 1000), digitChar (n / 100 % 10), digitChar (n / 10 % 10), digitChar (n % 10)]

/-- The zone of an RFC 3339 timestamp for an offset in seconds: `Z`, or sign,
hours and minutes. -/
def zoneText (offset : Int) : List Char :=
  if offset = 0 then ['Z']
  else
    (if Int.tdiv offset 60 < 0 then '-' else '+') ::
      (two ((Int.tdiv offset 60).natAbs / 60) ++ ':' :: two ((Int.tdiv offset 60).natAbs % 60))

/-! ## Concrete inputs -/

/-- Monday 2024-01-29, 09:00:00 UTC (ISO week 5). -/
def mon29 : Time := ⟨63842115600, 0, .utc⟩

/-- A machine in UTC whose library hooks do nothing. -/
def envUTC : GoEnv := ⟨fun _ => 0, fun _ => none, fun _ _ _ => 0⟩

/-- No log file on a writable directory. -/
def noFile : Disk := ⟨none, true⟩

/-- Monday 2024-01-15, 09:00:00 UTC. -/
def mon15 : Time := ⟨63840906000, 0, .utc⟩

/-- Sunday 2024-01-14, 09:00:00 UTC. -/
def sun14 : Time := ⟨63840819600, 0, .utc⟩

/-- An entry with a duration in minutes. -/
def mkEntry (a : String) (typ : state) (t : Time) (minutes : Int) : entry :=
  ⟨a, typ, t, minutes * 60000000000⟩

/-- A logger whose committed entries are read. -/
def loaded (committed session : List entry) : logger := ⟨0, 0, true, session, committed⟩

/-- Work of 5·10⁹ seconds: two of them exceed the largest `time.Duration`. -/
def longWork : entry := ⟨"A", .working, mon15, 5000000000000000000⟩

/-- A day of Sunday work followed by Monday work and a Monday break. -/
def twoDays : List entry :=
  [mkEntry "A" .working sun14 5, mkEntry "A" .working mon15 10, mkEntry "A" .resting mon15 5,
    mkEntry "A" .working mon15 20]

/-- What `shrink` writes for `twoDays`. -/
def twoDaysShrunk : List entry :=
  [mkEntry "A" .working sun14 5, mkEntry "A" .working mon15 30, mkEntry "A" .resting mon15 5]

/-- The result of `shrink` on the loaded log `twoDays`. -/
def twoDaysResult : Shrunk :=
  ⟨twoDaysShrunk, ⟨some (twoDaysShrunk.map (entry.String envUTC.tz)).flatten, true⟩,
    ⟨0, 4, true, [], twoDays⟩⟩

/-- A log as `loadAll` returns it: work on Monday, the creation of another
activity (a `c` line, read back with the zero time), more work on Monday. -/
def splitDay : List entry :=
  [mkEntry "A" .working mon15 10, ⟨"B", .selecting, Time.zero, 0⟩, mkEntry "A" .working mon15 20]

/-- What `shrink` writes for `splitDay`. -/
def splitDayWritten : List entry :=
  [mkEntry "A" .working mon15 10, mkEntry "A" .working mon15 20]

/-- The file that `shrink` writes for `splitDay`. -/
def splitDayText : List Char :=
  "A\nw 2024-01-15T09:00:00Z 10m0s\nA\nw 2024-01-15T09:00:00Z 20m0s\n".data

/-- Monday 2024-01-01, 09:00:00 UTC (ISO week 1). -/
def mon01 : Time := ⟨63839696400, 0, .utc⟩

/-- Work of "A" in the ISO weeks 1, 3 and 5 of 2024. -/
def threeWeeks : List entry :=
  [mkEntry "A" .working mon01 10, mkEntry "A" .working mon15 20, mkEntry "A" .working mon29 30]

/-- Monday 2025-01-06, 09:00:00 UTC (ISO week 2 of 2025). -/
def mon06y25 : Time := ⟨63871750800, 0, .utc⟩

/-- Work of "A" in the weeks 1 and 3 of 2024, then in week 2 of 2025. -/
def twoYears : List entry :=
  [mkEntry "A" .working mon01 10, mkEntry "A" .working mon15 20,
    mkEntry "A" .working mon06y25 10]

/-- Monday 2023-06-05, 09:00:00 UTC. -/
def jun05y23 : Time := ⟨63821552400, 0, .utc⟩

/-- Work of "A" in June 2023, work and a break in January 2024, work in
January 2025. -/
def threeYears : List entry :=
  [mkEntry "A" .working jun05y23 15, mkEntry "A" .working mon01 10,
    mkEntry "A" .resting mon15 5, mkEntry "A" .working mon29 20,
    mkEntry "A" .working mon06y25 10]

/-- A session in which "A" is created and worked on for ten minutes, and "B"
is created and not worked on. -/
def idleCreated : List entry :=
  [mkEntry "A" .selecting mon15 0, mkEntry "A" .working mon15 10, mkEntry "B" .selecting mon15 0]

/-- The result of `shrink` on the session `idleCreated` for the activities
"A" and "B". -/
def idleCreatedResult : Shrunk :=
  ⟨[mkEntry "A" .working mon15 10], ⟨some "A\nw 2024-01-15T09:00:00Z 10m0s\n".data, true⟩,
    ⟨3, 0, true, idleCreated, []⟩⟩

/-- A session of one Monday: ten minutes of work on "A", then "B" is created
and worked on for twenty minutes. -/
def mondaySession : List entry :=
  [mkEntry "A" .working mon15 10, mkEntry "B" .selecting mon15 0, mkEntry "B" .working mon15 20]

/-- The entries of `mondaySession` as `loadAll` returns them from the file that
`flush` wrote: the Created entry has the zero time. -/
def mondayReloaded : List entry :=
  [mkEntry "A" .working mon15 10, ⟨"B", .selecting, Time.zero, 0⟩, mkEntry "B" .working mon15 20]

/-- A session of one Monday: ten minutes of work on "A", the creation of "B",
twenty more minutes of work on "A".  The log `splitDay` is this session as
`loadAll` returns it from the file that `flush` wrote. -/
def splitDaySession : List entry :=
  [mkEntry "A" .working mon15 10, mkEntry "B" .selecting mon15 0, mkEntry "A" .working mon15 20]

/-! # Properties -/

/-! ## The cursor -/

theorem fill_loaded (env : GoEnv) (disk : Disk) (l : logger) (hl : l.bread = true) :
    l.fill env disk = .ok (none, l) := by
  simp [logger.fill, hl]

theorem drop_eq_getD_cons {α : Type} (xs : List α) (i : Nat) (d : α) (h : i < xs.length) :
    xs.drop i = xs.getD i d :: xs.drop (i + 1) := by
  rw [List.getD_eq_getElem xs d h]
  exact List.drop_eq_getElem_cons h

theorem next_loaded_nil (env : GoEnv) (disk : Disk) (l : logger) (hl : l.bread = true)
    (h : l.fwd = []) : l.next env disk = .ok (entry.zero, some .EOF, l) := by
  simp only [logger.fwd, List.append_eq_nil, List.drop_eq_nil_iff] at h
  have h1 : ¬ l.bidx < l.buffered.length := by omega
  have h2 : ¬ l.sidx < l.session.length := by omega
  simp [logger.next, fill_loaded env disk l hl, h1, h2]

theorem next_loaded_cons (env : GoEnv) (disk : Disk) (l : logger) (hl : l.bread = true)
    (e : entry) (es : List entry) (h : l.fwd = e :: es) :
    ∃ l1, l.next env disk = .ok (e, none, l1) ∧ l1.fwd = es ∧ l1.bread = true ∧
      l1.buffered = l.buffered ∧ l1.session = l.session := by
  by_cases h1 : l.bidx < l.buffered.length
  · have h2 := drop_eq_getD_cons l.buffered l.bidx entry.zero h1
    simp only [logger.fwd, h2, List.cons_append, List.cons.injEq] at h
    obtain ⟨he, hes⟩ := h
    subst he
    refine ⟨{ l with bidx := l.bidx + 1 }, ?_, ?_, hl, rfl, rfl⟩
    · simp [logger.next, fill_loaded env disk l hl, h1]
    · simpa [logger.fwd] using hes
  · have h0 : l.buffered.drop l.bidx = [] := List.drop_eq_nil_iff.mpr (by omega)
    by_cases h3 : l.sidx < l.session.length
    · have h2 := drop_eq_getD_cons l.session l.sidx entry.zero h3
      simp only [logger.fwd, h0, h2, List.nil_append, List.cons.injEq] at h
      obtain ⟨he, hes⟩ := h
      subst he
      refine ⟨{ l with sidx := l.sidx + 1 }, ?_, ?_, hl, rfl, rfl⟩
      · simp [logger.next, fill_loaded env disk l hl, h1, h3]
      · simpa [logger.fwd, h0] using hes
    · have h4 : l.session.drop l.sidx = [] := List.drop_eq_nil_iff.mpr (by omega)
      simp [logger.fwd, h0, h4] at h

theorem prev_loaded_nil (env : GoEnv) (disk : Disk) (l : logger) (hl : l.bread = true)
    (h : l.bwd = []) : l.prev env disk = .ok (entry.zero, some .EOF, l) := by
  simp only [logger.bwd, List.append_eq_nil, List.drop_eq_nil_iff, List.length_reverse] at h
  have h1 : ¬ l.bidx < l.buffered.length := by omega
  have h2 : ¬ l.sidx < l.session.length := by omega
  simp [logger.prev, fill_loaded env disk l hl, h1, h2]

theorem reverse_getD {α : Type} (xs : List α) (i : Nat) (d : α) (h : i < xs.length) :
    xs.reverse.getD i d = xs.getD (xs.length - (i + 1)) d := by
  rw [List.getD_eq_getElem _ d (by simpa using h), List.getD_eq_getElem _ d (by omega)]
  rw [List.getElem_reverse]
  congr 1
  omega

theorem prev_loaded_cons (env : GoEnv) (disk : Disk) (l : logger) (hl : l.bread = true)
    (e : entry) (es : List entry) (h : l.bwd = e :: es) :
    ∃ l1, l.prev env disk = .ok (e, none, l1) ∧ l1.bwd = es ∧ l1.bread = true ∧
      l1.buffered = l.buffered ∧ l1.session = l.session := by
  by_cases h3 : l.sidx < l.session.length
  · have h2 := drop_eq_getD_cons l.session.reverse l.sidx entry.zero (by simpa using h3)
    rw [reverse_getD _ _ _ h3] at h2
    simp only [logger.bwd, h2, List.cons_append, List.cons.injEq] at h
    obtain ⟨he, hes⟩ := h
    subst he
    refine ⟨{ l with sidx := l.sidx + 1 }, ?_, ?_, hl, rfl, rfl⟩
    · simp [logger.prev, fill_loaded env disk l hl, h3]
    · simpa [logger.bwd] using hes
  · have h0 : l.session.reverse.drop l.sidx = [] :=
      List.drop_eq_nil_iff.mpr (by simp; omega)
    by_cases h1 : l.bidx < l.buffered.length
    · have h2 := drop_eq_getD_cons l.buffered.reverse l.bidx entry.zero (by simpa using h1)
      rw [reverse_getD _ _ _ h1] at h2
      simp only [logger.bwd, h0, h2, List.nil_append, List.cons.injEq] at h
      obtain ⟨he, hes⟩ := h
      subst he
      refine ⟨{ l with bidx := l.bidx + 1 }, ?_, ?_, hl, rfl, rfl⟩
      · simp [logger.prev, fill_loaded env disk l hl, h1, h3]
      · simpa [logger.bwd, h0] using hes
    · have h4 : l.buffered.reverse.drop l.bidx = [] :=
        List.drop_eq_nil_iff.mpr (by simp; omega)
      simp [logger.bwd, h0, h4] at h

theorem next_yields (env : GoEnv) (disk : Disk) (B S : List entry) :
    Yields (logger.next env disk) logger.fwd (Loaded B S) := by
  refine ⟨fun l hl h => next_loaded_nil env disk l hl.1 h, fun l e es hl h => ?_⟩
  obtain ⟨l1, h1, h2, h3, h4, h5⟩ := next_loaded_cons env disk l hl.1 e es h
  exact ⟨l1, h1, h2, h3, h4.trans hl.2.1, h5.trans hl.2.2⟩

theorem prev_yields (env : GoEnv) (disk : Disk) (B S : List entry) :
    Yields (logger.prev env disk) logger.bwd (Loaded B S) := by
  refine ⟨fun l hl h => prev_loaded_nil env disk l hl.1 h, fun l e es hl h => ?_⟩
  obtain ⟨l1, h1, h2, h3, h4, h5⟩ := prev_loaded_cons env disk l hl.1 e es h
  exact ⟨l1, h1, h2, h3, h4.trans hl.2.1, h5.trans hl.2.2⟩

theorem forCursor_yields {σ : Type} {step : logger → Except Panic (entry × Option error × logger)}
    {rem : logger → List entry} {P : logger → Prop} (hy : Yields step rem P)
    (body : σ → entry → Flow σ) :
    ∀ (fuel : Nat) (l : logger) (s : σ), P l → (rem l).length < fuel →
      ∃ l1, forCursor step body fuel l s = .ok (foldFlow body (rem l) s, l1) ∧ P l1 := by
  intro fuel
  induction fuel with
  | zero => intro l s _ h; omega
  | succ fuel ih =>
    intro l s hP hlen
    cases hrem : rem l with
    | nil =>
      refine ⟨l, ?_, hP⟩
      simp [forCursor, hy.1 l hP hrem, foldFlow]
    | cons e es =>
      obtain ⟨l1, h1, h2, h3⟩ := hy.2 l e es hP hrem
      cases hb : body s e with
      | cont s1 =>
        have hlen1 : (rem l1).length < fuel := by
          rw [h2]; rw [hrem] at hlen; simp at hlen; omega
        obtain ⟨l2, h4, h5⟩ := ih l1 s1 h3 hlen1
        refine ⟨l2, ?_, h5⟩
        simp [forCursor, h1, hb, foldFlow, h4, h2]
      | brk s1 =>
        refine ⟨l1, ?_, h3⟩
        simp [forCursor, h1, hb, foldFlow]

theorem calls_yields {step : logger → Except Panic (entry × Option error × logger)}
    {rem : logger → List entry} {P : logger → Prop} (hy : Yields step rem P) :
    ∀ (n : Nat) (l : logger), P l →
      calls step n l = .ok (((rem l).map (fun e => (e, (none : Option error))) ++
        List.replicate n (entry.zero, some error.EOF)).take n) := by
  intro n
  induction n with
  | zero => intro l _; simp [calls]
  | succ n ih =>
    intro l hP
    cases hrem : rem l with
    | nil =>
      have h1 := ih l hP
      rw [hrem] at h1
      simp only [List.map_nil, List.nil_append, List.take_replicate, min_self] at h1
      simp [calls, hy.1 l hP hrem, h1, List.replicate_succ]
    | cons e es =>
      obtain ⟨l1, h1, h2, h3⟩ := hy.2 l e es hP hrem
      have h4 := ih l1 h3
      rw [h2] at h4
      simp only [calls, h1, h4, List.map_cons, List.cons_append, List.take_succ_cons]
      congr 2
      rw [List.replicate_succ', ← List.append_assoc]
      exact (List.take_append_of_le_length (by simp)).symm

theorem reset_loaded (l : logger) (hl : l.bread = true) :
    Loaded l.buffered l.session l.reset := ⟨hl, rfl, rfl⟩

theorem reset_fwd (l : logger) : l.reset.fwd = l.all := by
  simp [logger.reset, logger.fwd, logger.all]

theorem reset_bwd (l : logger) : l.reset.bwd = l.all.reverse := by
  simp [logger.reset, logger.bwd, logger.all]

theorem bound_gt (disk : Disk) (l : logger) : l.all.length < l.reset.bound disk := by
  simp [logger.reset, logger.bound, logger.all]
  omega

/-- **C7** (forward cursor order).  With the committed entries loaded and
the indices reset, `n` successive calls of `next` return, in this order, the
entries of `committed ++ session` with a nil error and, from call
`K + M + 1` on, the error `io.EOF`. -/
theorem next_calls_in_order (env : GoEnv) (disk : Disk) (l : logger) (n : Nat)
    (hl : l.bread = true) :
    calls (logger.next env disk) n l.reset =
      .ok (((l.buffered ++ l.session).map (fun e => (e, (none : Option error))) ++
        List.replicate n (entry.zero, some error.EOF)).take n) := by
  have h := calls_yields (next_yields env disk l.buffered l.session) n l.reset
    (reset_loaded l hl)
  rw [reset_fwd] at h
  exact h

/-- **C8** (reverse cursor order).  With the committed entries loaded and
the indices reset, `n` successive calls of `prev` return, in this order, the
entries of the reverse of `committed ++ session` (session newest first, then
committed newest first) with a nil error and, from call `K + M + 1` on, the
error `io.EOF`. -/
theorem prev_calls_in_reverse_order (env : GoEnv) (disk : Disk) (l : logger) (n : Nat)
    (hl : l.bread = true) :
    calls (logger.prev env disk) n l.reset =
      .ok (((l.buffered ++ l.session).reverse.map (fun e => (e, (none : Option error))) ++
        List.replicate n (entry.zero, some error.EOF)).take n) := by
  have h := calls_yields (prev_yields env disk l.buffered l.session) n l.reset
    (reset_loaded l hl)
  rw [reset_bwd] at h
  exact h

/-- Witness of C7: two committed entries and one session entry, four calls. -/
theorem next_calls_in_order_witness :
    (loaded [mkEntry "A" .selecting mon15 0, mkEntry "A" .working mon15 30]
        [mkEntry "B" .selecting mon15 0]).bread = true ∧
    calls (logger.next envUTC noFile) 4
        (loaded [mkEntry "A" .selecting mon15 0, mkEntry "A" .working mon15 30]
          [mkEntry "B" .selecting mon15 0]).reset =
      .ok [(mkEntry "A" .selecting mon15 0, none), (mkEntry "A" .working mon15 30, none),
        (mkEntry "B" .selecting mon15 0, none), (entry.zero, some error.EOF)] :=
  ⟨rfl, next_calls_in_order envUTC noFile _ 4 rfl⟩

/-- Witness of C8: two committed entries and one session entry, four calls. -/
theorem prev_calls_in_reverse_order_witness :
    (loaded [mkEntry "A" .selecting mon15 0, mkEntry "A" .working mon15 30]
        [mkEntry "B" .selecting mon15 0]).bread = true ∧
    calls (logger.prev envUTC noFile) 4
        (loaded [mkEntry "A" .selecting mon15 0, mkEntry "A" .working mon15 30]
          [mkEntry "B" .selecting mon15 0]).reset =
      .ok [(mkEntry "B" .selecting mon15 0, none), (mkEntry "A" .working mon15 30, none),
        (mkEntry "A" .selecting mon15 0, none), (entry.zero, some error.EOF)] :=
  ⟨rfl, prev_calls_in_reverse_order envUTC noFile _ 4 rfl⟩

/-! ## `send` -/

theorem wrap64_id (x : Int) (h1 : -(2 ^ 63) ≤ x) (h2 : x < 2 ^ 63) : wrap64 x = x := by
  unfold wrap64
  norm_num at h1 h2 ⊢
  omega

theorem Add_nanos (t : Time) (d : Int) : (t.Add d).nanos = t.nanos + d := by
  have h := Int.tmod_add_tdiv d 1000000000
  unfold Time.Add Time.nanos
  simp only
  split_ifs <;> simp only <;> omega

theorem Add_loc (t : Time) (d : Int) : (t.Add d).loc = t.loc := by
  unfold Time.Add
  simp only
  split_ifs <;> rfl

/-- **C9** (normalization and append-only buffering).  For every logger and
every entry `e` with a duration `D ≥ 0` (a Go duration, so at most
`maxDuration`), after `send(e)` the session is the old session followed by
one entry with `e`'s activity and kind, the instant of `e` minus `D` (in the
same location) and duration `D`; the committed entries, both indices and the
loaded flag are unchanged. -/
theorem send_appends_normalized (l : logger) (e : entry) (hd : 0 ≤ e.d)
    (hmax : e.d ≤ maxDuration) :
    ∃ e1, (l.send e).session = l.session ++ [e1] ∧ e1.a = e.a ∧ e1.typ = e.typ ∧
      e1.t.nanos = e.t.nanos - e.d ∧ e1.t.loc = e.t.loc ∧ e1.d = e.d ∧
      (l.send e).buffered = l.buffered ∧ (l.send e).bidx = l.bidx ∧
      (l.send e).sidx = l.sidx ∧ (l.send e).bread = l.bread := by
  have hw : wrap64 (e.d * -1) = -e.d := by
    unfold maxDuration at hmax
    rw [wrap64_id] <;> norm_num at hmax ⊢ <;> omega
  by_cases h : e.d > 0
  · refine ⟨{ e with t := e.t.Add (wrap64 (e.d * -1)) }, ?_, rfl, rfl, ?_, ?_, rfl, rfl, rfl,
      rfl, rfl⟩
    · simp [logger.send, h]
    · simp only [hw, Add_nanos]; omega
    · simp only [Add_loc]
  · refine ⟨e, ?_, rfl, rfl, ?_, rfl, rfl, rfl, rfl, rfl, rfl⟩
    · simp [logger.send, h]
    · omega

/-- Witness of C9: thirty minutes of work that end on Monday at 09:00. -/
theorem send_appends_normalized_witness :
    (0 : Int) ≤ (mkEntry "A" .working mon15 30).d ∧
    (mkEntry "A" .working mon15 30).d ≤ maxDuration ∧
    ∃ e1, (newlogger.send (mkEntry "A" .working mon15 30)).session = newlogger.session ++ [e1] ∧
      e1.a = "A" ∧ e1.typ = .working ∧
      e1.t.nanos = mon15.nanos - (mkEntry "A" .working mon15 30).d ∧ e1.t.loc = mon15.loc ∧
      e1.d = (mkEntry "A" .working mon15 30).d ∧
      (newlogger.send (mkEntry "A" .working mon15 30)).buffered = newlogger.buffered ∧
      (newlogger.send (mkEntry "A" .working mon15 30)).bidx = newlogger.bidx ∧
      (newlogger.send (mkEntry "A" .working mon15 30)).sidx = newlogger.sidx ∧
      (newlogger.send (mkEntry "A" .working mon15 30)).bread = newlogger.bread :=
  ⟨by decide, by decide,
    send_appends_normalized newlogger (mkEntry "A" .working mon15 30) (by decide) (by decide)⟩

/-! ## `refresh`: the active set -/

theorem foldFlow_append_cont {σ : Type} (body : σ → entry → Flow σ)
    (hc : ∀ s e, ∃ s1, body s e = .cont s1) (xs ys : List entry) (s : σ) :
    foldFlow body (xs ++ ys) s = foldFlow body ys (foldFlow body xs s) := by
  induction xs generalizing s with
  | nil => rfl
  | cons e es ih =>
    obtain ⟨s1, h1⟩ := hc s e
    simp [foldFlow, h1, ih]

theorem refreshBody1_cont (s : List String) (e : entry) :
    ∃ s1, refreshBody1 s e = .cont s1 := by
  unfold refreshBody1
  split_ifs <;> exact ⟨_, rfl⟩

theorem lastOf_snoc (seq : List entry) (e : entry) (name : String) :
    lastOf (seq ++ [e]) name = if e.a = name then some e else lastOf seq name := by
  unfold lastOf
  by_cases h : e.a = name <;> simp [List.filter_append, List.filter_cons, h]

theorem scratch_spec (seq : List entry) :
    (foldFlow refreshBody1 seq []).Nodup ∧
      ∀ name, name ∈ foldFlow refreshBody1 seq [] ↔ liveIn seq name := by
  induction seq using List.reverseRecOn with
  | nil => simp [foldFlow, liveIn, lastOf]
  | append_singleton seq e ih =>
    obtain ⟨hnd, hmem⟩ := ih
    rw [foldFlow_append_cont _ refreshBody1_cont]
    simp only [foldFlow, refreshBody1]
    by_cases hr : e.typ = .removing
    · simp only [hr, if_true]
      refine ⟨hnd.erase _, fun name => ?_⟩
      rw [hnd.mem_erase_iff, hmem]
      unfold liveIn
      rw [lastOf_snoc]
      by_cases hn : e.a = name
      · subst hn
        simp [hr]
      · simp [hn, Ne.symm hn]
    · simp only [hr, if_false]
      by_cases hin : e.a ∈ foldFlow refreshBody1 seq []
      · simp only [hin, if_true]
        refine ⟨hnd, fun name => ?_⟩
        unfold liveIn
        rw [lastOf_snoc]
        by_cases hn : e.a = name
        · subst hn
          simp [hr, hin]
        · simp only [hn, if_false]
          exact hmem name
      · simp only [hin, if_false]
        refine ⟨?_, fun name => ?_⟩
        · exact List.Nodup.append hnd (List.nodup_singleton _) (by simpa using hin)
        · unfold liveIn
          rw [lastOf_snoc]
          by_cases hn : e.a = name
          · subst hn
            simp [hr]
          · simp only [hn, if_false, List.mem_append, List.mem_singleton]
            rw [hmem name]
            unfold liveIn
            constructor
            · rintro (h | h)
              · exact h
              · exact absurd h.symm hn
            · exact Or.inl

theorem refresh_loaded (env : GoEnv) (disk : Disk) (l : logger) (hl : l.bread = true) :
    ∃ l3, l.refresh env disk =
      .ok (⟨sortStrings (foldFlow refreshBody1 l.all []),
          refreshIndex (foldFlow (refreshBody2 (foldFlow refreshBody1 l.all [])) l.all.reverse "")
            (sortStrings (foldFlow refreshBody1 l.all [])) 0,
          (foldFlow (refreshBody3 env.tz (foldFlow refreshBody1 l.all [])) l.all.reverse
            ⟨(0, 0), (0, 0), 0⟩).thisWk,
          (foldFlow (refreshBody3 env.tz (foldFlow refreshBody1 l.all [])) l.all.reverse
            ⟨(0, 0), (0, 0), 0⟩).prevWk,
          (foldFlow (refreshBody3 env.tz (foldFlow refreshBody1 l.all [])) l.all.reverse
            ⟨(0, 0), (0, 0), 0⟩).thisWk.1,
          (foldFlow (refreshBody3 env.tz (foldFlow refreshBody1 l.all [])) l.all.reverse
            ⟨(0, 0), (0, 0), 0⟩).prevYr⟩, l3) ∧
      Loaded l.buffered l.session l3 := by
  have key : ∀ (l0 : logger), Loaded l.buffered l.session l0 →
      Loaded l.buffered l.session l0.reset ∧ l0.reset.fwd = l.all ∧
        l0.reset.bwd = l.all.reverse ∧ l.all.length < l0.bound disk := by
    intro l0 h0
    refine ⟨⟨h0.1, h0.2.1, h0.2.2⟩, ?_, ?_, ?_⟩
    · rw [reset_fwd]; simp [logger.all, h0.2.1, h0.2.2]
    · rw [reset_bwd]; simp [logger.all, h0.2.1, h0.2.2]
    · simp [logger.bound, logger.all, h0.2.1, h0.2.2]; omega
  obtain ⟨k1, k2, -, k4⟩ := key l ⟨hl, rfl, rfl⟩
  obtain ⟨l1, e1, p1⟩ := forCursor_yields (next_yields env disk l.buffered l.session)
    refreshBody1 (l.bound disk) l.reset [] k1 (by rw [k2]; exact k4)
  rw [k2] at e1
  obtain ⟨m1, -, m3, m4⟩ := key l1 p1
  obtain ⟨l2, e2, p2⟩ := forCursor_yields (prev_yields env disk l.buffered l.session)
    (refreshBody2 (foldFlow refreshBody1 l.all [])) (l1.bound disk) l1.reset "" m1
    (by rw [m3]; simpa using m4)
  rw [m3] at e2
  obtain ⟨n1, -, n3, n4⟩ := key l2 p2
  obtain ⟨l3, e3, p3⟩ := forCursor_yields (prev_yields env disk l.buffered l.session)
    (refreshBody3 env.tz (foldFlow refreshBody1 l.all [])) (l2.bound disk) l2.reset
    ⟨(0, 0), (0, 0), 0⟩ n1 (by rw [n3]; simpa using n4)
  rw [n3] at e3
  refine ⟨l3, ?_, p3⟩
  simp only [logger.refresh, e1, e2, e3]

theorem sortStrings_sorted (xs : List String) (h : xs.Nodup) :
    (sortStrings xs).Sorted (fun a b => a < b) := by
  have h1 : (sortStrings xs).Sorted (fun a b => a ≤ b) :=
    List.sorted_insertionSort (fun a b : String => a ≤ b) xs
  have h2 : (sortStrings xs).Nodup :=
    (List.perm_insertionSort (fun a b : String => a ≤ b) xs).nodup_iff.mpr h
  exact h1.lt_of_le h2

theorem mem_sortStrings (xs : List String) (x : String) : x ∈ sortStrings xs ↔ x ∈ xs :=
  (List.perm_insertionSort (fun a b : String => a ≤ b) xs).mem_iff

/-- **C6** (active set correctness).  For a logger whose committed entries are
loaded, `refresh` returns an activity list that is sorted in strictly
ascending string order and contains exactly the names whose last entry in
`committed ++ session` is not a `Deleted` entry. -/
theorem refresh_active_set (env : GoEnv) (disk : Disk) (l : logger) (hl : l.bread = true) :
    ∃ r l1, l.refresh env disk = .ok (r, l1) ∧
      r.activities.Sorted (fun a b => a < b) ∧
      ∀ name, name ∈ r.activities ↔ liveIn (l.buffered ++ l.session) name := by
  obtain ⟨l3, h, -⟩ := refresh_loaded env disk l hl
  obtain ⟨hnd, hmem⟩ := scratch_spec l.all
  refine ⟨_, l3, h, sortStrings_sorted _ hnd, fun name => ?_⟩
  simp only [mem_sortStrings]
  exact hmem name

/-- Witness of C6: "Zeta" is created, "Alpha" is created, "Zeta" is deleted. -/
theorem refresh_active_set_witness :
    (loaded [mkEntry "Zeta" .selecting mon15 0, mkEntry "Alpha" .selecting mon15 0]
      [mkEntry "Zeta" .removing mon15 0]).bread = true ∧
    ∃ r l1, (loaded [mkEntry "Zeta" .selecting mon15 0, mkEntry "Alpha" .selecting mon15 0]
        [mkEntry "Zeta" .removing mon15 0]).refresh envUTC noFile = .ok (r, l1) ∧
      r.activities.Sorted (fun a b => a < b) ∧
      ∀ name, name ∈ r.activities ↔
        liveIn ([mkEntry "Zeta" .selecting mon15 0, mkEntry "Alpha" .selecting mon15 0] ++
          [mkEntry "Zeta" .removing mon15 0]) name :=
  ⟨rfl, refresh_active_set envUTC noFile _ rfl⟩

/-! ## `tally` -/

theorem wrap64_wrap64_add (x y : Int) : wrap64 (wrap64 x + y) = wrap64 (x + y) := by
  unfold wrap64
  norm_num
  omega

theorem wrap64_idem (x : Int) : wrap64 (wrap64 x) = wrap64 x := by
  unfold wrap64
  norm_num

theorem getD_mem {α : Type} (xs : List α) (i : Nat) (d : α) (h : i < xs.length) :
    xs.getD i d ∈ xs := by
  rw [List.getD_eq_getElem xs d h]
  exact List.getElem_mem h

theorem tallyAdd_spec (e : entry) :
    ∀ (A : List String) (ret : List (Int × Int)), A.Nodup → ret.length = A.length →
      (tallyAdd e A ret).length = A.length ∧
      ∀ i, i < A.length → (tallyAdd e A ret).getD i (0, 0) =
        if A.getD i "" = e.a then
          (if e.typ = .working then (add64 (ret.getD i (0, 0)).1 e.d, (ret.getD i (0, 0)).2)
            else ((ret.getD i (0, 0)).1, add64 (ret.getD i (0, 0)).2 e.d))
        else ret.getD i (0, 0) := by
  intro A
  induction A with
  | nil => intro ret _ h; simp [tallyAdd, h]
  | cons v vs ih =>
    intro ret hnd hlen
    cases ret with
    | nil => simp at hlen
    | cons r rs =>
      have hnd1 : vs.Nodup := (List.nodup_cons.mp hnd).2
      have hv : v ∉ vs := (List.nodup_cons.mp hnd).1
      have hlen1 : rs.length = vs.length := by simpa using hlen
      by_cases hve : v = e.a
      · refine ⟨by simp [tallyAdd, hve, hlen1]; split_ifs <;> simp [hlen1], fun i hi => ?_⟩
        cases i with
        | zero =>
          simp only [tallyAdd, hve, ne_eq, not_true_eq_false, if_false, List.getD_cons_zero,
            if_true]
          split_ifs <;> rfl
        | succ i =>
          have hi1 : i < vs.length := by simpa using hi
          have hne : vs.getD i "" ≠ e.a := by
            intro h
            apply hv
            rw [hve, ← h]
            exact getD_mem vs i "" hi1
          simp only [tallyAdd, hve, ne_eq, not_true_eq_false, if_false, List.getD_cons_succ,
            hne]
          split_ifs <;> rfl
      · obtain ⟨h1, h2⟩ := ih rs hnd1 hlen1
        refine ⟨by simp [tallyAdd, hve, h1], fun i hi => ?_⟩
        cases i with
        | zero => simp [tallyAdd, hve]
        | succ i =>
          have hi1 : i < vs.length := by simpa using hi
          simp only [tallyAdd, ne_eq, hve, not_false_eq_true, if_true, List.getD_cons_succ]
          exact h2 i hi1

theorem tally_fold_takeWhile (tz : Int → Int) (today : Int × Nat × Int) (A : List String) :
    ∀ (xs : List entry) (ret : List (Int × Int)),
      foldFlow (tallyBody tz today A) xs ret =
        foldFlow (tallyBody tz today A) (xs.takeWhile (fun e => e.t.Date tz = today)) ret := by
  intro xs
  induction xs with
  | nil => intro ret; rfl
  | cons e es ih =>
    intro ret
    by_cases h : e.t.Date tz = today
    · simp only [List.takeWhile_cons, h, decide_True, if_true, foldFlow]
      cases hb : tallyBody tz today A ret e with
      | cont s => exact ih s
      | brk s => rfl
    · simp [List.takeWhile_cons, h, foldFlow, tallyBody]

theorem kindSum_cons (k : state) (n : String) (e : entry) (es : List entry) :
    kindSum k n (e :: es) = (if e.typ = k ∧ e.a = n then e.d else 0) + kindSum k n es := by
  unfold kindSum
  by_cases h : e.typ = k ∧ e.a = n
  · simp [List.filter_cons, h]
  · simp only [List.filter_cons, h, decide_False, if_false, zero_add]
    rfl

theorem tally_run_spec (tz : Int → Int) (today : Int × Nat × Int) (A : List String)
    (hA : A.Nodup) :
    ∀ (run : List entry) (ret0 : List (Int × Int)),
      (∀ e ∈ run, e.t.Date tz = today) → ret0.length = A.length →
      (∀ i, i < A.length → wrap64 (ret0.getD i (0, 0)).1 = (ret0.getD i (0, 0)).1 ∧
        wrap64 (ret0.getD i (0, 0)).2 = (ret0.getD i (0, 0)).2) →
      (foldFlow (tallyBody tz today A) run ret0).length = A.length ∧
      ∀ i, i < A.length →
        ((foldFlow (tallyBody tz today A) run ret0).getD i (0, 0)).1 =
          wrap64 ((ret0.getD i (0, 0)).1 + kindSum .working (A.getD i "") run) ∧
        ((foldFlow (tallyBody tz today A) run ret0).getD i (0, 0)).2 =
          wrap64 ((ret0.getD i (0, 0)).2 + kindSum .resting (A.getD i "") run) := by
  intro run
  induction run with
  | nil =>
    intro ret0 _ hlen hfix
    refine ⟨hlen, fun i hi => ?_⟩
    have h := hfix i hi
    simp only [foldFlow, kindSum, List.filter_nil, List.map_nil, List.sum_nil, add_zero]
    exact ⟨h.1.symm, h.2.symm⟩
  | cons e es ih =>
    intro ret0 hday hlen hfix
    have hd : e.t.Date tz = today := hday e (List.mem_cons_self _ _)
    have hday1 : ∀ x ∈ es, x.t.Date tz = today := fun x hx => hday x (List.mem_cons_of_mem _ hx)
    by_cases hk : e.typ ≠ .working ∧ e.typ ≠ .resting
    · have hb : tallyBody tz today A ret0 e = .cont ret0 := by
        simp [tallyBody, hd, hk]
      simp only [foldFlow, hb]
      obtain ⟨h1, h2⟩ := ih ret0 hday1 hlen hfix
      refine ⟨h1, fun i hi => ?_⟩
      rw [kindSum_cons, kindSum_cons]
      simp only [hk.1, hk.2, false_and, if_false, zero_add]
      exact h2 i hi
    · have hb : tallyBody tz today A ret0 e = .cont (tallyAdd e A ret0) := by
        simp only [tallyBody, hd, ne_eq, not_true_eq_false, if_false]
        rw [if_neg hk]
      simp only [foldFlow, hb]
      obtain ⟨t1, t2⟩ := tallyAdd_spec e A ret0 hA hlen
      have hfix1 : ∀ i, i < A.length →
          wrap64 ((tallyAdd e A ret0).getD i (0, 0)).1 = ((tallyAdd e A ret0).getD i (0, 0)).1 ∧
          wrap64 ((tallyAdd e A ret0).getD i (0, 0)).2 = ((tallyAdd e A ret0).getD i (0, 0)).2 := by
        intro i hi
        rw [t2 i hi]
        split_ifs <;> simp only [add64, wrap64_idem, hfix i hi, and_self]
      obtain ⟨h1, h2⟩ := ih (tallyAdd e A ret0) hday1 t1 hfix1
      refine ⟨h1, fun i hi => ?_⟩
      rw [(h2 i hi).1, (h2 i hi).2, t2 i hi, kindSum_cons, kindSum_cons]
      have hk2 : e.typ = .working ∨ e.typ = .resting := by
        by_contra hc
        exact hk ⟨fun h => hc (Or.inl h), fun h => hc (Or.inr h)⟩
      generalize ret0.getD i (0, 0) = c
      generalize A.getD i "" = name
      by_cases ha : name = e.a
      · subst ha
        rcases hk2 with hw | hr
        · simp [hw, add64, wrap64_wrap64_add, add_assoc]
        · simp [hr, add64, wrap64_wrap64_add, add_assoc]
      · have ha1 : ¬ e.a = name := fun h => ha h.symm
        simp [ha, ha1]

theorem getD_replicate_self {α : Type} (n i : Nat) (x : α) :
    (List.replicate n x).getD i x = x := by
  simp only [List.getD_eq_getElem?_getD, List.getElem?_replicate]
  split_ifs <;> rfl

theorem tally_loaded (env : GoEnv) (disk : Disk) (now : Time) (l : logger)
    (A : List String) (hl : l.bread = true) :
    ∃ l1, l.tally env disk now A =
      .ok (foldFlow (tallyBody env.tz (now.Date env.tz) A) l.all.reverse
        (List.replicate A.length (0, 0)), l1) := by
  obtain ⟨l1, h, -⟩ := forCursor_yields (prev_yields env disk l.buffered l.session)
    (tallyBody env.tz (now.Date env.tz) A) (l.reset.bound disk) l.reset
    (List.replicate A.length (0, 0)) (reset_loaded l hl)
    (by rw [reset_bwd]; simpa using bound_gt disk l)
  rw [reset_bwd] at h
  exact ⟨l1, h⟩

/-- What `tally` sums.  For a logger whose committed entries
are loaded, every list `A` of distinct names and every value of
`time.Now()`, `tally(A)` has the length of `A` and, for every `i`,
`tally(A)[i][0]` is the sum, in 64-bit duration arithmetic, of the durations
of the Work entries of activity `A[i]` in the trailing run of
`committed ++ session` whose entries are all dated today, and
`tally(A)[i][1]` is that sum over the Break entries of the run. -/
theorem tally_sums_today_run (env : GoEnv) (disk : Disk) (now : Time) (l : logger)
    (A : List String) (hl : l.bread = true) (hA : A.Nodup) :
    ∃ ret l1, l.tally env disk now A = .ok (ret, l1) ∧ ret.length = A.length ∧
      ∀ i, i < A.length →
        (ret.getD i (0, 0)).1 = wrap64 (kindSum .working (A.getD i "")
          (todayRun env.tz (now.Date env.tz) (l.buffered ++ l.session))) ∧
        (ret.getD i (0, 0)).2 = wrap64 (kindSum .resting (A.getD i "")
          (todayRun env.tz (now.Date env.tz) (l.buffered ++ l.session))) := by
  obtain ⟨l1, h⟩ := tally_loaded env disk now l A hl
  rw [tally_fold_takeWhile] at h
  have hrun : ∀ e ∈ l.all.reverse.takeWhile (fun e => e.t.Date env.tz = now.Date env.tz),
      e.t.Date env.tz = now.Date env.tz := by
    intro e he
    simpa using List.mem_takeWhile_imp he
  obtain ⟨h1, h2⟩ := tally_run_spec env.tz (now.Date env.tz) A hA _
    (List.replicate A.length (0, 0)) hrun (by simp)
    (by intro i _; rw [getD_replicate_self]; exact ⟨by decide, by decide⟩)
  refine ⟨_, l1, h, h1, fun i hi => ?_⟩
  have h3 := h2 i hi
  rw [getD_replicate_self] at h3
  simp only [zero_add] at h3
  exact h3

/-- Ten minutes of work today, five minutes yesterday, twenty minutes today.
The reverse pass stops at yesterday's entry: `tally` reports twenty minutes
where the Work entries dated today sum to thirty. -/
theorem tally_stops_at_other_day :
    ((loaded [mkEntry "A" .working mon15 10, mkEntry "A" .working sun14 5,
        mkEntry "A" .working mon15 20] []).tally envUTC noFile mon15 ["A"]).map Prod.fst =
      .ok [(1200000000000, 0)] ∧
    kindSum .working "A" (datedToday envUTC.tz (mon15.Date envUTC.tz)
      [mkEntry "A" .working mon15 10, mkEntry "A" .working sun14 5,
        mkEntry "A" .working mon15 20]) = 1800000000000 :=
  ⟨rfl, by decide⟩

/-- An instance of `tally_sums_today_run`, on the log of
`tally_stops_at_other_day`. -/
theorem tally_sums_today_run_witness :
    (loaded [mkEntry "A" .working mon15 10, mkEntry "A" .working sun14 5,
      mkEntry "A" .working mon15 20] []).bread = true ∧ ["A"].Nodup ∧
    ∃ ret l1, (loaded [mkEntry "A" .working mon15 10, mkEntry "A" .working sun14 5,
        mkEntry "A" .working mon15 20] []).tally envUTC noFile mon15 ["A"] = .ok (ret, l1) ∧
      ret.length = ["A"].length ∧
      ∀ i, i < ["A"].length →
        (ret.getD i (0, 0)).1 = wrap64 (kindSum .working (["A"].getD i "")
          (todayRun envUTC.tz (mon15.Date envUTC.tz)
            ([mkEntry "A" .working mon15 10, mkEntry "A" .working sun14 5,
              mkEntry "A" .working mon15 20] ++ []))) ∧
        (ret.getD i (0, 0)).2 = wrap64 (kindSum .resting (["A"].getD i "")
          (todayRun envUTC.tz (mon15.Date envUTC.tz)
            ([mkEntry "A" .working mon15 10, mkEntry "A" .working sun14 5,
              mkEntry "A" .working mon15 20] ++ []))) :=
  ⟨rfl, by decide, tally_sums_today_run envUTC noFile mon15 _ ["A"] rfl (by decide)⟩

/-! ## `weeks` -/

theorem wrap64_modEq (x : Int) : wrap64 x ≡ x [ZMOD 2 ^ 64] := by
  unfold wrap64 Int.ModEq
  norm_num
  omega

theorem wrap64_congr {a b : Int} (h : a ≡ b [ZMOD 2 ^ 64]) : wrap64 a = wrap64 b := by
  unfold Int.ModEq at h
  unfold wrap64
  norm_num at h ⊢
  omega

theorem gridTotal_bump :
    ∀ (d : List (Int × Int)) (i k : Nat) (x : Int), i < d.length → k < 2 →
      (bump d i k x).length = d.length ∧
      gridTotal (bump d i k x) ≡ gridTotal d + x [ZMOD 2 ^ 64] := by
  intro d
  induction d with
  | nil => intro i k x hi; simp at hi
  | cons r rs ih =>
    intro i k x hi hk
    cases i with
    | zero =>
      refine ⟨by simp [bump], ?_⟩
      have hk2 : k = 0 ∨ k = 1 := by omega
      rcases hk2 with h | h
      · subst h
        simp only [bump, if_true, gridTotal, List.map_cons, List.sum_cons, add64]
        have := wrap64_modEq (r.1 + x)
        calc wrap64 (r.1 + x) + r.2 + (List.map (fun c => c.1 + c.2) rs).sum
            ≡ (r.1 + x) + r.2 + (List.map (fun c => c.1 + c.2) rs).sum [ZMOD 2 ^ 64] :=
              (this.add_right _).add_right _
          _ = r.1 + r.2 + (List.map (fun c => c.1 + c.2) rs).sum + x := by ring
      · subst h
        simp only [bump, one_ne_zero, if_false, if_true, gridTotal, List.map_cons,
          List.sum_cons, add64]
        have := wrap64_modEq (r.2 + x)
        calc r.1 + wrap64 (r.2 + x) + (List.map (fun c => c.1 + c.2) rs).sum
            ≡ r.1 + (r.2 + x) + (List.map (fun c => c.1 + c.2) rs).sum [ZMOD 2 ^ 64] :=
              (this.add_left _).add_right _
          _ = r.1 + r.2 + (List.map (fun c => c.1 + c.2) rs).sum + x := by ring
    | succ i =>
      have hi1 : i < rs.length := by simpa using hi
      obtain ⟨h1, h2⟩ := ih i k x hi1 hk
      refine ⟨by simp [bump, h1], ?_⟩
      simp only [bump, gridTotal, List.map_cons, List.sum_cons]
      have h3 : gridTotal (bump rs i k x) ≡ gridTotal rs + x [ZMOD 2 ^ 64] := h2
      unfold gridTotal at h3
      calc r.1 + r.2 + (List.map (fun c => c.1 + c.2) (bump rs i k x)).sum
          ≡ r.1 + r.2 + ((List.map (fun c => c.1 + c.2) rs).sum + x) [ZMOD 2 ^ 64] :=
            h3.add_left _
        _ = r.1 + r.2 + (List.map (fun c => c.1 + c.2) rs).sum + x := by ring

theorem dayIndex_lt (tz : Int → Int) (t : Time) : dayIndex tz t < 7 := by
  unfold dayIndex Time.Weekday
  simp only
  split_ifs <;> omega

theorem weekSum_cons (tz : Int → Int) (name : String) (week : Int × Int) (e : entry)
    (es : List entry) :
    weekSum tz name week (e :: es) =
      (if isWorkBreakOf name e = true ∧ e.t.ISOWeek tz = week then e.d else 0) +
        weekSum tz name week es := by
  unfold weekSum
  by_cases h : isWorkBreakOf name e = true ∧ e.t.ISOWeek tz = week
  · simp [List.filter_cons, h]
  · simp only [List.filter_cons, h, decide_False, if_false, zero_add]
    rfl

theorem weeksBody_cases (tz : Int → Int) (activity : String) (week : Int × Int) (s : WeekAcc)
    (e : entry) :
    (isWorkBreakOf activity e = false ∧ weeksBody tz activity week s e = .cont s) ∨
    (isWorkBreakOf activity e = true ∧ e.t.ISOWeek tz = week ∧ weekAfter tz week e = false ∧
      weeksBody tz activity week s e =
        .cont { s with d := bump s.d (dayIndex tz e.t) (e.typ.toNat - 4) e.d }) ∨
    (isWorkBreakOf activity e = true ∧ e.t.ISOWeek tz ≠ week ∧ weekAfter tz week e = false ∧
      weeksBody tz activity week s e = .cont { s with prev := e.t.ISOWeek tz }) ∨
    (isWorkBreakOf activity e = true ∧ weekAfter tz week e = true ∧
      weeksBody tz activity week s e = .brk { s with nxt := e.t.ISOWeek tz }) := by
  by_cases h1 : e.typ ≠ .working ∧ e.typ ≠ .resting
  · left
    refine ⟨?_, ?_⟩
    · simp [isWorkBreakOf, h1.1, h1.2]
    · simp [weeksBody, h1]
  · have h1' : e.typ = .working ∨ e.typ = .resting := by
      by_contra hc
      exact h1 ⟨fun h => hc (Or.inl h), fun h => hc (Or.inr h)⟩
    by_cases h2 : e.a ≠ activity
    · left
      refine ⟨?_, ?_⟩
      · simp [isWorkBreakOf, h2]
      · simp only [weeksBody, if_neg h1, if_pos h2]
    · have h2' : e.a = activity := by simpa using h2
      have hwb : isWorkBreakOf activity e = true := by simp [isWorkBreakOf, h1', h2']
      right
      obtain ⟨wy, ww⟩ := week
      rcases hyw : e.t.ISOWeek tz with ⟨y, w⟩
      by_cases h3 : w = ww ∧ y = wy
      · left
        refine ⟨hwb, by simp [h3.1, h3.2], ?_, ?_⟩
        · simp [weekAfter, hyw, h3.1, h3.2]
        · simp only [weeksBody, if_neg h1, if_neg h2, hyw, h3, and_self, if_true]
      · right
        by_cases h4 : y < wy ∨ (y = wy ∧ w < ww)
        · left
          refine ⟨hwb, ?_, ?_, ?_⟩
          · intro h
            simp only [Prod.mk.injEq] at h
            exact h3 ⟨h.2, h.1⟩
          · simp only [weekAfter, hyw, Bool.decide_or, Bool.decide_and, Bool.or_eq_false_iff,
              decide_eq_false_iff_not, Bool.and_eq_false_iff, not_lt]
            omega
          · simp only [weeksBody, if_neg h1, if_neg h2, hyw, h3, if_false, h4, if_true]
        · right
          refine ⟨hwb, ?_, ?_⟩
          · simp only [weekAfter, hyw, Bool.decide_or, Bool.decide_and, Bool.or_eq_true,
              decide_eq_true_eq, Bool.and_eq_true]
            omega
          · simp only [weeksBody, if_neg h1, if_neg h2, hyw, h3, if_false, h4]

theorem typ_index_lt (name : String) (e : entry) (h : isWorkBreakOf name e = true) :
    e.typ.toNat - 4 < 2 := by
  simp only [isWorkBreakOf, Bool.decide_and, Bool.decide_or, Bool.and_eq_true, Bool.or_eq_true,
    decide_eq_true_eq] at h
  rcases h.1 with h1 | h1 <;> simp [h1, state.toNat]

theorem weeks_fold_spec (tz : Int → Int) (activity : String) (week : Int × Int) :
    ∀ (xs : List entry) (s : WeekAcc), s.d.length = 7 →
      (foldFlow (weeksBody tz activity week) xs s).d.length = 7 ∧
      gridTotal (foldFlow (weeksBody tz activity week) xs s).d ≡
        gridTotal s.d + weekSum tz activity week (untilLaterWeek tz activity week xs)
          [ZMOD 2 ^ 64] := by
  intro xs
  induction xs with
  | nil =>
    intro s hs
    simp [foldFlow, untilLaterWeek, weekSum, hs, Int.ModEq.refl]
  | cons e es ih =>
    intro s hs
    rcases weeksBody_cases tz activity week s e with ⟨h1, hb⟩ | ⟨h1, h2, h3, hb⟩ |
        ⟨h1, h2, h3, hb⟩ | ⟨h1, h3, hb⟩
    · simp only [foldFlow, hb]
      have hu : untilLaterWeek tz activity week (e :: es) =
          e :: untilLaterWeek tz activity week es := by
        simp [untilLaterWeek, List.takeWhile_cons, h1]
      rw [hu, weekSum_cons]
      simp only [h1, Bool.false_eq_true, false_and, if_false, zero_add]
      exact ih s hs
    · simp only [foldFlow, hb]
      have hu : untilLaterWeek tz activity week (e :: es) =
          e :: untilLaterWeek tz activity week es := by
        simp [untilLaterWeek, List.takeWhile_cons, h3]
      rw [hu, weekSum_cons]
      simp only [h1, h2, and_self, if_true]
      obtain ⟨b1, b2⟩ := gridTotal_bump s.d (dayIndex tz e.t) (e.typ.toNat - 4) e.d
        (by rw [hs]; exact dayIndex_lt tz e.t) (typ_index_lt activity e h1)
      obtain ⟨i1, i2⟩ := ih { s with d := bump s.d (dayIndex tz e.t) (e.typ.toNat - 4) e.d }
        (by simpa [hs] using b1)
      refine ⟨i1, ?_⟩
      refine i2.trans ?_
      have := b2.add_right (weekSum tz activity week (untilLaterWeek tz activity week es))
      simpa [add_assoc] using this
    · simp only [foldFlow, hb]
      have hu : untilLaterWeek tz activity week (e :: es) =
          e :: untilLaterWeek tz activity week es := by
        simp [untilLaterWeek, List.takeWhile_cons, h3]
      rw [hu, weekSum_cons]
      simp only [h2, and_false, if_false, zero_add]
      exact ih { s with prev := e.t.ISOWeek tz } hs
    · simp only [foldFlow, hb]
      have hu : untilLaterWeek tz activity week (e :: es) = [] := by
        simp [untilLaterWeek, List.takeWhile_cons, h1, h3]
      rw [hu]
      simp [weekSum, hs, Int.ModEq.refl]

theorem weeksGrid_loaded (env : GoEnv) (disk : Disk) (l : logger) (activity : String)
    (week : Int × Int) (hl : l.bread = true) :
    ∃ l1, l.weeksGrid env disk activity week =
      .ok (foldFlow (weeksBody env.tz activity week) l.all
        ⟨List.replicate 7 (0, 0), (0, 0), (0, 0)⟩, l1) := by
  obtain ⟨l1, h, -⟩ := forCursor_yields (next_yields env disk l.buffered l.session)
    (weeksBody env.tz activity week) (l.reset.bound disk) l.reset
    ⟨List.replicate 7 (0, 0), (0, 0), (0, 0)⟩ (reset_loaded l hl)
    (by rw [reset_fwd]; exact bound_gt disk l)
  rw [reset_fwd] at h
  exact ⟨l1, h⟩

/-- **C3, as amended** (weekly conservation).  For a logger whose committed
entries are loaded, every activity and every target (year, ISO week), the
grid accumulated by `weeks` has seven rows and the sum of its fourteen cells
equals, in 64-bit duration arithmetic, the sum of the durations of the Work
and Break entries of that activity dated in the target week that come before
the first Work/Break entry of that activity dated in a later week. -/
theorem weeks_conserves_until_later_week (env : GoEnv) (disk : Disk) (l : logger)
    (activity : String) (week : Int × Int) (hl : l.bread = true) :
    ∃ g l1, l.weeksGrid env disk activity week = .ok (g, l1) ∧ g.d.length = 7 ∧
      wrap64 (gridTotal g.d) = wrap64 (weekSum env.tz activity week
        (untilLaterWeek env.tz activity week (l.buffered ++ l.session))) := by
  obtain ⟨l1, h⟩ := weeksGrid_loaded env disk l activity week hl
  obtain ⟨h1, h2⟩ := weeks_fold_spec env.tz activity week l.all
    ⟨List.replicate 7 (0, 0), (0, 0), (0, 0)⟩ (by simp)
  refine ⟨_, l1, h, h1, wrap64_congr ?_⟩
  have h0 : gridTotal (List.replicate 7 ((0 : Int), (0 : Int))) = 0 := by decide
  simp only [h0, zero_add] at h2
  exact h2

/-- Counterexample to C3: twenty minutes of work in week 5 of 2024 are logged
before ten minutes of work in week 3.  The forward pass for week 3 stops at
the first entry: the grid is empty where the week has ten minutes. -/
theorem weeks_stops_at_later_week :
    ((loaded [mkEntry "A" .working mon29 20, mkEntry "A" .working mon15 10] []).weeksGrid
        envUTC noFile "A" (2024, 3)).map (fun r => gridTotal r.1.d) = .ok 0 ∧
    weekSum envUTC.tz "A" (2024, 3)
      [mkEntry "A" .working mon29 20, mkEntry "A" .working mon15 10] = 600000000000 :=
  ⟨rfl, by decide⟩

/-- Witness of C3 as amended, on the log of the counterexample. -/
theorem weeks_conserves_until_later_week_witness :
    (loaded [mkEntry "A" .working mon29 20, mkEntry "A" .working mon15 10] []).bread = true ∧
    ∃ g l1, (loaded [mkEntry "A" .working mon29 20, mkEntry "A" .working mon15 10] []).weeksGrid
        envUTC noFile "A" (2024, 3) = .ok (g, l1) ∧ g.d.length = 7 ∧
      wrap64 (gridTotal g.d) = wrap64 (weekSum envUTC.tz "A" (2024, 3)
        (untilLaterWeek envUTC.tz "A" (2024, 3)
          ([mkEntry "A" .working mon29 20, mkEntry "A" .working mon15 10] ++ []))) :=
  ⟨rfl, weeks_conserves_until_later_week envUTC noFile _ "A" (2024, 3) rfl⟩

/-! ## `shrink`: the loop on a loaded logger -/

theorem shrinkBody_none (tz : Int → Int) (m : List (String × Nat)) (s : ShrinkAcc) (e : entry) :
    shrinkBody tz m s e none = .cont (shrinkStep tz m s e) := by
  unfold shrinkBody shrinkStep
  simp only [ne_eq, not_true_eq_false, and_false, if_false]
  by_cases h : ¬e.typ = state.working ∧ ¬e.typ = state.resting
  · rw [if_pos h, if_pos h]
  · rw [if_neg h, if_neg h]
    cases mapGet m e.a <;> rfl

theorem shrinkBody_eof (tz : Int → Int) (m : List (String × Nat)) (s : ShrinkAcc) :
    shrinkBody tz m s entry.zero (some .EOF) =
      if sameDay tz s.this Time.zero then .cont s
      else .brk { s with out := shrinkEnd s } := by
  unfold shrinkBody shrinkEnd
  by_cases h : sameDay tz s.this Time.zero = true
  · simp [entry.zero, h]
  · simp [entry.zero, h]

theorem shrinkLoop_zero (env : GoEnv) (disk : Disk) (m : List (String × Nat)) (l : logger)
    (s : ShrinkAcc) : shrinkLoop env disk m 0 l s = none := rfl

theorem shrinkLoop_succ (env : GoEnv) (disk : Disk) (m : List (String × Nat)) (fuel : Nat)
    (l : logger) (s : ShrinkAcc) :
    shrinkLoop env disk m (fuel + 1) l s =
      match l.next env disk with
      | .error p => some (.error p)
      | .ok (e, err, l) =>
        match shrinkBody env.tz m s e err with
        | .cont s => shrinkLoop env disk m fuel l s
        | .brk s => some (.ok (s.out, l)) := rfl

theorem shrinkLoop_eof (env : GoEnv) (disk : Disk) (m : List (String × Nat)) (fuel : Nat)
    (l : logger) (s : ShrinkAcc) (h : l.next env disk = .ok (entry.zero, some .EOF, l)) :
    shrinkLoop env disk m (fuel + 1) l s =
      if sameDay env.tz s.this Time.zero then shrinkLoop env disk m fuel l s
      else some (.ok (shrinkEnd s, l)) := by
  rw [shrinkLoop_succ, h]
  simp only [shrinkBody_eof]
  split_ifs <;> rfl

theorem shrinkLoop_entry (env : GoEnv) (disk : Disk) (m : List (String × Nat)) (fuel : Nat)
    (l l1 : logger) (s : ShrinkAcc) (e : entry) (h : l.next env disk = .ok (e, none, l1)) :
    shrinkLoop env disk m (fuel + 1) l s =
      shrinkLoop env disk m fuel l1 (shrinkStep env.tz m s e) := by
  rw [shrinkLoop_succ, h]
  simp only [shrinkBody_none]

theorem shrinkLoop_loaded (env : GoEnv) (disk : Disk) (m : List (String × Nat))
    (B S : List entry) :
    ∀ (fuel : Nat) (l : logger) (s : ShrinkAcc), Loaded B S l →
      (shrinkLoop env disk m fuel l s).map (Except.map Prod.fst) =
        if fuel ≤ l.fwd.length then none
        else if sameDay env.tz (l.fwd.foldl (shrinkStep env.tz m) s).this Time.zero then none
        else some (.ok (shrinkEnd (l.fwd.foldl (shrinkStep env.tz m) s))) := by
  intro fuel
  induction fuel with
  | zero =>
    intro l s _
    rw [if_pos (Nat.zero_le _), shrinkLoop_zero]
    rfl
  | succ fuel ih =>
    intro l s hP
    cases hrem : l.fwd with
    | nil =>
      have h1 := (next_yields env disk B S).1 l hP hrem
      have h2 := ih l s hP
      rw [hrem] at h2
      rw [shrinkLoop_eof env disk m fuel l s h1]
      rw [if_neg (by simp : ¬ fuel + 1 ≤ ([] : List entry).length)]
      simp only [List.foldl_nil] at h2 ⊢
      by_cases hs : sameDay env.tz s.this Time.zero = true
      · rw [if_pos hs, h2, if_pos hs]
        simp only [hs, if_true, ite_self]
      · rw [if_neg hs, if_neg hs]
        rfl
    | cons e es =>
      obtain ⟨l1, h1, h2, h3⟩ := (next_yields env disk B S).2 l e es hP hrem
      have h4 := ih l1 (shrinkStep env.tz m s e) h3
      rw [h2] at h4
      rw [shrinkLoop_entry env disk m fuel l l1 s e h1, h4]
      simp only [List.length_cons, List.foldl_cons, Nat.add_le_add_iff_right]

/-! ## `shrink`: the index map and the labelled buffer -/

theorem mapGet_mapSet (m : List (String × Nat)) (k : String) (v : Nat) (k1 : String) :
    mapGet (mapSet m k v) k1 = if k = k1 then some v else mapGet m k1 := by
  induction m with
  | nil => simp [mapSet, mapGet]
  | cons p rest ih =>
    obtain ⟨k0, v0⟩ := p
    by_cases h : k0 = k
    · subst h
      by_cases h1 : k0 = k1 <;> simp [mapSet, mapGet, h1]
    · by_cases h1 : k0 = k1
      · subst h1
        simp [mapSet, mapGet, h, Ne.symm h]
      · simp [mapSet, mapGet, h, h1, ih]

theorem keys_mapSet (m : List (String × Nat)) (k : String) (v : Nat) :
    (mapSet m k v).map Prod.fst =
      if k ∈ m.map Prod.fst then m.map Prod.fst else m.map Prod.fst ++ [k] := by
  induction m with
  | nil => simp [mapSet]
  | cons p rest ih =>
    obtain ⟨k0, v0⟩ := p
    by_cases h : k0 = k
    · subst h
      simp [mapSet]
    · have h1 : ¬ k = k0 := fun h2 => h h2.symm
      simp only [mapSet, h, if_false, List.map_cons, ih, List.mem_cons, h1, false_or]
      split_ifs <;> simp

theorem keys_mapSet_nodup (m : List (String × Nat)) (k : String) (v : Nat)
    (h : (m.map Prod.fst).Nodup) : ((mapSet m k v).map Prod.fst).Nodup := by
  rw [keys_mapSet]
  split_ifs with h1
  · exact h
  · exact List.Nodup.append h (List.nodup_singleton _) (by simpa using h1)

theorem mapGet_iff_mem (m : List (String × Nat)) (h : (m.map Prod.fst).Nodup) (k : String)
    (v : Nat) : mapGet m k = some v ↔ (k, v) ∈ m := by
  induction m with
  | nil => simp [mapGet]
  | cons p rest ih =>
    obtain ⟨k0, v0⟩ := p
    simp only [List.map_cons, List.nodup_cons] at h
    by_cases h0 : k0 = k
    · subst h0
      simp only [mapGet, if_true, Option.some.injEq, List.mem_cons, Prod.mk.injEq, true_and]
      constructor
      · intro h1; exact Or.inl h1.symm
      · rintro (h1 | h1)
        · exact h1.symm
        · exact absurd (List.mem_map_of_mem Prod.fst h1) h.1
    · have h1 : ¬ k = k0 := fun h2 => h0 h2.symm
      simp only [mapGet, h0, if_false, ih h.2, List.mem_cons, Prod.mk.injEq, h1, false_and,
        false_or]

theorem mkActIdx_keys_nodup :
    ∀ (A : List String) (i : Nat) (m : List (String × Nat)), (m.map Prod.fst).Nodup →
      ((mkActIdx A i m).map Prod.fst).Nodup := by
  intro A
  induction A with
  | nil => intro i m h; exact h
  | cons v vs ih => intro i m h; exact ih (i + 1) _ (keys_mapSet_nodup m v (i * 2) h)

theorem mkActIdx_get :
    ∀ (A : List String) (i : Nat) (m : List (String × Nat)) (name : String),
      (name ∈ A → ∃ j, A[j]? = some name ∧ mapGet (mkActIdx A i m) name = some ((i + j) * 2)) ∧
      (name ∉ A → mapGet (mkActIdx A i m) name = mapGet m name) := by
  intro A
  induction A with
  | nil => intro i m name; simp [mkActIdx]
  | cons v vs ih =>
    intro i m name
    obtain ⟨h1, h2⟩ := ih (i + 1) (mapSet m v (i * 2)) name
    by_cases hin : name ∈ vs
    · refine ⟨fun _ => ?_, fun h => absurd (List.mem_cons_of_mem _ hin) h⟩
      obtain ⟨j, hj, hg⟩ := h1 hin
      refine ⟨j + 1, by simpa using hj, ?_⟩
      simp only [mkActIdx, hg]
      congr 1
      ring
    · have h3 := h2 hin
      rw [mapGet_mapSet] at h3
      refine ⟨fun h => ?_, fun h => ?_⟩
      · have hv : v = name := by
          rcases List.mem_cons.mp h with h4 | h4
          · exact h4.symm
          · exact absurd h4 hin
        refine ⟨0, by simp [hv], ?_⟩
        simp only [mkActIdx, add_zero]
        rw [h3, if_pos hv]
      · have hv : ¬ v = name := fun h4 => h (by simp [h4])
        simp only [mkActIdx, h3, hv, if_false]

/-- What the index map of `shrink` holds: the names of the list, each with
twice the index of its last occurrence. -/
theorem actIdx_spec (A : List String) (name : String) (idx : Nat)
    (h : mapGet (mkActIdx A 0 []) name = some idx) :
    name ∈ A ∧ ∃ j, A[j]? = some name ∧ idx = j * 2 := by
  obtain ⟨h1, h2⟩ := mkActIdx_get A 0 [] name
  by_cases hin : name ∈ A
  · obtain ⟨j, hj, hg⟩ := h1 hin
    rw [hg] at h
    refine ⟨hin, j, hj, ?_⟩
    simp only [Option.some.injEq, zero_add] at h
    exact h.symm
  · rw [h2 hin] at h
    simp [mapGet] at h

theorem actIdx_mem (A : List String) (name : String) (h : name ∈ A) :
    ∃ idx, mapGet (mkActIdx A 0 []) name = some idx := by
  obtain ⟨j, -, hg⟩ := (mkActIdx_get A 0 [] name).1 h
  exact ⟨_, hg⟩

theorem actIdx_inj (A : List String) (a b : String) (idx : Nat)
    (ha : mapGet (mkActIdx A 0 []) a = some idx) (hb : mapGet (mkActIdx A 0 []) b = some idx) :
    a = b := by
  obtain ⟨-, j, hj, e1⟩ := actIdx_spec A a idx ha
  obtain ⟨-, k, hk, e2⟩ := actIdx_spec A b idx hb
  have : j = k := by omega
  subst this
  rw [hj] at hk
  exact Option.some.inj hk

theorem setSlot_get (buf : List entry) (i : Nat) (k : String) (typ : state) (j : Nat) :
    (setSlot buf i k typ)[j]? =
      if i = j then (buf[j]?).map (fun v : entry => { v with a := k, typ := typ }) else buf[j]? := by
  unfold setSlot
  rw [List.getElem?_modify]
  by_cases h : i = j
  · simp [h]
  · simp only [h, if_false]
    cases buf[j]? <;> rfl

theorem setSlot_length (buf : List entry) (i : Nat) (k : String) (typ : state) :
    (setSlot buf i k typ).length = buf.length := by
  simp [setSlot]

theorem mkBuffer_spec :
    ∀ (ps : List (String × Nat)) (buf : List entry), (ps.map Prod.snd).Nodup →
      (∀ p ∈ ps, p.2 % 2 = 0 ∧ p.2 + 1 < buf.length) →
      (mkBuffer ps buf).length = buf.length ∧
      (∀ p ∈ ps, ∃ v w, (mkBuffer ps buf)[p.2]? = some v ∧ v.a = p.1 ∧ v.typ = .working ∧
        (mkBuffer ps buf)[p.2 + 1]? = some w ∧ w.a = p.1 ∧ w.typ = .resting) ∧
      (∀ i : Nat, (∀ p ∈ ps, i ≠ p.2 ∧ i ≠ p.2 + 1) → (mkBuffer ps buf)[i]? = buf[i]?) ∧
      (∀ i : Nat, ((mkBuffer ps buf)[i]?).map (fun v : entry => (v.t, v.d)) =
        (buf[i]?).map (fun v : entry => (v.t, v.d))) := by
  intro ps
  induction ps with
  | nil => intro buf _ _; simp [mkBuffer]
  | cons p rest ih =>
    intro buf hnd hps
    obtain ⟨k, x⟩ := p
    simp only [List.map_cons, List.nodup_cons] at hnd
    have hx := hps (k, x) (List.mem_cons_self _ _)
    simp only at hx
    have hlen : (setSlot (setSlot buf x k .working) (x + 1) k .resting).length = buf.length := by
      simp [setSlot_length]
    have hrest : ∀ p ∈ rest, p.2 % 2 = 0 ∧
        p.2 + 1 < (setSlot (setSlot buf x k .working) (x + 1) k .resting).length := by
      intro p hp
      rw [hlen]
      exact hps p (List.mem_cons_of_mem _ hp)
    obtain ⟨i1, i2, i3, i4⟩ := ih _ hnd.2 hrest
    have hsep : ∀ p ∈ rest, x ≠ p.2 ∧ x ≠ p.2 + 1 ∧ x + 1 ≠ p.2 ∧ x + 1 ≠ p.2 + 1 := by
      intro p hp
      have h1 : x ≠ p.2 := fun h => hnd.1 (h ▸ List.mem_map_of_mem Prod.snd hp)
      have h2 := (hps p (List.mem_cons_of_mem _ hp)).1
      omega
    have hbx : x < buf.length := by omega
    have hbx1 : x + 1 < buf.length := hx.2
    refine ⟨by simp only [mkBuffer]; rw [i1, hlen], ?_, ?_, ?_⟩
    · intro p hp
      rcases List.mem_cons.mp hp with h | h
      · subst h
        simp only [mkBuffer]
        rw [i3 x (fun q hq => ⟨(hsep q hq).1, (hsep q hq).2.1⟩),
          i3 (x + 1) (fun q hq => ⟨(hsep q hq).2.2.1, (hsep q hq).2.2.2⟩)]
        have e1 : (setSlot (setSlot buf x k .working) (x + 1) k .resting)[x]? =
            some { buf[x] with a := k, typ := .working } := by
          rw [setSlot_get, if_neg (by omega), setSlot_get, if_pos rfl,
            List.getElem?_eq_getElem hbx]
          rfl
        have e2 : (setSlot (setSlot buf x k .working) (x + 1) k .resting)[x + 1]? =
            some { buf[x + 1] with a := k, typ := .resting } := by
          rw [setSlot_get, if_pos rfl, setSlot_get, if_neg (by omega),
            List.getElem?_eq_getElem hbx1]
          rfl
        exact ⟨_, _, e1, rfl, rfl, e2, rfl, rfl⟩
      · simp only [mkBuffer]
        exact i2 p h
    · intro i hi
      simp only [mkBuffer]
      rw [i3 i (fun q hq => hi q (List.mem_cons_of_mem _ hq))]
      have h1 := hi (k, x) (List.mem_cons_self _ _)
      simp only at h1
      simp only [setSlot_get, Ne.symm h1.1, Ne.symm h1.2, if_false]
    · intro i
      simp only [mkBuffer]
      rw [i4 i]
      simp only [setSlot_get]
      split_ifs <;> cases buf[i]? <;> rfl

/-- The buffer of `shrink` before the main loop: two slots per name of the
index map, labelled Work and Break, and no time or duration anywhere. -/
theorem buffer0_spec (A : List String) :
    (mkBuffer (mkActIdx A 0 []) (List.replicate (A.length * 2) entry.zero)).length =
        A.length * 2 ∧
    (∀ v ∈ mkBuffer (mkActIdx A 0 []) (List.replicate (A.length * 2) entry.zero),
      v.d = 0 ∧ v.t = Time.zero) ∧
    (∀ a idx, mapGet (mkActIdx A 0 []) a = some idx → ∃ v w,
      (mkBuffer (mkActIdx A 0 []) (List.replicate (A.length * 2) entry.zero))[idx]? = some v ∧
      v.a = a ∧ v.typ = .working ∧
      (mkBuffer (mkActIdx A 0 []) (List.replicate (A.length * 2) entry.zero))[idx + 1]? =
        some w ∧ w.a = a ∧ w.typ = .resting) := by
  have hk : ((mkActIdx A 0 []).map Prod.fst).Nodup := mkActIdx_keys_nodup A 0 [] (by simp)
  have hmem : ∀ p ∈ mkActIdx A 0 [], mapGet (mkActIdx A 0 []) p.1 = some p.2 :=
    fun p hp => (mapGet_iff_mem _ hk p.1 p.2).mpr hp
  have hv : ((mkActIdx A 0 []).map Prod.snd).Nodup := by
    refine List.Nodup.map_on ?_ (List.Nodup.of_map _ hk)
    intro p hp q hq hpq
    have h1 := hmem p hp
    have h2 := hmem q hq
    rw [hpq] at h1
    exact Prod.ext (actIdx_inj A p.1 q.1 q.2 h1 h2) hpq
  have hr : ∀ p ∈ mkActIdx A 0 [], p.2 % 2 = 0 ∧
      p.2 + 1 < (List.replicate (A.length * 2) entry.zero).length := by
    intro p hp
    obtain ⟨-, j, hj, e⟩ := actIdx_spec A p.1 p.2 (hmem p hp)
    have hj1 : j < A.length := (List.getElem?_eq_some_iff.mp hj).1
    simp only [List.length_replicate]
    omega
  obtain ⟨s1, s2, -, s4⟩ := mkBuffer_spec _ _ hv hr
  refine ⟨by simpa using s1, ?_, ?_⟩
  · intro v hv1
    obtain ⟨i, hi, hiv⟩ := List.getElem_of_mem hv1
    have h1 := s4 i
    rw [List.getElem?_eq_getElem hi, hiv] at h1
    have hi2 : i < (List.replicate (A.length * 2) entry.zero).length := by rw [← s1]; exact hi
    rw [List.getElem?_eq_getElem hi2, List.getElem_replicate] at h1
    simp only [Option.map_some', Option.some.injEq, Prod.mk.injEq] at h1
    exact ⟨h1.2, h1.1⟩
  · intro a idx h
    exact s2 (a, idx) ((mapGet_iff_mem _ hk a idx).mp h)

/-! ## `shrink`: one iteration -/

theorem sameDay_iff (tz : Int → Int) (a b : Time) :
    sameDay tz a b = true ↔ dayOf tz a = dayOf tz b := by
  unfold sameDay dayOf Time.Date Time.Day Time.Month Time.Year
  constructor
  · intro h
    split_ifs at h with h1
    · obtain ⟨h2, h3, h4⟩ := h1
      simp only [Prod.mk.injEq]
      exact ⟨h4, h3, h2⟩
  · intro h
    simp only [Prod.mk.injEq] at h
    rw [if_pos ⟨h.2.2, h.2.1, h.1⟩]

theorem shrinkStep_phases (tz : Int → Int) (m : List (String × Nat)) (s : ShrinkAcc)
    (e : entry) : shrinkStep tz m s e = accPhase m (flushPhase tz s e) e := by
  unfold shrinkStep accPhase flushPhase
  by_cases h : sameDay tz s.this e.t = true
  · simp only [h, Bool.not_true, Bool.false_eq_true, if_false, if_true]
  · simp only [Bool.not_eq_true] at h
    simp only [h, Bool.not_false, if_true, Bool.false_eq_true, if_false]

theorem flushPhase_day (tz : Int → Int) (s : ShrinkAcc) (e : entry) :
    dayOf tz (flushPhase tz s e).this = dayOf tz e.t := by
  unfold flushPhase
  by_cases h : sameDay tz s.this e.t = true
  · rw [if_pos h]
    exact (sameDay_iff tz _ _).mp h
  · rw [if_neg h]

theorem accumulate_get (buf : List entry) (idx : Nat) (e : entry) (i : Nat) :
    (accumulate buf idx e)[i]? =
      if idx = i then (buf[i]?).map (fun v : entry => { v with t := e.t, d := add64 v.d e.d })
      else buf[i]? := by
  unfold accumulate
  rw [List.getElem?_modify]
  by_cases h : idx = i
  · simp [h]
  · simp only [h, if_false]
    cases buf[i]? <;> rfl

theorem zero_get (buf : List entry) (i : Nat) :
    (zero buf)[i]? = (buf[i]?).map (fun v : entry => { v with t := Time.zero, d := 0 }) := by
  simp [zero, List.getElem?_map]

theorem labelled_zero (m : List (String × Nat)) (buf : List entry) (h : Labelled m buf) :
    Labelled m (zero buf) := by
  intro a idx hg
  obtain ⟨v, w, h1, h2, h3, h4, h5, h6⟩ := h a idx hg
  refine ⟨{ v with t := Time.zero, d := 0 }, { w with t := Time.zero, d := 0 }, ?_, h2, h3, ?_,
    h5, h6⟩
  · rw [zero_get, h1]; rfl
  · rw [zero_get, h4]; rfl

theorem labelled_accumulate (m : List (String × Nat)) (buf : List entry) (idx : Nat) (e : entry)
    (h : Labelled m buf) : Labelled m (accumulate buf idx e) := by
  intro a i hg
  obtain ⟨v, w, h1, h2, h3, h4, h5, h6⟩ := h a i hg
  simp only [accumulate_get, h1, h4]
  refine ⟨if idx = i then { v with t := e.t, d := add64 v.d e.d } else v,
    if idx = i + 1 then { w with t := e.t, d := add64 w.d e.d } else w, ?_, ?_, ?_, ?_, ?_, ?_⟩
  all_goals split_ifs <;> first | rfl | assumption

/-! ## `shrink`: what every state of the loop satisfies -/

theorem mem_zero (buf : List entry) (v : entry) (h : v ∈ zero buf) : v.d = 0 := by
  simp only [zero, List.mem_map] at h
  obtain ⟨u, -, hu⟩ := h
  rw [← hu]

theorem canon_mem (A : List String) (i : Nat) (v : entry) (h : Canon (actIdxOf A) i v) :
    (v.typ = .working ∨ v.typ = .resting) ∧ v.a ∈ A := by
  rcases h with ⟨h1, h2⟩ | ⟨h1, j, h2, -⟩
  · exact ⟨Or.inl h1, (actIdx_spec A v.a i h2).1⟩
  · exact ⟨Or.inr h1, (actIdx_spec A v.a j h2).1⟩

theorem sinv_init (tz : Int → Int) (A : List String) :
    SInv tz A [] ⟨Time.zero, buffer0 A, []⟩ := by
  obtain ⟨-, h2, h3⟩ := buffer0_spec A
  refine ⟨h3, ?_, ?_, ?_, ?_⟩
  · intro v hv hd
    exact absurd (h2 v hv).1 hd
  · intro i v hv hd
    exact absurd (h2 v (List.getElem?_mem hv)).1 hd
  · intro v hv
    simp at hv
  · intro e he
    simp at he

theorem sinv_flush (tz : Int → Int) (A : List String) (p : List entry) (s : ShrinkAcc)
    (e : entry) (h : SInv tz A p s) :
    Labelled (actIdxOf A) (flushPhase tz s e).buffer ∧
    (∀ v ∈ (flushPhase tz s e).buffer, v.d ≠ 0 →
      dayOf tz v.t = dayOf tz e.t ∧ ∃ e1 ∈ p, dayOf tz e1.t = dayOf tz v.t) ∧
    (∀ (i : Nat) (v : entry), (flushPhase tz s e).buffer[i]? = some v → v.d ≠ 0 →
      Canon (actIdxOf A) i v) ∧
    (∀ v ∈ (flushPhase tz s e).out, (v.typ = .working ∨ v.typ = .resting) ∧ v.a ∈ A ∧
      0 < v.d ∧ ∃ e1 ∈ p, dayOf tz e1.t = dayOf tz v.t) := by
  obtain ⟨s1, s2, s3, s4, -⟩ := h
  unfold flushPhase
  by_cases hs : sameDay tz s.this e.t = true
  · rw [if_pos hs]
    have hd := (sameDay_iff tz _ _).mp hs
    refine ⟨s1, ?_, s3, s4⟩
    intro v hv hne
    obtain ⟨a1, a2⟩ := s2 v hv hne
    exact ⟨a1.trans hd, a2⟩
  · rw [if_neg hs]
    refine ⟨labelled_zero _ _ s1, ?_, ?_, ?_⟩
    · intro v hv hne
      exact absurd (mem_zero _ v hv) hne
    · intro i v hv hne
      exact absurd (mem_zero _ v (List.getElem?_mem hv)) hne
    · intro v hv
      rcases List.mem_append.mp hv with h1 | h1
      · exact s4 v h1
      · obtain ⟨hb, hpos⟩ := List.mem_filter.mp h1
        have hpos1 : 0 < v.d := by simpa using hpos
        have hne : v.d ≠ 0 := by omega
        obtain ⟨i, hi⟩ := List.mem_iff_getElem?.mp hb
        obtain ⟨c1, c2⟩ := canon_mem A i v (s3 i v hi hne)
        exact ⟨c1, c2, hpos1, (s2 v hb hne).2⟩

theorem sinv_step (tz : Int → Int) (A : List String) (p : List entry) (s : ShrinkAcc)
    (e : entry) (h : SInv tz A p s) :
    SInv tz A (p ++ [e]) (shrinkStep tz (actIdxOf A) s e) := by
  obtain ⟨f1, f2, f3, f4⟩ := sinv_flush tz A p s e h
  have hday := flushPhase_day tz s e
  rw [shrinkStep_phases]
  generalize flushPhase tz s e = s1 at f1 f2 f3 f4 hday
  have hext : ∀ v : entry, (∃ e1 ∈ p, dayOf tz e1.t = dayOf tz v.t) →
      ∃ e1 ∈ p ++ [e], dayOf tz e1.t = dayOf tz v.t := by
    rintro v ⟨e1, h1, h2⟩
    exact ⟨e1, List.mem_append_left _ h1, h2⟩
  have hlast : ∀ x, (p ++ [e]).getLast? = some x → x = e := by
    intro x hx
    rw [List.getLast?_concat] at hx
    exact (Option.some.inj hx).symm
  have hsame : SInv tz A (p ++ [e]) s1 := by
    refine ⟨f1, ?_, f3, ?_, ?_⟩
    · intro v hv hne
      obtain ⟨a1, a2⟩ := f2 v hv hne
      exact ⟨a1.trans hday.symm, hext v a2⟩
    · intro v hv
      obtain ⟨a1, a2, a3, a4⟩ := f4 v hv
      exact ⟨a1, a2, a3, hext v a4⟩
    · intro x hx
      rw [hlast x hx]
      exact hday
  unfold accPhase
  by_cases hk : e.typ ≠ .working ∧ e.typ ≠ .resting
  · rw [if_pos hk]
    exact hsame
  · rw [if_neg hk]
    cases hg : mapGet (actIdxOf A) e.a with
    | none => exact hsame
    | some idx =>
      simp only
      obtain ⟨v0, w0, l1, l2, l3, l4, l5, l6⟩ := f1 e.a idx hg
      generalize hidx : (if e.typ = .resting then idx + 1 else idx) = idx1
      refine ⟨labelled_accumulate _ _ _ _ f1, ?_, ?_, hsame.2.2.2.1, hsame.2.2.2.2⟩
      · intro v hv hne
        obtain ⟨i, hi⟩ := List.mem_iff_getElem?.mp hv
        rw [accumulate_get] at hi
        by_cases hii : idx1 = i
        · rw [if_pos hii] at hi
          cases hb : s1.buffer[i]? with
          | none => rw [hb] at hi; simp at hi
          | some u =>
            rw [hb] at hi
            simp only [Option.map_some', Option.some.injEq] at hi
            rw [← hi]
            exact ⟨hday.symm, e, by simp, rfl⟩
        · rw [if_neg hii] at hi
          exact hsame.2.1 v (List.getElem?_mem hi) hne
      · intro i v hi hne
        rw [accumulate_get] at hi
        by_cases hii : idx1 = i
        · rw [if_pos hii] at hi
          cases hb : s1.buffer[i]? with
          | none => rw [hb] at hi; simp at hi
          | some u =>
            rw [hb] at hi
            simp only [Option.map_some', Option.some.injEq] at hi
            rw [← hi]
            by_cases hr : e.typ = .resting
            · rw [if_pos hr] at hidx
              rw [← hii, ← hidx, l4] at hb
              have hu : w0 = u := Option.some.inj hb
              right
              refine ⟨by rw [← hu]; exact l6, idx, ?_, by omega⟩
              show mapGet (actIdxOf A) u.a = some idx
              rw [← hu, l5]
              exact hg
            · rw [if_neg hr] at hidx
              rw [← hii, ← hidx, l1] at hb
              have hu : v0 = u := Option.some.inj hb
              left
              refine ⟨by rw [← hu]; exact l3, ?_⟩
              show mapGet (actIdxOf A) u.a = some i
              rw [← hu, l2, ← hii, ← hidx]
              exact hg
        · rw [if_neg hii] at hi
          exact f3 i v hi hne

theorem sinv_compacted (tz : Int → Int) (A : List String) (p : List entry) :
    SInv tz A p (compacted tz A p) := by
  induction p using List.reverseRecOn with
  | nil => exact sinv_init tz A
  | append_singleton p e ih =>
    have h := sinv_step tz A p (compacted tz A p) e ih
    unfold compacted at h ⊢
    rw [List.foldl_append]
    exact h

/-! ## `shrink` on a loaded logger -/

theorem shrink_loaded (fuel : Nat) (env : GoEnv) (disk : Disk) (l : logger) (A : List String)
    (hl : l.bread = true) (hw : disk.writable = true) :
    (l.shrink fuel env disk A).map (Except.map Shrunk.written) =
      if fuel ≤ l.all.length then none
      else if sameDay env.tz (compacted env.tz A l.all).this Time.zero then none
      else some (.ok (shrinkEnd (compacted env.tz A l.all))) := by
  obtain ⟨file, writable⟩ := disk
  simp only at hw
  subst hw
  have h := shrinkLoop_loaded env ⟨some [], true⟩ (mkActIdx A 0 [])
    l.buffered l.session fuel l.reset
    ⟨Time.zero, mkBuffer (mkActIdx A 0 []) (List.replicate (A.length * 2) entry.zero), []⟩
    (reset_loaded l hl)
  rw [reset_fwd] at h
  unfold compacted actIdxOf buffer0 actIdxOf
  rw [← h]
  unfold logger.shrink
  simp only [Bool.not_true, Bool.false_eq_true, if_false]
  generalize shrinkLoop env ⟨some [], true⟩ (mkActIdx A 0 []) fuel l.reset
      ⟨Time.zero, mkBuffer (mkActIdx A 0 []) (List.replicate (A.length * 2) entry.zero), []⟩ = X
  cases X with
  | none => rfl
  | some x =>
    cases x with
    | error p => rfl
    | ok y => rfl

/-- When `shrink` returns on a loaded logger: the fuel sufficed, the day of
the last run is not the day of the zero time, and what was written is the
output of the loop on `committed ++ session`. -/
theorem shrink_returns (fuel : Nat) (env : GoEnv) (disk : Disk) (l : logger) (A : List String)
    (r : Shrunk) (hl : l.bread = true) (hw : disk.writable = true)
    (hr : l.shrink fuel env disk A = some (.ok r)) :
    r.written = shrinkEnd (compacted env.tz A l.all) ∧
      sameDay env.tz (compacted env.tz A l.all).this Time.zero = false ∧
      l.all.length < fuel := by
  have h := shrink_loaded fuel env disk l A hl hw
  rw [hr] at h
  simp only [Option.map_some', Except.map] at h
  by_cases h1 : fuel ≤ l.all.length
  · rw [if_pos h1] at h; exact absurd h (by simp)
  · rw [if_neg h1] at h
    by_cases h2 : sameDay env.tz (compacted env.tz A l.all).this Time.zero = true
    · rw [if_pos h2] at h; exact absurd h (by simp)
    · rw [if_neg h2] at h
      simp only [Option.some.injEq, Except.ok.injEq] at h
      exact ⟨h, by simpa using h2, by omega⟩

theorem shrink_completes (fuel : Nat) (env : GoEnv) (disk : Disk) (l : logger)
    (A : List String) (hl : l.bread = true) (hw : disk.writable = true)
    (hf : l.all.length < fuel)
    (hz : sameDay env.tz (compacted env.tz A l.all).this Time.zero = false) :
    ∃ r, l.shrink fuel env disk A = some (.ok r) ∧
      r.written = shrinkEnd (compacted env.tz A l.all) := by
  have h := shrink_loaded fuel env disk l A hl hw
  rw [if_neg (by omega), hz] at h
  simp only [Bool.false_eq_true, if_false] at h
  cases hs : l.shrink fuel env disk A with
  | none => rw [hs] at h; simp at h
  | some x =>
    cases x with
    | error p => rw [hs] at h; simp [Except.map] at h
    | ok r =>
      rw [hs] at h
      simp only [Option.map_some', Except.map, Option.some.injEq, Except.ok.injEq] at h
      exact ⟨r, rfl, h⟩

/-! ## `shrink`: one entry per bucket -/

theorem contig_front (tz : Int → Int) (p : List entry) (e : entry)
    (h : DaysContiguous tz (p ++ [e])) : DaysContiguous tz p := by
  intro i hi k hk hd
  have h1 := h i (by simp; omega) k hk
  unfold daysOf at h1 hd ⊢
  simp only [List.map_append] at h1
  rw [List.getElem?_append_left (by simp; omega), List.getElem?_append_left (by simp; omega),
    List.getElem?_append_left (by simp; omega)] at h1
  exact h1 hd

theorem contig_last (tz : Int → Int) (p : List entry) (e e1 x : entry)
    (h : DaysContiguous tz (p ++ [e])) (h1 : e1 ∈ p) (hd : dayOf tz e1.t = dayOf tz e.t)
    (hx : p.getLast? = some x) : dayOf tz x.t = dayOf tz e.t := by
  obtain ⟨k, hk, hke⟩ := List.getElem_of_mem h1
  have hp : 0 < p.length := by omega
  have h2 := h p.length (by simp) k hk
  unfold daysOf at h2
  simp only [List.map_append, List.map_cons, List.map_nil] at h2
  rw [List.getElem?_append_left (by simp; omega),
    List.getElem?_append_right (by simp), List.getElem?_append_left (by simp; omega)] at h2
  simp only [List.length_map, Nat.sub_self, List.getElem?_cons_zero, List.getElem?_map] at h2
  rw [List.getElem?_eq_getElem hk, hke] at h2
  rw [List.getLast?_eq_getElem?] at hx
  rw [hx] at h2
  simp only [Option.map_some', Option.some.injEq] at h2
  exact h2 hd

theorem filter_length_le_one {α : Type} (P : α → Bool) :
    ∀ (l : List α), (∀ (i j : Nat) (v w : α), l[i]? = some v → l[j]? = some w →
      P v = true → P w = true → i = j) → (l.filter P).length ≤ 1 := by
  intro l
  induction l with
  | nil => intro _; simp
  | cons x xs ih =>
    intro h
    have hxs : ∀ (i j : Nat) (v w : α), xs[i]? = some v → xs[j]? = some w →
        P v = true → P w = true → i = j := by
      intro i j v w hi hj hv hw
      have := h (i + 1) (j + 1) v w (by simpa using hi) (by simpa using hj) hv hw
      omega
    by_cases hx : P x = true
    · have hnone : xs.filter P = [] := by
        rw [List.filter_eq_nil_iff]
        intro w hw hpw
        obtain ⟨j, hj⟩ := List.mem_iff_getElem?.mp hw
        have := h 0 (j + 1) x w (by simp) (by simpa using hj) hx hpw
        omega
      simp [List.filter_cons, hx, hnone]
    · simp only [List.filter_cons, hx, Bool.false_eq_true, if_false]
      exact ih hxs

theorem canon_unique (m : List (String × Nat)) (i j : Nat) (v w : entry)
    (hv : Canon m i v) (hw : Canon m j w) (ha : v.a = w.a) (ht : v.typ = w.typ) : i = j := by
  rcases hv with ⟨v1, v2⟩ | ⟨v1, x, v2, v3⟩ <;> rcases hw with ⟨w1, w2⟩ | ⟨w1, y, w2, w3⟩
  · rw [ha, w2] at v2
    exact (Option.some.inj v2).symm
  · rw [ht, w1] at v1
    exact absurd v1 (by decide)
  · rw [ht, w1] at v1
    exact absurd v1 (by decide)
  · rw [ha, w2] at v2
    have := Option.some.inj v2
    omega

/-- The entries that a flush writes hold at most one entry per activity and
kind, and all of them are dated on the day of the run. -/
theorem block_bucket (tz : Int → Int) (A : List String) (p : List entry) (s : ShrinkAcc)
    (h : SInv tz A p s) (a : String) (k : state) (dy : Int × Nat × Int) :
    (bucket tz a k dy (s.buffer.filter (fun v => v.d > 0))).length ≤ 1 ∧
    (dy ≠ dayOf tz s.this → bucket tz a k dy (s.buffer.filter (fun v => v.d > 0)) = []) := by
  obtain ⟨-, s2, s3, -, -⟩ := h
  unfold bucket
  rw [List.filter_filter]
  constructor
  · apply filter_length_le_one
    intro i j v w hi hj hv hw
    simp only [Bool.and_eq_true, decide_eq_true_eq] at hv hw
    exact canon_unique _ i j v w (s3 i v hi (by omega)) (s3 j w hj (by omega))
      (hv.1.1.trans hw.1.1.symm) (hv.1.2.1.trans hw.1.2.1.symm)
  · intro hne
    rw [List.filter_eq_nil_iff]
    intro v hv hp
    simp only [Bool.and_eq_true, decide_eq_true_eq] at hp
    have := (s2 v hv (by omega)).1
    exact hne (hp.1.2.2.symm.trans this)

theorem bucket_append (tz : Int → Int) (a : String) (k : state) (dy : Int × Nat × Int)
    (xs ys : List entry) : bucket tz a k dy (xs ++ ys) = bucket tz a k dy xs ++ bucket tz a k dy ys := by
  simp [bucket]

theorem uinv_end (tz : Int → Int) (A : List String) (p : List entry) (s : ShrinkAcc)
    (h : SInv tz A p s) (u : UInv tz s) (a : String) (k : state) (dy : Int × Nat × Int) :
    (bucket tz a k dy (shrinkEnd s)).length ≤ 1 := by
  obtain ⟨b1, b2⟩ := block_bucket tz A p s h a k dy
  unfold shrinkEnd
  rw [bucket_append, List.length_append]
  by_cases hd : dy = dayOf tz s.this
  · have : bucket tz a k dy s.out = [] := by
      unfold bucket
      rw [List.filter_eq_nil_iff]
      intro v hv hp
      simp only [decide_eq_true_eq] at hp
      exact u.1 v hv (hp.2.2.trans hd)
    rw [this]
    simpa using b1
  · rw [b2 hd]
    simpa using u.2 a k dy

theorem accPhase_out (m : List (String × Nat)) (s : ShrinkAcc) (e : entry) :
    (accPhase m s e).out = s.out ∧ (accPhase m s e).this = s.this := by
  unfold accPhase
  by_cases hk : e.typ ≠ .working ∧ e.typ ≠ .resting
  · rw [if_pos hk]; exact ⟨rfl, rfl⟩
  · rw [if_neg hk]
    cases mapGet m e.a <;> exact ⟨rfl, rfl⟩

theorem uinv_step (tz : Int → Int) (A : List String) (p : List entry) (s : ShrinkAcc)
    (e : entry) (h : SInv tz A p s) (u : UInv tz s) (hc : DaysContiguous tz (p ++ [e])) :
    UInv tz (shrinkStep tz (actIdxOf A) s e) := by
  rw [shrinkStep_phases]
  obtain ⟨o1, o2⟩ := accPhase_out (actIdxOf A) (flushPhase tz s e) e
  unfold UInv
  rw [o1, o2]
  unfold flushPhase
  by_cases hs : sameDay tz s.this e.t = true
  · rw [if_pos hs]
    exact u
  · rw [if_neg hs]
    refine ⟨?_, fun a k dy => uinv_end tz A p s h u a k dy⟩
    intro v hv heq
    have hex : ∃ e1 ∈ p, dayOf tz e1.t = dayOf tz v.t := by
      rcases List.mem_append.mp hv with h1 | h1
      · exact (h.2.2.2.1 v h1).2.2.2
      · obtain ⟨hb, hpos⟩ := List.mem_filter.mp h1
        have hpos1 : 0 < v.d := by simpa using hpos
        exact (h.2.1 v hb (by omega)).2
    obtain ⟨e1, he1, hd1⟩ := hex
    cases hx : p.getLast? with
    | none =>
      rw [List.getLast?_eq_none_iff] at hx
      rw [hx] at he1
      simp at he1
    | some x =>
      have h1 := contig_last tz p e e1 x hc he1 (hd1.trans heq) hx
      have h2 := h.2.2.2.2 x hx
      exact hs ((sameDay_iff tz _ _).mpr (h2.trans h1))

theorem uinv_compacted (tz : Int → Int) (A : List String) (p : List entry)
    (hc : DaysContiguous tz p) : UInv tz (compacted tz A p) := by
  induction p using List.reverseRecOn with
  | nil =>
    refine ⟨fun v hv => ?_, fun a k dy => ?_⟩
    · simp [compacted] at hv
    · simp [compacted, bucket]
  | append_singleton p e ih =>
    have h := uinv_step tz A p (compacted tz A p) e (sinv_compacted tz A p)
      (ih (contig_front tz p e hc)) hc
    unfold compacted at h ⊢
    rw [List.foldl_append]
    exact h

/-- One entry per bucket when the days are contiguous.  For a
logger whose committed entries are loaded and a sequence `committed ++ session`
in which the entries of every calendar day are consecutive, whenever `shrink`
returns, the entries it wrote hold, for every activity, kind and calendar day,
at most one entry, and all of them are Work or Break entries of activities of
the list passed to `shrink`. -/
theorem shrink_one_entry_per_bucket (fuel : Nat) (env : GoEnv) (disk : Disk) (l : logger)
    (A : List String) (r : Shrunk) (hl : l.bread = true)
    (hc : DaysContiguous env.tz (l.buffered ++ l.session))
    (hr : l.shrink fuel env disk A = some (.ok r)) :
    (∀ a k dy, (bucket env.tz a k dy r.written).length ≤ 1) ∧
    ∀ v ∈ r.written, (v.typ = .working ∨ v.typ = .resting) ∧ v.a ∈ A := by
  by_cases hw : disk.writable = true
  · obtain ⟨h1, -, -⟩ := shrink_returns fuel env disk l A r hl hw hr
    have hs := sinv_compacted env.tz A l.all
    have hu := uinv_compacted env.tz A l.all hc
    rw [h1]
    refine ⟨fun a k dy => uinv_end env.tz A l.all _ hs hu a k dy, fun v hv => ?_⟩
    unfold shrinkEnd at hv
    rcases List.mem_append.mp hv with h2 | h2
    · exact ⟨(hs.2.2.2.1 v h2).1, (hs.2.2.2.1 v h2).2.1⟩
    · obtain ⟨hb, hpos⟩ := List.mem_filter.mp h2
      have hpos1 : 0 < v.d := by simpa using hpos
      obtain ⟨i, hi⟩ := List.mem_iff_getElem?.mp hb
      exact canon_mem A i v (hs.2.2.1 i v hi (by omega))
  · have hr1 : r.written = [] := by
      unfold logger.shrink at hr
      simp only [hw, Bool.not_false, if_true, Bool.false_eq_true, Option.some.injEq,
        Except.ok.injEq] at hr
      rw [← hr]
    rw [hr1]
    simp [bucket]

/-- Ten minutes of work on Monday, five minutes dated
on Sunday, twenty more minutes on Monday.  Every change of day flushes the
buffer, so `shrink` writes two Work entries of "A" for Monday. -/
theorem shrink_writes_bucket_twice :
    ((loaded [mkEntry "A" .working mon15 10, mkEntry "A" .working sun14 5,
        mkEntry "A" .working mon15 20] []).shrink 10 envUTC noFile ["A"]).map
      (Except.map (fun r => bucket envUTC.tz "A" .working (dayOf envUTC.tz mon15) r.written)) =
    some (.ok [mkEntry "A" .working mon15 10, mkEntry "A" .working mon15 20]) := by
  rfl

/-- An instance of `shrink_one_entry_per_bucket`: a Sunday followed by a
Monday. -/
theorem shrink_one_entry_per_bucket_witness :
    (loaded twoDays []).bread = true ∧ DaysContiguous envUTC.tz (twoDays ++ []) ∧
    (loaded twoDays []).shrink 10 envUTC noFile ["A"] = some (.ok twoDaysResult) ∧
    (∀ a k dy, (bucket envUTC.tz a k dy twoDaysResult.written).length ≤ 1) ∧
    ∀ v ∈ twoDaysResult.written, (v.typ = .working ∨ v.typ = .resting) ∧ v.a ∈ ["A"] :=
  ⟨rfl, by decide, rfl,
    shrink_one_entry_per_bucket 10 envUTC noFile (loaded twoDays []) ["A"] twoDaysResult rfl
      (by decide) rfl⟩

/-! ## `shrink`: daily totals -/

theorem bucketSum_cons (tz : Int → Int) (a : String) (k : state) (dy : Int × Nat × Int)
    (e : entry) (es : List entry) :
    bucketSum tz a k dy (e :: es) =
      (if e.a = a ∧ e.typ = k ∧ dayOf tz e.t = dy then e.d else 0) + bucketSum tz a k dy es := by
  unfold bucketSum
  by_cases h : e.a = a ∧ e.typ = k ∧ dayOf tz e.t = dy
  · simp [List.filter_cons, h]
  · simp only [List.filter_cons, h, decide_False, if_false, zero_add]
    rfl

theorem bucketSum_append (tz : Int → Int) (a : String) (k : state) (dy : Int × Nat × Int)
    (xs ys : List entry) :
    bucketSum tz a k dy (xs ++ ys) = bucketSum tz a k dy xs + bucketSum tz a k dy ys := by
  simp [bucketSum]

theorem bucketSum_nonneg (tz : Int → Int) (a : String) (k : state) (dy : Int × Nat × Int)
    (es : List entry) (h : ∀ e ∈ es, 0 ≤ e.d) : 0 ≤ bucketSum tz a k dy es := by
  induction es with
  | nil => simp [bucketSum]
  | cons e es ih =>
    rw [bucketSum_cons]
    have h1 := h e (List.mem_cons_self _ _)
    have h2 := ih (fun x hx => h x (List.mem_cons_of_mem _ hx))
    split_ifs <;> omega

theorem labelSum_cons (a : String) (k : state) (e : entry) (es : List entry) :
    labelSum a k (e :: es) = (if e.a = a ∧ e.typ = k then e.d else 0) + labelSum a k es := by
  unfold labelSum
  by_cases h : e.a = a ∧ e.typ = k
  · simp [List.filter_cons, h]
  · simp only [List.filter_cons, h, decide_False, if_false, zero_add]
    rfl

theorem labelSum_zero (a : String) (k : state) (buf : List entry) :
    labelSum a k (zero buf) = 0 := by
  induction buf with
  | nil => simp [zero, labelSum]
  | cons v vs ih =>
    have : zero (v :: vs) = { v with t := Time.zero, d := 0 } :: zero vs := rfl
    rw [this, labelSum_cons, ih]
    split_ifs <;> rfl

theorem labelSum_accumulate (a : String) (k : state) (e : entry) :
    ∀ (buf : List entry) (i : Nat) (v : entry), buf[i]? = some v →
      labelSum a k (accumulate buf i e) =
        labelSum a k buf + (if v.a = a ∧ v.typ = k then add64 v.d e.d - v.d else 0) := by
  intro buf
  induction buf with
  | nil => intro i v h; simp at h
  | cons u us ih =>
    intro i v h
    cases i with
    | zero =>
      simp only [List.getElem?_cons_zero, Option.some.injEq] at h
      subst h
      have : accumulate (u :: us) 0 e = { u with t := e.t, d := add64 u.d e.d } :: us := rfl
      rw [this, labelSum_cons, labelSum_cons]
      simp only
      split_ifs <;> omega
    | succ i =>
      simp only [List.getElem?_cons_succ] at h
      have : accumulate (u :: us) (i + 1) e = u :: accumulate us i e := rfl
      rw [this, labelSum_cons, labelSum_cons, ih i v h]
      omega

theorem le_labelSum :
    ∀ (buf : List entry) (i : Nat) (v : entry), (∀ u ∈ buf, 0 ≤ u.d) → buf[i]? = some v →
      v.d ≤ labelSum v.a v.typ buf := by
  intro buf
  induction buf with
  | nil => intro i v _ h; simp at h
  | cons u us ih =>
    intro i v hn h
    have hn1 : ∀ x ∈ us, 0 ≤ x.d := fun x hx => hn x (List.mem_cons_of_mem _ hx)
    have hu := hn u (List.mem_cons_self _ _)
    rw [labelSum_cons]
    cases i with
    | zero =>
      simp only [List.getElem?_cons_zero, Option.some.injEq] at h
      subst h
      have h0 : 0 ≤ labelSum u.a u.typ us := by
        unfold labelSum
        apply List.sum_nonneg
        intro x hx
        obtain ⟨y, hy, rfl⟩ := List.mem_map.mp hx
        exact hn1 y (List.mem_filter.mp hy).1
      simp only [and_self, if_true]
      omega
    | succ i =>
      simp only [List.getElem?_cons_succ] at h
      have := ih i v hn1 h
      split_ifs <;> omega

/-- The durations that a flush writes for an activity, a kind and a day: the
content of the buffer when the day is the day of the run, nothing otherwise. -/
theorem blockSum (tz : Int → Int) (a : String) (k : state) (dy : Int × Nat × Int)
    (this : Time) :
    ∀ (buf : List entry), (∀ v ∈ buf, 0 ≤ v.d) →
      (∀ v ∈ buf, v.d ≠ 0 → dayOf tz v.t = dayOf tz this) →
      bucketSum tz a k dy (buf.filter (fun v => v.d > 0)) =
        if dy = dayOf tz this then labelSum a k buf else 0 := by
  intro buf
  induction buf with
  | nil => intro _ _; simp [bucketSum, labelSum]
  | cons v vs ih =>
    intro hn hd
    have hn1 : ∀ x ∈ vs, 0 ≤ x.d := fun x hx => hn x (List.mem_cons_of_mem _ hx)
    have hd1 : ∀ x ∈ vs, x.d ≠ 0 → dayOf tz x.t = dayOf tz this :=
      fun x hx => hd x (List.mem_cons_of_mem _ hx)
    have hv := hn v (List.mem_cons_self _ _)
    have ih1 := ih hn1 hd1
    rw [labelSum_cons]
    by_cases hpos : v.d > 0
    · have hday := hd v (List.mem_cons_self _ _) (by omega)
      simp only [List.filter_cons, hpos, decide_True, if_true]
      rw [bucketSum_cons, ih1, hday]
      by_cases h1 : dy = dayOf tz this
      · subst h1
        simp only [and_true, if_true]
      · have h2 : ¬ dayOf tz this = dy := fun h => h1 h.symm
        simp only [h1, h2, and_false, if_false, add_zero]
    · have hz : v.d = 0 := by omega
      simp only [List.filter_cons, hpos, decide_False, Bool.false_eq_true, if_false]
      rw [ih1, hz]
      split_ifs <;> omega

theorem qinv_flush (tz : Int → Int) (A : List String) (p : List entry) (s : ShrinkAcc)
    (e : entry) (h : SInv tz A p s) (q : QInv tz A p s) : QInv tz A p (flushPhase tz s e) := by
  obtain ⟨q1, q2, q3⟩ := q
  unfold flushPhase
  by_cases hs : sameDay tz s.this e.t = true
  · rw [if_pos hs]
    exact ⟨q1, q2, q3⟩
  · rw [if_neg hs]
    refine ⟨?_, ?_, ?_⟩
    · intro v hv
      rw [mem_zero _ v hv]
      exact ⟨le_refl _, by decide⟩
    · intro v hv
      rcases List.mem_append.mp hv with h1 | h1
      · exact q2 v h1
      · exact q1 v (List.mem_filter.mp h1).1
    · intro a k dy ha hk
      have hb := blockSum tz a k dy s.this s.buffer (fun v hv => (q1 v hv).1)
        (fun v hv hne => (h.2.1 v hv hne).1)
      simp only
      rw [bucketSum_append, hb, labelSum_zero, ← q3 a k dy ha hk]
      simp

theorem add64_exact (x y : Int) (h1 : 0 ≤ x) (h2 : 0 ≤ y) (h3 : x + y ≤ maxDuration) :
    add64 x y = x + y := by
  unfold add64
  unfold maxDuration at h3
  apply wrap64_id <;> norm_num at h3 ⊢ <;> omega

theorem qinv_step (tz : Int → Int) (A : List String) (p : List entry) (s : ShrinkAcc)
    (e : entry) (h : SInv tz A p s) (q : QInv tz A p s) (he : 0 ≤ e.d ∧ e.d % Second = 0)
    (hfit : ∀ a k dy, bucketSum tz a k dy (p ++ [e]) ≤ maxDuration) :
    QInv tz A (p ++ [e]) (shrinkStep tz (actIdxOf A) s e) := by
  obtain ⟨f1, -, -, -⟩ := sinv_flush tz A p s e h
  obtain ⟨q1, q2, q3⟩ := qinv_flush tz A p s e h q
  have hday := flushPhase_day tz s e
  rw [shrinkStep_phases]
  generalize flushPhase tz s e = s1 at f1 q1 q2 q3 hday
  have hsnoc : ∀ a k dy, bucketSum tz a k dy (p ++ [e]) =
      bucketSum tz a k dy p + (if e.a = a ∧ e.typ = k ∧ dayOf tz e.t = dy then e.d else 0) := by
    intro a k dy
    rw [bucketSum_append, bucketSum_cons]
    simp [bucketSum]
  unfold accPhase
  by_cases hk : e.typ ≠ .working ∧ e.typ ≠ .resting
  · rw [if_pos hk]
    refine ⟨q1, q2, fun a k dy ha hkk => ?_⟩
    rw [hsnoc, q3 a k dy ha hkk]
    have : ¬ (e.a = a ∧ e.typ = k ∧ dayOf tz e.t = dy) := by
      rintro ⟨-, h2, -⟩
      rcases hkk with h3 | h3
      · exact hk.1 (h2.trans h3)
      · exact hk.2 (h2.trans h3)
    rw [if_neg this, add_zero]
  · rw [if_neg hk]
    have hk2 : e.typ = .working ∨ e.typ = .resting := by
      by_contra hc
      exact hk ⟨fun h => hc (Or.inl h), fun h => hc (Or.inr h)⟩
    cases hg : mapGet (actIdxOf A) e.a with
    | none =>
      refine ⟨q1, q2, fun a k dy ha hkk => ?_⟩
      rw [hsnoc, q3 a k dy ha hkk]
      have : ¬ (e.a = a ∧ e.typ = k ∧ dayOf tz e.t = dy) := by
        rintro ⟨h1, -, -⟩
        obtain ⟨idx, hidx⟩ := actIdx_mem A a ha
        rw [← h1] at hidx
        unfold actIdxOf at hg
        rw [hg] at hidx
        exact absurd hidx (by simp)
      rw [if_neg this, add_zero]
    | some idx =>
      simp only
      obtain ⟨v0, w0, l1, l2, l3, l4, l5, l6⟩ := f1 e.a idx hg
      have hslot : ∃ v, s1.buffer[if e.typ = .resting then idx + 1 else idx]? = some v ∧
          v.a = e.a ∧ v.typ = e.typ := by
        by_cases hr : e.typ = .resting
        · rw [if_pos hr]; exact ⟨w0, l4, l5, l6.trans hr.symm⟩
        · rw [if_neg hr]
          have hw : e.typ = .working := by
            rcases hk2 with h1 | h1
            · exact h1
            · exact absurd h1 hr
          exact ⟨v0, l1, l2, l3.trans hw.symm⟩
      generalize (if e.typ = .resting then idx + 1 else idx) = idx1 at hslot
      obtain ⟨v, hv, hva, hvt⟩ := hslot
      have hin : e.a ∈ A := (actIdx_spec A e.a idx hg).1
      have hvn : 0 ≤ v.d := (q1 v (List.getElem?_mem hv)).1
      have hle : v.d ≤ labelSum e.a e.typ s1.buffer := by
        have := le_labelSum s1.buffer idx1 v (fun u hu => (q1 u hu).1) hv
        rw [hva, hvt] at this
        exact this
      have hq := q3 e.a e.typ (dayOf tz e.t) hin hk2
      rw [hday] at hq
      simp only [if_true] at hq
      have hout : 0 ≤ bucketSum tz e.a e.typ (dayOf tz e.t) s1.out :=
        bucketSum_nonneg tz _ _ _ _ (fun u hu => (q2 u hu).1)
      have hf := hfit e.a e.typ (dayOf tz e.t)
      rw [hsnoc] at hf
      simp only [and_self, if_true] at hf
      have hexact : add64 v.d e.d = v.d + e.d := add64_exact _ _ hvn he.1 (by omega)
      refine ⟨?_, q2, fun a k dy ha hkk => ?_⟩
      · intro u hu
        obtain ⟨i, hi⟩ := List.mem_iff_getElem?.mp hu
        rw [accumulate_get] at hi
        by_cases hii : idx1 = i
        · rw [if_pos hii, ← hii, hv] at hi
          simp only [Option.map_some', Option.some.injEq] at hi
          rw [← hi]
          simp only [hexact]
          have := (q1 v (List.getElem?_mem hv)).2
          have h2 := he.2
          unfold Second at this h2 ⊢
          omega
        · rw [if_neg hii] at hi
          exact q1 u (List.getElem?_mem hi)
      · rw [hsnoc, labelSum_accumulate a k e s1.buffer idx1 v hv, hva, hvt, hexact,
          ← q3 a k dy ha hkk, hday]
        by_cases hd : dy = dayOf tz e.t
        · subst hd
          simp only [if_true, and_true]
          split_ifs <;> omega
        · have hd2 : ¬ dayOf tz e.t = dy := fun h => hd h.symm
          simp only [hd, hd2, if_false, and_false, add_zero]

theorem bucketSum_prefix_le (tz : Int → Int) (a : String) (k : state) (dy : Int × Nat × Int)
    (p : List entry) (e : entry) (he : 0 ≤ e.d) :
    bucketSum tz a k dy p ≤ bucketSum tz a k dy (p ++ [e]) := by
  rw [bucketSum_append, bucketSum_cons]
  have : bucketSum tz a k dy [] = 0 := by simp [bucketSum]
  rw [this]
  split_ifs <;> omega

theorem qinv_compacted (tz : Int → Int) (A : List String) (p : List entry)
    (hsec : ∀ e ∈ p, 0 ≤ e.d ∧ e.d % Second = 0)
    (hfit : ∀ a k dy, bucketSum tz a k dy p ≤ maxDuration) :
    QInv tz A p (compacted tz A p) := by
  induction p using List.reverseRecOn with
  | nil =>
    obtain ⟨-, h2, -⟩ := buffer0_spec A
    refine ⟨fun v hv => ?_, fun v hv => ?_, fun a k dy _ _ => ?_⟩
    · rw [(h2 v hv).1]; exact ⟨le_refl _, by decide⟩
    · simp [compacted] at hv
    · have hz : labelSum a k (compacted tz A []).buffer = 0 := by
        unfold labelSum
        apply List.sum_eq_zero
        intro x hx
        obtain ⟨y, hy, rfl⟩ := List.mem_map.mp hx
        exact (h2 y (List.mem_filter.mp hy).1).1
      rw [hz]
      simp [compacted, bucketSum]
  | append_singleton p e ih =>
    have he := hsec e (by simp)
    have ih1 := ih (fun x hx => hsec x (List.mem_append_left _ hx))
      (fun a k dy => le_trans (bucketSum_prefix_le tz a k dy p e he.1) (hfit a k dy))
    have h := qinv_step tz A p (compacted tz A p) e (sinv_compacted tz A p) ih1 he hfit
    unfold compacted at h ⊢
    rw [List.foldl_append]
    exact h

theorem Round_whole (d : Int) (h1 : 0 ≤ d) (h2 : d % Second = 0) : Round d Second = d := by
  unfold Round
  have h3 : Int.tmod d Second = 0 := by
    rw [Int.tmod_eq_emod h1 (by decide)]
    exact h2
  simp only [h3]
  rw [if_neg (by decide), if_neg (by omega), if_pos (by decide)]
  omega

/-- **C4, as amended** (compaction preserves daily totals).  For a logger
whose committed entries are loaded, a log file that can be created, and a
sequence `committed ++ session` of whole-second, non-negative durations whose
total for every activity, kind and calendar day is at most the largest
`time.Duration`: whenever `shrink` returns, for every activity `a` of the list
passed to it, every kind in {Work, Break} and every calendar day, the
durations (as written, rounded to the second) of the entries written for
`(a, kind, day)` sum to the durations of the input entries for
`(a, kind, day)`. -/
theorem shrink_preserves_daily_totals (fuel : Nat) (env : GoEnv) (disk : Disk) (l : logger)
    (A : List String) (r : Shrunk) (a : String) (k : state) (dy : Int × Nat × Int)
    (hl : l.bread = true) (hw : disk.writable = true)
    (hsec : ∀ e ∈ l.buffered ++ l.session, 0 ≤ e.d ∧ e.d % Second = 0)
    (hfit : ∀ a k dy, bucketSum env.tz a k dy (l.buffered ++ l.session) ≤ maxDuration)
    (hr : l.shrink fuel env disk A = some (.ok r))
    (ha : a ∈ A) (hk : k = .working ∨ k = .resting) :
    ((bucket env.tz a k dy r.written).map (fun v => Round v.d Second)).sum =
      bucketSum env.tz a k dy (l.buffered ++ l.session) := by
  obtain ⟨h1, -, -⟩ := shrink_returns fuel env disk l A r hl hw hr
  have hs := sinv_compacted env.tz A l.all
  obtain ⟨q1, q2, q3⟩ := qinv_compacted env.tz A l.all hsec hfit
  have hwhole : ∀ v ∈ r.written, 0 ≤ v.d ∧ v.d % Second = 0 := by
    intro v hv
    rw [h1] at hv
    unfold shrinkEnd at hv
    rcases List.mem_append.mp hv with h2 | h2
    · exact q2 v h2
    · exact q1 v (List.mem_filter.mp h2).1
  have hround : (bucket env.tz a k dy r.written).map (fun v => Round v.d Second) =
      (bucket env.tz a k dy r.written).map entry.d := by
    apply List.map_congr_left
    intro v hv
    have hv1 : v ∈ r.written := (List.mem_filter.mp hv).1
    exact Round_whole v.d (hwhole v hv1).1 (hwhole v hv1).2
  rw [hround]
  change bucketSum env.tz a k dy r.written = bucketSum env.tz a k dy l.all
  rw [h1]
  unfold shrinkEnd
  rw [bucketSum_append, blockSum env.tz a k dy (compacted env.tz A l.all).this _
    (fun v hv => (q1 v hv).1) (fun v hv hne => (hs.2.1 v hv hne).1)]
  exact q3 a k dy ha hk

theorem bucketSum_le_total (tz : Int → Int) (a : String) (k : state) (dy : Int × Nat × Int)
    (es : List entry) (h : ∀ e ∈ es, 0 ≤ e.d) :
    bucketSum tz a k dy es ≤ (es.map entry.d).sum := by
  induction es with
  | nil => simp [bucketSum]
  | cons e es ih =>
    rw [bucketSum_cons, List.map_cons, List.sum_cons]
    have h1 := h e (List.mem_cons_self _ _)
    have h2 := ih (fun x hx => h x (List.mem_cons_of_mem _ hx))
    split_ifs <;> omega

theorem twoDays_fit (a : String) (k : state) (dy : Int × Nat × Int) :
    bucketSum envUTC.tz a k dy (twoDays ++ []) ≤ maxDuration :=
  le_trans (bucketSum_le_total envUTC.tz a k dy (twoDays ++ []) (by decide)) (by decide)

/-- Counterexample to C4: two Work entries of 5·10⁹ seconds on the same day.
Their sum does not fit in 64 bits, the slot of the buffer wraps to a negative
duration and `shrink` writes nothing. -/
theorem shrink_loses_overflowing_total :
    ((loaded [longWork, longWork] []).shrink 10 envUTC noFile ["A"]).map
      (Except.map Shrunk.written) = some (.ok []) ∧
    (0 : Int) ≤ longWork.d ∧ longWork.d % Second = 0 ∧ longWork.d ≤ maxDuration ∧
    bucketSum envUTC.tz "A" .working (dayOf envUTC.tz mon15) [longWork, longWork] =
      10000000000000000000 :=
  ⟨rfl, by decide, by decide, by decide, by decide⟩

/-- Witness of C4 as amended: Monday's thirty minutes of work in `twoDays`. -/
theorem shrink_preserves_daily_totals_witness :
    (loaded twoDays []).bread = true ∧ noFile.writable = true ∧
    (∀ e ∈ twoDays ++ [], 0 ≤ e.d ∧ e.d % Second = 0) ∧
    (∀ a k dy, bucketSum envUTC.tz a k dy (twoDays ++ []) ≤ maxDuration) ∧
    (loaded twoDays []).shrink 10 envUTC noFile ["A"] = some (.ok twoDaysResult) ∧
    "A" ∈ ["A"] ∧ (state.working = .working ∨ state.working = .resting) ∧
    ((bucket envUTC.tz "A" .working (dayOf envUTC.tz mon15) twoDaysResult.written).map
      (fun v => Round v.d Second)).sum =
        bucketSum envUTC.tz "A" .working (dayOf envUTC.tz mon15) (twoDays ++ []) :=
  ⟨rfl, rfl, by decide, twoDays_fit, rfl, by decide, Or.inl rfl,
    shrink_preserves_daily_totals 10 envUTC noFile (loaded twoDays []) ["A"] twoDaysResult "A"
      .working (dayOf envUTC.tz mon15) rfl rfl (by decide) twoDays_fit rfl (by decide)
      (Or.inl rfl)⟩

/-! ## The codec: decimal digits -/

theorem digitChar_isDigit (k : Nat) (h : k < 10) : isDigit (digitChar k) = true := by
  interval_cases k <;> rfl

theorem digitVal_digitChar (k : Nat) (h : k < 10) : digitVal (digitChar k) = k := by
  interval_cases k <;> rfl

theorem pow63 : (2 : Nat) ^ 63 = 9223372036854775808 := by norm_num

theorem leadingInt_digit (c : Char) (s : List Char) (x : Nat) (hc : isDigit c = true)
    (h : x * 10 + digitVal c ≤ 2 ^ 63) :
    leadingInt (c :: s) x = leadingInt s (x * 10 + digitVal c) := by
  have h1 : ¬ x > 2 ^ 63 / 10 := by
    rw [pow63] at h ⊢
    omega
  have h2 : ¬ x * 10 + digitVal c > 2 ^ 63 := by omega
  rw [leadingInt]
  simp only [hc, Bool.not_true, Bool.false_eq_true, if_false, h1, h2]

theorem leadingInt_stop (s : List Char) (x : Nat)
    (h : s = [] ∨ ∃ c r, s = c :: r ∧ isDigit c = false) : leadingInt s x = some (x, s) := by
  rcases h with h | ⟨c, r, h, hc⟩
  · rw [h, leadingInt]
  · rw [h, leadingInt]
    simp [hc]

theorem fmtIntLoop_leadingInt :
    ∀ (fuel v : Nat) (tail : List Char), v ≤ fuel → v ≤ 2 ^ 63 →
      leadingInt (fmtIntLoop fuel v tail) 0 = leadingInt tail v := by
  intro fuel
  induction fuel with
  | zero =>
    intro v tail h _
    have : v = 0 := by omega
    subst this
    rfl
  | succ fuel ih =>
    intro v tail h h63
    by_cases hv : v = 0
    · subst hv
      simp [fmtIntLoop]
    · rw [fmtIntLoop, if_neg hv, ih (v / 10) _ (by omega) (by omega)]
      have hd : v % 10 < 10 := Nat.mod_lt _ (by decide)
      rw [leadingInt_digit _ _ _ (digitChar_isDigit _ hd)
        (by rw [digitVal_digitChar _ hd]; omega), digitVal_digitChar _ hd]
      congr 1
      omega

theorem fmtInt_leadingInt (v : Nat) (tail : List Char) (h : v ≤ 2 ^ 63) :
    leadingInt (fmtInt v tail) 0 = leadingInt tail v := by
  unfold fmtInt
  by_cases hv : v = 0
  · subst hv
    rw [if_pos rfl, leadingInt_digit _ _ _ (by rfl) (by decide)]
    rfl
  · rw [if_neg hv]
    exact fmtIntLoop_leadingInt v v tail (le_refl _) h

/-- The characters that `fmtIntLoop` adds are digits, at most `k` of them for
a number below `10 ^ k`, and at least one for a positive number. -/
theorem fmtIntLoop_shape :
    ∀ (fuel v k : Nat) (tail : List Char), v ≤ fuel → v < 10 ^ k →
      ∃ ds, fmtIntLoop fuel v tail = ds ++ tail ∧ (∀ c ∈ ds, isDigit c = true) ∧
        ds.length ≤ k ∧ (0 < v → ds ≠ []) := by
  intro fuel
  induction fuel with
  | zero =>
    intro v k tail h _
    exact ⟨[], rfl, by simp, by simp, by omega⟩
  | succ fuel ih =>
    intro v k tail h hk
    by_cases hv : v = 0
    · subst hv
      exact ⟨[], by simp [fmtIntLoop], by simp, by simp, by omega⟩
    · have hk1 : 0 < k := by
        rcases Nat.eq_zero_or_pos k with h0 | h0
        · subst h0; simp at hk; omega
        · exact h0
      have hk2 : v / 10 < 10 ^ (k - 1) := by
        have : 10 ^ k = 10 ^ (k - 1) * 10 := by
          rw [← Nat.pow_succ]; congr 1; omega
        rw [this] at hk
        exact Nat.div_lt_of_lt_mul (by rw [Nat.mul_comm]; exact hk)
      obtain ⟨ds, h1, h2, h3, -⟩ := ih (v / 10) (k - 1) (digitChar (v % 10) :: tail)
        (by omega) hk2
      refine ⟨ds ++ [digitChar (v % 10)], ?_, ?_, ?_, ?_⟩
      · rw [fmtIntLoop, if_neg hv, h1]
        simp
      · intro c hc
        rcases List.mem_append.mp hc with h4 | h4
        · exact h2 c h4
        · rw [List.mem_singleton.mp h4]
          exact digitChar_isDigit _ (Nat.mod_lt _ (by decide))
      · simp only [List.length_append, List.length_singleton]
        omega
      · intro _
        simp

theorem fmtInt_shape (v k : Nat) (tail : List Char) (h : v < 10 ^ k) :
    ∃ ds, fmtInt v tail = ds ++ tail ∧ (∀ c ∈ ds, isDigit c = true) ∧
      ds.length ≤ k + 1 ∧ ds ≠ [] := by
  unfold fmtInt
  by_cases hv : v = 0
  · subst hv
    exact ⟨['0'], by simp, by intro c hc; rw [List.mem_singleton.mp hc]; rfl, by simp, by simp⟩
  · rw [if_neg hv]
    obtain ⟨ds, h1, h2, h3, h4⟩ := fmtIntLoop_shape v v k tail (le_refl _) h
    exact ⟨ds, h1, h2, by omega, h4 (by omega)⟩

/-! ## The codec: durations -/

theorem isDigit_ne (c x : Char) (hc : isDigit c = true) (hx : isDigit x = false) : c ≠ x := by
  intro h
  rw [h, hx] at hc
  cases hc

theorem fmtFracLoop_whole :
    ∀ (k S : Nat) (acc : List Char), fmtFracLoop k (S * 10 ^ k) false acc = (acc, S, false) := by
  intro k
  induction k with
  | zero => intro S acc; simp [fmtFracLoop]
  | succ k ih =>
    intro S acc
    have h1 : S * 10 ^ (k + 1) % 10 = 0 := by
      rw [Nat.pow_succ, ← Nat.mul_assoc]
      exact Nat.mul_mod_left _ _
    have h2 : S * 10 ^ (k + 1) / 10 = S * 10 ^ k := by
      rw [Nat.pow_succ, ← Nat.mul_assoc]
      exact Nat.mul_div_cancel _ (by decide)
    rw [fmtFracLoop]
    simp only [h1, h2, ne_eq, not_true_eq_false, decide_False, Bool.or_self, Bool.false_eq_true,
      if_false]
    exact ih S acc

theorem fmtFrac_whole (S : Nat) (acc : List Char) :
    fmtFrac (S * 1000000000) 9 acc = (acc, S) := by
  have h := fmtFracLoop_whole 9 S acc
  have h9 : (10 : Nat) ^ 9 = 1000000000 := by norm_num
  rw [h9] at h
  unfold fmtFrac
  rw [h]
  rfl

/-- The text of a whole number `S` of seconds: seconds, then minutes and hours
in front of them when there are any. -/
theorem String_whole (S : Nat) :
    Duration.String ((S * 1000000000 : Nat) : Int) =
      if S = 0 then ['0', 's']
      else if S / 60 = 0 then fmtInt (S % 60) ['s']
      else if S / 60 / 60 = 0 then fmtInt (S / 60 % 60) ('m' :: fmtInt (S % 60) ['s'])
      else fmtInt (S / 60 / 60) ('h' :: fmtInt (S / 60 % 60) ('m' :: fmtInt (S % 60) ['s'])) := by
  unfold Duration.String
  have hneg : ¬ ((S * 1000000000 : Nat) : Int) < 0 := by omega
  simp only [Int.natAbs_ofNat, hneg, if_false]
  by_cases h0 : S = 0
  · subst h0
    simp
  · have h1 : ¬ S * 1000000000 < 1000000000 := by omega
    simp only [h1, if_false, h0, fmtFrac_whole]
    by_cases h2 : S / 60 = 0
    · simp [h2]
    · have h3 : S / 60 > 0 := by omega
      simp only [h3, if_true, h2, if_false]
      by_cases h4 : S / 60 / 60 = 0
      · simp [h4]
      · have h5 : S / 60 / 60 > 0 := by omega
        simp only [h5, if_true, h4, if_false]

theorem takeWhile_unit (u : Char) (rest : List Char) (hud : isDigit u = false) (hudot : u ≠ '.')
    (hrest : rest = [] ∨ ∃ c r, rest = c :: r ∧ isDigit c = true) :
    (u :: rest).takeWhile (fun c => !(decide (c = '.') || isDigit c)) = [u] ∧
    (u :: rest).dropWhile (fun c => !(decide (c = '.') || isDigit c)) = rest := by
  have hp : (!(decide (u = '.') || isDigit u)) = true := by simp [hud, hudot]
  rcases hrest with h | ⟨c, r, h, hc⟩
  · subst h
    simp [List.takeWhile, List.dropWhile, hp]
  · subst h
    simp [List.takeWhile, List.dropWhile, hp, hc]

theorem parseDurationLoop_nil (env : GoEnv) (fuel d : Nat) :
    parseDurationLoop env (fuel + 1) [] d = some d := rfl

theorem parse_group (env : GoEnv) (fuel n : Nat) (u : Char) (unit : Nat) (rest : List Char)
    (d0 : Nat) (hu : unitMap [u] = some unit) (hud : isDigit u = false) (hudot : u ≠ '.')
    (hrest : rest = [] ∨ ∃ c r, rest = c :: r ∧ isDigit c = true) (hunit : 0 < unit)
    (hd : d0 + n * unit ≤ 2 ^ 63) :
    parseDurationLoop env (fuel + 1) (fmtInt n (u :: rest)) d0 =
      parseDurationLoop env fuel rest (d0 + n * unit) := by
  have hn : n ≤ 2 ^ 63 := by
    have : n ≤ n * unit := Nat.le_mul_of_pos_right n hunit
    omega
  have hnu : ¬ n > 2 ^ 63 / unit := by
    rw [not_lt, Nat.le_div_iff_mul_le hunit]
    omega
  obtain ⟨ds, hs, hdig, -, hne⟩ := fmtInt_shape n 63 (u :: rest)
    (lt_of_le_of_lt hn (by norm_num))
  obtain ⟨c, r, hcr⟩ : ∃ c r, ds = c :: r := by
    cases ds with
    | nil => exact absurd rfl hne
    | cons c r => exact ⟨c, r, rfl⟩
  have hc : isDigit c = true := hdig c (by rw [hcr]; simp)
  have hl : leadingInt (c :: (r ++ u :: rest)) 0 = some (n, u :: rest) := by
    have := fmtInt_leadingInt n (u :: rest) hn
    rw [hs, hcr, List.cons_append] at this
    rw [this]
    exact leadingInt_stop _ _ (Or.inr ⟨u, rest, rfl, hud⟩)
  obtain ⟨t1, t2⟩ := takeWhile_unit u rest hud hudot hrest
  rw [hs, hcr, List.cons_append, parseDurationLoop]
  simp only [hc, Bool.or_true, Bool.not_true, Bool.false_eq_true, if_false, hl]
  have hlen : ¬ (u :: rest).length = (c :: (r ++ u :: rest)).length := by
    simp only [List.length_cons, List.length_append]
    omega
  have hm : (match u :: rest with
      | '.' :: s2 =>
        ((leadingFraction s2 0 0 false).1, (leadingFraction s2 0 0 false).2.1,
          (leadingFraction s2 0 0 false).2.2,
          decide ((leadingFraction s2 0 0 false).2.2.length ≠ s2.length))
      | _ => ((0 : Nat), (0 : Nat), u :: rest, false)) = (0, 0, u :: rest, false) := by
    split
    · rename_i s2 heq
      simp only [List.cons.injEq] at heq
      exact absurd heq.1 hudot
    · rfl
  simp only [hm, hlen, ne_eq, not_false_eq_true, decide_True, Bool.not_true, Bool.false_and,
    Bool.false_eq_true, if_false, t1, t2, List.cons_ne_self, hu, hnu, lt_self_iff_false,
    false_and, reduceCtorEq]
  have hd2 : ¬ d0 + n * unit > 2 ^ 63 := by omega
  simp only [hd2, if_false]

theorem fmtInt_head (v : Nat) (tail : List Char) :
    ∃ c r, fmtInt v tail = c :: r ∧ isDigit c = true ∧ tail.length < r.length + 1 := by
  have hv : v < 10 ^ (v + 1) :=
    lt_trans (Nat.lt_succ_self v) (Nat.lt_pow_self (by decide : 1 < 10) (v + 1))
  obtain ⟨ds, hs, hdig, -, hne⟩ := fmtInt_shape v (v + 1) tail hv
  cases ds with
  | nil => exact absurd rfl hne
  | cons c r =>
    exact ⟨c, r ++ tail, by rw [hs]; rfl, hdig c (by simp), by simp; omega⟩

theorem ParseDuration_digits (env : GoEnv) (s : List Char) (c : Char) (r : List Char) (v : Nat)
    (hs : s = c :: r) (hc : isDigit c = true) (hr : r ≠ [])
    (hloop : parseDurationLoop env (s.length + 1) s 0 = some v) (hv : v ≤ 2 ^ 63 - 1) :
    ParseDuration env s = some (v : Int) := by
  have h1 : c ≠ '-' := isDigit_ne c '-' hc (by rfl)
  have h2 : c ≠ '+' := isDigit_ne c '+' hc (by rfl)
  unfold ParseDuration
  have hh : s.head? = some c := by rw [hs]; rfl
  have e1 : ¬ (s.head? = some '-') := by rw [hh]; simpa using h1
  have e2 : ¬ (s.head? = some '+') := by rw [hh]; simpa using h2
  have e3 : ¬ (s.head? = some '-' ∨ s.head? = some '+') := fun h => h.elim e1 e2
  have e4 : s ≠ ['0'] := by
    rw [hs]
    intro h
    simp only [List.cons.injEq] at h
    exact hr h.2
  have e5 : s ≠ [] := by rw [hs]; simp
  have e6 : ¬ v > 2 ^ 63 - 1 := by omega
  simp only [e1, e2, or_self, if_false, e4, e5, hloop, decide_False, Bool.false_eq_true, e6]

/-- **Duration round trip.**  The text that `entry.String` writes for a whole,
non-negative number of seconds parses back to the same duration. -/
theorem ParseDuration_String (env : GoEnv) (d : Int) (h0 : 0 ≤ d) (hw : d % Second = 0)
    (hmax : d ≤ maxDuration) :
    ParseDuration env (Duration.String (Round d Second)) = some d := by
  rw [Round_whole d h0 hw]
  obtain ⟨S, hS⟩ : ∃ S : Nat, d = ((S * 1000000000 : Nat) : Int) := by
    refine ⟨(d / 1000000000).toNat, ?_⟩
    unfold Second at hw
    omega
  have hSmax : S * 1000000000 ≤ 2 ^ 63 - 1 := by
    unfold maxDuration at hmax
    rw [hS] at hmax
    have : ((S * 1000000000 : Nat) : Int) ≤ ((2 ^ 63 - 1 : Nat) : Int) := by
      norm_num at hmax ⊢
      omega
    exact Int.ofNat_le.mp this
  have h63 := pow63
  rw [hS, String_whole]
  have us : unitMap ['s'] = some 1000000000 := rfl
  have um : unitMap ['m'] = some 60000000000 := rfl
  have uh : unitMap ['h'] = some 3600000000000 := rfl
  have hsplit : S = S / 60 / 60 * 3600 + S / 60 % 60 * 60 + S % 60 := by omega
  -- the last group, common to the three shapes
  have last : ∀ (fuel d0 : Nat), d0 + S % 60 * 1000000000 ≤ 2 ^ 63 →
      parseDurationLoop env (fuel + 2) (fmtInt (S % 60) ['s']) d0 =
        some (d0 + S % 60 * 1000000000) := by
    intro fuel d0 hd
    rw [parse_group env (fuel + 1) (S % 60) 's' 1000000000 [] d0 us (by rfl) (by decide)
      (Or.inl rfl) (by decide) hd]
    rfl
  have hsec : S = 0 → fmtInt (S % 60) ['s'] = ['0', 's'] := by
    intro h; subst h; rfl
  by_cases hz : S = 0
  · rw [if_pos hz, ← hsec hz]
    obtain ⟨c, r, hs, hc, hlen⟩ := fmtInt_head (S % 60) ['s']
    have hr : r ≠ [] := by intro h; rw [h] at hlen; simp at hlen
    have hloop := last (r.length) 0 (by omega)
    have hl : (fmtInt (S % 60) ['s']).length + 1 = r.length + 2 := by rw [hs]; simp
    rw [← hl] at hloop
    have := ParseDuration_digits env _ c r _ hs hc hr hloop (by omega)
    rw [this]
    congr 1
    rw [hz]
  · rw [if_neg hz]
    by_cases h1 : S / 60 = 0
    · rw [if_pos h1]
      obtain ⟨c, r, hs, hc, hlen⟩ := fmtInt_head (S % 60) ['s']
      have hr : r ≠ [] := by intro h; rw [h] at hlen; simp at hlen
      have hloop := last (r.length) 0 (by omega)
      have hl : (fmtInt (S % 60) ['s']).length + 1 = r.length + 2 := by rw [hs]; simp
      rw [← hl] at hloop
      have := ParseDuration_digits env _ c r _ hs hc hr hloop (by omega)
      rw [this]
      congr 1
      push_cast
      omega
    · rw [if_neg h1]
      obtain ⟨c1, r1, hs1, hc1, hlen1⟩ := fmtInt_head (S % 60) ['s']
      by_cases h2 : S / 60 / 60 = 0
      · rw [if_pos h2]
        obtain ⟨c, r, hs, hc, hlen⟩ := fmtInt_head (S / 60 % 60) ('m' :: fmtInt (S % 60) ['s'])
        have hr : r ≠ [] := by intro h; rw [h] at hlen; simp at hlen
        have hrl : 2 ≤ r.length := by
          rw [hs1] at hlen
          simp only [List.length_cons] at hlen
          omega
        obtain ⟨f, hf⟩ : ∃ f, r.length = f + 1 := ⟨r.length - 1, by omega⟩
        have hloop : parseDurationLoop env ((f + 2) + 1)
            (fmtInt (S / 60 % 60) ('m' :: fmtInt (S % 60) ['s'])) 0 =
            some (0 + S / 60 % 60 * 60000000000 + S % 60 * 1000000000) := by
          rw [parse_group env (f + 2) (S / 60 % 60) 'm' 60000000000 _ 0 um (by rfl) (by decide)
            (Or.inr ⟨c1, r1, hs1, hc1⟩) (by decide) (by omega)]
          exact last f _ (by omega)
        have hl : (fmtInt (S / 60 % 60) ('m' :: fmtInt (S % 60) ['s'])).length + 1 =
            (f + 2) + 1 := by rw [hs]; simp [hf]
        rw [← hl] at hloop
        have := ParseDuration_digits env _ c r _ hs hc hr hloop (by omega)
        rw [this]
        congr 1
        push_cast
        omega
      · rw [if_neg h2]
        obtain ⟨c2, r2, hs2, hc2, hlen2⟩ :=
          fmtInt_head (S / 60 % 60) ('m' :: fmtInt (S % 60) ['s'])
        obtain ⟨c, r, hs, hc, hlen⟩ := fmtInt_head (S / 60 / 60)
          ('h' :: fmtInt (S / 60 % 60) ('m' :: fmtInt (S % 60) ['s']))
        have hr : r ≠ [] := by intro h; rw [h] at hlen; simp at hlen
        have hrl : 4 ≤ r.length := by
          rw [hs2] at hlen
          rw [hs1] at hlen2
          simp only [List.length_cons] at hlen hlen2
          omega
        obtain ⟨f, hf⟩ : ∃ f, r.length = f + 2 := ⟨r.length - 2, by omega⟩
        have hloop : parseDurationLoop env ((f + 3) + 1)
            (fmtInt (S / 60 / 60) ('h' :: fmtInt (S / 60 % 60) ('m' :: fmtInt (S % 60) ['s']))) 0 =
            some (0 + S / 60 / 60 * 3600000000000 + S / 60 % 60 * 60000000000 +
              S % 60 * 1000000000) := by
          rw [parse_group env (f + 3) (S / 60 / 60) 'h' 3600000000000 _ 0 uh (by rfl)
            (by decide) (Or.inr ⟨c2, r2, hs2, hc2⟩) (by decide) (by omega)]
          rw [parse_group env (f + 2) (S / 60 % 60) 'm' 60000000000 _ _ um (by rfl) (by decide)
            (Or.inr ⟨c1, r1, hs1, hc1⟩) (by decide) (by omega)]
          exact last f _ (by omega)
        have hl : (fmtInt (S / 60 / 60)
            ('h' :: fmtInt (S / 60 % 60) ('m' :: fmtInt (S % 60) ['s']))).length + 1 =
            (f + 3) + 1 := by rw [hs]; simp [hf]
        rw [← hl] at hloop
        have := ParseDuration_digits env _ c r _ hs hc hr hloop (by omega)
        rw [this]
        congr 1
        push_cast
        omega

/-! ## The codec: the civil calendar -/

theorem isLeap_iff (y : Int) :
    isLeap y = true ↔ y % 4 = 0 ∧ (y % 100 ≠ 0 ∨ y % 400 = 0) := by
  unfold isLeap
  simp

/-- The year and the day of the year of a day number: the day of the year lies
within the year and the year starts `daysSinceEpoch` days after the epoch. -/
theorem absYear_spec (N : Int) :
    0 ≤ (absYear N).2 ∧
      ((absYear N).2 < 365 ∨ ((absYear N).2 = 365 ∧ isLeap (absYear N).1 = true)) ∧
      daysSinceEpoch (absYear N).1 + (absYear N).2 = N := by
  rw [isLeap_iff]
  unfold absYear daysSinceEpoch
  simp only
  generalize hn : N / 146097 = n400
  generalize hd0 : N - 146097 * n400 = d0
  have b0 : 0 ≤ d0 ∧ d0 < 146097 := by omega
  generalize hc : d0 / 36524 = c
  have bc : c = 0 ∨ c = 1 ∨ c = 2 ∨ c = 3 ∨ c = 4 := by omega
  generalize hc1 : c - c / 4 = c1
  have bc1 : 0 ≤ c1 ∧ c1 ≤ 3 ∧ (c = 4 → c1 = 3) ∧ (c < 4 → c1 = c) := by omega
  generalize hd1 : d0 - 36524 * c1 = d1
  have b1 : 0 ≤ d1 ∧ d1 ≤ 36524 ∧ (d1 = 36524 → c1 = 3) := by omega
  generalize he : d1 / 1461 = e
  have be : 0 ≤ e ∧ e ≤ 24 := by omega
  generalize hd2 : d1 - 1461 * e = d2
  have b2 : 0 ≤ d2 ∧ d2 ≤ 1460 ∧ (e = 24 → d2 = 1460 → c1 = 3) := by omega
  generalize hf : d2 / 365 = f
  have bf : f = 0 ∨ f = 1 ∨ f = 2 ∨ f = 3 ∨ f = 4 := by omega
  generalize hf1 : f - f / 4 = f1
  have bf1 : 0 ≤ f1 ∧ f1 ≤ 3 ∧ (f = 4 → f1 = 3) ∧ (f < 4 → f1 = f) := by omega
  generalize hd3 : d2 - 365 * f1 = d3
  have b3 : 0 ≤ d3 ∧ d3 ≤ 365 ∧ (d3 = 365 → f1 = 3 ∧ d2 = 1460) := by omega
  have hy : 400 * n400 + 100 * c1 + 4 * e + f1 + 1 - 1 = 400 * n400 + (100 * c1 + 4 * e + f1) := by
    omega
  rw [hy]
  have q400 : (400 * n400 + (100 * c1 + 4 * e + f1)) / 400 = n400 := by omega
  rw [q400]
  have r400 : 400 * n400 + (100 * c1 + 4 * e + f1) - 400 * n400 = 100 * c1 + (4 * e + f1) := by
    omega
  rw [r400]
  have q100 : (100 * c1 + (4 * e + f1)) / 100 = c1 := by omega
  rw [q100]
  have r100 : 100 * c1 + (4 * e + f1) - 100 * c1 = 4 * e + f1 := by omega
  rw [r100]
  have q4 : (4 * e + f1) / 4 = e := by omega
  rw [q4]
  have r4 : 4 * e + f1 - 4 * e = f1 := by omega
  rw [r4]
  refine ⟨b3.1, ?_, by omega⟩
  by_cases h365 : d3 = 365
  · right
    refine ⟨h365, ?_, ?_⟩
    · omega
    · by_cases h24 : e = 24
      · right
        have := b2.2.2 h24 (b3.2.2 h365).2
        omega
      · left
        omega
  · left
    omega

theorem monthDay_plain (day : Int) (h0 : 0 ≤ day) (h1 : day < 365) :
    ∃ (m : Nat) (dd : Int),
      (let month := (day / 31).toNat
       let e := daysBefore (month + 1)
       if day ≥ e then (month + 2, day - e + 1) else (month + 1, day - daysBefore month + 1)) =
        (m, dd) ∧
      1 ≤ m ∧ m ≤ 12 ∧ 1 ≤ dd ∧ dd ≤ daysBefore m - daysBefore (m - 1) ∧
      daysBefore (m - 1) + (dd - 1) = day := by
  obtain ⟨k, hk, hk11⟩ : ∃ k : Nat, day / 31 = (k : Int) ∧ k ≤ 11 :=
    ⟨(day / 31).toNat, by omega, by omega⟩
  simp only [hk, Int.toNat_ofNat]
  interval_cases k <;> simp only [daysBefore] <;> split_ifs <;>
    refine ⟨_, _, rfl, ?_⟩ <;> simp only [daysBefore] <;> omega

/-- Month and day of the month of a day of the year: they are a date of the
year, and the day of the year is recovered from them. -/
theorem monthDay_spec (leap : Bool) (yday : Int) (h0 : 0 ≤ yday)
    (h1 : yday < 365 ∨ (yday = 365 ∧ leap = true)) :
    1 ≤ (monthDay leap yday).1 ∧ (monthDay leap yday).1 ≤ 12 ∧
    1 ≤ (monthDay leap yday).2 ∧
    (monthDay leap yday).2 ≤ (if (monthDay leap yday).1 = 2 ∧ leap = true then 29
      else daysBefore (monthDay leap yday).1 - daysBefore ((monthDay leap yday).1 - 1)) ∧
    daysBefore ((monthDay leap yday).1 - 1) +
      (if leap = true ∧ (monthDay leap yday).1 ≥ 3 then 1 else 0) +
      ((monthDay leap yday).2 - 1) = yday := by
  unfold monthDay
  by_cases hl : leap = true
  · by_cases h59 : yday = 31 + 29 - 1
    · simp only [hl, h59, and_self, if_true]
      simp [daysBefore]
    · simp only [hl, h59, and_false, true_and, if_false]
      by_cases hgt : yday > 31 + 29 - 1
      · simp only [hgt, if_true]
        obtain ⟨m, dd, he, m1, m2, d1, d2, hs⟩ := monthDay_plain (yday - 1) (by omega) (by omega)
        simp only at he
        simp only [he]
        have hm3 : m ≥ 3 := by
          by_contra hc
          have : m = 1 ∨ m = 2 := by omega
          rcases this with h | h <;> subst h <;> simp only [daysBefore] at d2 hs <;> omega
        have hm2 : ¬ m = 2 := by omega
        simp only [hm3, hm2, if_true, if_false]
        exact ⟨m1, m2, d1, d2, by omega⟩
      · simp only [hgt, if_false]
        obtain ⟨m, dd, he, m1, m2, d1, d2, hs⟩ := monthDay_plain yday h0 (by omega)
        simp only at he
        simp only [he]
        have hm : m = 1 ∨ m = 2 := by
          have : m = 1 ∨ m = 2 ∨ m = 3 ∨ m = 4 ∨ m = 5 ∨ m = 6 ∨ m = 7 ∨ m = 8 ∨ m = 9 ∨
              m = 10 ∨ m = 11 ∨ m = 12 := by omega
          rcases this with h | h | h | h | h | h | h | h | h | h | h | h
          · exact Or.inl h
          · exact Or.inr h
          all_goals (subst h; simp only [daysBefore] at hs; omega)
        rcases hm with h | h
        · subst h
          simp only [daysBefore] at d2 hs ⊢
          refine ⟨le_refl _, by omega, d1, ?_, ?_⟩
          · split_ifs <;> omega
          · split_ifs <;> omega
        · subst h
          simp only [daysBefore] at d2 hs ⊢
          refine ⟨by omega, by omega, d1, ?_, ?_⟩
          · split_ifs <;> omega
          · split_ifs <;> omega
  · have hl' : leap = false := by simpa using hl
    subst hl'
    simp only [Bool.false_eq_true, false_and, and_false, if_false]
    obtain ⟨m, dd, he, m1, m2, d1, d2, hs⟩ := monthDay_plain yday h0 (by
      rcases h1 with h | h
      · exact h
      · exact absurd h.2 (by simp))
    simp only at he
    simp only [he]
    exact ⟨m1, m2, d1, d2, by omega⟩

/-! ## The codec: RFC 3339 timestamps -/

theorem appendInt_two (x : Int) (h0 : 0 ≤ x) (h1 : x < 100) : appendInt x 2 = two x.toNat := by
  unfold appendInt two
  have hneg : ¬ x < 0 := by omega
  have hn : x.natAbs = x.toNat := by omega
  have hu : x.toNat < 100 := by omega
  simp only [hneg, if_false, hn, hu, and_self, true_and, if_true, List.nil_append]

theorem appendInt_four (x : Int) (h0 : 0 ≤ x) (h1 : x < 10000) :
    appendInt x 4 = four x.toNat := by
  unfold appendInt four
  have hneg : ¬ x < 0 := by omega
  have hn : x.natAbs = x.toNat := by omega
  have hu : x.toNat < 10000 := by omega
  have h42 : ¬ ((4 : Nat) = 2 ∧ x.toNat < 100) := by omega
  simp only [hneg, if_false, hn, h42, hu, and_self, true_and, if_true, List.nil_append]

theorem parseUint_two (n : Nat) (lo hi : Int) (h : n < 100) (h1 : lo ≤ n) (h2 : (n : Int) ≤ hi) :
    parseUint (two n) lo hi = some (n : Int) := by
  have a1 : n / 10 < 10 := by omega
  have a2 : n % 10 < 10 := by omega
  have e : ((0 * 10 + n / 10) * 10 + n % 10 : Nat) = n := by omega
  have hr : ¬ ((n : Int) < lo ∨ hi < (n : Int)) := by omega
  have i1 := digitChar_isDigit _ a1
  have i2 := digitChar_isDigit _ a2
  have v1 := digitVal_digitChar _ a1
  have v2 := digitVal_digitChar _ a2
  unfold parseUint two
  generalize digitChar (n / 10) = c1 at i1 v1 ⊢
  generalize digitChar (n % 10) = c2 at i2 v2 ⊢
  simp only [List.all_cons, List.all_nil, i1, i2, Bool.and_self, if_true, List.foldl_cons,
    List.foldl_nil, v1, v2, e]
  exact if_neg hr

theorem parseUint_four (n : Nat) (lo hi : Int) (h : n < 10000) (h1 : lo ≤ n)
    (h2 : (n : Int) ≤ hi) : parseUint (four n) lo hi = some (n : Int) := by
  have a1 : n / 1000 < 10 := by omega
  have a2 : n / 100 % 10 < 10 := by omega
  have a3 : n / 10 % 10 < 10 := by omega
  have a4 : n % 10 < 10 := by omega
  have e : ((((0 * 10 + n / 1000) * 10 + n / 100 % 10) * 10 + n / 10 % 10) * 10 + n % 10 : Nat)
      = n := by omega
  have hr : ¬ ((n : Int) < lo ∨ hi < (n : Int)) := by omega
  have i1 := digitChar_isDigit _ a1
  have i2 := digitChar_isDigit _ a2
  have i3 := digitChar_isDigit _ a3
  have i4 := digitChar_isDigit _ a4
  have v1 := digitVal_digitChar _ a1
  have v2 := digitVal_digitChar _ a2
  have v3 := digitVal_digitChar _ a3
  have v4 := digitVal_digitChar _ a4
  unfold parseUint four
  generalize digitChar (n / 1000) = c1 at i1 v1 ⊢
  generalize digitChar (n / 100 % 10) = c2 at i2 v2 ⊢
  generalize digitChar (n / 10 % 10) = c3 at i3 v3 ⊢
  generalize digitChar (n % 10) = c4 at i4 v4 ⊢
  simp only [List.all_cons, List.all_nil, i1, i2, i3, i4, Bool.and_self, if_true,
    List.foldl_cons, List.foldl_nil, v1, v2, v3, v4, e]
  exact if_neg hr
theorem tdiv_spec (a b : Int) (hb : 0 < b) :
    Int.tdiv a b = if 0 ≤ a then a / b else -((-a) / b) := by
  split_ifs with h
  · exact Int.tdiv_eq_ediv h hb.le
  · have : a = -(-a) := by omega
    rw [this, Int.neg_tdiv, Int.tdiv_eq_ediv (by omega) hb.le, neg_neg]

theorem zone_eq (offset : Int) (h1 : -86400 < offset) (h2 : offset < 86400) :
    (if offset = 0 then ['Z']
      else [if Int.tdiv offset 60 < 0 then '-' else '+'] ++
        appendInt (Int.tdiv (if Int.tdiv offset 60 < 0 then -Int.tdiv offset 60
          else Int.tdiv offset 60) 60) 2 ++ [':'] ++
        appendInt (Int.tmod (if Int.tdiv offset 60 < 0 then -Int.tdiv offset 60
          else Int.tdiv offset 60) 60) 2) = zoneText offset := by
  unfold zoneText
  have hz := tdiv_spec offset 60 (by decide)
  generalize Int.tdiv offset 60 = z at hz ⊢
  have hz1 : -1440 ≤ z ∧ z ≤ 1440 := by split_ifs at hz <;> omega
  have ha : (if z < 0 then -z else z) = (z.natAbs : Int) := by split_ifs <;> omega
  rw [ha, Int.tdiv_eq_ediv (by omega) (by decide), Int.tmod_eq_emod (by omega) (by decide),
    appendInt_two _ (by omega) (by omega), appendInt_two _ (by omega) (by omega)]
  have e1 : ((z.natAbs : Int) / 60).toNat = z.natAbs / 60 := by omega
  have e2 : ((z.natAbs : Int) % 60).toNat = z.natAbs % 60 := by omega
  rw [e1, e2]
  simp only [List.append_assoc, List.singleton_append, List.cons_append, List.nil_append]

/-- The text of a time, field by field, when its year has four digits. -/
theorem Format_eq (tz : Int → Int) (t : Time)
    (hy : 0 ≤ (absDate (t.abs tz)).1 ∧ (absDate (t.abs tz)).1 ≤ 9999)
    (h1 : -86400 < t.offset tz) (h2 : t.offset tz < 86400) :
    t.Format tz =
      four (absDate (t.abs tz)).1.toNat ++ '-' :: (two (absDate (t.abs tz)).2.1 ++ '-' ::
        (two (absDate (t.abs tz)).2.2.1.toNat ++ 'T' ::
          (two (t.abs tz % 86400 / 3600).toNat ++ ':' ::
            (two (t.abs tz % 86400 % 3600 / 60).toNat ++ ':' ::
              (two (t.abs tz % 86400 % 60).toNat ++ zoneText (t.offset tz)))))) := by
  have hN := absYear_spec (t.abs tz / 86400)
  have hmd := monthDay_spec (isLeap (absYear (t.abs tz / 86400)).1) (absYear (t.abs tz / 86400)).2
    hN.1 hN.2.1
  have hm : ((absDate (t.abs tz)).2.1 : Int) < 100 := by
    have := hmd.2.1
    unfold absDate
    simp only
    omega
  have hd : 0 ≤ (absDate (t.abs tz)).2.2.1 ∧ (absDate (t.abs tz)).2.2.1 < 100 := by
    obtain ⟨m1, m2, d1, d2, -⟩ := hmd
    unfold absDate
    simp only
    refine ⟨by omega, ?_⟩
    generalize (monthDay (isLeap (absYear (t.abs tz / 86400)).1)
          (absYear (t.abs tz / 86400)).2).2 = dd at d1 d2 ⊢
    generalize (monthDay (isLeap (absYear (t.abs tz / 86400)).1)
          (absYear (t.abs tz / 86400)).2).1 = m at m1 m2 d2
    interval_cases m <;> simp only [daysBefore] at d2 <;> split_ifs at d2 <;> omega
  unfold Time.Format
  simp only
  rw [appendInt_four _ hy.1 (by omega), appendInt_two _ (by omega) hm,
    appendInt_two _ hd.1 hd.2, appendInt_two _ (by omega) (by omega),
    appendInt_two _ (by omega) (by omega), appendInt_two _ (by omega) (by omega),
    zone_eq _ h1 h2]
  simp only [Int.toNat_ofNat, List.append_assoc, List.singleton_append, List.cons_append, List.nil_append]

theorem parseRFC3339_fields (tz : Int → Int) (Y m d h mi s : Nat) (off : Int)
    (hY : Y ≤ 9999) (hm1 : 1 ≤ m) (hm2 : m ≤ 12) (hd1 : 1 ≤ d) (hd2 : (d : Int) ≤ daysIn m Y)
    (hh : h ≤ 23) (hmi : mi ≤ 59) (hs : s ≤ 59)
    (h1 : -86400 < off) (h2 : off < 86400) (h60 : off % 60 = 0) :
    parseRFC3339 tz (four Y ++ '-' :: (two m ++ '-' :: (two d ++ 'T' :: (two h ++ ':' ::
      (two mi ++ ':' :: (two s ++ zoneText off)))))) =
      some (if off = 0 then dateUTC Y m d h mi s 0
        else ⟨(dateUTC Y m d h mi s 0).sec + -off, 0,
          if tz ((dateUTC Y m d h mi s 0).sec + -off) = off then .localZone else .fixed off⟩) := by
  have hd3 : d < 100 := by
    have : daysIn m Y ≤ 31 := by
      unfold daysIn
      split_ifs
      · omega
      · interval_cases m <;> simp [daysBefore]
    omega
  have pY := parseUint_four Y 0 9999 (by omega) (by omega) (by omega)
  have pm := parseUint_two m 1 12 (by omega) (by omega) (by omega)
  have pd := parseUint_two d 1 (daysIn m Y) hd3 (by omega) hd2
  have ph := parseUint_two h 0 23 (by omega) (by omega) (by omega)
  have pmi := parseUint_two mi 0 59 (by omega) (by omega) (by omega)
  have ps := parseUint_two s 0 59 (by omega) (by omega) (by omega)
  unfold four at pY
  unfold two at pm pd ph pmi ps
  by_cases h0 : off = 0
  · subst h0
    unfold parseRFC3339 zoneText four two
    simp only [List.cons_append, List.nil_append, List.length_cons, List.length_nil, if_true,
      List.take_succ_cons, List.take_zero, List.drop_succ_cons, List.drop_zero, pY, pm,
      Int.toNat_ofNat, pd, ph, pmi, ps, List.getD_cons_succ, List.getD_cons_zero]
    simp
  · have hz := tdiv_spec off 60 (by decide)
    unfold zoneText
    rw [if_neg h0]
    generalize Int.tdiv off 60 = z at hz ⊢
    have hz1 : -1440 < z ∧ z < 1440 ∧ z ≠ 0 ∧ z * 60 = off := by split_ifs at hz <;> omega
    have pzh := parseUint_two (z.natAbs / 60) 0 23 (by omega) (by omega) (by omega)
    have pzm := parseUint_two (z.natAbs % 60) 0 59 (by omega) (by omega) (by omega)
    unfold two at pzh pzm
    by_cases hneg : z < 0
    · have e : ((((z.natAbs / 60 : Nat) : Int) * 60 + ((z.natAbs % 60 : Nat) : Int)) * 60)
          = -off := by omega
      generalize z.natAbs / 60 = zh at pzh e ⊢
      generalize z.natAbs % 60 = zm at pzm e ⊢
      unfold parseRFC3339 four two
      simp only [List.cons_append, List.nil_append, List.length_cons, List.length_nil, if_true,
        List.take_succ_cons, List.take_zero, List.drop_succ_cons, List.drop_zero, pY, pm,
        Int.toNat_ofNat, pd, ph, pmi, ps, List.getD_cons_succ, List.getD_cons_zero, hneg,
        h0, if_false]
      simp [dateUTC, pzh, pzm, e]
      split_ifs <;> rfl
    · have e : ((((z.natAbs / 60 : Nat) : Int) * 60 + ((z.natAbs % 60 : Nat) : Int)) * 60)
          = off := by omega
      generalize z.natAbs / 60 = zh at pzh e ⊢
      generalize z.natAbs % 60 = zm at pzm e ⊢
      unfold parseRFC3339 four two
      simp only [List.cons_append, List.nil_append, List.length_cons, List.length_nil, if_true,
        List.take_succ_cons, List.take_zero, List.drop_succ_cons, List.drop_zero, pY, pm,
        Int.toNat_ofNat, pd, ph, pmi, ps, List.getD_cons_succ, List.getD_cons_zero, hneg,
        h0, if_false]
      simp [dateUTC, pzh, pzm, e]
      split_ifs <;> rfl
/-- Parsing the text of a time gives back the instant and the zone offset. -/
theorem Parse_Format (env : GoEnv) (t : Time)
    (hy : 0 ≤ t.Year env.tz ∧ t.Year env.tz ≤ 9999)
    (h1 : -86400 < t.offset env.tz) (h2 : t.offset env.tz < 86400)
    (h60 : t.offset env.tz % 60 = 0) :
    Parse env (t.Format env.tz) =
      some (if t.offset env.tz = 0 then ⟨t.sec, 0, .utc⟩
        else ⟨t.sec, 0,
          if env.tz t.sec = t.offset env.tz then .localZone else .fixed (t.offset env.tz)⟩) := by
  unfold Time.Year at hy
  rw [Format_eq _ _ hy h1 h2]
  have hN := absYear_spec (t.abs env.tz / 86400)
  have hmd := monthDay_spec (isLeap (absYear (t.abs env.tz / 86400)).1)
    (absYear (t.abs env.tz / 86400)).2 hN.1 hN.2.1
  have hA : t.abs env.tz = t.sec + t.offset env.tz := rfl
  generalize t.offset env.tz = off at *
  generalize t.abs env.tz = A at *
  unfold absDate at hy ⊢
  simp only at hy ⊢
  generalize absYear (A / 86400) = yd at *
  obtain ⟨Y, yday⟩ := yd
  simp only at hy hN hmd ⊢
  generalize monthDay (isLeap Y) yday = md at *
  obtain ⟨m, dd⟩ := md
  simp only at hmd ⊢
  obtain ⟨m1, m2, d1, d2, hyd⟩ := hmd
  obtain ⟨-, -, hdse⟩ := hN
  lift Y to ℕ using hy.1
  lift dd to ℕ using (by omega)
  obtain ⟨hh, hhe⟩ : ∃ hh : Nat, A % 86400 / 3600 = hh := ⟨(A % 86400 / 3600).toNat, by omega⟩
  obtain ⟨mi, mie⟩ : ∃ mi : Nat, A % 86400 % 3600 / 60 = mi :=
    ⟨(A % 86400 % 3600 / 60).toNat, by omega⟩
  obtain ⟨ss, sse⟩ : ∃ ss : Nat, A % 86400 % 60 = ss := ⟨(A % 86400 % 60).toNat, by omega⟩
  rw [hhe, mie, sse]
  simp only [Int.toNat_ofNat]
  unfold Parse
  rw [parseRFC3339_fields env.tz Y m dd hh mi ss off (by omega) m1 m2 (by omega)
    (by unfold daysIn; exact d2) (by omega) (by omega) (by omega) h1 h2 h60]
  have hsec : (dateUTC Y m dd hh mi ss 0).sec = A := by
    unfold dateUTC
    simp only
    split_ifs at hyd ⊢ <;> omega
  have e : A + -off = t.sec := by omega
  rw [hsec, e]
  by_cases h0 : off = 0
  · subst h0
    have hd : dateUTC Y m dd hh mi ss 0 = ⟨(dateUTC Y m dd hh mi ss 0).sec, 0, .utc⟩ := rfl
    rw [if_pos rfl, if_pos rfl, hd, hsec]
    have : A = t.sec := by omega
    rw [this]
  · simp only [if_neg h0]

/-! ## The codec: lines and tokens -/

theorem utf8Size_ascii (c : Char) (h : c.toNat < 128) : c.utf8Size = 1 := by
  unfold Char.utf8Size
  have : c.val ≤ 127 := by
    rw [UInt32.le_def]
    exact Nat.lt_succ_iff.mp h
  simp [this]

theorem byteLen_ascii (s : List Char) (h : ∀ c ∈ s, c.toNat < 128) : byteLen s = s.length := by
  unfold byteLen
  induction s with
  | nil => rfl
  | cons c s ih =>
    simp only [List.map_cons, List.sum_cons, List.length_cons]
    rw [utf8Size_ascii c (h c (List.mem_cons_self _ _)),
      ih (fun x hx => h x (List.mem_cons_of_mem _ hx))]
    omega

theorem takeWhile_sep (x : Char) (w r : List Char) (h : ∀ c ∈ w, c ≠ x) :
    (w ++ x :: r).takeWhile (fun c => decide (c ≠ x)) = w ∧
    (w ++ x :: r).dropWhile (fun c => decide (c ≠ x)) = x :: r := by
  induction w with
  | nil => simp [List.takeWhile, List.dropWhile]
  | cons c w ih =>
    have hc : c ≠ x := h c (List.mem_cons_self _ _)
    have ih1 := ih (fun y hy => h y (List.mem_cons_of_mem _ hy))
    have hd : decide (c ≠ x) = true := decide_eq_true hc
    rw [List.cons_append, List.takeWhile_cons, List.dropWhile_cons]
    simp only [hd, if_true, ih1.1, ih1.2, and_self]

theorem dropCR_id (line : List Char) (h : line.getLast? ≠ some '\r') : dropCR line = line := by
  unfold dropCR
  rw [if_neg h]

/-- One `Scan` returns a line that is followed by a newline, when it has no
newline inside, does not end in a carriage return and fits in the buffer. -/
theorem Scan_line (line rest : List Char) (h1 : ∀ c ∈ line, c ≠ '\n')
    (h2 : line.getLast? ≠ some '\r') (h3 : byteLen line < MaxScanTokenSize) :
    Scanner.Scan ⟨line ++ '\n' :: rest⟩ = .ok (line, ⟨rest⟩) := by
  unfold Scanner.Scan
  have h0 : ¬ (line ++ '\n' :: rest = []) := by simp
  obtain ⟨t1, t2⟩ := takeWhile_sep '\n' line rest h1
  simp only [h0, if_false, t1, t2, List.tail_cons, dropCR_id line h2]
  rw [if_neg (by omega)]

theorem SplitN_two (k f : List Char) (hk : ∀ c ∈ k, c ≠ ' ') :
    SplitN 3 (k ++ ' ' :: f) = k :: SplitN 2 f := by
  obtain ⟨t1, t2⟩ := takeWhile_sep ' ' k f hk
  have hc : (k ++ ' ' :: f).contains ' ' = true := by simp
  show (if (k ++ ' ' :: f).contains ' ' = true then _ else _) = _
  rw [if_pos hc, t1, t2]
  rfl

theorem SplitN_last (f : List Char) (hf : ∀ c ∈ f, c ≠ ' ') : SplitN 2 f = [f] := by
  have hc : ¬ (f.contains ' ' = true) := by
    simp only [List.contains_iff_exists_mem_beq, beq_iff_eq, not_exists, not_and]
    intro c hc1 hc2
    exact hf c hc1 hc2.symm
  show (if f.contains ' ' = true then _ else _) = _
  rw [if_neg hc]

theorem SplitN_three (f d : List Char) (hf : ∀ c ∈ f, c ≠ ' ') :
    SplitN 2 (f ++ ' ' :: d) = [f, d] := by
  obtain ⟨t1, t2⟩ := takeWhile_sep ' ' f d hf
  have hc : (f ++ ' ' :: d).contains ' ' = true := by simp
  show (if (f ++ ' ' :: d).contains ' ' = true then _ else _) = _
  rw [if_pos hc, t1, t2]
  rfl
theorem digitChar_word (k : Nat) (h : k < 10) :
    32 < (digitChar k).toNat ∧ (digitChar k).toNat < 128 := by
  interval_cases k <;> decide

theorem isDigit_word (c : Char) (h : isDigit c = true) : 32 < c.toNat ∧ c.toNat < 128 := by
  unfold isDigit at h
  simp only [Bool.and_eq_true, decide_eq_true_eq] at h
  omega

theorem two_word (n : Nat) (h : n < 100) : ∀ c ∈ two n, 32 < c.toNat ∧ c.toNat < 128 := by
  unfold two
  simp only [List.forall_mem_cons, List.not_mem_nil, false_imp_iff, implies_true, and_true]
  exact ⟨digitChar_word _ (by omega), digitChar_word _ (by omega)⟩

theorem four_word (n : Nat) (h : n < 10000) : ∀ c ∈ four n, 32 < c.toNat ∧ c.toNat < 128 := by
  unfold four
  simp only [List.forall_mem_cons, List.not_mem_nil, false_imp_iff, implies_true, and_true]
  exact ⟨digitChar_word _ (by omega), digitChar_word _ (by omega), digitChar_word _ (by omega),
    digitChar_word _ (by omega)⟩

theorem zoneText_word (off : Int) (h1 : -86400 < off) (h2 : off < 86400) :
    (∀ c ∈ zoneText off, 32 < c.toNat ∧ c.toNat < 128) ∧ (zoneText off).length ≤ 6 := by
  unfold zoneText
  have hz := tdiv_spec off 60 (by decide)
  generalize Int.tdiv off 60 = z at hz ⊢
  have hz1 : -1440 ≤ z ∧ z ≤ 1440 := by split_ifs at hz <;> omega
  have w1 := two_word (z.natAbs / 60) (by omega)
  have w2 := two_word (z.natAbs % 60) (by omega)
  by_cases h0 : off = 0
  · rw [if_pos h0]
    exact ⟨by simp, by simp⟩
  · rw [if_neg h0]
    refine ⟨?_, by simp [two]⟩
    simp only [List.forall_mem_cons, List.forall_mem_append]
    refine ⟨by split_ifs <;> decide, w1, by decide, w2⟩

theorem absDate_range (A : Int) :
    1 ≤ (absDate A).2.1 ∧ (absDate A).2.1 ≤ 12 ∧ 1 ≤ (absDate A).2.2.1 ∧
      (absDate A).2.2.1 ≤ 31 := by
  have hN := absYear_spec (A / 86400)
  obtain ⟨m1, m2, d1, d2, -⟩ := monthDay_spec (isLeap (absYear (A / 86400)).1)
    (absYear (A / 86400)).2 hN.1 hN.2.1
  unfold absDate
  simp only
  refine ⟨m1, m2, d1, ?_⟩
  generalize (monthDay (isLeap (absYear (A / 86400)).1) (absYear (A / 86400)).2).2 = dd at d1 d2 ⊢
  generalize (monthDay (isLeap (absYear (A / 86400)).1) (absYear (A / 86400)).2).1 = m at m1 m2 d2
  interval_cases m <;> simp only [daysBefore] at d2 <;> split_ifs at d2 <;> omega

/-- The text of a time is a word of at most 25 printable ASCII characters
without a space. -/
theorem Format_word (tz : Int → Int) (t : Time)
    (hy : 0 ≤ t.Year tz ∧ t.Year tz ≤ 9999)
    (h1 : -86400 < t.offset tz) (h2 : t.offset tz < 86400) :
    (∀ c ∈ t.Format tz, 32 < c.toNat ∧ c.toNat < 128) ∧ (t.Format tz).length ≤ 25 := by
  unfold Time.Year at hy
  rw [Format_eq _ _ hy h1 h2]
  obtain ⟨m1, m2, d1, d2⟩ := absDate_range (t.abs tz)
  obtain ⟨z1, z2⟩ := zoneText_word _ h1 h2
  refine ⟨?_, ?_⟩
  · simp only [List.forall_mem_cons, List.forall_mem_append]
    exact ⟨four_word _ (by omega), by decide, two_word _ (by omega), by decide,
      two_word _ (by omega), by decide, two_word _ (by omega), by decide,
      two_word _ (by omega), by decide, two_word _ (by omega), z1⟩
  · simp only [List.length_append, List.length_cons, four, two, List.length_nil]
    omega
theorem fmtInt_word (v k : Nat) (tail : List Char) (h : v < 10 ^ k)
    (ht : ∀ c ∈ tail, 32 < c.toNat ∧ c.toNat < 128) :
    (∀ c ∈ fmtInt v tail, 32 < c.toNat ∧ c.toNat < 128) ∧
      (fmtInt v tail).length ≤ k + 1 + tail.length := by
  obtain ⟨ds, e, hd, hl, -⟩ := fmtInt_shape v k tail h
  rw [e]
  refine ⟨?_, by rw [List.length_append]; omega⟩
  intro c hc
  rcases List.mem_append.mp hc with h1 | h1
  · exact isDigit_word c (hd c h1)
  · exact ht c h1

/-- The text of a whole, non-negative number of seconds is a word of at most
20 printable ASCII characters without a space. -/
theorem Duration_word (d : Int) (h0 : 0 ≤ d) (hw : d % Second = 0) (hmax : d ≤ maxDuration) :
    (∀ c ∈ Duration.String (Round d Second), 32 < c.toNat ∧ c.toNat < 128) ∧
      (Duration.String (Round d Second)).length ≤ 20 := by
  rw [Round_whole d h0 hw]
  obtain ⟨S, hS⟩ : ∃ S : Nat, d = ((S * 1000000000 : Nat) : Int) := by
    refine ⟨(d / 1000000000).toNat, ?_⟩
    unfold Second at hw
    omega
  have hSmax : S < 10 ^ 10 := by
    unfold maxDuration at hmax
    rw [hS] at hmax
    norm_num at hmax ⊢
    omega
  rw [hS, String_whole]
  have ws : ∀ c ∈ ['s'], 32 < c.toNat ∧ c.toNat < 128 := by decide
  obtain ⟨s1, s2⟩ := fmtInt_word (S % 60) 2 ['s'] (by omega) ws
  have wm : ∀ c ∈ 'm' :: fmtInt (S % 60) ['s'], 32 < c.toNat ∧ c.toNat < 128 := by
    simp only [List.forall_mem_cons]
    exact ⟨by decide, s1⟩
  obtain ⟨m1, m2⟩ := fmtInt_word (S / 60 % 60) 2 _ (by omega) wm
  have wh : ∀ c ∈ 'h' :: fmtInt (S / 60 % 60) ('m' :: fmtInt (S % 60) ['s']),
      32 < c.toNat ∧ c.toNat < 128 := by
    simp only [List.forall_mem_cons]
    exact ⟨by decide, m1⟩
  obtain ⟨x1, x2⟩ := fmtInt_word (S / 60 / 60) 10 _ (by omega) wh
  simp only [List.length_cons, List.length_nil] at s2 m2 x2
  split_ifs
  · exact ⟨by decide, by decide⟩
  · exact ⟨s1, by omega⟩
  · exact ⟨m1, by omega⟩
  · exact ⟨x1, by omega⟩
theorem not_cr_last (l : List Char) (h : ∀ c ∈ l, c ≠ '\r') : l.getLast? ≠ some '\r' := by
  intro hl
  obtain ⟨ys, e⟩ := List.getLast?_eq_some_iff.mp hl
  exact h '\r' (by rw [e]; simp) rfl

/-- What `load` returns for a Work or Break record: an activity line and a
line of kind, time text and duration text. -/
theorem load_record (env : GoEnv) (a F D rest : List Char) (k : Char) (typ : state)
    (et : Time) (ed : Int)
    (hk : (k = 'w' ∧ typ = .working) ∨ (k = 'b' ∧ typ = .resting))
    (ha1 : ∀ c ∈ a, c ≠ '\n') (ha2 : a.getLast? ≠ some '\r')
    (ha3 : byteLen a < MaxScanTokenSize)
    (hF : ∀ c ∈ F, 32 < c.toNat ∧ c.toNat < 128) (hFl : F.length ≤ 25)
    (hD : ∀ c ∈ D, 32 < c.toNat ∧ c.toNat < 128) (hDl : D.length ≤ 20)
    (pF : Parse env F = some et) (pD : ParseDuration env D = some ed) :
    load env ⟨a ++ '\n' :: ((k :: ' ' :: (F ++ ' ' :: D)) ++ '\n' :: rest)⟩ =
      .ok (⟨String.mk a, typ, et, ed⟩, none, ⟨rest⟩) := by
  have hkw : 32 < k.toNat ∧ k.toNat < 128 := by
    rcases hk with ⟨h, -⟩ | ⟨h, -⟩ <;> subst h <;> decide
  have hline : ∀ c ∈ k :: ' ' :: (F ++ ' ' :: D), 32 ≤ c.toNat ∧ c.toNat < 128 := by
    simp only [List.forall_mem_cons, List.forall_mem_append]
    exact ⟨by omega, by decide, fun c hc => by have := hF c hc; omega, by decide,
      fun c hc => by have := hD c hc; omega⟩
  have l1 : ∀ c ∈ k :: ' ' :: (F ++ ' ' :: D), c ≠ '\n' := by
    intro c hc h
    have := hline c hc
    subst h
    revert this
    decide
  have l2 : (k :: ' ' :: (F ++ ' ' :: D)).getLast? ≠ some '\r' := by
    apply not_cr_last
    intro c hc h
    have := hline c hc
    subst h
    revert this
    decide
  have l3 : byteLen (k :: ' ' :: (F ++ ' ' :: D)) < MaxScanTokenSize := by
    rw [byteLen_ascii _ (fun c hc => (hline c hc).2)]
    simp only [List.length_cons, List.length_append, MaxScanTokenSize]
    omega
  have hFs : ∀ c ∈ F, c ≠ ' ' := by
    intro c hc h
    have := hF c hc
    subst h
    revert this
    decide
  have hks : ∀ c ∈ [k], c ≠ ' ' := by
    intro c hc h
    rw [List.mem_singleton] at hc
    subst hc
    subst h
    revert hkw
    decide
  have hsplit : SplitN 3 (k :: ' ' :: (F ++ ' ' :: D)) = [[k], F, D] := by
    have := SplitN_two [k] (F ++ ' ' :: D) hks
    rw [SplitN_three F D hFs] at this
    exact this
  have u := utf8Size_ascii k hkw.2
  unfold load
  rw [Scan_line a _ ha1 ha2 ha3]
  simp only
  rw [Scan_line _ rest l1 l2 l3]
  simp only [hsplit]
  rcases hk with ⟨h, ht⟩ | ⟨h, ht⟩ <;> subst h <;> subst ht <;>
    simp [byteLen, pF, pD, entry.zero, u]

/-- What `load` returns for a Created or Deleted record: the time text is never
parsed. -/
theorem load_mark (env : GoEnv) (a F rest : List Char) (k : Char) (typ : state)
    (hk : (k = 'c' ∧ typ = .selecting) ∨ (k = 'd' ∧ typ = .removing))
    (ha1 : ∀ c ∈ a, c ≠ '\n') (ha2 : a.getLast? ≠ some '\r')
    (ha3 : byteLen a < MaxScanTokenSize)
    (hF : ∀ c ∈ F, 32 < c.toNat ∧ c.toNat < 128) (hFl : F.length ≤ 25) :
    load env ⟨a ++ '\n' :: ((k :: ' ' :: F) ++ '\n' :: rest)⟩ =
      .ok (⟨String.mk a, typ, Time.zero, 0⟩, none, ⟨rest⟩) := by
  have hkw : 32 < k.toNat ∧ k.toNat < 128 := by
    rcases hk with ⟨h, -⟩ | ⟨h, -⟩ <;> subst h <;> decide
  have hline : ∀ c ∈ k :: ' ' :: F, 32 ≤ c.toNat ∧ c.toNat < 128 := by
    simp only [List.forall_mem_cons]
    exact ⟨by omega, by decide, fun c hc => by have := hF c hc; omega⟩
  have l1 : ∀ c ∈ k :: ' ' :: F, c ≠ '\n' := by
    intro c hc h
    have := hline c hc
    subst h
    revert this
    decide
  have l2 : (k :: ' ' :: F).getLast? ≠ some '\r' := by
    apply not_cr_last
    intro c hc h
    have := hline c hc
    subst h
    revert this
    decide
  have l3 : byteLen (k :: ' ' :: F) < MaxScanTokenSize := by
    rw [byteLen_ascii _ (fun c hc => (hline c hc).2)]
    simp only [List.length_cons, MaxScanTokenSize]
    omega
  have hFs : ∀ c ∈ F, c ≠ ' ' := by
    intro c hc h
    have := hF c hc
    subst h
    revert this
    decide
  have hks : ∀ c ∈ [k], c ≠ ' ' := by
    intro c hc h
    rw [List.mem_singleton] at hc
    subst hc
    subst h
    revert hkw
    decide
  have hsplit : SplitN 3 (k :: ' ' :: F) = [[k], F] := by
    have := SplitN_two [k] F hks
    rw [SplitN_last F hFs] at this
    exact this
  have u := utf8Size_ascii k hkw.2
  unfold load
  rw [Scan_line a _ ha1 ha2 ha3]
  simp only
  rw [Scan_line _ rest l1 l2 l3]
  simp only [hsplit]
  rcases hk with ⟨h, ht⟩ | ⟨h, ht⟩ <;> subst h <;> subst ht <;>
    simp [byteLen, entry.zero, u, Time.zero]

/-- The entry that `load` reads from the text of an entry, whatever follows
the two lines: a Work or Break entry keeps its instant, its zone offset and
its duration; a Created or Deleted entry has the zero time. -/
theorem load_String (env : GoEnv) (e : entry) (rest : List Char)
    (hkind : e.typ = .selecting ∨ e.typ = .removing ∨ e.typ = .working ∨ e.typ = .resting)
    (ha1 : ∀ c ∈ e.a.data, c ≠ '\n') (ha2 : e.a.data.getLast? ≠ some '\r')
    (ha3 : byteLen e.a.data < MaxScanTokenSize)
    (hy : 0 ≤ e.t.Year env.tz ∧ e.t.Year env.tz ≤ 9999)
    (hz1 : -86400 < e.t.offset env.tz) (hz2 : e.t.offset env.tz < 86400)
    (hz3 : e.t.offset env.tz % 60 = 0)
    (hd0 : 0 ≤ e.d) (hdw : e.d % Second = 0) (hdmax : e.d ≤ maxDuration) :
    load env ⟨e.String env.tz ++ rest⟩ =
      .ok (if e.typ = .selecting ∨ e.typ = .removing then ⟨e.a, e.typ, Time.zero, 0⟩
        else ⟨e.a, e.typ,
          if e.t.offset env.tz = 0 then ⟨e.t.sec, 0, .utc⟩
          else ⟨e.t.sec, 0, if env.tz e.t.sec = e.t.offset env.tz then .localZone
            else .fixed (e.t.offset env.tz)⟩, e.d⟩, none, ⟨rest⟩) := by
  obtain ⟨a, typ, t, d⟩ := e
  obtain ⟨f1, f2⟩ := Format_word env.tz t hy hz1 hz2
  obtain ⟨g1, g2⟩ := Duration_word d hd0 hdw hdmax
  have pF := Parse_Format env t hy hz1 hz2 hz3
  have pD := ParseDuration_String env d hd0 hdw hdmax
  simp only at hkind ha1 ha2 ha3 ⊢
  rcases hkind with h | h | h | h <;> subst h
  · have := load_mark env a.data (t.Format env.tz) rest 'c' .selecting (Or.inl ⟨rfl, rfl⟩)
      ha1 ha2 ha3 f1 f2
    simp only [entry.String, List.append_assoc, List.cons_append, List.nil_append, true_or,
      if_true]
    simpa using this
  · have := load_mark env a.data (t.Format env.tz) rest 'd' .removing (Or.inr ⟨rfl, rfl⟩)
      ha1 ha2 ha3 f1 f2
    simp only [entry.String, List.append_assoc, List.cons_append, List.nil_append, or_true,
      if_true]
    simpa using this
  · have := load_record env a.data (t.Format env.tz) (Duration.String (Round d Second)) rest
      'w' .working _ d (Or.inl ⟨rfl, rfl⟩) ha1 ha2 ha3 f1 f2 g1 g2 pF pD
    simp only [entry.String, List.append_assoc, List.cons_append, List.nil_append]
    rw [if_neg (by decide)]
    simpa using this
  · have := load_record env a.data (t.Format env.tz) (Duration.String (Round d Second)) rest
      'b' .resting _ d (Or.inr ⟨rfl, rfl⟩) ha1 ha2 ha3 f1 f2 g1 g2 pF pD
    simp only [entry.String, List.append_assoc, List.cons_append, List.nil_append]
    rw [if_neg (by decide)]
    simpa using this

/-- **C1, as amended** (encode/decode round trip).  For every entry `e` of
kind Created, Deleted, Work or Break whose activity has no newline, does not
end in a carriage return and is shorter than the 64 KiB buffer of the scanner,
whose time has whole-second precision, a year in 0..9999 and a zone offset of
a whole number of minutes of less than a day, and whose duration is a
non-negative whole number of seconds within `time.Duration` (zero for Created
and Deleted): `load` applied to the text `e.String()`, whatever follows it,
returns without error, leaves what follows unread, and gives an entry with the
same activity, the same kind and the same duration; for Work and Break it has
the same instant and the same zone offset as `e`; for Created and Deleted it
has the zero time, because `load` returns before it looks at the timestamp. -/
theorem load_String_round_trip (env : GoEnv) (e : entry) (rest : List Char)
    (hkind : e.typ = .selecting ∨ e.typ = .removing ∨ e.typ = .working ∨ e.typ = .resting)
    (ha1 : ∀ c ∈ e.a.data, c ≠ '\n') (ha2 : e.a.data.getLast? ≠ some '\r')
    (ha3 : byteLen e.a.data < MaxScanTokenSize)
    (hy : 0 ≤ e.t.Year env.tz ∧ e.t.Year env.tz ≤ 9999)
    (hz1 : -86400 < e.t.offset env.tz) (hz2 : e.t.offset env.tz < 86400)
    (hz3 : e.t.offset env.tz % 60 = 0) (hns : e.t.nsec = 0)
    (hd0 : 0 ≤ e.d) (hdw : e.d % Second = 0) (hdmax : e.d ≤ maxDuration)
    (hdz : e.typ = .selecting ∨ e.typ = .removing → e.d = 0) :
    ∃ e1 : entry, load env ⟨e.String env.tz ++ rest⟩ = .ok (e1, none, ⟨rest⟩) ∧
      e1.a = e.a ∧ e1.typ = e.typ ∧ e1.d = e.d ∧
      (e.typ = .working ∨ e.typ = .resting →
        e1.t.sec = e.t.sec ∧ e1.t.nsec = e.t.nsec ∧ e1.t.offset env.tz = e.t.offset env.tz) ∧
      (e.typ = .selecting ∨ e.typ = .removing → e1.t = Time.zero) := by
  refine ⟨_, load_String env e rest hkind ha1 ha2 ha3 hy hz1 hz2 hz3 hd0 hdw hdmax, ?_⟩
  by_cases hm : e.typ = .selecting ∨ e.typ = .removing
  · rw [if_pos hm]
    refine ⟨rfl, rfl, (hdz hm).symm, ?_, fun _ => rfl⟩
    intro hw
    rcases hm with h | h <;> rcases hw with h1 | h1 <;> rw [h] at h1 <;> cases h1
  · rw [if_neg hm]
    refine ⟨rfl, rfl, rfl, fun _ => ?_, fun h => absurd h hm⟩
    by_cases h0 : e.t.offset env.tz = 0
    · rw [if_pos h0]
      exact ⟨rfl, hns.symm, h0.symm⟩
    · rw [if_neg h0]
      refine ⟨rfl, hns.symm, ?_⟩
      generalize e.t.offset env.tz = off
      by_cases hl : env.tz e.t.sec = off
      · rw [if_pos hl]
        exact hl
      · rw [if_neg hl]
        rfl

/-- Counterexample to C1: a Created entry with a non-empty, newline-free
activity, a whole-second timestamp and a zero duration.  `load` applied to its
two lines returns the zero time, not the instant of the entry. -/
theorem load_drops_created_time :
    (mkEntry "A" .selecting mon15 0).String envUTC.tz = "A\nc 2024-01-15T09:00:00Z\n".data ∧
    (mkEntry "A" .selecting mon15 0).t.nsec = 0 ∧ (mkEntry "A" .selecting mon15 0).d = 0 ∧
    load envUTC ⟨(mkEntry "A" .selecting mon15 0).String envUTC.tz⟩ =
      .ok (⟨"A", .selecting, Time.zero, 0⟩, none, ⟨[]⟩) ∧
    Time.zero.sec ≠ (mkEntry "A" .selecting mon15 0).t.sec :=
  ⟨rfl, rfl, rfl, rfl, by decide⟩

/-- Witness of C1 as amended: ten minutes of work on Monday, read back. -/
theorem load_String_round_trip_witness :
    ∃ e1 : entry,
      load envUTC ⟨(mkEntry "A" .working mon15 10).String envUTC.tz ++ []⟩ =
        .ok (e1, none, ⟨[]⟩) ∧
      e1.a = "A" ∧ e1.typ = .working ∧ e1.d = (mkEntry "A" .working mon15 10).d ∧
      (state.working = .working ∨ state.working = .resting →
        e1.t.sec = mon15.sec ∧ e1.t.nsec = mon15.nsec ∧
          e1.t.offset envUTC.tz = mon15.offset envUTC.tz) ∧
      (state.working = .selecting ∨ state.working = .removing → e1.t = Time.zero) :=
  load_String_round_trip envUTC (mkEntry "A" .working mon15 10) [] (by decide) (by decide)
    (by decide) (by decide) (by decide) (by decide) (by decide) (by decide) rfl (by decide)
    (by decide) (by decide) (by decide)

/-! ## `shrink` on a log that `shrink` wrote -/

theorem filter_modify_last (f : entry → entry) :
    ∀ (B : List entry) (j : Nat) (v : entry), B[j]? = some v →
      (∀ (i : Nat) (w : entry), j ≤ i → B[i]? = some w → ¬ w.d > 0) → (f v).d > 0 →
      (B.modify f j).filter (fun v => v.d > 0) = B.filter (fun v => v.d > 0) ++ [f v] := by
  intro B
  induction B with
  | nil =>
    intro j v h
    simp at h
  | cons b B ih =>
    intro j v hj hz hf
    cases j with
    | zero =>
      simp only [List.getElem?_cons_zero, Option.some.injEq] at hj
      subst hj
      have hb : ¬ b.d > 0 := hz 0 b (le_refl _) (by simp)
      have hB : B.filter (fun v => v.d > 0) = [] := by
        rw [List.filter_eq_nil_iff]
        intro w hw
        obtain ⟨i, hi⟩ := List.mem_iff_getElem?.mp hw
        simpa using hz (i + 1) w (by omega) (by simpa using hi)
      simp [List.filter_cons, hb, hf, hB]
    | succ j =>
      have hj1 : B[j]? = some v := by simpa using hj
      have hz1 : ∀ (i : Nat) (w : entry), j ≤ i → B[i]? = some w → ¬ w.d > 0 :=
        fun i w hi hw => hz (i + 1) w (by omega) (by simpa using hw)
      have := ih j v hj1 hz1 hf
      by_cases hb : b.d > 0
      · simp [List.filter_cons, hb, this]
      · simp [List.filter_cons, hb, this]

theorem slotOf_eq (m : List (String × Nat)) (e : entry) (idx : Nat)
    (h : mapGet m e.a = some idx) :
    (if e.typ = .resting then idx + 1 else idx) = slotOf m e := by
  unfold slotOf
  rw [h]
  split_ifs <;> simp

theorem rinv_init (A : List String) : RInv (actIdxOf A) [] ⟨Time.zero, buffer0 A, []⟩ := by
  obtain ⟨-, h2, -⟩ := buffer0_spec A
  have hz : ∀ v ∈ buffer0 A, v.d = 0 := fun v hv => (h2 v hv).1
  refine ⟨?_, ?_, ?_⟩
  · unfold shrinkEnd
    simp only [List.nil_append, List.filter_eq_nil_iff]
    intro v hv
    rw [hz v hv]
    simp
  · intro v hv
    rw [hz v hv]
  · intro i v hv hd
    exact absurd (hz v (List.getElem?_mem hv)) hd

/-- The first half of an iteration on the next entry of a written log: the
output and the buffer still hold the entries read, and every slot in use is
before the slot of the entry. -/
theorem rinv_flush (tz : Int → Int) (A : List String) (p : List entry) (s : ShrinkAcc)
    (e : entry) (h : SInv tz A p s) (r : RInv (actIdxOf A) p s)
    (hch : ∀ x, p.getLast? = some x → dayOf tz x.t = dayOf tz e.t →
      slotOf (actIdxOf A) x < slotOf (actIdxOf A) e) :
    shrinkEnd (flushPhase tz s e) = p ∧
    (∀ v ∈ (flushPhase tz s e).buffer, 0 ≤ v.d) ∧
    (∀ (i : Nat) (v : entry), (flushPhase tz s e).buffer[i]? = some v → v.d ≠ 0 →
      i < slotOf (actIdxOf A) e) := by
  obtain ⟨r1, r2, r3⟩ := r
  unfold flushPhase
  by_cases hs : sameDay tz s.this e.t = true
  · rw [if_pos hs]
    refine ⟨r1, r2, ?_⟩
    intro i v hv hd
    obtain ⟨x, hx, hi⟩ := r3 i v hv hd
    have hday : dayOf tz x.t = dayOf tz e.t :=
      (h.2.2.2.2 x hx).symm.trans ((sameDay_iff tz _ _).mp hs)
    have := hch x hx hday
    omega
  · rw [if_neg hs]
    refine ⟨?_, ?_, ?_⟩
    · unfold shrinkEnd at r1 ⊢
      simp only
      rw [r1]
      have : (zero s.buffer).filter (fun v => v.d > 0) = [] := by
        rw [List.filter_eq_nil_iff]
        intro v hv
        rw [mem_zero _ v hv]
        simp
      rw [this, List.append_nil]
    · intro v hv
      rw [mem_zero _ v hv]
    · intro i v hv hd
      exact absurd (mem_zero _ v (List.getElem?_mem hv)) hd

theorem rinv_step (tz : Int → Int) (A : List String) (p : List entry) (s : ShrinkAcc)
    (e : entry) (h : SInv tz A p s) (r : RInv (actIdxOf A) p s)
    (he : (e.typ = .working ∨ e.typ = .resting) ∧ e.a ∈ A ∧ 0 < e.d ∧ e.d ≤ maxDuration)
    (hch : ∀ x, p.getLast? = some x → dayOf tz x.t = dayOf tz e.t →
      slotOf (actIdxOf A) x < slotOf (actIdxOf A) e) :
    RInv (actIdxOf A) (p ++ [e]) (shrinkStep tz (actIdxOf A) s e) := by
  obtain ⟨f1, f2, f3⟩ := rinv_flush tz A p s e h r hch
  have hlab := (sinv_flush tz A p s e h).1
  rw [shrinkStep_phases]
  generalize flushPhase tz s e = s1 at f1 f2 f3 hlab
  obtain ⟨hk, ha, hd0, hdmax⟩ := he
  obtain ⟨idx, hidx⟩ := actIdx_mem A e.a ha
  have hidx1 : mapGet (actIdxOf A) e.a = some idx := hidx
  have hslot := slotOf_eq (actIdxOf A) e idx hidx1
  have hnot : ¬ (e.typ ≠ .working ∧ e.typ ≠ .resting) := by
    rcases hk with h1 | h1 <;> simp [h1]
  -- the slot of `e` holds its labels and a zero duration
  obtain ⟨v0, hv0, hva, hvt⟩ : ∃ v0, s1.buffer[slotOf (actIdxOf A) e]? = some v0 ∧
      v0.a = e.a ∧ v0.typ = e.typ := by
    obtain ⟨v, w, g1, g2, g3, g4, g5, g6⟩ := hlab e.a idx hidx1
    rw [← hslot]
    rcases hk with h1 | h1
    · rw [if_neg (by rw [h1]; decide)]
      exact ⟨v, g1, g2, g3.trans h1.symm⟩
    · rw [if_pos h1]
      exact ⟨w, g4, g5, g6.trans h1.symm⟩
  have hvd : v0.d = 0 := by
    by_contra hne
    exact absurd (f3 _ v0 hv0 hne) (lt_irrefl _)
  have hfe : ({ v0 with t := e.t, d := add64 v0.d e.d } : entry) = e := by
    have : add64 v0.d e.d = e.d := by
      rw [hvd]
      unfold add64
      rw [zero_add]
      apply wrap64_id
      · omega
      · unfold maxDuration at hdmax
        omega
    rw [this]
    cases e
    cases v0
    simp only at hva hvt
    simp [hva, hvt]
  have hbuf : (accPhase (actIdxOf A) s1 e).buffer =
      accumulate s1.buffer (slotOf (actIdxOf A) e) e := by
    unfold accPhase
    rw [if_neg hnot]
    simp only [hidx1, hslot]
  have hout := accPhase_out (actIdxOf A) s1 e
  refine ⟨?_, ?_, ?_⟩
  · unfold shrinkEnd at f1 ⊢
    rw [hout.1, hbuf]
    unfold accumulate
    rw [filter_modify_last _ s1.buffer _ v0 hv0 ?_ (by rw [hfe]; exact hd0), hfe,
      ← List.append_assoc, f1]
    intro i w hi hw hpos
    have := f3 i w hw (by omega)
    omega
  · intro v hv
    rw [hbuf] at hv
    obtain ⟨i, hi⟩ := List.mem_iff_getElem?.mp hv
    rw [accumulate_get] at hi
    by_cases hji : slotOf (actIdxOf A) e = i
    · rw [if_pos hji, ← hji, hv0] at hi
      simp only [Option.map_some', Option.some.injEq] at hi
      rw [← hi, hfe]
      omega
    · rw [if_neg hji] at hi
      exact f2 v (List.getElem?_mem hi)
  · intro i v hv hd
    refine ⟨e, by simp, ?_⟩
    rw [hbuf, accumulate_get] at hv
    by_cases hji : slotOf (actIdxOf A) e = i
    · omega
    · rw [if_neg hji] at hv
      have := f3 i v hv hd
      omega

/-- On a log of writable entries in slot order, `shrink` merges nothing and
drops nothing. -/
theorem rinv_compacted (tz : Int → Int) (A : List String) (X : List entry)
    (hw : Writable A X) (ho : SlotOrdered tz (actIdxOf A) X) :
    RInv (actIdxOf A) X (compacted tz A X) := by
  induction X using List.reverseRecOn with
  | nil => exact rinv_init A
  | append_singleton p e ih =>
    unfold SlotOrdered at ho
    rw [List.chain'_append] at ho
    obtain ⟨o1, -, o3⟩ := ho
    have hwp : Writable A p := fun v hv => hw v (List.mem_append_left _ hv)
    have h := rinv_step tz A p (compacted tz A p) e (sinv_compacted tz A p) (ih hwp o1)
      (hw e (by simp)) (fun x hx => o3 x hx e (by simp))
    unfold compacted at h ⊢
    rw [List.foldl_append]
    exact h

theorem canon_slot (m : List (String × Nat)) (i : Nat) (v : entry) (h : Canon m i v) :
    slotOf m v = i := by
  unfold slotOf
  rcases h with ⟨h1, h2⟩ | ⟨h1, j, h2, h3⟩
  · rw [h2, h1]
    simp
  · rw [h2, h1, h3]
    simp

/-- A flush keeps the output in slot order when nothing written so far is
dated on the day of the run. -/
theorem ordered_block (tz : Int → Int) (A : List String) (p : List entry) (s : ShrinkAcc)
    (h : SInv tz A p s) (u : UInv tz s) (ho : SlotOrdered tz (actIdxOf A) s.out) :
    SlotOrdered tz (actIdxOf A) (s.out ++ s.buffer.filter (fun v => v.d > 0)) := by
  unfold SlotOrdered at ho ⊢
  rw [List.chain'_append]
  refine ⟨ho, ?_, ?_⟩
  · apply List.Pairwise.chain'
    rw [List.pairwise_filter, List.pairwise_iff_getElem]
    intro i j hi hj hij hdi hdj _
    have hdi1 : s.buffer[i].d > 0 := by simpa using hdi
    have hdj1 : s.buffer[j].d > 0 := by simpa using hdj
    have c1 := h.2.2.1 i s.buffer[i] (List.getElem?_eq_getElem hi) (by omega)
    have c2 := h.2.2.1 j s.buffer[j] (List.getElem?_eq_getElem hj) (by omega)
    rw [canon_slot _ _ _ c1, canon_slot _ _ _ c2]
    exact hij
  · intro x hx y hy hxy
    have hx1 : x ∈ s.out := List.mem_of_mem_getLast? hx
    have hy1 : y ∈ s.buffer.filter (fun v => v.d > 0) := List.mem_of_mem_head? hy
    rw [List.mem_filter] at hy1
    have hyd : y.d ≠ 0 := by
      have := hy1.2
      simp only [decide_eq_true_eq] at this
      omega
    exact absurd (hxy.trans (h.2.1 y hy1.1 hyd).1) (u.1 x hx1)

theorem ordered_compacted (tz : Int → Int) (A : List String) (p : List entry)
    (hc : DaysContiguous tz p) : SlotOrdered tz (actIdxOf A) (compacted tz A p).out := by
  induction p using List.reverseRecOn with
  | nil => exact List.chain'_nil
  | append_singleton p e ih =>
    have hcp := contig_front tz p e hc
    have hs := sinv_compacted tz A p
    have hu := uinv_compacted tz A p hcp
    have ho := ih hcp
    have hstep : compacted tz A (p ++ [e]) =
        shrinkStep tz (actIdxOf A) (compacted tz A p) e := by
      unfold compacted
      rw [List.foldl_append]
      rfl
    rw [hstep, shrinkStep_phases, (accPhase_out _ _ _).1]
    unfold flushPhase
    split_ifs
    · exact ho
    · exact ordered_block tz A p _ hs hu ho

/-- What `shrink` writes for a log whose days are contiguous is in slot
order. -/
theorem written_ordered (tz : Int → Int) (A : List String) (p : List entry)
    (hc : DaysContiguous tz p) :
    SlotOrdered tz (actIdxOf A) (shrinkEnd (compacted tz A p)) :=
  ordered_block tz A p _ (sinv_compacted tz A p) (uinv_compacted tz A p hc)
    (ordered_compacted tz A p hc)

theorem wrap64_le (x : Int) : wrap64 x ≤ maxDuration := by
  unfold wrap64 maxDuration
  norm_num
  omega

theorem kinv_init (P : Time → Prop) (h0 : P Time.zero) (A : List String) :
    KInv P ⟨Time.zero, buffer0 A, []⟩ := by
  obtain ⟨-, h2, -⟩ := buffer0_spec A
  refine ⟨fun v hv => ?_, fun v hv => by simp at hv⟩
  have := h2 v hv
  rw [this.1, this.2]
  exact ⟨by decide, h0⟩

theorem kinv_step (P : Time → Prop) (h0 : P Time.zero) (tz : Int → Int)
    (m : List (String × Nat)) (s : ShrinkAcc) (e : entry) (k : KInv P s) (he : P e.t) :
    KInv P (shrinkStep tz m s e) := by
  rw [shrinkStep_phases]
  have k1 : KInv P (flushPhase tz s e) := by
    unfold flushPhase
    split_ifs
    · exact k
    · refine ⟨fun v hv => ?_, fun v hv => ?_⟩
      · simp only [zero, List.mem_map] at hv
        obtain ⟨u, -, hu⟩ := hv
        rw [← hu]
        exact ⟨by show (0 : Int) ≤ maxDuration; decide, h0⟩
      · rcases List.mem_append.mp hv with h | h
        · exact k.2 v h
        · exact k.1 v (List.mem_filter.mp h).1
  generalize flushPhase tz s e = s1 at k1
  refine ⟨fun v hv => ?_, fun v hv => ?_⟩
  · unfold accPhase at hv
    by_cases hk : e.typ ≠ .working ∧ e.typ ≠ .resting
    · rw [if_pos hk] at hv
      exact k1.1 v hv
    · rw [if_neg hk] at hv
      cases hm : mapGet m e.a with
      | none =>
        rw [hm] at hv
        exact k1.1 v hv
      | some idx =>
        rw [hm] at hv
        simp only at hv
        generalize (if e.typ = .resting then idx + 1 else idx) = j at hv
        obtain ⟨i, hi⟩ := List.mem_iff_getElem?.mp hv
        rw [accumulate_get] at hi
        by_cases hji : j = i
        · rw [if_pos hji] at hi
          cases hb : s1.buffer[i]? with
          | none =>
            rw [hb] at hi
            cases hi
          | some u =>
            rw [hb] at hi
            simp only [Option.map_some', Option.some.injEq] at hi
            rw [← hi]
            exact ⟨wrap64_le _, he⟩
        · rw [if_neg hji] at hi
          exact k1.1 v (List.getElem?_mem hi)
  · rw [(accPhase_out m s1 e).1] at hv
    exact k1.2 v hv

theorem kinv_compacted (P : Time → Prop) (h0 : P Time.zero) (tz : Int → Int)
    (A : List String) (p : List entry) (hp : ∀ e ∈ p, P e.t) :
    KInv P (compacted tz A p) := by
  induction p using List.reverseRecOn with
  | nil => exact kinv_init P h0 A
  | append_singleton p e ih =>
    have h := kinv_step P h0 tz (actIdxOf A) (compacted tz A p) e
      (ih (fun x hx => hp x (List.mem_append_left _ hx))) (hp e (by simp))
    unfold compacted at h ⊢
    rw [List.foldl_append]
    exact h

/-- What `shrink` writes are Work and Break entries of the listed activities
with positive durations. -/
theorem written_writable (tz : Int → Int) (A : List String) (p : List entry) :
    Writable A (shrinkEnd (compacted tz A p)) := by
  have hs := sinv_compacted tz A p
  have hk := kinv_compacted (fun _ => True) trivial tz A p (fun _ _ => trivial)
  intro v hv
  unfold shrinkEnd at hv
  rcases List.mem_append.mp hv with h | h
  · obtain ⟨h1, h2, h3, -⟩ := hs.2.2.2.1 v h
    exact ⟨h1, h2, h3, (hk.2 v h).1⟩
  · rw [List.mem_filter] at h
    have hd : 0 < v.d := by simpa using h.2
    obtain ⟨i, hi⟩ := List.mem_iff_getElem?.mp h.1
    obtain ⟨c1, c2⟩ := canon_mem A i v (hs.2.2.1 i v hi (by omega))
    exact ⟨c1, c2, hd, (hk.1 v h.1).1⟩

/-- A property of the times of the entries read that holds of the zero time
holds of the times of the entries written. -/
theorem written_times (P : Time → Prop) (h0 : P Time.zero) (tz : Int → Int)
    (A : List String) (p : List entry) (hp : ∀ e ∈ p, P e.t) :
    ∀ v ∈ shrinkEnd (compacted tz A p), P v.t := by
  have hk := kinv_compacted P h0 tz A p hp
  intro v hv
  unfold shrinkEnd at hv
  rcases List.mem_append.mp hv with h | h
  · exact (hk.2 v h).2
  · exact (hk.1 v (List.mem_filter.mp h).1).2

/-- Whole, non-negative durations whose daily totals fit are written as
whole, non-negative durations. -/
theorem written_whole (tz : Int → Int) (A : List String) (p : List entry)
    (hsec : ∀ e ∈ p, 0 ≤ e.d ∧ e.d % Second = 0)
    (hfit : ∀ a k dy, bucketSum tz a k dy p ≤ maxDuration) :
    ∀ v ∈ shrinkEnd (compacted tz A p), 0 ≤ v.d ∧ v.d % Second = 0 := by
  obtain ⟨q1, q2, -⟩ := qinv_compacted tz A p hsec hfit
  intro v hv
  unfold shrinkEnd at hv
  rcases List.mem_append.mp hv with h | h
  · exact q2 v h
  · exact q1 v (List.mem_filter.mp h).1

/-! ## The compacted log read back -/

theorem reread_offset (tz : Int → Int) (t : Time) : (reread tz t).offset tz = t.offset tz := by
  unfold reread
  by_cases h0 : t.offset tz = 0
  · rw [if_pos h0, h0]
    rfl
  · rw [if_neg h0]
    by_cases hl : tz t.sec = t.offset tz
    · rw [if_pos hl]
      exact hl
    · rw [if_neg hl]
      rfl

theorem reread_sec (tz : Int → Int) (t : Time) : (reread tz t).sec = t.sec := by
  unfold reread
  split_ifs <;> rfl

theorem reread_abs (tz : Int → Int) (t : Time) : (reread tz t).abs tz = t.abs tz := by
  unfold Time.abs
  rw [reread_offset, reread_sec]

theorem dayOf_reread (tz : Int → Int) (t : Time) : dayOf tz (reread tz t) = dayOf tz t := by
  unfold dayOf Time.Date
  rw [reread_abs]

theorem Format_reread (tz : Int → Int) (t : Time) : (reread tz t).Format tz = t.Format tz := by
  unfold Time.Format
  rw [reread_abs, reread_offset]

theorem String_reread (tz : Int → Int) (e : entry) : (e.reread tz).String tz = e.String tz := by
  unfold entry.String entry.reread
  simp only [Format_reread]

theorem logText_reread (tz : Int → Int) (W : List entry) :
    logText tz (W.map (entry.reread tz)) = logText tz W := by
  unfold logText
  rw [List.map_map]
  congr 1
  apply List.map_congr_left
  intro e _
  exact String_reread tz e

theorem writable_reread (tz : Int → Int) (A : List String) (W : List entry)
    (h : Writable A W) : Writable A (W.map (entry.reread tz)) := by
  intro v hv
  obtain ⟨w, hw, e⟩ := List.mem_map.mp hv
  rw [← e]
  exact h w hw

theorem ordered_reread (tz : Int → Int) (m : List (String × Nat)) (W : List entry)
    (h : SlotOrdered tz m W) : SlotOrdered tz m (W.map (entry.reread tz)) := by
  unfold SlotOrdered at h ⊢
  rw [List.chain'_map]
  refine List.Chain'.imp ?_ h
  intro a b hab hd
  have e1 : dayOf tz (a.reread tz).t = dayOf tz a.t := dayOf_reread tz a.t
  have e2 : dayOf tz (b.reread tz).t = dayOf tz b.t := dayOf_reread tz b.t
  rw [e1, e2] at hd
  exact hab hd

/-- The loop of `loadAll` on the text of Work and Break entries that satisfy
the side conditions of the text format: every entry is read back. -/
theorem loadAllLoop_logText (env : GoEnv) :
    ∀ (W : List entry) (fuel : Nat) (acc : List entry),
      (∀ w ∈ W, (w.typ = .working ∨ w.typ = .resting) ∧ NameOK w.a ∧ TimeOK env.tz w.t ∧
        0 ≤ w.d ∧ w.d % Second = 0 ∧ w.d ≤ maxDuration) →
      W.length < fuel →
      loadAllLoop env fuel ⟨logText env.tz W⟩ acc = .ok (acc ++ W.map (entry.reread env.tz)) := by
  intro W
  induction W with
  | nil =>
    intro fuel acc _ hf
    obtain ⟨f, rfl⟩ : ∃ f, fuel = f + 1 := ⟨fuel - 1, by simp at hf; omega⟩
    simp [loadAllLoop, logText, load, Scanner.Scan]
  | cons w W ih =>
    intro fuel acc hW hf
    obtain ⟨f, rfl⟩ : ∃ f, fuel = f + 1 := ⟨fuel - 1, by simp at hf; omega⟩
    obtain ⟨hk, ⟨n1, n2, n3⟩, ⟨t1, t2, t3, t4⟩, d1, d2, d3⟩ := hW w (List.mem_cons_self _ _)
    have hl := load_String env w (logText env.tz W) (Or.inr (Or.inr hk)) n1 n2 n3 t1 t2 t3 t4
      d1 d2 d3
    have hnot : ¬ (w.typ = .selecting ∨ w.typ = .removing) := by
      rcases hk with h | h <;> rw [h] <;> decide
    rw [if_neg hnot] at hl
    have htext : logText env.tz (w :: W) = w.String env.tz ++ logText env.tz W := by
      simp [logText]
    have hre : (⟨w.a, w.typ,
        if w.t.offset env.tz = 0 then ⟨w.t.sec, 0, .utc⟩
        else ⟨w.t.sec, 0, if env.tz w.t.sec = w.t.offset env.tz then .localZone
          else .fixed (w.t.offset env.tz)⟩, w.d⟩ : entry) = w.reread env.tz := rfl
    rw [hre] at hl
    unfold loadAllLoop
    rw [htext, hl]
    simp only
    rw [ih f (acc ++ [w.reread env.tz]) (fun x hx => hW x (List.mem_cons_of_mem _ hx))
      (by simp at hf; omega)]
    simp

theorem logText_length (tz : Int → Int) (W : List entry)
    (h : ∀ w ∈ W, w.typ = .working ∨ w.typ = .resting) : W.length ≤ (logText tz W).length := by
  induction W with
  | nil => simp
  | cons w W ih =>
    have h1 : 1 ≤ (w.String tz).length := by
      unfold entry.String
      rcases h w (List.mem_cons_self _ _) with hk | hk <;> rw [hk] <;> simp <;> omega
    have h2 := ih (fun x hx => h x (List.mem_cons_of_mem _ hx))
    have : logText tz (w :: W) = w.String tz ++ logText tz W := by simp [logText]
    rw [this, List.length_append, List.length_cons]
    omega

/-- The function `loadAll` on the text of a compacted log. -/
theorem loadAll_logText (env : GoEnv) (W : List entry)
    (h : ∀ w ∈ W, (w.typ = .working ∨ w.typ = .resting) ∧ NameOK w.a ∧ TimeOK env.tz w.t ∧
      0 ≤ w.d ∧ w.d % Second = 0 ∧ w.d ≤ maxDuration) :
    loadAll env (logText env.tz W) = .ok (W.map (entry.reread env.tz), none) := by
  have hlen := logText_length env.tz W (fun w hw => (h w hw).1)
  unfold loadAll
  rw [loadAllLoop_logText env W _ [] h (by omega)]
  simp

/-- The file that a call of `shrink` leaves: the text of the entries written,
on a disk that is still writable. -/
theorem shrink_file (fuel : Nat) (env : GoEnv) (disk : Disk) (l : logger) (A : List String)
    (r : Shrunk) (hw : disk.writable = true) (hr : l.shrink fuel env disk A = some (.ok r)) :
    r.disk = ⟨some (logText env.tz r.written), true⟩ := by
  obtain ⟨file, writable⟩ := disk
  simp only at hw
  subst hw
  unfold logger.shrink at hr
  simp only [Bool.not_true, Bool.false_eq_true, if_false] at hr
  generalize shrinkLoop env ⟨some [], true⟩ (mkActIdx A 0 []) fuel l.reset
      ⟨Time.zero, mkBuffer (mkActIdx A 0 []) (List.replicate (A.length * 2) entry.zero), []⟩ = X
    at hr
  cases X with
  | none => cases hr
  | some x =>
    cases x with
    | error p => cases hr
    | ok y =>
      simp only [Option.some.injEq, Except.ok.injEq] at hr
      rw [← hr]
      rfl

theorem TimeOK_zero (tz : Int → Int) : TimeOK tz Time.zero := by
  have h1 : Time.zero.Year tz = 1 := rfl
  have h2 : Time.zero.offset tz = 0 := rfl
  unfold TimeOK
  rw [h1, h2]
  decide

/-- Compaction is idempotent on contiguous days.  For a logger whose committed
entries are loaded, a log file that can be created, activities `A` without a
newline or a final carriage return and shorter than the buffer of the scanner,
and a sequence `committed ++ session` whose calendar days are contiguous, whose
times have a four-digit year and a whole-minute zone offset of less than a
day, and whose durations are whole, non-negative numbers of seconds with daily
totals within `time.Duration`: when `shrink(A)` returns and the last entry it
wrote is not dated 0001-01-01, the file it wrote is read back by `loadAll` as
the entries written (same activity, kind, duration, second and zone offset),
and `shrink(A)` on that log, with an empty session, returns, writes exactly
these entries again and leaves a file with the same bytes. -/
theorem shrink_idempotent (fuel fuel2 : Nat) (env : GoEnv) (disk : Disk) (l : logger)
    (A : List String) (r : Shrunk)
    (hl : l.bread = true) (hw : disk.writable = true)
    (hA : ∀ a ∈ A, NameOK a)
    (ht : ∀ e ∈ l.buffered ++ l.session, TimeOK env.tz e.t)
    (hsec : ∀ e ∈ l.buffered ++ l.session, 0 ≤ e.d ∧ e.d % Second = 0)
    (hfit : ∀ a k dy, bucketSum env.tz a k dy (l.buffered ++ l.session) ≤ maxDuration)
    (hc : DaysContiguous env.tz (l.buffered ++ l.session))
    (hr : l.shrink fuel env disk A = some (.ok r))
    (hlast : ∃ v, r.written.getLast? = some v ∧ dayOf env.tz v.t ≠ dayOf env.tz Time.zero)
    (hf2 : r.written.length < fuel2) :
    ∃ text, r.disk.file = some text ∧
      loadAll env text = .ok (r.written.map (entry.reread env.tz), none) ∧
      ∃ r2, (loaded (r.written.map (entry.reread env.tz)) []).shrink fuel2 env r.disk A =
          some (.ok r2) ∧
        r2.written = r.written.map (entry.reread env.tz) ∧
        r2.disk.file = r.disk.file := by
  obtain ⟨h1, -, -⟩ := shrink_returns fuel env disk l A r hl hw hr
  have hfile := shrink_file fuel env disk l A r hw hr
  have hall : l.all = l.buffered ++ l.session := rfl
  rw [hall] at h1
  have hWw : Writable A r.written := by
    rw [h1]
    exact written_writable env.tz A _
  have hWo : SlotOrdered env.tz (actIdxOf A) r.written := by
    rw [h1]
    exact written_ordered env.tz A _ hc
  have hWt : ∀ v ∈ r.written, TimeOK env.tz v.t := by
    rw [h1]
    exact written_times (TimeOK env.tz) (TimeOK_zero env.tz) env.tz A _ ht
  have hWs : ∀ v ∈ r.written, 0 ≤ v.d ∧ v.d % Second = 0 := by
    rw [h1]
    exact written_whole env.tz A _ hsec hfit
  have hload := loadAll_logText env r.written (fun w hw1 =>
    ⟨(hWw w hw1).1, hA w.a (hWw w hw1).2.1, hWt w hw1, (hWs w hw1).1, (hWs w hw1).2,
      (hWw w hw1).2.2.2⟩)
  generalize hL2 : r.written.map (entry.reread env.tz) = L2 at hload ⊢
  have hw2 : Writable A L2 := hL2 ▸ writable_reread env.tz A r.written hWw
  have ho2 : SlotOrdered env.tz (actIdxOf A) L2 :=
    hL2 ▸ ordered_reread env.tz (actIdxOf A) r.written hWo
  have hrep := (rinv_compacted env.tz A L2 hw2 ho2).1
  have hall2 : (loaded L2 []).all = L2 := by simp [logger.all, loaded]
  have hz2 : sameDay env.tz (compacted env.tz A (loaded L2 []).all).this Time.zero = false := by
    rw [hall2]
    obtain ⟨v, hv, hday⟩ := hlast
    have hx : L2.getLast? = some (v.reread env.tz) := by
      rw [← hL2, List.getLast?_map, hv]
      rfl
    have hthis := (sinv_compacted env.tz A L2).2.2.2.2 _ hx
    have hre : dayOf env.tz (v.reread env.tz).t = dayOf env.tz v.t := dayOf_reread env.tz v.t
    rw [hre] at hthis
    cases hsd : sameDay env.tz (compacted env.tz A L2).this Time.zero with
    | false => rfl
    | true => exact absurd (hthis.symm.trans ((sameDay_iff _ _ _).mp hsd)) hday
  have hwr : r.disk.writable = true := by rw [hfile]
  obtain ⟨r2, hr2, hwritten⟩ := shrink_completes fuel2 env r.disk (loaded L2 []) A rfl hwr
    (by rw [hall2, ← hL2, List.length_map]; exact hf2) hz2
  rw [hall2, hrep] at hwritten
  have hfile2 := shrink_file fuel2 env r.disk (loaded L2 []) A r2 hwr hr2
  refine ⟨logText env.tz r.written, by rw [hfile], hload, r2, hr2, hwritten, ?_⟩
  rw [hfile2, hfile, hwritten, ← hL2, logText_reread]

/-- **C5** (compaction idempotence), evaluated on the code.  A session of one
Monday (work on "A", the creation of "B", more work on "A") is flushed and read
back: the `c` line comes back with the zero time.  `shrink` tests the day of
every entry before its kind, so it flushes at the `c` entry and writes two Work
entries for Monday; on the log it wrote, `shrink` merges them into one: the
second compaction does not write the entries of the first again. -/
theorem shrink_twice_merges :
    loadAll envUTC (logText envUTC.tz splitDaySession) = .ok (splitDay, none) ∧
    ((loaded splitDay []).shrink 10 envUTC noFile ["A"]).map
      (Except.map (fun r => (r.written, r.disk))) =
        some (.ok (splitDayWritten, ⟨some splitDayText, true⟩)) ∧
    loadAll envUTC splitDayText = .ok (splitDayWritten, none) ∧
    ((loaded splitDayWritten []).shrink 10 envUTC ⟨some splitDayText, true⟩ ["A"]).map
      (Except.map Shrunk.written) = some (.ok [mkEntry "A" .working mon15 30]) ∧
    [mkEntry "A" .working mon15 30] ≠ splitDayWritten :=
  ⟨rfl, rfl, rfl, rfl, by decide⟩

/-- An instance of `shrink_idempotent`: the compacted Sunday and Monday of
`twoDays`, read back and compacted again. -/
theorem shrink_idempotent_witness :
    ∃ text, twoDaysResult.disk.file = some text ∧
      loadAll envUTC text = .ok (twoDaysResult.written.map (entry.reread envUTC.tz), none) ∧
      ∃ r2, (loaded (twoDaysResult.written.map (entry.reread envUTC.tz)) []).shrink 10 envUTC
          twoDaysResult.disk ["A"] = some (.ok r2) ∧
        r2.written = twoDaysResult.written.map (entry.reread envUTC.tz) ∧
        r2.disk.file = twoDaysResult.disk.file :=
  shrink_idempotent 10 10 envUTC noFile (loaded twoDays []) ["A"] twoDaysResult rfl rfl
    (by unfold NameOK; decide) (by unfold TimeOK; decide) (by decide) twoDays_fit (by decide)
    rfl ⟨mkEntry "A" .resting mon15 5, rfl, by decide⟩ (by decide)

/-! ## `weeks`: the anchors -/

theorem weeksOf_cons (tz : Int → Int) (name : String) (e : entry) (es : List entry) :
    weeksOf tz name (e :: es) =
      if isWorkBreakOf name e = true then e.t.ISOWeek tz :: weeksOf tz name es
      else weeksOf tz name es := by
  unfold weeksOf
  by_cases h : isWorkBreakOf name e = true
  · simp [List.filter_cons, h]
  · simp [List.filter_cons, h]

theorem weekAfter_iff (tz : Int → Int) (week : Int × Int) (e : entry) :
    weekAfter tz week e = true ↔ weekLt week (e.t.ISOWeek tz) := by
  simp [weekAfter, weekLt]

/-- The anchors that the loop of `weeks` leaves, when the weeks of the entries
of the activity are ascending: the last week before the target that it met,
and the first week after it. -/
theorem weeks_fold_anchors (tz : Int → Int) (activity : String) (week : Int × Int) :
    ∀ (xs : List entry) (s : WeekAcc), WeeksAscending (weeksOf tz activity xs) →
      ((∃ w ∈ weeksOf tz activity xs, weekLt w week) →
        (foldFlow (weeksBody tz activity week) xs s).prev ∈ weeksOf tz activity xs ∧
        weekLt (foldFlow (weeksBody tz activity week) xs s).prev week ∧
        ∀ w ∈ weeksOf tz activity xs, weekLt w week →
          ¬ weekLt (foldFlow (weeksBody tz activity week) xs s).prev w) ∧
      ((¬ ∃ w ∈ weeksOf tz activity xs, weekLt w week) →
        (foldFlow (weeksBody tz activity week) xs s).prev = s.prev) ∧
      ((∃ w ∈ weeksOf tz activity xs, weekLt week w) →
        (foldFlow (weeksBody tz activity week) xs s).nxt ∈ weeksOf tz activity xs ∧
        weekLt week (foldFlow (weeksBody tz activity week) xs s).nxt ∧
        ∀ w ∈ weeksOf tz activity xs, weekLt week w →
          ¬ weekLt w (foldFlow (weeksBody tz activity week) xs s).nxt) ∧
      ((¬ ∃ w ∈ weeksOf tz activity xs, weekLt week w) →
        (foldFlow (weeksBody tz activity week) xs s).nxt = s.nxt) := by
  intro xs
  induction xs with
  | nil =>
    intro s _
    simp [foldFlow, weeksOf]
  | cons e es ih =>
    intro s hasc
    rw [weeksOf_cons] at hasc ⊢
    rcases weeksBody_cases tz activity week s e with ⟨h1, hb⟩ | ⟨h1, h2, h3, hb⟩ |
        ⟨h1, h2, h3, hb⟩ | ⟨h1, h3, hb⟩
    · -- not an entry of the activity
      rw [if_neg (by rw [h1]; decide)] at hasc ⊢
      simp only [foldFlow, hb]
      exact ih s hasc
    · -- an entry of the target week
      rw [if_pos h1] at hasc ⊢
      unfold WeeksAscending at hasc
      rw [List.pairwise_cons] at hasc
      obtain ⟨i1, i2, i3, i4⟩ := ih { s with d := bump s.d (dayIndex tz e.t) (e.typ.toNat - 4) e.d }
        hasc.2
      simp only [foldFlow, hb]
      generalize (foldFlow (weeksBody tz activity week) es
        { s with d := bump s.d (dayIndex tz e.t) (e.typ.toNat - 4) e.d }) = r at i1 i2 i3 i4 ⊢
      have hirr : ¬ weekLt week week := by unfold weekLt; omega
      rw [h2]
      simp only [List.mem_cons, exists_eq_or_imp, hirr, false_or, forall_eq_or_imp,
        false_imp_iff, true_and] at i1 i2 i3 i4 ⊢
      refine ⟨fun h => ?_, i2, fun h => ?_, i4⟩
      · obtain ⟨a, b, c⟩ := i1 h
        exact ⟨Or.inr a, b, c⟩
      · obtain ⟨a, b, c⟩ := i3 h
        exact ⟨Or.inr a, b, c⟩
    · -- an entry of a week before the target
      rw [if_pos h1] at hasc ⊢
      unfold WeeksAscending at hasc
      rw [List.pairwise_cons] at hasc
      obtain ⟨i1, i2, i3, i4⟩ := ih { s with prev := e.t.ISOWeek tz } hasc.2
      simp only [foldFlow, hb]
      generalize (foldFlow (weeksBody tz activity week) es { s with prev := e.t.ISOWeek tz }) = r
        at i1 i2 i3 i4 ⊢
      have hnot : ¬ weekLt week (e.t.ISOWeek tz) := by
        rw [← weekAfter_iff, h3]
        decide
      have hlt : weekLt (e.t.ISOWeek tz) week := by
        have hne : ¬ ((e.t.ISOWeek tz).1 = week.1 ∧ (e.t.ISOWeek tz).2 = week.2) :=
          fun h => h2 (Prod.ext h.1 h.2)
        unfold weekLt at hnot ⊢
        omega
      have hirr : ¬ weekLt (e.t.ISOWeek tz) (e.t.ISOWeek tz) := by unfold weekLt; omega
      have hfirst := hasc.1
      generalize e.t.ISOWeek tz = yw at hnot hlt hirr hfirst i1 i2 i3 i4 ⊢
      simp only [List.mem_cons, exists_eq_or_imp, hnot, hlt, false_or, true_or, forall_eq_or_imp,
        false_imp_iff, true_and, forall_true_left, not_true_eq_false] at i1 i2 i3 i4 ⊢
      refine ⟨?_, fun h => ?_, i4⟩
      · by_cases hex : ∃ w ∈ weeksOf tz activity es, weekLt w week
        · obtain ⟨a, b, c⟩ := i1 hex
          exact ⟨Or.inr a, b, hfirst r.prev a, c⟩
        · have hp : r.prev = yw := i2 hex
          rw [hp]
          refine ⟨Or.inl rfl, hlt, hirr, fun w hw hwlt => ?_⟩
          exact absurd ⟨w, hw, hwlt⟩ hex
      · obtain ⟨a, b, c⟩ := i3 h
        exact ⟨Or.inr a, b, c⟩
    · -- an entry of a week after the target: the loop ends
      rw [if_pos h1] at hasc ⊢
      unfold WeeksAscending at hasc
      rw [List.pairwise_cons] at hasc
      simp only [foldFlow, hb]
      have hlt : weekLt week (e.t.ISOWeek tz) := (weekAfter_iff tz week e).mp h3
      have hirr : ¬ weekLt (e.t.ISOWeek tz) (e.t.ISOWeek tz) := by unfold weekLt; omega
      have hfirst := hasc.1
      generalize e.t.ISOWeek tz = yw at hlt hirr hfirst ⊢
      have hnone : ∀ w, w = yw ∨ w ∈ weeksOf tz activity es → ¬ weekLt w week := by
        intro w hw
        rcases hw with hw | hw
        · subst hw
          unfold weekLt at hlt ⊢
          omega
        · have := hfirst w hw
          unfold weekLt at hlt this ⊢
          omega
      refine ⟨fun h => ?_, fun _ => trivial, fun _ => ?_, fun h => ?_⟩
      · obtain ⟨w, hw, hwlt⟩ := h
        exact absurd hwlt (hnone w (List.mem_cons.mp hw))
      · refine ⟨List.mem_cons_self _ _, hlt, fun w hw _ => ?_⟩
        rcases List.mem_cons.mp hw with hw1 | hw1
        · rw [hw1]
          exact hirr
        · exact hfirst w hw1
      · exact absurd ⟨yw, List.mem_cons_self _ _, hlt⟩ h

/-- **C11** (week navigation anchors).  For a logger whose committed entries
are loaded and a sequence `committed ++ session` in which the Work and Break
entries of the activity appear in non-decreasing (ISO year, ISO week) order,
`weeks(activity, W)` returns as `prev` the greatest (year, week) strictly
before `W` that has a Work or Break entry of the activity, and `(0, 0)` when
there is none, and as `next` the least (year, week) strictly after `W` that
has such an entry, and `(0, 0)` when there is none. -/
theorem weeks_anchors (env : GoEnv) (disk : Disk) (l : logger) (activity : String)
    (week : Int × Int) (hl : l.bread = true)
    (hasc : WeeksAscending (weeksOf env.tz activity (l.buffered ++ l.session))) :
    ∃ rows nxt prev l1, l.weeks env disk activity week = .ok ((rows, nxt, prev), l1) ∧
      GreatestBefore week (weeksOf env.tz activity (l.buffered ++ l.session)) prev ∧
      LeastAfter week (weeksOf env.tz activity (l.buffered ++ l.session)) nxt := by
  obtain ⟨l1, h⟩ := weeksGrid_loaded env disk l activity week hl
  obtain ⟨a1, a2, a3, a4⟩ := weeks_fold_anchors env.tz activity week l.all
    ⟨List.replicate 7 (0, 0), (0, 0), (0, 0)⟩ hasc
  generalize foldFlow (weeksBody env.tz activity week) l.all
    ⟨List.replicate 7 (0, 0), (0, 0), (0, 0)⟩ = g at h a1 a2 a3 a4
  refine ⟨toRows g.d, g.nxt, g.prev, l1, ?_, ⟨a1, a2⟩, ⟨a3, a4⟩⟩
  unfold logger.weeks
  rw [h]

/-- Witness of C11: work in the weeks 1, 3 and 5 of 2024, seen from week 3. -/
theorem weeks_anchors_witness :
    ((loaded threeWeeks []).weeks envUTC noFile "A" (2024, 3)).map (fun r => r.1.2) =
      .ok ((2024, 5), (2024, 1)) ∧
    ∃ rows nxt prev l1,
      (loaded threeWeeks []).weeks envUTC noFile "A" (2024, 3) = .ok ((rows, nxt, prev), l1) ∧
      GreatestBefore (2024, 3) (weeksOf envUTC.tz "A" (threeWeeks ++ [])) prev ∧
      LeastAfter (2024, 3) (weeksOf envUTC.tz "A" (threeWeeks ++ [])) nxt :=
  ⟨rfl, weeks_anchors envUTC noFile (loaded threeWeeks []) "A" (2024, 3) rfl (by decide)⟩

/-! ## `refresh`: the scenario of two creations -/

theorem forCursor_first {σ : Type} (step : logger → Except Panic (entry × Option error × logger))
    (body : σ → entry → Flow σ) (fuel : Nat) (l l1 : logger) (s : σ) (h : step l = step l1) :
    forCursor step body (fuel + 1) l s = forCursor step body (fuel + 1) l1 s := by
  simp only [forCursor, h]

/-- With an empty log file, the first call of `next` reads no committed entry:
it returns what it returns once the file has been read. -/
theorem next_empty_file (env : GoEnv) (disk : Disk) (l : logger) (hd : disk.file = some [])
    (hb : l.buffered = []) :
    l.next env disk = ({ l with bread := true } : logger).next env disk := by
  obtain ⟨sidx, bidx, bread, session, buffered⟩ := l
  simp only at hb
  subst hb
  cases bread with
  | true => rfl
  | false =>
    have hload : loadAll env [] = .ok ([], none) := rfl
    simp only [logger.next, logger.fill, hd, hload]
    rfl

theorem refresh_empty_file (env : GoEnv) (disk : Disk) (l : logger) (hd : disk.file = some [])
    (hb : l.buffered = []) :
    l.refresh env disk = ({ l with bread := true } : logger).refresh env disk := by
  have hbound : l.bound disk = (l.session.length + (disk.file.getD []).length + 1) + 1 := by
    simp only [logger.bound, hb, List.length_nil]
    omega
  have hbound1 : ({ l with bread := true } : logger).bound disk = l.bound disk := rfl
  unfold logger.refresh
  rw [hbound1, hbound]
  rw [forCursor_first (logger.next env disk) refreshBody1 _ l.reset
    ({ l with bread := true } : logger).reset [] (next_empty_file env disk l.reset hd hb)]

theorem refresh_two_loaded (env : GoEnv) (disk : Disk) (l0 : logger) (t1 t2 : Time)
    (h1 : l0.bread = true) (h2 : l0.buffered = [])
    (h3 : l0.session = [⟨"Zeta", .selecting, t1, 0⟩, ⟨"Alpha", .selecting, t2, 0⟩]) :
    ∃ r l1, l0.refresh env disk = .ok (r, l1) ∧
      r.activities = ["Alpha", "Zeta"] ∧ r.selected = 0 := by
  obtain ⟨l3, h, -⟩ := refresh_loaded env disk l0 h1
  have hall : l0.all = [⟨"Zeta", .selecting, t1, 0⟩, ⟨"Alpha", .selecting, t2, 0⟩] := by
    simp [logger.all, h2, h3]
  rw [hall] at h
  have s1 : foldFlow refreshBody1
      [⟨"Zeta", .selecting, t1, 0⟩, ⟨"Alpha", .selecting, t2, 0⟩] [] = ["Zeta", "Alpha"] := by
    simp [foldFlow, refreshBody1]
  have s2 : sortStrings ["Zeta", "Alpha"] = ["Alpha", "Zeta"] := by decide!
  have s3 : foldFlow (refreshBody2 ["Zeta", "Alpha"])
      ([⟨"Zeta", .selecting, t1, 0⟩, ⟨"Alpha", .selecting, t2, 0⟩] : List entry).reverse "" =
        "Alpha" := by
    simp [foldFlow, refreshBody2]
  have s4 : refreshIndex "Alpha" ["Alpha", "Zeta"] 0 = 0 := by decide
  rw [s1, s2, s3, s4] at h
  exact ⟨_, l3, h, rfl, rfl⟩

/-- **C12, as amended** (scenario S3: sort order and selection).  Starting
from an empty log (an empty log file, or a logger that has already read its
committed entries and has none), after `send` of a Created entry for "Zeta"
followed by `send` of a Created entry for "Alpha", `refresh` returns the
activity list `["Alpha", "Zeta"]` and the selected index 0: the most recently
selected activity is "Alpha", the activity of the latest entry. -/
theorem refresh_two_creations (env : GoEnv) (disk : Disk) (l : logger) (t1 t2 : Time)
    (hs : l.session = []) (hb : l.buffered = [])
    (hd : l.bread = true ∨ disk.file = some []) :
    ∃ r l1, ((l.send ⟨"Zeta", .selecting, t1, 0⟩).send ⟨"Alpha", .selecting, t2, 0⟩).refresh
        env disk = .ok (r, l1) ∧
      r.activities = ["Alpha", "Zeta"] ∧ r.selected = 0 := by
  obtain ⟨sidx, bidx, bread, session, buffered⟩ := l
  simp only at hs hb hd
  subst hs
  subst hb
  rcases hd with hd | hd
  · subst hd
    exact refresh_two_loaded env disk _ t1 t2 rfl rfl rfl
  · rw [refresh_empty_file env disk _ hd rfl]
    exact refresh_two_loaded env disk _ t1 t2 rfl rfl rfl

/-- Counterexample to C12: on an empty log file, after the creation of "Zeta"
and then of "Alpha", `refresh` selects index 0 ("Alpha"), not index 1; when the
log file does not exist, this first `refresh` of the logger returns no
activity at all. -/
theorem refresh_selects_latest_creation :
    (∃ r l1, ((newlogger.send ⟨"Zeta", .selecting, sun14, 0⟩).send
        ⟨"Alpha", .selecting, mon15, 0⟩).refresh envUTC ⟨some [], true⟩ = .ok (r, l1) ∧
      r.activities = ["Alpha", "Zeta"] ∧ r.selected = 0 ∧ r.selected ≠ 1) ∧
    (((newlogger.send ⟨"Zeta", .selecting, sun14, 0⟩).send
        ⟨"Alpha", .selecting, mon15, 0⟩).refresh envUTC noFile).map
      (fun r => (r.1.activities, r.1.selected)) = .ok ([], 0) := by
  refine ⟨?_, rfl⟩
  have h := refresh_empty_file envUTC ⟨some [], true⟩
    ((newlogger.send ⟨"Zeta", .selecting, sun14, 0⟩).send ⟨"Alpha", .selecting, mon15, 0⟩)
    rfl rfl
  obtain ⟨r, l1, h1, h2, h3⟩ := refresh_two_loaded envUTC ⟨some [], true⟩
    ({ (newlogger.send ⟨"Zeta", .selecting, sun14, 0⟩).send ⟨"Alpha", .selecting, mon15, 0⟩
      with bread := true }) sun14 mon15 rfl rfl rfl
  exact ⟨r, l1, h.trans h1, h2, h3, by rw [h3]; decide⟩

/-- Witness of C12 as amended: a new logger on an empty log file. -/
theorem refresh_two_creations_witness :
    ∃ r l1, ((newlogger.send ⟨"Zeta", .selecting, sun14, 0⟩).send
        ⟨"Alpha", .selecting, mon15, 0⟩).refresh envUTC ⟨some [], true⟩ = .ok (r, l1) ∧
      r.activities = ["Alpha", "Zeta"] ∧ r.selected = 0 :=
  refresh_two_creations envUTC ⟨some [], true⟩ newlogger sun14 mon15 rfl rfl (Or.inr rfl)

/-! ## `load` and `loadAll` on malformed input -/

/-- **C13** (malformed Work/Break lines), evaluated on the code.  A second line
`w` without a timestamp, and a second line `w 2024-01-15T09:00:00Z` without a
duration, make `load` index `triplet` out of range: a run-time panic, not an
error value.  A timestamp or a duration that does not parse gives an error
value and the zero entry. -/
theorem load_panics_on_short_line :
    load envUTC ⟨"A\nw\n".data⟩ = .error .indexOutOfRange ∧
    load envUTC ⟨"A\nb\n".data⟩ = .error .indexOutOfRange ∧
    load envUTC ⟨"A\nw 2024-01-15T09:00:00Z\n".data⟩ = .error .indexOutOfRange ∧
    load envUTC ⟨"A\nw yesterday 5m0s\n".data⟩ = .ok (entry.zero, some .parseTime, ⟨[]⟩) ∧
    load envUTC ⟨"A\nw 2024-01-15T09:00:00Z long\n".data⟩ =
      .ok (entry.zero, some .parseDuration, ⟨[]⟩) :=
  ⟨rfl, rfl, rfl, rfl, rfl⟩

theorem loadAllLoop_ok (env : GoEnv) :
    ∀ (fuel : Nat) (s : Scanner) (ret : List entry),
      (∃ p, loadAllLoop env fuel s ret = .error p) ∨ ∃ r, loadAllLoop env fuel s ret = .ok r := by
  intro fuel s ret
  cases h : loadAllLoop env fuel s ret with
  | error p => exact Or.inl ⟨p, rfl⟩
  | ok r => exact Or.inr ⟨r, rfl⟩

/-- **C14** (whole-file read reports malformed entries), evaluated on the code.
A file whose entry has the unknown kind character `x`, and a file that ends
after an activity line, are read with a nil error; whatever the file, `loadAll`
returns a nil error whenever it returns. -/
theorem loadAll_never_reports :
    loadAll envUTC "A\nx 2024-01-15T09:00:00Z\n".data = .ok ([], none) ∧
    loadAll envUTC "A\nw 2024-01-15T09:00:00Z 10m0s\nB\n".data =
      .ok ([mkEntry "A" .working mon15 10], none) ∧
    ∀ (env : GoEnv) (f : List Char),
      (∃ p, loadAll env f = .error p) ∨ ∃ ret, loadAll env f = .ok (ret, none) := by
  refine ⟨rfl, rfl, fun env f => ?_⟩
  unfold loadAll
  rcases loadAllLoop_ok env (f.length + 1) ⟨f⟩ [] with ⟨p, h⟩ | ⟨r, h⟩
  · exact Or.inl ⟨p, by rw [h]⟩
  · exact Or.inr ⟨r, by rw [h]; rfl⟩

/-! ## The cursor when the log file does not exist -/

theorem next_absent (env : GoEnv) (disk : Disk) (l : logger) (hr : l.bread = false)
    (hd : disk.file = none) :
    l.next env disk = .ok (entry.zero, some .notExist, { l with bread := true }) := by
  simp [logger.next, logger.fill, hr, hd]

/-- **C15, as amended** (an absent log file).  On a new logger (nothing read
yet, no committed entry) whose log file does not exist and whose session
buffer holds `e1..eM`, the first call of `next` returns no entry and the error
of `os.Open`; the `n` calls that follow return `e1..eM` in order with a nil
error and then `io.EOF`: from the second call on, the absent file is an empty
committed log. -/
theorem next_calls_absent_file (env : GoEnv) (disk : Disk) (l : logger) (n : Nat)
    (hr : l.bread = false) (hb : l.buffered = []) (hd : disk.file = none) :
    calls (logger.next env disk) (n + 1) l.reset =
      .ok ((entry.zero, some error.notExist) ::
        (l.session.map (fun e => (e, (none : Option error))) ++
          List.replicate n (entry.zero, some error.EOF)).take n) := by
  have h1 := next_absent env disk l.reset hr hd
  have h2 := calls_yields (next_yields env disk l.buffered l.session) n
    ({ l.reset with bread := true } : logger) ⟨rfl, rfl, rfl⟩
  have hfwd : ({ l.reset with bread := true } : logger).fwd = l.session := by
    simp [logger.fwd, logger.reset, hb]
  rw [hfwd] at h2
  simp only [calls, h1, h2]

/-- Counterexample to C15: a new logger with one session entry and no log
file.  The first call of `next` returns the zero entry and an error, not the
session entry. -/
theorem next_first_call_fails :
    (newlogger.send (mkEntry "A" .selecting mon15 0)).session =
      [mkEntry "A" .selecting mon15 0] ∧
    (newlogger.send (mkEntry "A" .selecting mon15 0)).next envUTC noFile =
      .ok (entry.zero, some .notExist,
        ⟨0, 0, true, [mkEntry "A" .selecting mon15 0], []⟩) ∧
    calls (logger.next envUTC noFile) 1 (newlogger.send (mkEntry "A" .selecting mon15 0)) =
      .ok [(entry.zero, some .notExist)] :=
  ⟨rfl, rfl, rfl⟩

/-- Witness of C15 as amended: two session entries, four calls. -/
theorem next_calls_absent_file_witness :
    calls (logger.next envUTC noFile) (3 + 1)
        ((newlogger.send (mkEntry "A" .selecting sun14 0)).send
          (mkEntry "A" .working mon15 0)).reset =
      .ok ((entry.zero, some error.notExist) ::
        (((newlogger.send (mkEntry "A" .selecting sun14 0)).send
            (mkEntry "A" .working mon15 0)).session.map
              (fun e => (e, (none : Option error))) ++
          List.replicate 3 (entry.zero, some error.EOF)).take 3) :=
  next_calls_absent_file envUTC noFile
    ((newlogger.send (mkEntry "A" .selecting sun14 0)).send (mkEntry "A" .working mon15 0)) 3
    rfl rfl rfl

/-! ## `fmtDuration` -/

theorem digitChar_std (k : Nat) (h : k < 10) : digitChar k = Nat.digitChar k := by
  interval_cases k <;> rfl

theorem fmtIntLoop_toDigitsCore :
    ∀ (f1 f2 v : Nat) (acc : List Char), 0 < v → v ≤ f1 → v ≤ f2 →
      fmtIntLoop f1 v acc = Nat.toDigitsCore 10 f2 v acc := by
  intro f1
  induction f1 with
  | zero => intro f2 v acc h0 h1; omega
  | succ f1 ih =>
    intro f2 v acc h0 h1 h2
    obtain ⟨g, rfl⟩ : ∃ g, f2 = g + 1 := ⟨f2 - 1, by omega⟩
    have hv : v ≠ 0 := by omega
    have hd := digitChar_std (v % 10) (by omega)
    simp only [fmtIntLoop, hv, if_false, Nat.toDigitsCore, hd]
    by_cases hq : v / 10 = 0
    · rw [if_pos hq, hq]
      cases f1 <;> simp [fmtIntLoop]
    · rw [if_neg hq]
      exact ih g (v / 10) _ (by omega) (by omega) (by omega)

/-- Go's `fmtInt` writes the decimal digits of a number. -/
theorem fmtInt_toDigits (v : Nat) : fmtInt v [] = Nat.toDigits 10 v := by
  unfold fmtInt Nat.toDigits
  by_cases hv : v = 0
  · subst hv
    rfl
  · rw [if_neg hv]
    exact fmtIntLoop_toDigitsCore v (v + 1) v [] (by omega) (le_refl _) (by omega)

theorem fmtInt_two (v : Nat) (h1 : 10 ≤ v) (h2 : v < 100) : fmtInt v [] = two v := by
  obtain ⟨a, b, rfl, ha, hb⟩ : ∃ a b, v = 10 * a + b ∧ a < 10 ∧ b < 10 :=
    ⟨v / 10, v % 10, by omega, by omega, by omega⟩
  have ha0 : 0 < a := by omega
  interval_cases a <;> interval_cases b <;> rfl

theorem fmtInt_one (v : Nat) (h : v < 10) : '0' :: fmtInt v [] = two v := by
  interval_cases v <;> rfl

/-- Rounding a duration in range to the minute never overflows: it gives the
nearest whole minute, halves up. -/
theorem Round_minute (d : Int) (h0 : 0 ≤ d) (hmax : d ≤ maxDuration) :
    Round d Minute = (nearestMinute d : Int) * 60000000000 := by
  unfold maxDuration at hmax
  norm_num at hmax
  have hn : (nearestMinute d : Int) = (d + 30000000000) / 60000000000 := by
    unfold nearestMinute
    omega
  rw [hn]
  unfold Round Minute
  rw [if_neg (by decide), Int.tmod_eq_emod h0 (by decide), if_neg (by omega)]
  simp only
  by_cases hr : d % (60 * 1000000000) + d % (60 * 1000000000) < 60 * 1000000000
  · rw [if_pos hr]
    omega
  · rw [if_neg hr]
    have hw : wrap64 (d + 60 * 1000000000 - d % (60 * 1000000000)) =
        d + 60 * 1000000000 - d % (60 * 1000000000) := by
      apply wrap64_id
      · norm_num
        omega
      · norm_num
        omega
    rw [hw, if_pos (by omega)]
    omega

/-- **C16** (grid cell formatting).  For every non-negative duration `d`, with
`n` the number of minutes of `d` rounded to the nearest whole minute (halves
up): `fmtDuration(d)` is the decimal of `n` followed by `m` when `n < 60`, and
otherwise the decimal of `n / 60`, then `h`, then `n % 60` written with
exactly two digits, then `m`. -/
theorem fmtDuration_spec (d : Int) (h0 : 0 ≤ d) (hmax : d ≤ maxDuration) :
    fmtDuration d =
      (if nearestMinute d < 60 then Nat.toDigits 10 (nearestMinute d) ++ ['m']
      else Nat.toDigits 10 (nearestMinute d / 60) ++ ['h'] ++ two (nearestMinute d % 60) ++
        ['m']) ∧
    nearestMinute d % 60 < 60 := by
  refine ⟨?_, Nat.mod_lt _ (by decide)⟩
  have hR := Round_minute d h0 hmax
  have hnmax : nearestMinute d ≤ 153722867 := by
    unfold maxDuration at hmax
    norm_num at hmax
    unfold nearestMinute
    omega
  generalize nearestMinute d = n at hR hnmax ⊢
  unfold fmtDuration
  simp only [hR]
  have hh : Int.tdiv ((n : Int) * 60000000000) Hour = ((n / 60 : Nat) : Int) := by
    unfold Hour
    rw [Int.tdiv_eq_ediv (by omega) (by decide)]
    omega
  rw [hh]
  have hw1 : wrap64 (((n / 60 : Nat) : Int) * Hour) = ((n / 60 : Nat) : Int) * Hour := by
    unfold Hour
    apply wrap64_id
    · norm_num
      omega
    · norm_num
      omega
  rw [hw1]
  have hw2 : wrap64 ((n : Int) * 60000000000 - ((n / 60 : Nat) : Int) * Hour) =
      ((n % 60 : Nat) : Int) * 60000000000 := by
    unfold Hour
    rw [wrap64_id]
    · omega
    · norm_num
      omega
    · norm_num
      omega
  rw [hw2]
  have hm : Int.tdiv (((n % 60 : Nat) : Int) * 60000000000) Minute = ((n % 60 : Nat) : Int) := by
    unfold Minute
    rw [Int.tdiv_eq_ediv (by omega) (by decide)]
    omega
  rw [hm]
  have hfd : ∀ k : Nat, fmtD (k : Int) = Nat.toDigits 10 k := by
    intro k
    unfold fmtD
    rw [if_neg (by omega), Int.natAbs_ofNat, fmtInt_toDigits]
  by_cases hn : n < 60
  · have h1 : ((n / 60 : Nat) : Int) = 0 := by omega
    have h2 : n % 60 = n := by omega
    rw [if_pos h1, if_pos hn, h2, hfd]
  · have h1 : ¬ ((n / 60 : Nat) : Int) = 0 := by omega
    rw [if_neg h1, if_neg hn, hfd]
    have h2 : fmt02d ((n % 60 : Nat) : Int) = two (n % 60) := by
      unfold fmt02d
      rw [if_neg (by omega), Int.natAbs_ofNat]
      by_cases h10 : n % 60 < 10
      · rw [if_pos (by omega)]
        exact fmtInt_one _ h10
      · rw [if_neg (by omega)]
        exact fmtInt_two _ (by omega) (by omega)
    rw [h2]

/-- Witness of C16: sixty-five minutes and twenty-nine seconds are `1h05m`. -/
theorem fmtDuration_spec_witness :
    fmtDuration 3929000000000 = "1h05m".data ∧
    (fmtDuration 3929000000000 =
      (if nearestMinute 3929000000000 < 60 then
        Nat.toDigits 10 (nearestMinute 3929000000000) ++ ['m']
      else Nat.toDigits 10 (nearestMinute 3929000000000 / 60) ++ ['h'] ++
        two (nearestMinute 3929000000000 % 60) ++ ['m']) ∧
    nearestMinute 3929000000000 % 60 < 60) :=
  ⟨by decide, fmtDuration_spec 3929000000000 (by decide) (by decide)⟩

/-! ## `dayIndex` -/

/-- **C17** (ISO day index).  For every timestamp, `dayIndex` is the weekday
counted from Monday: 0 for Monday (Go's weekday 1), ..., 5 for Saturday and 6
for Sunday (Go's weekday 0), always in 0..6; and for a Work or Break entry
the access `d[dayIndex(e.t)][e.typ-4]` of `weeks` is within the 7 rows and 2
columns of the grid, whatever entries the loop has read before. -/
theorem dayIndex_iso (tz : Int → Int) (activity : String) (week : Int × Int)
    (xs : List entry) (e : entry) (hk : e.typ = .working ∨ e.typ = .resting) :
    e.t.Weekday tz < 7 ∧ dayIndex tz e.t = (e.t.Weekday tz + 6) % 7 ∧ dayIndex tz e.t < 7 ∧
    dayIndex tz e.t < (foldFlow (weeksBody tz activity week) xs
      ⟨List.replicate 7 (0, 0), (0, 0), (0, 0)⟩).d.length ∧
    e.typ.toNat - 4 < 2 := by
  have hw : e.t.Weekday tz < 7 := by
    unfold Time.Weekday
    omega
  have hd : dayIndex tz e.t = (e.t.Weekday tz + 6) % 7 := by
    unfold dayIndex
    simp only
    split_ifs <;> omega
  have hlen := (weeks_fold_spec tz activity week xs ⟨List.replicate 7 (0, 0), (0, 0), (0, 0)⟩
    (by simp)).1
  refine ⟨hw, hd, by omega, by rw [hlen]; omega, ?_⟩
  rcases hk with h | h <;> rw [h] <;> decide

/-- Witness of C17: a Monday has index 0 and a Sunday index 6. -/
theorem dayIndex_iso_witness :
    dayIndex envUTC.tz mon15 = 0 ∧ dayIndex envUTC.tz sun14 = 6 ∧
    (mon15.Weekday envUTC.tz < 7 ∧ dayIndex envUTC.tz mon15 = (mon15.Weekday envUTC.tz + 6) % 7 ∧
      dayIndex envUTC.tz mon15 < 7 ∧
      dayIndex envUTC.tz mon15 < (foldFlow (weeksBody envUTC.tz "A" (2024, 3)) threeWeeks
        ⟨List.replicate 7 (0, 0), (0, 0), (0, 0)⟩).d.length ∧
      state.working.toNat - 4 < 2) :=
  ⟨by decide, by decide,
    dayIndex_iso envUTC.tz "A" (2024, 3) threeWeeks (mkEntry "A" .working mon15 20)
      (Or.inl rfl)⟩

/-! ## `shrink`: the loop that does not end -/

/-- On a loaded logger whose last run is dated on the day of the zero time,
the loop of `shrink` has not ended after any number of iterations. -/
theorem shrink_spins (fuel : Nat) (env : GoEnv) (disk : Disk) (l : logger) (A : List String)
    (hl : l.bread = true) (hw : disk.writable = true)
    (hz : sameDay env.tz (compacted env.tz A l.all).this Time.zero = true) :
    l.shrink fuel env disk A = none := by
  have h := shrink_loaded fuel env disk l A hl hw
  rw [hz] at h
  simp only [if_true, ite_self] at h
  exact Option.map_eq_none'.mp h

/-- **C18** (compaction terminates), evaluated on the code.  On the empty log,
and on a log whose last entry is a Deleted entry read back from disk (with the
zero time), the loop of `shrink` has not ended after any number of cursor
reads: at end of input the zero entry is on the day of `this`, so the buffer
is not flushed and the `break` is not reached. -/
theorem shrink_never_returns :
    (∀ fuel, (loaded [] []).shrink fuel envUTC noFile ["A"] = none) ∧
    (∀ fuel, (loaded [mkEntry "A" .working mon15 10, ⟨"A", .removing, Time.zero, 0⟩]
      []).shrink fuel envUTC noFile ["A"] = none) :=
  ⟨fun fuel => shrink_spins fuel envUTC noFile _ ["A"] rfl rfl (by decide),
    fun fuel => shrink_spins fuel envUTC noFile _ ["A"] rfl rfl (by decide)⟩

/-! ## `refresh`: the selected activity -/

theorem refreshBody2_fold (scratch : List String) :
    ∀ (xs : List entry) (this : String),
      foldFlow (refreshBody2 scratch) xs this =
        match xs.find? (fun e => decide (e.typ ≠ .removing ∧ e.a ∈ scratch)) with
        | some e => e.a
        | none => this := by
  intro xs
  induction xs with
  | nil => intro this; rfl
  | cons e es ih =>
    intro this
    by_cases h1 : e.typ = .removing
    · rw [List.find?_cons_of_neg _ (by simp [h1])]
      simp only [foldFlow, refreshBody2, h1, if_true]
      exact ih this
    · by_cases h2 : e.a ∈ scratch
      · rw [List.find?_cons_of_pos _ (by simp [h1, h2])]
        simp only [foldFlow, refreshBody2, h1, if_false, h2, if_true]
      · rw [List.find?_cons_of_neg _ (by simp [h2])]
        simp only [foldFlow, refreshBody2, h1, if_false, h2]
        exact ih this

theorem refreshIndex_mem (this : String) :
    ∀ (ret : List String) (i : Nat), this ∈ ret →
      ∃ j, ret[j]? = some this ∧ refreshIndex this ret i = i + j := by
  intro ret
  induction ret with
  | nil => intro i h; simp at h
  | cons v vs ih =>
    intro i h
    by_cases hv : v = this
    · exact ⟨0, by simp [hv], by simp [refreshIndex, hv]⟩
    · have hmem : this ∈ vs := by
        rcases List.mem_cons.mp h with h1 | h1
        · exact absurd h1.symm hv
        · exact h1
      obtain ⟨j, h1, h2⟩ := ih (i + 1) hmem
      refine ⟨j + 1, by simpa using h1, ?_⟩
      simp only [refreshIndex, if_neg hv, h2]
      omega

/-- An activity that is alive has an entry that is not a Deleted entry. -/
theorem live_entry (seq : List entry) (name : String) (h : liveIn seq name) :
    ∃ e ∈ seq, e.typ ≠ .removing ∧ e.a = name := by
  obtain ⟨e, he, ht⟩ := h
  unfold lastOf at he
  have hm : e ∈ seq.filter (fun e => e.a = name) := List.mem_of_mem_getLast? he
  rw [List.mem_filter] at hm
  exact ⟨e, hm.1, ht, by simpa using hm.2⟩

/-- **C19** (last-selected activity).  For a logger whose committed entries are
loaded, the activity list returned by `refresh` holds exactly the names that
are alive in `committed ++ session`; when it is not empty, the selected index
is a valid index into it and the name at that index is the activity of the
latest entry of the sequence that is not a Deleted entry and whose name is in
the list; when it is empty, the selected index is 0. -/
theorem refresh_selected (env : GoEnv) (disk : Disk) (l : logger) (hl : l.bread = true) :
    ∃ r l1, l.refresh env disk = .ok (r, l1) ∧
      (∀ name, name ∈ r.activities ↔ liveIn (l.buffered ++ l.session) name) ∧
      (r.activities ≠ [] →
        ∃ e, (l.buffered ++ l.session).reverse.find?
            (fun e => decide (e.typ ≠ .removing ∧ e.a ∈ r.activities)) = some e ∧
          r.activities[r.selected]? = some e.a) ∧
      (r.activities = [] → r.selected = 0) := by
  obtain ⟨l3, h, -⟩ := refresh_loaded env disk l hl
  obtain ⟨-, hmem⟩ := scratch_spec l.all
  have hall : l.all = l.buffered ++ l.session := rfl
  rw [hall] at h hmem
  generalize l.buffered ++ l.session = seq at h hmem
  generalize hsc : foldFlow refreshBody1 seq [] = scratch at h hmem
  have hpred : (fun e : entry => decide (e.typ ≠ .removing ∧ e.a ∈ sortStrings scratch)) =
      (fun e : entry => decide (e.typ ≠ .removing ∧ e.a ∈ scratch)) := by
    funext e
    simp only [mem_sortStrings]
  refine ⟨_, l3, h, fun name => ?_, fun hne => ?_, fun hnil => ?_⟩
  · simp only [mem_sortStrings]
    exact hmem name
  · simp only [hpred]
    -- some activity is alive, so the reverse pass finds an entry
    obtain ⟨name, hname⟩ : ∃ name, name ∈ scratch := by
      cases hs : sortStrings scratch with
      | nil => exact absurd hs hne
      | cons x xs =>
        exact ⟨x, (mem_sortStrings scratch x).mp (by rw [hs]; exact List.mem_cons_self _ _)⟩
    obtain ⟨e0, he0, ht0, ha0⟩ := live_entry seq name ((hmem name).mp hname)
    have hsome : (seq.reverse.find?
        (fun e => decide (e.typ ≠ .removing ∧ e.a ∈ scratch))).isSome = true := by
      rw [List.find?_isSome]
      exact ⟨e0, List.mem_reverse.mpr he0, by simp [ht0, ha0, hname]⟩
    obtain ⟨e, he⟩ := Option.isSome_iff_exists.mp hsome
    refine ⟨e, he, ?_⟩
    have hthis := refreshBody2_fold scratch seq.reverse ""
    rw [he] at hthis
    simp only at hthis
    rw [hthis]
    have hprop := List.find?_some he
    simp only [decide_eq_true_eq] at hprop
    obtain ⟨j, hj1, hj2⟩ := refreshIndex_mem e.a (sortStrings scratch) 0
      ((mem_sortStrings scratch e.a).mpr hprop.2)
    rw [hj2, Nat.zero_add]
    exact hj1
  · simp only at hnil ⊢
    rw [hnil]
    rfl

/-- Witness of C19: "B" is created, then "A" is created and worked on, then "B"
is deleted; the selected activity is "A". -/
theorem refresh_selected_witness :
    ∃ r l1, (loaded [mkEntry "B" .selecting sun14 0, mkEntry "A" .selecting sun14 0]
        [mkEntry "A" .working mon15 10, mkEntry "B" .removing mon15 0]).refresh envUTC noFile =
          .ok (r, l1) ∧
      (∀ name, name ∈ r.activities ↔
        liveIn ([mkEntry "B" .selecting sun14 0, mkEntry "A" .selecting sun14 0] ++
          [mkEntry "A" .working mon15 10, mkEntry "B" .removing mon15 0]) name) ∧
      (r.activities ≠ [] →
        ∃ e, ([mkEntry "B" .selecting sun14 0, mkEntry "A" .selecting sun14 0] ++
            [mkEntry "A" .working mon15 10, mkEntry "B" .removing mon15 0]).reverse.find?
            (fun e => decide (e.typ ≠ .removing ∧ e.a ∈ r.activities)) = some e ∧
          r.activities[r.selected]? = some e.a) ∧
      (r.activities = [] → r.selected = 0) :=
  refresh_selected envUTC noFile
    (loaded [mkEntry "B" .selecting sun14 0, mkEntry "A" .selecting sun14 0]
      [mkEntry "A" .working mon15 10, mkEntry "B" .removing mon15 0]) rfl

/-! ## `refresh`: the week anchors -/

theorem refreshBody3_skip (tz : Int → Int) (scratch : List String) (s : Anchors) (e : entry)
    (h : isWorkBreakIn scratch e = false) : refreshBody3 tz scratch s e = .cont s := by
  simp only [isWorkBreakIn, Bool.decide_and, Bool.decide_or, Bool.and_eq_false_iff,
    Bool.or_eq_false_iff, decide_eq_false_iff_not] at h
  unfold refreshBody3
  by_cases h1 : e.typ ≠ .working ∧ e.typ ≠ .resting
  · rw [if_pos h1]
  · rw [if_neg h1]
    have h2 : e.a ∉ scratch := by
      rcases h with h | h
      · exact absurd ⟨h.1, h.2⟩ h1
      · exact h
    rw [if_pos h2]

theorem isWorkBreakIn_true (scratch : List String) (e : entry)
    (h : isWorkBreakIn scratch e = true) :
    ¬ (e.typ ≠ .working ∧ e.typ ≠ .resting) ∧ ¬ e.a ∉ scratch := by
  simp only [isWorkBreakIn, Bool.decide_and, Bool.decide_or, Bool.and_eq_true, Bool.or_eq_true,
    decide_eq_true_eq] at h
  refine ⟨fun hc => ?_, fun hc => hc h.2⟩
  rcases h.1 with h1 | h1
  · exact hc.1 h1
  · exact hc.2 h1

/-- The third loop of `refresh` once `thisWk` is set: `thisWk` stays, and
`prevWk`, when it is not set yet, becomes the first week met that passes the
test of the loop. -/
theorem refreshBody3_set (tz : Int → Int) (scratch : List String) :
    ∀ (xs : List entry) (s : Anchors), s.thisWk.1 ≠ 0 → s.prevYr = 0 →
      (∀ w ∈ (xs.filter (isWorkBreakIn scratch)).map (fun e => e.t.ISOWeek tz), w.1 ≠ 0) →
      (foldFlow (refreshBody3 tz scratch) xs s).thisWk = s.thisWk ∧
      (foldFlow (refreshBody3 tz scratch) xs s).prevWk =
        if s.prevWk.1 = 0 then
          (((xs.filter (isWorkBreakIn scratch)).map (fun e => e.t.ISOWeek tz)).find?
            (beforeAnchor s.thisWk)).getD s.prevWk
        else s.prevWk := by
  intro xs
  induction xs with
  | nil =>
    intro s _ _ _
    simp [foldFlow]
  | cons e es ih =>
    intro s ht hy hw
    by_cases hrel : isWorkBreakIn scratch e = true
    · obtain ⟨r1, r2⟩ := isWorkBreakIn_true scratch e hrel
      have hfil : (e :: es).filter (isWorkBreakIn scratch) =
          e :: es.filter (isWorkBreakIn scratch) := by simp [List.filter_cons, hrel]
      rw [hfil] at hw ⊢
      simp only [List.map_cons, List.forall_mem_cons] at hw
      obtain ⟨hw1, hw2⟩ := hw
      simp only [List.map_cons]
      generalize hyw : e.t.ISOWeek tz = yw at hw1
      have hbody : ∀ s1 : Anchors,
          (if s.prevWk.1 = 0 ∧ (yw.2 < s.thisWk.2 ∨ yw.1 < s.thisWk.1)
            then ({ s with prevWk := yw } : Anchors) else s) = s1 →
          refreshBody3 tz scratch s e =
            (if s1.prevYr = 0 ∧ yw.1 < s.thisWk.1 then .brk { s1 with prevYr := s.thisWk.1 }
              else .cont s1) := by
        intro s1 hs1
        unfold refreshBody3
        rw [if_neg r1, if_neg r2, if_neg ht]
        simp only [hyw]
        rw [hs1]
        have : s1.thisWk = s.thisWk := by
          rw [← hs1]
          split_ifs <;> rfl
        rw [this]
      by_cases hp : s.prevWk.1 = 0
      · by_cases hc : yw.2 < s.thisWk.2 ∨ yw.1 < s.thisWk.1
        · have hb : beforeAnchor s.thisWk yw = true := by simp [beforeAnchor, hc]
          rw [if_pos hp, List.find?_cons_of_pos _ hb]
          have hbd := hbody { s with prevWk := yw } (if_pos ⟨hp, hc⟩)
          by_cases hbrk : s.prevYr = 0 ∧ yw.1 < s.thisWk.1
          · rw [if_pos hbrk] at hbd
            simp only [foldFlow, hbd, Option.getD_some, and_self]
          · rw [if_neg hbrk] at hbd
            simp only [foldFlow, hbd]
            obtain ⟨i1, i2⟩ := ih { s with prevWk := yw } ht hy hw2
            rw [if_neg hw1] at i2
            exact ⟨i1, i2⟩
        · have hb : ¬ beforeAnchor s.thisWk yw = true := by simp [beforeAnchor, hc]
          rw [if_pos hp, List.find?_cons_of_neg _ hb]
          have hbd := hbody s (if_neg (fun h => hc h.2))
          have hbrk : ¬ (s.prevYr = 0 ∧ yw.1 < s.thisWk.1) := fun h => hc (Or.inr h.2)
          rw [if_neg hbrk] at hbd
          simp only [foldFlow, hbd]
          obtain ⟨i1, i2⟩ := ih s ht hy hw2
          rw [if_pos hp] at i2
          exact ⟨i1, i2⟩
      · rw [if_neg hp]
        have hbd := hbody s (if_neg (fun h => hp h.1))
        by_cases hbrk : s.prevYr = 0 ∧ yw.1 < s.thisWk.1
        · rw [if_pos hbrk] at hbd
          simp only [foldFlow, hbd, and_self]
        · rw [if_neg hbrk] at hbd
          simp only [foldFlow, hbd]
          obtain ⟨i1, i2⟩ := ih s ht hy hw2
          rw [if_neg hp] at i2
          exact ⟨i1, i2⟩
    · have hrel1 : isWorkBreakIn scratch e = false := by simpa using hrel
      have hfil : (e :: es).filter (isWorkBreakIn scratch) =
          es.filter (isWorkBreakIn scratch) := by simp [List.filter_cons, hrel1]
      rw [hfil] at hw ⊢
      simp only [foldFlow, refreshBody3_skip tz scratch s e hrel1]
      exact ih s ht hy hw

/-- The third loop of `refresh` from its initial state: `thisWk` is the first
week met and `prevWk` the first week after it that passes the test. -/
theorem refreshBody3_init (tz : Int → Int) (scratch : List String) :
    ∀ (xs : List entry),
      (∀ w ∈ (xs.filter (isWorkBreakIn scratch)).map (fun e => e.t.ISOWeek tz), w.1 ≠ 0) →
      (foldFlow (refreshBody3 tz scratch) xs ⟨(0, 0), (0, 0), 0⟩).thisWk =
        (((xs.filter (isWorkBreakIn scratch)).map (fun e => e.t.ISOWeek tz)).head?).getD (0, 0) ∧
      (foldFlow (refreshBody3 tz scratch) xs ⟨(0, 0), (0, 0), 0⟩).prevWk =
        ((((xs.filter (isWorkBreakIn scratch)).map (fun e => e.t.ISOWeek tz)).tail).find?
          (beforeAnchor ((((xs.filter (isWorkBreakIn scratch)).map
            (fun e => e.t.ISOWeek tz)).head?).getD (0, 0)))).getD (0, 0) := by
  intro xs
  induction xs with
  | nil =>
    intro _
    simp [foldFlow]
  | cons e es ih =>
    intro hw
    by_cases hrel : isWorkBreakIn scratch e = true
    · obtain ⟨r1, r2⟩ := isWorkBreakIn_true scratch e hrel
      have hfil : (e :: es).filter (isWorkBreakIn scratch) =
          e :: es.filter (isWorkBreakIn scratch) := by simp [List.filter_cons, hrel]
      rw [hfil] at hw ⊢
      simp only [List.map_cons, List.forall_mem_cons] at hw
      obtain ⟨hw1, hw2⟩ := hw
      simp only [List.map_cons, List.head?_cons, Option.getD_some, List.tail_cons]
      have hbody : refreshBody3 tz scratch ⟨(0, 0), (0, 0), 0⟩ e =
          .cont ⟨e.t.ISOWeek tz, (0, 0), 0⟩ := by
        unfold refreshBody3
        rw [if_neg r1, if_neg r2]
        simp
      simp only [foldFlow, hbody]
      obtain ⟨i1, i2⟩ := refreshBody3_set tz scratch es ⟨e.t.ISOWeek tz, (0, 0), 0⟩ hw1 rfl hw2
      exact ⟨i1, by simpa using i2⟩
    · have hrel1 : isWorkBreakIn scratch e = false := by simpa using hrel
      have hfil : (e :: es).filter (isWorkBreakIn scratch) =
          es.filter (isWorkBreakIn scratch) := by simp [List.filter_cons, hrel1]
      rw [hfil] at hw ⊢
      simp only [foldFlow, refreshBody3_skip tz scratch _ e hrel1]
      exact ih hw

theorem alive_iff (seq : List entry) (name : String) :
    alive seq name = true ↔ liveIn seq name := by
  unfold alive liveIn
  cases h : lastOf seq name with
  | none => simp
  | some e => simp

theorem find?_congr_mem {α : Type} (p q : α → Bool) :
    ∀ (l : List α), (∀ x ∈ l, p x = q x) → l.find? p = l.find? q := by
  intro l
  induction l with
  | nil => intro _; rfl
  | cons a l ih =>
    intro h
    have ha := h a (List.mem_cons_self _ _)
    have hl := ih (fun x hx => h x (List.mem_cons_of_mem _ hx))
    simp only [List.find?_cons, ha, hl]

/-- The weeks that the third loop of `refresh` meets are the weeks of the
Work and Break entries of the alive activities, latest first. -/
theorem activeWeeks_scratch (tz : Int → Int) (seq : List entry) :
    (seq.reverse.filter (isWorkBreakIn (foldFlow refreshBody1 seq []))).map
      (fun e => e.t.ISOWeek tz) = activeWeeks tz seq := by
  obtain ⟨-, hmem⟩ := scratch_spec seq
  unfold activeWeeks
  congr 1
  apply List.filter_congr
  intro e _
  unfold isWorkBreakIn
  have : e.a ∈ foldFlow refreshBody1 seq [] ↔ alive seq e.a = true :=
    (hmem e.a).trans (alive_iff seq e.a).symm
  simp only [this]

/-- The week anchors of `refresh` when no week is after the latest one.  For a
logger whose committed entries are loaded and a sequence `committed ++ session` in which
the Work and Break entries of the alive activities have a non-zero ISO year
and none of them has an ISO (year, week) after that of the latest one:
`thisWeek` is the (year, week) of the latest such entry, and `prevWeek` is the
(year, week) of the first entry met, going backwards from there through these
entries, whose (year, week) strictly precedes `thisWeek` in (year, week) order,
and `(0, 0)` when there is none; so a `prevWeek` that is not `(0, 0)` strictly
precedes `thisWeek`. -/
theorem refresh_week_anchors (env : GoEnv) (disk : Disk) (l : logger) (hl : l.bread = true)
    (hpos : ∀ w ∈ activeWeeks env.tz (l.buffered ++ l.session), 0 < w.1)
    (hmax : ∀ w ∈ activeWeeks env.tz (l.buffered ++ l.session),
      ¬ weekLt ((activeWeeks env.tz (l.buffered ++ l.session)).head?.getD (0, 0)) w) :
    ∃ r l1, l.refresh env disk = .ok (r, l1) ∧
      r.thisWk = (activeWeeks env.tz (l.buffered ++ l.session)).head?.getD (0, 0) ∧
      r.prevWk = ((activeWeeks env.tz (l.buffered ++ l.session)).tail.find?
        (fun w => decide (weekLt w r.thisWk))).getD (0, 0) ∧
      (r.prevWk ≠ (0, 0) → weekLt r.prevWk r.thisWk) := by
  obtain ⟨l3, h, -⟩ := refresh_loaded env disk l hl
  have hall : l.all = l.buffered ++ l.session := rfl
  rw [hall] at h
  generalize l.buffered ++ l.session = seq at h hpos hmax
  have hws := activeWeeks_scratch env.tz seq
  obtain ⟨i1, i2⟩ := refreshBody3_init env.tz (foldFlow refreshBody1 seq []) seq.reverse
    (by
      rw [hws]
      intro w hw
      have := hpos w hw
      omega)
  rw [hws] at i1 i2
  generalize activeWeeks env.tz seq = ws at hpos hmax i1 i2
  generalize (foldFlow (refreshBody3 env.tz (foldFlow refreshBody1 seq [])) seq.reverse
    ⟨(0, 0), (0, 0), 0⟩) = s at h i1 i2
  have hfind : ws.tail.find? (beforeAnchor (ws.head?.getD (0, 0))) =
      ws.tail.find? (fun w => decide (weekLt w (ws.head?.getD (0, 0)))) := by
    apply find?_congr_mem
    intro w hw
    have hno := hmax w (List.mem_of_mem_tail hw)
    generalize ws.head?.getD (0, 0) = t at hno ⊢
    unfold beforeAnchor
    unfold weekLt at hno ⊢
    by_cases hc : w.2 < t.2 ∨ w.1 < t.1
    · rw [decide_eq_true hc, decide_eq_true (by omega)]
    · rw [decide_eq_false hc, decide_eq_false (by omega)]
  rw [hfind] at i2
  refine ⟨_, l3, h, i1, ?_, ?_⟩
  · simp only
    rw [i1]
    exact i2
  · simp only
    rw [i2, i1]
    intro hne
    cases hf : ws.tail.find? (fun w => decide (weekLt w (ws.head?.getD (0, 0)))) with
    | none =>
      rw [hf] at hne
      exact absurd rfl hne
    | some w =>
      have := List.find?_some hf
      simpa using this

/-- **C20** (the week anchors of `refresh`), evaluated on the code.  Work
dated in week 2 of 2025 is followed in the log by work dated in week 3 of 2024.
`thisWeek` is (2024, 3) and `refresh` takes (2025, 2) as `prevWeek`, because
2 < 3: a week that does not precede `thisWeek`.  On the same log `weeks`, whose
test compares the year first, returns (2025, 2) as the week after (2024, 3). -/
theorem refresh_prev_week_not_before :
    ((loaded [mkEntry "A" .selecting mon15 0, mkEntry "A" .working mon06y25 10,
        mkEntry "A" .working mon15 20] []).refresh envUTC noFile).map
      (fun r => (r.1.thisWk, r.1.prevWk)) = .ok ((2024, 3), (2025, 2)) ∧
    ¬ weekLt (2025, 2) (2024, 3) ∧
    activeWeeks envUTC.tz [mkEntry "A" .selecting mon15 0, mkEntry "A" .working mon06y25 10,
      mkEntry "A" .working mon15 20] = [(2024, 3), (2025, 2)] ∧
    ((loaded [mkEntry "A" .selecting mon15 0, mkEntry "A" .working mon06y25 10,
        mkEntry "A" .working mon15 20] []).weeks envUTC noFile "A" (2024, 3)).map
      (fun r => r.1.2) = .ok ((2025, 2), (0, 0)) :=
  ⟨rfl, by decide, by decide, rfl⟩

/-- An instance of `refresh_week_anchors`: work in the weeks 1, 3 and 5 of
2024. -/
theorem refresh_week_anchors_witness :
    ∃ r l1, (loaded threeWeeks []).refresh envUTC noFile = .ok (r, l1) ∧
      r.thisWk = (activeWeeks envUTC.tz (threeWeeks ++ [])).head?.getD (0, 0) ∧
      r.prevWk = ((activeWeeks envUTC.tz (threeWeeks ++ [])).tail.find?
        (fun w => decide (weekLt w r.thisWk))).getD (0, 0) ∧
      (r.prevWk ≠ (0, 0) → weekLt r.prevWk r.thisWk) :=
  refresh_week_anchors envUTC noFile (loaded threeWeeks []) rfl (by decide) (by decide)

/-! ## `refresh`: the previous year -/

/-- One iteration of the third loop of `refresh` on a Work or Break entry of an
alive activity, once `thisWk` is set and `prevYr` is not: an entry of an earlier
year sets `prevYr` to the year of `thisWk` and ends the loop; any other entry
leaves `thisWk` and `prevYr` as they are. -/
theorem refreshBody3_rel (tz : Int → Int) (scratch : List String) (s : Anchors) (e : entry)
    (hrel : isWorkBreakIn scratch e = true) (ht : s.thisWk.1 ≠ 0) (hy : s.prevYr = 0) :
    ((e.t.ISOWeek tz).1 < s.thisWk.1 →
      ∃ s1, refreshBody3 tz scratch s e = .brk s1 ∧ s1.thisWk = s.thisWk ∧
        s1.prevYr = s.thisWk.1) ∧
    (¬ (e.t.ISOWeek tz).1 < s.thisWk.1 →
      ∃ s1, refreshBody3 tz scratch s e = .cont s1 ∧ s1.thisWk = s.thisWk ∧ s1.prevYr = 0) := by
  obtain ⟨r1, r2⟩ := isWorkBreakIn_true scratch e hrel
  unfold refreshBody3
  rw [if_neg r1, if_neg r2, if_neg ht]
  simp only
  generalize e.t.ISOWeek tz = yw
  by_cases hc : s.prevWk.1 = 0 ∧ (yw.2 < s.thisWk.2 ∨ yw.1 < s.thisWk.1)
  · rw [if_pos hc]
    simp only
    refine ⟨fun h => ?_, fun h => ?_⟩
    · rw [if_pos ⟨hy, h⟩]
      exact ⟨_, rfl, rfl, rfl⟩
    · rw [if_neg (fun hh => h hh.2)]
      exact ⟨_, rfl, rfl, hy⟩
  · rw [if_neg hc]
    refine ⟨fun h => ?_, fun h => ?_⟩
    · rw [if_pos ⟨hy, h⟩]
      exact ⟨_, rfl, rfl, rfl⟩
    · rw [if_neg (fun hh => h hh.2)]
      exact ⟨_, rfl, rfl, hy⟩

/-- The third loop of `refresh` once `thisWk` is set: `prevYr` becomes the
year of `thisWk` when a week of an earlier year is met, and stays 0
otherwise. -/
theorem refreshBody3_year (tz : Int → Int) (scratch : List String) :
    ∀ (xs : List entry) (s : Anchors), s.thisWk.1 ≠ 0 → s.prevYr = 0 →
      (foldFlow (refreshBody3 tz scratch) xs s).prevYr =
        if ∃ w ∈ (xs.filter (isWorkBreakIn scratch)).map (fun e => e.t.ISOWeek tz),
            w.1 < s.thisWk.1 then s.thisWk.1 else 0 := by
  intro xs
  induction xs with
  | nil =>
    intro s _ hy
    simp [foldFlow, hy]
  | cons e es ih =>
    intro s ht hy
    by_cases hrel : isWorkBreakIn scratch e = true
    · have hfil : (e :: es).filter (isWorkBreakIn scratch) =
          e :: es.filter (isWorkBreakIn scratch) := by simp [List.filter_cons, hrel]
      rw [hfil]
      simp only [List.map_cons, List.mem_cons, exists_eq_or_imp]
      obtain ⟨b1, b2⟩ := refreshBody3_rel tz scratch s e hrel ht hy
      by_cases hlt : (e.t.ISOWeek tz).1 < s.thisWk.1
      · obtain ⟨s1, h1, h2, h3⟩ := b1 hlt
        rw [if_pos (Or.inl hlt)]
        simp only [foldFlow, h1, h3]
      · obtain ⟨s1, h1, h2, h3⟩ := b2 hlt
        simp only [foldFlow, h1]
        rw [ih s1 (by rw [h2]; exact ht) h3, h2]
        simp only [hlt, false_or]
    · have hrel1 : isWorkBreakIn scratch e = false := by simpa using hrel
      have hfil : (e :: es).filter (isWorkBreakIn scratch) =
          es.filter (isWorkBreakIn scratch) := by simp [List.filter_cons, hrel1]
      rw [hfil]
      simp only [foldFlow, refreshBody3_skip tz scratch s e hrel1]
      exact ih s ht hy

/-- The third loop of `refresh` once `thisWk` is set does not read past an
entry of an earlier year. -/
theorem refreshBody3_stop (tz : Int → Int) (scratch : List String) (e : entry)
    (post : List entry) (hrel : isWorkBreakIn scratch e = true) :
    ∀ (pre : List entry) (s : Anchors), s.thisWk.1 ≠ 0 → s.prevYr = 0 →
      (e.t.ISOWeek tz).1 < s.thisWk.1 →
      foldFlow (refreshBody3 tz scratch) (pre ++ e :: post) s =
        foldFlow (refreshBody3 tz scratch) (pre ++ [e]) s := by
  intro pre
  induction pre with
  | nil =>
    intro s ht hy hlt
    obtain ⟨s1, h1, -, -⟩ := (refreshBody3_rel tz scratch s e hrel ht hy).1 hlt
    simp only [List.nil_append, foldFlow, h1]
  | cons x pre ih =>
    intro s ht hy hlt
    by_cases hx : isWorkBreakIn scratch x = true
    · obtain ⟨b1, b2⟩ := refreshBody3_rel tz scratch s x hx ht hy
      by_cases hxl : (x.t.ISOWeek tz).1 < s.thisWk.1
      · obtain ⟨s1, h1, -, -⟩ := b1 hxl
        simp only [List.cons_append, foldFlow, h1]
      · obtain ⟨s1, h1, h2, h3⟩ := b2 hxl
        simp only [List.cons_append, foldFlow, h1]
        exact ih s1 (by rw [h2]; exact ht) h3 (by rw [h2]; exact hlt)
    · have hx1 : isWorkBreakIn scratch x = false := by simpa using hx
      simp only [List.cons_append, foldFlow, refreshBody3_skip tz scratch s x hx1]
      exact ih s ht hy hlt

theorem refreshBody3_first (tz : Int → Int) (scratch : List String) (e : entry)
    (hrel : isWorkBreakIn scratch e = true) :
    refreshBody3 tz scratch ⟨(0, 0), (0, 0), 0⟩ e = .cont ⟨e.t.ISOWeek tz, (0, 0), 0⟩ := by
  obtain ⟨r1, r2⟩ := isWorkBreakIn_true scratch e hrel
  unfold refreshBody3
  rw [if_neg r1, if_neg r2]
  simp

/-- The third loop of `refresh` from its initial state: `prevYr` is the year of
the first week met when a later week met is of an earlier year, and 0
otherwise. -/
theorem refreshBody3_init_year (tz : Int → Int) (scratch : List String) :
    ∀ (xs : List entry),
      (∀ w ∈ (xs.filter (isWorkBreakIn scratch)).map (fun e => e.t.ISOWeek tz), w.1 ≠ 0) →
      (foldFlow (refreshBody3 tz scratch) xs ⟨(0, 0), (0, 0), 0⟩).prevYr =
        if ∃ w ∈ ((xs.filter (isWorkBreakIn scratch)).map (fun e => e.t.ISOWeek tz)).tail,
            w.1 < ((((xs.filter (isWorkBreakIn scratch)).map
              (fun e => e.t.ISOWeek tz)).head?).getD (0, 0)).1
          then ((((xs.filter (isWorkBreakIn scratch)).map
              (fun e => e.t.ISOWeek tz)).head?).getD (0, 0)).1
          else 0 := by
  intro xs
  induction xs with
  | nil =>
    intro _
    simp [foldFlow]
  | cons e es ih =>
    intro hw
    by_cases hrel : isWorkBreakIn scratch e = true
    · have hfil : (e :: es).filter (isWorkBreakIn scratch) =
          e :: es.filter (isWorkBreakIn scratch) := by simp [List.filter_cons, hrel]
      rw [hfil] at hw ⊢
      simp only [List.map_cons, List.forall_mem_cons] at hw
      simp only [List.map_cons, List.head?_cons, Option.getD_some, List.tail_cons]
      simp only [foldFlow, refreshBody3_first tz scratch e hrel]
      exact refreshBody3_year tz scratch es ⟨e.t.ISOWeek tz, (0, 0), 0⟩ hw.1 rfl
    · have hrel1 : isWorkBreakIn scratch e = false := by simpa using hrel
      have hfil : (e :: es).filter (isWorkBreakIn scratch) =
          es.filter (isWorkBreakIn scratch) := by simp [List.filter_cons, hrel1]
      rw [hfil] at hw ⊢
      simp only [foldFlow, refreshBody3_skip tz scratch _ e hrel1]
      exact ih hw

/-- The third loop of `refresh` from its initial state does not read past an
entry whose year is before the year of the first week met. -/
theorem refreshBody3_init_stop (tz : Int → Int) (scratch : List String) (e : entry)
    (post : List entry) (hrel : isWorkBreakIn scratch e = true) :
    ∀ (pre : List entry),
      (∀ w ∈ ((pre ++ e :: post).filter (isWorkBreakIn scratch)).map
        (fun e => e.t.ISOWeek tz), w.1 ≠ 0) →
      (e.t.ISOWeek tz).1 < (((((pre ++ e :: post).filter (isWorkBreakIn scratch)).map
        (fun e => e.t.ISOWeek tz)).head?).getD (0, 0)).1 →
      foldFlow (refreshBody3 tz scratch) (pre ++ e :: post) ⟨(0, 0), (0, 0), 0⟩ =
        foldFlow (refreshBody3 tz scratch) (pre ++ [e]) ⟨(0, 0), (0, 0), 0⟩ := by
  intro pre
  induction pre with
  | nil =>
    intro _ hlt
    have hfil : (e :: post).filter (isWorkBreakIn scratch) =
        e :: post.filter (isWorkBreakIn scratch) := by simp [List.filter_cons, hrel]
    rw [List.nil_append, hfil] at hlt
    simp only [List.map_cons, List.head?_cons, Option.getD_some] at hlt
    exact absurd hlt (lt_irrefl _)
  | cons x pre ih =>
    intro hw hlt
    by_cases hx : isWorkBreakIn scratch x = true
    · have hfil : (x :: (pre ++ e :: post)).filter (isWorkBreakIn scratch) =
          x :: (pre ++ e :: post).filter (isWorkBreakIn scratch) := by
        simp [List.filter_cons, hx]
      rw [List.cons_append, hfil] at hw hlt
      simp only [List.map_cons, List.forall_mem_cons] at hw
      simp only [List.map_cons, List.head?_cons, Option.getD_some] at hlt
      simp only [List.cons_append, foldFlow, refreshBody3_first tz scratch x hx]
      exact refreshBody3_stop tz scratch e post hrel pre ⟨x.t.ISOWeek tz, (0, 0), 0⟩ hw.1 rfl hlt
    · have hx1 : isWorkBreakIn scratch x = false := by simpa using hx
      have hfil : (x :: (pre ++ e :: post)).filter (isWorkBreakIn scratch) =
          (pre ++ e :: post).filter (isWorkBreakIn scratch) := by
        simp [List.filter_cons, hx1]
      rw [List.cons_append, hfil] at hw hlt
      simp only [List.cons_append, foldFlow, refreshBody3_skip tz scratch _ x hx1]
      exact ih hw hlt

theorem refreshBody3_sorted (tz : Int → Int) (scratch : List String) :
    refreshBody3 tz (sortStrings scratch) = refreshBody3 tz scratch := by
  funext s e
  unfold refreshBody3
  simp only [mem_sortStrings]

theorem isWorkBreakIn_sorted (scratch : List String) :
    isWorkBreakIn (sortStrings scratch) = isWorkBreakIn scratch := by
  funext e
  unfold isWorkBreakIn
  simp only [mem_sortStrings]

/-- A loop over a cursor method computes the fold of its body and leaves the
cursor where the body broke. -/
theorem forCursor_rest {σ : Type} {step : logger → Except Panic (entry × Option error × logger)}
    {rem : logger → List entry} {P : logger → Prop} (hy : Yields step rem P)
    (body : σ → entry → Flow σ) :
    ∀ (fuel : Nat) (l : logger) (s : σ), P l → (rem l).length < fuel →
      ∃ l1, forCursor step body fuel l s = .ok (foldFlow body (rem l) s, l1) ∧ P l1 ∧
        rem l1 = restFlow body (rem l) s := by
  intro fuel
  induction fuel with
  | zero => intro l s _ h; omega
  | succ fuel ih =>
    intro l s hP hlen
    cases hrem : rem l with
    | nil =>
      refine ⟨l, ?_, hP, ?_⟩
      · simp [forCursor, hy.1 l hP hrem, foldFlow]
      · rw [hrem]; rfl
    | cons e es =>
      obtain ⟨l1, h1, h2, h3⟩ := hy.2 l e es hP hrem
      cases hb : body s e with
      | cont s1 =>
        have hlen1 : (rem l1).length < fuel := by
          rw [h2]; rw [hrem] at hlen; simp at hlen; omega
        obtain ⟨l2, h4, h5, h6⟩ := ih l1 s1 h3 hlen1
        refine ⟨l2, ?_, h5, ?_⟩
        · simp [forCursor, h1, hb, foldFlow, h4, h2]
        · rw [h6, h2]; simp [restFlow, hb]
      | brk s1 =>
        refine ⟨l1, ?_, h3, ?_⟩
        · simp [forCursor, h1, hb, foldFlow]
        · rw [h2]; simp [restFlow, hb]

/-- The method `refresh` on a loaded logger, with what its last loop leaves
unread. -/
theorem refresh_loaded_rest (env : GoEnv) (disk : Disk) (l : logger) (hl : l.bread = true) :
    ∃ l3, l.refresh env disk =
      .ok (⟨sortStrings (foldFlow refreshBody1 l.all []),
          refreshIndex (foldFlow (refreshBody2 (foldFlow refreshBody1 l.all [])) l.all.reverse "")
            (sortStrings (foldFlow refreshBody1 l.all [])) 0,
          (foldFlow (refreshBody3 env.tz (foldFlow refreshBody1 l.all [])) l.all.reverse
            ⟨(0, 0), (0, 0), 0⟩).thisWk,
          (foldFlow (refreshBody3 env.tz (foldFlow refreshBody1 l.all [])) l.all.reverse
            ⟨(0, 0), (0, 0), 0⟩).prevWk,
          (foldFlow (refreshBody3 env.tz (foldFlow refreshBody1 l.all [])) l.all.reverse
            ⟨(0, 0), (0, 0), 0⟩).thisWk.1,
          (foldFlow (refreshBody3 env.tz (foldFlow refreshBody1 l.all [])) l.all.reverse
            ⟨(0, 0), (0, 0), 0⟩).prevYr⟩, l3) ∧
      l3.bwd = restFlow (refreshBody3 env.tz (foldFlow refreshBody1 l.all [])) l.all.reverse
        ⟨(0, 0), (0, 0), 0⟩ := by
  have key : ∀ (l0 : logger), Loaded l.buffered l.session l0 →
      Loaded l.buffered l.session l0.reset ∧ l0.reset.fwd = l.all ∧
        l0.reset.bwd = l.all.reverse ∧ l.all.length < l0.bound disk := by
    intro l0 h0
    refine ⟨⟨h0.1, h0.2.1, h0.2.2⟩, ?_, ?_, ?_⟩
    · rw [reset_fwd]; simp [logger.all, h0.2.1, h0.2.2]
    · rw [reset_bwd]; simp [logger.all, h0.2.1, h0.2.2]
    · simp [logger.bound, logger.all, h0.2.1, h0.2.2]; omega
  obtain ⟨k1, k2, -, k4⟩ := key l ⟨hl, rfl, rfl⟩
  obtain ⟨l1, e1, p1⟩ := forCursor_yields (next_yields env disk l.buffered l.session)
    refreshBody1 (l.bound disk) l.reset [] k1 (by rw [k2]; exact k4)
  rw [k2] at e1
  obtain ⟨m1, -, m3, m4⟩ := key l1 p1
  obtain ⟨l2, e2, p2⟩ := forCursor_yields (prev_yields env disk l.buffered l.session)
    (refreshBody2 (foldFlow refreshBody1 l.all [])) (l1.bound disk) l1.reset "" m1
    (by rw [m3]; simpa using m4)
  rw [m3] at e2
  obtain ⟨n1, -, n3, n4⟩ := key l2 p2
  obtain ⟨l3, e3, -, q3⟩ := forCursor_rest (prev_yields env disk l.buffered l.session)
    (refreshBody3 env.tz (foldFlow refreshBody1 l.all [])) (l2.bound disk) l2.reset
    ⟨(0, 0), (0, 0), 0⟩ n1 (by rw [n3]; simpa using n4)
  rw [n3] at e3 q3
  refine ⟨l3, ?_, q3⟩
  simp only [logger.refresh, e1, e2, e3]

/-- Once `thisWk` is set and `prevYr` is not, the third loop of `refresh` reads
up to the first Work or Break entry of an alive activity whose year is before
that of `thisWk`, and no further. -/
theorem refreshBody3_rest (tz : Int → Int) (scratch : List String) (e : entry)
    (post : List entry) (hrel : isWorkBreakIn scratch e = true) :
    ∀ (pre : List entry) (s : Anchors), s.thisWk.1 ≠ 0 → s.prevYr = 0 →
      (∀ x ∈ pre, isWorkBreakIn scratch x = true → ¬ (x.t.ISOWeek tz).1 < s.thisWk.1) →
      (e.t.ISOWeek tz).1 < s.thisWk.1 →
      restFlow (refreshBody3 tz scratch) (pre ++ e :: post) s = post := by
  intro pre
  induction pre with
  | nil =>
    intro s ht hy _ hlt
    obtain ⟨s1, h1, -, -⟩ := (refreshBody3_rel tz scratch s e hrel ht hy).1 hlt
    simp [restFlow, h1]
  | cons x pre ih =>
    intro s ht hy hpre hlt
    by_cases hx : isWorkBreakIn scratch x = true
    · have hnx := hpre x (List.mem_cons_self _ _) hx
      obtain ⟨s1, h1, h2, h3⟩ := (refreshBody3_rel tz scratch s x hx ht hy).2 hnx
      simp only [List.cons_append, restFlow, h1]
      exact ih s1 (by rw [h2]; exact ht) h3
        (fun y hy1 hy2 => by rw [h2]; exact hpre y (List.mem_cons_of_mem _ hy1) hy2)
        (by rw [h2]; exact hlt)
    · have hx1 : isWorkBreakIn scratch x = false := by simpa using hx
      simp only [List.cons_append, restFlow, refreshBody3_skip tz scratch _ x hx1]
      exact ih s ht hy (fun y hy1 hy2 => hpre y (List.mem_cons_of_mem _ hy1) hy2) hlt

/-- The third loop of `refresh` from its initial state reads up to the first
Work or Break entry of an alive activity whose year is before that of the first
week met, and no further. -/
theorem refreshBody3_init_rest (tz : Int → Int) (scratch : List String) (e : entry)
    (post : List entry) (hrel : isWorkBreakIn scratch e = true) :
    ∀ (pre : List entry),
      (∀ w ∈ ((pre ++ e :: post).filter (isWorkBreakIn scratch)).map
        (fun e => e.t.ISOWeek tz), w.1 ≠ 0) →
      (∀ x ∈ pre, isWorkBreakIn scratch x = true →
        ¬ (x.t.ISOWeek tz).1 < (((((pre ++ e :: post).filter (isWorkBreakIn scratch)).map
          (fun e => e.t.ISOWeek tz)).head?).getD (0, 0)).1) →
      (e.t.ISOWeek tz).1 < (((((pre ++ e :: post).filter (isWorkBreakIn scratch)).map
        (fun e => e.t.ISOWeek tz)).head?).getD (0, 0)).1 →
      restFlow (refreshBody3 tz scratch) (pre ++ e :: post) ⟨(0, 0), (0, 0), 0⟩ = post := by
  intro pre
  induction pre with
  | nil =>
    intro _ _ hlt
    have hfil : (e :: post).filter (isWorkBreakIn scratch) =
        e :: post.filter (isWorkBreakIn scratch) := by simp [List.filter_cons, hrel]
    rw [List.nil_append, hfil] at hlt
    simp only [List.map_cons, List.head?_cons, Option.getD_some] at hlt
    exact absurd hlt (lt_irrefl _)
  | cons x pre ih =>
    intro hw hpre hlt
    by_cases hx : isWorkBreakIn scratch x = true
    · have hfil : (x :: (pre ++ e :: post)).filter (isWorkBreakIn scratch) =
          x :: (pre ++ e :: post).filter (isWorkBreakIn scratch) := by
        simp [List.filter_cons, hx]
      rw [List.cons_append, hfil] at hw hlt
      simp only [List.cons_append, hfil] at hpre
      simp only [List.map_cons, List.forall_mem_cons] at hw
      simp only [List.map_cons, List.head?_cons, Option.getD_some] at hlt hpre
      simp only [List.cons_append, restFlow, refreshBody3_first tz scratch x hx]
      exact refreshBody3_rest tz scratch e post hrel pre ⟨x.t.ISOWeek tz, (0, 0), 0⟩ hw.1 rfl
        (fun y hy1 hy2 => hpre y (List.mem_cons_of_mem _ hy1) hy2) hlt
    · have hx1 : isWorkBreakIn scratch x = false := by simpa using hx
      have hfil : (x :: (pre ++ e :: post)).filter (isWorkBreakIn scratch) =
          (pre ++ e :: post).filter (isWorkBreakIn scratch) := by
        simp [List.filter_cons, hx1]
      rw [List.cons_append, hfil] at hw hlt
      simp only [List.cons_append, hfil] at hpre
      simp only [List.cons_append, restFlow, refreshBody3_skip tz scratch _ x hx1]
      exact ih hw (fun y hy1 hy2 => hpre y (List.mem_cons_of_mem _ hy1) hy2) hlt

/-- **C21** (the previous-year anchor of `refresh`).  For a logger whose
committed entries are loaded and a sequence `committed ++ session` in which the
Work and Break entries of the alive activities have a positive ISO year:
`thisYear` is the year of `thisWeek`, the (year, week) of the latest such entry;
`prevYear` is `thisYear` when such an entry that lies earlier in the sequence
than the latest one has an ISO year below `thisYear`, and 0 otherwise; and the
backward scan stops at the first such entry of an earlier year, so that what
the cursor has still to yield going backward is exactly what precedes that entry
in the sequence. -/
theorem refresh_prev_year (env : GoEnv) (disk : Disk) (l : logger) (hl : l.bread = true)
    (hpos : ∀ w ∈ activeWeeks env.tz (l.buffered ++ l.session), 0 < w.1) :
    ∃ r l1, l.refresh env disk = .ok (r, l1) ∧
      r.thisYr = r.thisWk.1 ∧
      r.thisWk = (activeWeeks env.tz (l.buffered ++ l.session)).head?.getD (0, 0) ∧
      r.prevYr = (if ∃ w ∈ (activeWeeks env.tz (l.buffered ++ l.session)).tail, w.1 < r.thisYr
        then r.thisYr else 0) ∧
      ∀ (pre : List entry) (e : entry) (post : List entry),
        (l.buffered ++ l.session).reverse = pre ++ e :: post →
        isWorkBreakIn r.activities e = true → (e.t.ISOWeek env.tz).1 < r.thisYr →
        (∀ x ∈ pre, isWorkBreakIn r.activities x = true →
          ¬ (x.t.ISOWeek env.tz).1 < r.thisYr) →
        l1.bwd = post := by
  obtain ⟨l3, h, hrest⟩ := refresh_loaded_rest env disk l hl
  have hall : l.all = l.buffered ++ l.session := rfl
  rw [hall] at h hrest
  generalize l.buffered ++ l.session = seq at h hpos hrest
  have hws := activeWeeks_scratch env.tz seq
  have hne : ∀ w ∈ (seq.reverse.filter (isWorkBreakIn (foldFlow refreshBody1 seq []))).map
      (fun e => e.t.ISOWeek env.tz), w.1 ≠ 0 := by
    rw [hws]
    intro w hw
    have := hpos w hw
    omega
  obtain ⟨i1, -⟩ := refreshBody3_init env.tz (foldFlow refreshBody1 seq []) seq.reverse hne
  have i3 := refreshBody3_init_year env.tz (foldFlow refreshBody1 seq []) seq.reverse hne
  refine ⟨_, l3, h, rfl, ?_, ?_, ?_⟩
  · simp only
    rw [i1, hws]
  · simp only
    rw [i3, i1, hws]
  · intro pre e post hsplit hrel hlt hpre
    simp only [isWorkBreakIn_sorted] at hrel hpre
    simp only at hlt hpre
    rw [i1] at hlt hpre
    rw [hrest, hsplit]
    rw [hsplit] at hne
    exact refreshBody3_init_rest env.tz (foldFlow refreshBody1 seq []) e post hrel pre hne
      (by rw [← hsplit]; exact hpre) (by rw [← hsplit]; exact hlt)

/-- Witness of C21: work in two weeks of 2024 followed by work in 2025. -/
theorem refresh_prev_year_witness :
    ∃ r l1, (loaded twoYears []).refresh envUTC noFile = .ok (r, l1) ∧
      r.thisYr = r.thisWk.1 ∧
      r.thisWk = (activeWeeks envUTC.tz (twoYears ++ ([] : List entry))).head?.getD (0, 0) ∧
      r.prevYr = (if ∃ w ∈ (activeWeeks envUTC.tz (twoYears ++ ([] : List entry))).tail, w.1 < r.thisYr
        then r.thisYr else 0) ∧
      ∀ (pre : List entry) (e : entry) (post : List entry),
        (twoYears ++ ([] : List entry)).reverse = pre ++ e :: post →
        isWorkBreakIn r.activities e = true → (e.t.ISOWeek envUTC.tz).1 < r.thisYr →
        (∀ x ∈ pre, isWorkBreakIn r.activities x = true →
          ¬ (x.t.ISOWeek envUTC.tz).1 < r.thisYr) →
        l1.bwd = post :=
  refresh_prev_year envUTC noFile (loaded twoYears []) rfl (by decide)

/-- On `twoYears` the scan of `refresh` stops at the work of week 3 of 2024 and
leaves the work of week 1 unread. -/
theorem twoYears_refresh :
    ((loaded twoYears []).refresh envUTC noFile).map
        (fun r => (r.1.thisYr, r.1.prevYr, r.2.bwd)) =
      .ok (2025, 2025, [mkEntry "A" .working mon01 10]) := rfl

/-! ## `years` -/

theorem jun05y23_date : jun05y23.Date envUTC.tz = (2023, 6, 5) := by decide

theorem yearsGrid_loaded (env : GoEnv) (disk : Disk) (l : logger) (activity : String)
    (year : Int) (hl : l.bread = true) :
    ∃ l1, l.yearsGrid env disk activity year =
      .ok (foldFlow (yearsBody env.tz activity year) l.all
        ⟨List.replicate 12 (0, 0), 0, 0⟩, l1) := by
  obtain ⟨l1, h, -⟩ := forCursor_yields (next_yields env disk l.buffered l.session)
    (yearsBody env.tz activity year) (l.reset.bound disk) l.reset
    ⟨List.replicate 12 (0, 0), 0, 0⟩ (reset_loaded l hl)
    (by rw [reset_fwd]; exact bound_gt disk l)
  rw [reset_fwd] at h
  exact ⟨l1, h⟩

theorem yearsBody_cases (tz : Int → Int) (activity : String) (year : Int) (s : YearAcc)
    (e : entry) :
    (isWorkBreakOf activity e = false ∧ yearsBody tz activity year s e = .cont s) ∨
    (isWorkBreakOf activity e = true ∧ e.t.Year tz = year ∧
      yearsBody tz activity year s e =
        .cont { s with d := bump s.d (e.t.Month tz - 1) (e.typ.toNat - 4) e.d }) ∨
    (isWorkBreakOf activity e = true ∧ e.t.Year tz < year ∧
      yearsBody tz activity year s e = .cont { s with prev := e.t.Year tz }) ∨
    (isWorkBreakOf activity e = true ∧ year < e.t.Year tz ∧
      yearsBody tz activity year s e = .brk { s with nxt := e.t.Year tz }) := by
  by_cases h1 : e.typ ≠ .working ∧ e.typ ≠ .resting
  · left
    refine ⟨?_, ?_⟩
    · simp [isWorkBreakOf, h1.1, h1.2]
    · simp [yearsBody, h1]
  · have h1' : e.typ = .working ∨ e.typ = .resting := by
      by_contra hc
      exact h1 ⟨fun h => hc (Or.inl h), fun h => hc (Or.inr h)⟩
    by_cases h2 : e.a ≠ activity
    · left
      refine ⟨?_, ?_⟩
      · simp [isWorkBreakOf, h2]
      · simp only [yearsBody, if_neg h1, if_pos h2]
    · have h2' : e.a = activity := by simpa using h2
      have hwb : isWorkBreakOf activity e = true := by simp [isWorkBreakOf, h1', h2']
      right
      by_cases h3 : e.t.Year tz = year
      · left
        refine ⟨hwb, h3, ?_⟩
        simp only [yearsBody, if_neg h1, if_neg h2, h3, if_true]
      · right
        by_cases h4 : e.t.Year tz < year
        · left
          refine ⟨hwb, h4, ?_⟩
          simp only [yearsBody, if_neg h1, if_neg h2, h3, if_false, h4, if_true]
        · right
          refine ⟨hwb, by omega, ?_⟩
          simp only [yearsBody, if_neg h1, if_neg h2, h3, if_false, h4]

theorem yearsOf_cons (tz : Int → Int) (name : String) (e : entry) (es : List entry) :
    yearsOf tz name (e :: es) =
      if isWorkBreakOf name e = true then e.t.Year tz :: yearsOf tz name es
      else yearsOf tz name es := by
  unfold yearsOf
  by_cases h : isWorkBreakOf name e = true
  · simp [List.filter_cons, h]
  · simp [List.filter_cons, h]

theorem monthSum_cons (tz : Int → Int) (kind : state) (name : String) (year : Int) (m : Nat)
    (e : entry) (es : List entry) :
    monthSum tz kind name year m (e :: es) =
      (if e.typ = kind ∧ e.a = name ∧ e.t.Year tz = year ∧ e.t.Month tz = m then e.d else 0) +
        monthSum tz kind name year m es := by
  unfold monthSum
  by_cases h : e.typ = kind ∧ e.a = name ∧ e.t.Year tz = year ∧ e.t.Month tz = m
  · simp [List.filter_cons, h]
  · simp only [List.filter_cons, h, decide_False, if_false, zero_add]
    rfl

/-- No entry of another year counts in a month of `year`. -/
theorem monthSum_other_years (tz : Int → Int) (kind : state) (name : String) (year : Int)
    (m : Nat) (hk : kind = .working ∨ kind = .resting) :
    ∀ (es : List entry), (∀ y ∈ yearsOf tz name es, y ≠ year) →
      monthSum tz kind name year m es = 0 := by
  intro es
  induction es with
  | nil => intro _; rfl
  | cons e es ih =>
    intro h
    rw [monthSum_cons]
    rw [yearsOf_cons] at h
    by_cases hwb : isWorkBreakOf name e = true
    · rw [if_pos hwb] at h
      have h1 := h _ (List.mem_cons_self _ _)
      rw [if_neg (fun hc => h1 hc.2.2.1), zero_add]
      exact ih (fun y hy => h y (List.mem_cons_of_mem _ hy))
    · rw [if_neg hwb] at h
      have hno : ¬ (e.typ = kind ∧ e.a = name ∧ e.t.Year tz = year ∧ e.t.Month tz = m) := by
        intro hc
        apply hwb
        rcases hk with hk | hk <;> simp [isWorkBreakOf, hc.1, hc.2.1, hk]
      rw [if_neg hno, zero_add]
      exact ih h

/-- The cell read after `d[i][k] += x`. -/
theorem bump_getD :
    ∀ (d : List (Int × Int)) (i k : Nat) (x : Int) (j : Nat), i < d.length →
      (bump d i k x).length = d.length ∧
      (bump d i k x).getD j (0, 0) =
        if j = i then
          (if k = 0 then (add64 (d.getD i (0, 0)).1 x, (d.getD i (0, 0)).2)
            else if k = 1 then ((d.getD i (0, 0)).1, add64 (d.getD i (0, 0)).2 x)
            else d.getD i (0, 0))
        else d.getD j (0, 0) := by
  intro d
  induction d with
  | nil => intro i k x j hi; simp at hi
  | cons r rs ih =>
    intro i k x j hi
    cases i with
    | zero =>
      refine ⟨by simp [bump], ?_⟩
      cases j with
      | zero => simp [bump]
      | succ j => simp [bump]
    | succ i =>
      have hi1 : i < rs.length := by simpa using hi
      obtain ⟨h1, h2⟩ := ih i k x (j - 1) hi1
      refine ⟨by simp [bump, h1], ?_⟩
      cases j with
      | zero => simp [bump]
      | succ j =>
        have h3 := (ih i k x j hi1).2
        simp only [bump, List.getD_cons_succ, h3, add_left_inj]
theorem month_index (tz : Int → Int) (t : Time) (j : Nat) :
    t.Month tz - 1 < 12 ∧ (j = t.Month tz - 1 ↔ t.Month tz = j + 1) := by
  have h := absDate_range (t.abs tz)
  unfold Time.Month
  omega

/-- The cells that the loop of `years` leaves, when the years of the entries of
the activity are in non-decreasing order: each cell has grown, in 64-bit
arithmetic, by the durations of the entries of its month and kind. -/
theorem years_fold_cells (tz : Int → Int) (activity : String) (year : Int) :
    ∀ (xs : List entry) (s : YearAcc), s.d.length = 12 →
      (∀ j, wrap64 (s.d.getD j (0, 0)).1 = (s.d.getD j (0, 0)).1 ∧
        wrap64 (s.d.getD j (0, 0)).2 = (s.d.getD j (0, 0)).2) →
      (yearsOf tz activity xs).Pairwise (fun a b => a ≤ b) →
      (foldFlow (yearsBody tz activity year) xs s).d.length = 12 ∧
      ∀ j, ((foldFlow (yearsBody tz activity year) xs s).d.getD j (0, 0)).1 =
          wrap64 ((s.d.getD j (0, 0)).1 + monthSum tz .working activity year (j + 1) xs) ∧
        ((foldFlow (yearsBody tz activity year) xs s).d.getD j (0, 0)).2 =
          wrap64 ((s.d.getD j (0, 0)).2 + monthSum tz .resting activity year (j + 1) xs) := by
  intro xs
  induction xs with
  | nil =>
    intro s hs hfix _
    refine ⟨hs, fun j => ?_⟩
    simp only [foldFlow, monthSum, List.filter_nil, List.map_nil, List.sum_nil, add_zero]
    exact ⟨(hfix j).1.symm, (hfix j).2.symm⟩
  | cons e es ih =>
    intro s hs hfix hord
    rw [yearsOf_cons] at hord
    rcases yearsBody_cases tz activity year s e with ⟨h1, hb⟩ | ⟨h1, h2, hb⟩ |
        ⟨h1, h2, hb⟩ | ⟨h1, h2, hb⟩
    · -- not an entry of the activity
      rw [if_neg (by rw [h1]; decide)] at hord
      simp only [foldFlow, hb]
      obtain ⟨i1, i2⟩ := ih s hs hfix hord
      refine ⟨i1, fun j => ?_⟩
      have hno : ∀ kind, kind = state.working ∨ kind = state.resting →
          ¬ (e.typ = kind ∧ e.a = activity ∧ e.t.Year tz = year ∧ e.t.Month tz = j + 1) := by
        intro kind hk hc
        have : isWorkBreakOf activity e = true := by
          rcases hk with hk | hk <;> simp [isWorkBreakOf, hc.1, hc.2.1, hk]
        rw [h1] at this
        exact absurd this (by decide)
      rw [monthSum_cons, monthSum_cons, if_neg (hno _ (Or.inl rfl)), if_neg (hno _ (Or.inr rfl)),
        zero_add, zero_add]
      exact i2 j
    · -- an entry of the target year
      rw [if_pos h1] at hord
      rw [List.pairwise_cons] at hord
      have hwb := h1
      simp only [isWorkBreakOf, Bool.decide_and, Bool.decide_or, Bool.and_eq_true,
        Bool.or_eq_true, decide_eq_true_eq] at hwb
      obtain ⟨hkind, hname⟩ := hwb
      have hidx := fun j => month_index tz e.t j
      have hlt : e.t.Month tz - 1 < s.d.length := by rw [hs]; exact (hidx 0).1
      have hbump := fun j => bump_getD s.d (e.t.Month tz - 1) (e.typ.toNat - 4) e.d j hlt
      obtain ⟨i1, i2⟩ := ih { s with d := bump s.d (e.t.Month tz - 1) (e.typ.toNat - 4) e.d }
        (by simpa [hs] using (hbump 0).1)
        (by
          intro j
          simp only
          rw [(hbump j).2]
          rcases hkind with hk | hk
          · simp only [hk, state.toNat, Nat.sub_self, if_true]
            split_ifs
            · exact ⟨by unfold add64; exact wrap64_idem _, (hfix _).2⟩
            · exact hfix j
          · simp only [hk, state.toNat, Nat.reduceSub, one_ne_zero, if_false, if_true]
            split_ifs
            · exact ⟨(hfix _).1, by unfold add64; exact wrap64_idem _⟩
            · exact hfix j)
        hord.2
      simp only [foldFlow, hb]
      refine ⟨i1, fun j => ?_⟩
      obtain ⟨c1, c2⟩ := i2 j
      rw [c1, c2]
      simp only
      rw [(hbump j).2, monthSum_cons, monthSum_cons]
      by_cases hj : j = e.t.Month tz - 1
      · have hm : e.t.Month tz = j + 1 := (hidx j).2.mp hj
        rw [if_pos hj, ← hj]
        rcases hkind with hk | hk
        · simp only [hk, state.toNat, Nat.sub_self, if_true, hname, h2, hm, and_self,
            state.noConfusion, false_and, if_false, zero_add, add64]
          refine ⟨?_, ?_⟩
          · rw [wrap64_wrap64_add, add_assoc]
          · rw [if_neg (by decide), zero_add]
        · simp only [hk, state.toNat, Nat.reduceSub, one_ne_zero, if_false, if_true, hname, h2, hm,
            and_self, state.noConfusion, false_and, zero_add, add64]
          refine ⟨?_, ?_⟩
          · rw [if_neg (by decide), zero_add]
          · rw [wrap64_wrap64_add, add_assoc]
      · have hm : ¬ e.t.Month tz = j + 1 := fun h => hj ((hidx j).2.mpr h)
        rw [if_neg hj]
        simp only [hm, and_false, if_false, zero_add, and_self]
    · -- an entry of an earlier year
      rw [if_pos h1] at hord
      rw [List.pairwise_cons] at hord
      simp only [foldFlow, hb]
      obtain ⟨i1, i2⟩ := ih { s with prev := e.t.Year tz } hs hfix hord.2
      refine ⟨i1, fun j => ?_⟩
      have hne : ¬ e.t.Year tz = year := by omega
      rw [monthSum_cons, monthSum_cons]
      simp only [hne, false_and, and_false, if_false, zero_add]
      exact i2 j
    · -- an entry of a later year: the loop ends
      rw [if_pos h1] at hord
      rw [List.pairwise_cons] at hord
      simp only [foldFlow, hb]
      refine ⟨hs, fun j => ?_⟩
      have hall : ∀ y ∈ yearsOf tz activity (e :: es), y ≠ year := by
        intro y hy
        rw [yearsOf_cons, if_pos h1] at hy
        rcases List.mem_cons.mp hy with hy | hy
        · omega
        · have := hord.1 y hy
          omega
      rw [monthSum_other_years tz _ activity year (j + 1) (Or.inl rfl) _ hall,
        monthSum_other_years tz _ activity year (j + 1) (Or.inr rfl) _ hall, add_zero, add_zero]
      exact ⟨(hfix j).1.symm, (hfix j).2.symm⟩

/-- The anchors that the loop of `years` leaves, when the years of the entries
of the activity are in non-decreasing order: the last year below the target
that it met, and the first year above it. -/
theorem years_fold_anchors (tz : Int → Int) (activity : String) (year : Int) :
    ∀ (xs : List entry) (s : YearAcc),
      (yearsOf tz activity xs).Pairwise (fun a b => a ≤ b) →
      ((∃ y ∈ yearsOf tz activity xs, y < year) →
        (foldFlow (yearsBody tz activity year) xs s).prev ∈ yearsOf tz activity xs ∧
        (foldFlow (yearsBody tz activity year) xs s).prev < year ∧
        ∀ y ∈ yearsOf tz activity xs, y < year →
          y ≤ (foldFlow (yearsBody tz activity year) xs s).prev) ∧
      ((¬ ∃ y ∈ yearsOf tz activity xs, y < year) →
        (foldFlow (yearsBody tz activity year) xs s).prev = s.prev) ∧
      ((∃ y ∈ yearsOf tz activity xs, year < y) →
        (foldFlow (yearsBody tz activity year) xs s).nxt ∈ yearsOf tz activity xs ∧
        year < (foldFlow (yearsBody tz activity year) xs s).nxt ∧
        ∀ y ∈ yearsOf tz activity xs, year < y →
          (foldFlow (yearsBody tz activity year) xs s).nxt ≤ y) ∧
      ((¬ ∃ y ∈ yearsOf tz activity xs, year < y) →
        (foldFlow (yearsBody tz activity year) xs s).nxt = s.nxt) := by
  intro xs
  induction xs with
  | nil =>
    intro s _
    simp [foldFlow, yearsOf]
  | cons e es ih =>
    intro s hord
    rw [yearsOf_cons] at hord ⊢
    rcases yearsBody_cases tz activity year s e with ⟨h1, hb⟩ | ⟨h1, h2, hb⟩ |
        ⟨h1, h2, hb⟩ | ⟨h1, h2, hb⟩
    · rw [if_neg (by rw [h1]; decide)] at hord ⊢
      simp only [foldFlow, hb]
      exact ih s hord
    · rw [if_pos h1] at hord ⊢
      rw [List.pairwise_cons] at hord
      obtain ⟨i1, i2, i3, i4⟩ :=
        ih { s with d := bump s.d (e.t.Month tz - 1) (e.typ.toNat - 4) e.d } hord.2
      simp only [foldFlow, hb]
      generalize (foldFlow (yearsBody tz activity year) es
        { s with d := bump s.d (e.t.Month tz - 1) (e.typ.toNat - 4) e.d }) = r at i1 i2 i3 i4 ⊢
      rw [h2]
      simp only [List.mem_cons, exists_eq_or_imp, lt_irrefl, false_or, forall_eq_or_imp,
        false_imp_iff, true_and] at i1 i2 i3 i4 ⊢
      refine ⟨fun h => ?_, i2, fun h => ?_, i4⟩
      · obtain ⟨a, b, c⟩ := i1 h
        exact ⟨Or.inr a, b, c⟩
      · obtain ⟨a, b, c⟩ := i3 h
        exact ⟨Or.inr a, b, c⟩
    · rw [if_pos h1] at hord ⊢
      rw [List.pairwise_cons] at hord
      obtain ⟨i1, i2, i3, i4⟩ := ih { s with prev := e.t.Year tz } hord.2
      simp only [foldFlow, hb]
      generalize (foldFlow (yearsBody tz activity year) es { s with prev := e.t.Year tz }) = r
        at i1 i2 i3 i4 ⊢
      have hfirst := hord.1
      generalize e.t.Year tz = y0 at h2 hfirst i1 i2 i3 i4 ⊢
      have hnot : ¬ year < y0 := by omega
      simp only [List.mem_cons, exists_eq_or_imp, hnot, h2, false_or, true_or, forall_eq_or_imp,
        false_imp_iff, true_and, forall_true_left, not_true_eq_false] at i1 i2 i3 i4 ⊢
      refine ⟨?_, fun h => ?_, i4⟩
      · by_cases hex : ∃ y ∈ yearsOf tz activity es, y < year
        · obtain ⟨a, b, c⟩ := i1 hex
          exact ⟨Or.inr a, b, hfirst r.prev a, c⟩
        · have hp : r.prev = y0 := i2 hex
          rw [hp]
          refine ⟨Or.inl rfl, h2, le_refl _, fun y hy hylt => ?_⟩
          exact absurd ⟨y, hy, hylt⟩ hex
      · obtain ⟨a, b, c⟩ := i3 h
        exact ⟨Or.inr a, b, c⟩
    · rw [if_pos h1] at hord ⊢
      rw [List.pairwise_cons] at hord
      simp only [foldFlow, hb]
      have hfirst := hord.1
      generalize e.t.Year tz = y0 at h2 hfirst ⊢
      have hnone : ∀ y, y = y0 ∨ y ∈ yearsOf tz activity es → ¬ y < year := by
        intro y hy
        rcases hy with hy | hy
        · omega
        · have := hfirst y hy
          omega
      refine ⟨fun h => ?_, fun _ => trivial, fun _ => ?_, fun h => ?_⟩
      · obtain ⟨y, hy, hylt⟩ := h
        exact absurd hylt (hnone y (List.mem_cons.mp hy))
      · refine ⟨List.mem_cons_self _ _, h2, fun y hy _ => ?_⟩
        rcases List.mem_cons.mp hy with hy1 | hy1
        · rw [hy1]
        · exact hfirst y hy1
      · exact absurd ⟨y0, List.mem_cons_self _ _, h2⟩ h
theorem replicate_getD {α : Type} (n j : Nat) (c : α) : (List.replicate n c).getD j c = c := by
  rw [List.getD_eq_getElem?_getD, List.getElem?_replicate]
  split_ifs <;> rfl

/-- **C22, as amended** (yearly grid).  For a logger whose committed entries
are loaded and a sequence `committed ++ session` in which the Work and Break
entries of the activity appear in non-decreasing calendar-year order,
`years(activity, Y)` accumulates a grid of twelve rows in which, for each month
`m` from 1 to 12, cell `[m-1][0]` is the sum, in the 64-bit arithmetic of
`time.Duration`, of the durations of the Work entries of the activity dated in
month `m` of year `Y`, and is that sum itself whenever the sum is within the
range of `time.Duration`; cell `[m-1][1]` is the same for its Break entries;
`prev` is the greatest year below `Y` that has a Work or Break entry of the
activity and `next` the least year above `Y` that has one, each 0 when there
is none. -/
theorem years_grid_and_anchors (env : GoEnv) (disk : Disk) (l : logger) (activity : String)
    (year : Int) (hl : l.bread = true)
    (hord : (yearsOf env.tz activity (l.buffered ++ l.session)).Pairwise (fun a b => a ≤ b)) :
    ∃ g l1, l.yearsGrid env disk activity year = .ok (g, l1) ∧
      l.years env disk activity year = .ok ((toRows g.d, g.nxt, g.prev), l1) ∧
      g.d.length = 12 ∧
      (∀ m, 1 ≤ m → m ≤ 12 →
        (g.d.getD (m - 1) (0, 0)).1 =
          wrap64 (monthSum env.tz .working activity year m (l.buffered ++ l.session)) ∧
        (g.d.getD (m - 1) (0, 0)).2 =
          wrap64 (monthSum env.tz .resting activity year m (l.buffered ++ l.session)) ∧
        (minDuration ≤ monthSum env.tz .working activity year m (l.buffered ++ l.session) ∧
          monthSum env.tz .working activity year m (l.buffered ++ l.session) ≤ maxDuration →
          (g.d.getD (m - 1) (0, 0)).1 =
            monthSum env.tz .working activity year m (l.buffered ++ l.session)) ∧
        (minDuration ≤ monthSum env.tz .resting activity year m (l.buffered ++ l.session) ∧
          monthSum env.tz .resting activity year m (l.buffered ++ l.session) ≤ maxDuration →
          (g.d.getD (m - 1) (0, 0)).2 =
            monthSum env.tz .resting activity year m (l.buffered ++ l.session))) ∧
      GreatestBelow year (yearsOf env.tz activity (l.buffered ++ l.session)) g.prev ∧
      LeastAbove year (yearsOf env.tz activity (l.buffered ++ l.session)) g.nxt := by
  obtain ⟨l1, h⟩ := yearsGrid_loaded env disk l activity year hl
  have hall : l.all = l.buffered ++ l.session := rfl
  rw [hall] at h
  generalize l.buffered ++ l.session = seq at h hord
  obtain ⟨c1, c2⟩ := years_fold_cells env.tz activity year seq
    ⟨List.replicate 12 (0, 0), 0, 0⟩ (by simp)
    (by
      intro j
      simp only [replicate_getD]
      exact ⟨by decide, by decide⟩)
    hord
  obtain ⟨a1, a2, a3, a4⟩ := years_fold_anchors env.tz activity year seq
    ⟨List.replicate 12 (0, 0), 0, 0⟩ hord
  simp only [replicate_getD, zero_add] at c2
  generalize foldFlow (yearsBody env.tz activity year) seq
    ⟨List.replicate 12 (0, 0), 0, 0⟩ = g at h c1 c2 a1 a2 a3 a4
  refine ⟨g, l1, h, ?_, c1, ?_, ⟨a1, a2⟩, ⟨a3, a4⟩⟩
  · unfold logger.years
    rw [h]
  · intro m hm1 _
    have hc := c2 (m - 1)
    rw [Nat.sub_add_cancel hm1] at hc
    refine ⟨hc.1, hc.2, fun hfit => ?_, fun hfit => ?_⟩
    · rw [hc.1]
      exact wrap64_id _ hfit.1 (lt_of_le_of_lt hfit.2 (by decide))
    · rw [hc.2]
      exact wrap64_id _ hfit.1 (lt_of_le_of_lt hfit.2 (by decide))

/-- Counterexample to C22: two Work entries of 5·10⁹ seconds dated in January
2024.  Their sum does not fit in 64 bits: the January cell of the grid wraps to
a negative duration where the sum of the durations is 10¹⁹ nanoseconds. -/
theorem years_cell_wraps :
    ((loaded [longWork, longWork] []).yearsGrid envUTC noFile "A" 2024).map
        (fun r => (r.1.d.getD 0 (0, 0)).1) = .ok (-8446744073709551616) ∧
    (yearsOf envUTC.tz "A" ([longWork, longWork] ++ [])).Pairwise (fun a b => a ≤ b) ∧
    monthSum envUTC.tz .working "A" 2024 1 ([longWork, longWork] ++ []) =
      10000000000000000000 :=
  ⟨rfl, by decide, by decide⟩

/-- Witness of C22 as amended: the log `threeYears` seen from 2024.  January
2024 has thirty minutes of work and five of break, the year before is 2023 and
the year after 2025. -/
theorem years_grid_and_anchors_witness :
    ((loaded threeYears []).yearsGrid envUTC noFile "A" 2024).map
        (fun r => (r.1.d.getD 0 (0, 0), r.1.nxt, r.1.prev)) =
      .ok ((1800000000000, 300000000000), 2025, 2023) ∧
    ∃ g l1, (loaded threeYears []).yearsGrid envUTC noFile "A" 2024 = .ok (g, l1) ∧
      (loaded threeYears []).years envUTC noFile "A" 2024 =
        .ok ((toRows g.d, g.nxt, g.prev), l1) ∧
      g.d.length = 12 ∧
      (∀ m, 1 ≤ m → m ≤ 12 →
        (g.d.getD (m - 1) (0, 0)).1 =
          wrap64 (monthSum envUTC.tz .working "A" 2024 m (threeYears ++ [])) ∧
        (g.d.getD (m - 1) (0, 0)).2 =
          wrap64 (monthSum envUTC.tz .resting "A" 2024 m (threeYears ++ [])) ∧
        (minDuration ≤ monthSum envUTC.tz .working "A" 2024 m (threeYears ++ []) ∧
          monthSum envUTC.tz .working "A" 2024 m (threeYears ++ []) ≤ maxDuration →
          (g.d.getD (m - 1) (0, 0)).1 =
            monthSum envUTC.tz .working "A" 2024 m (threeYears ++ [])) ∧
        (minDuration ≤ monthSum envUTC.tz .resting "A" 2024 m (threeYears ++ []) ∧
          monthSum envUTC.tz .resting "A" 2024 m (threeYears ++ []) ≤ maxDuration →
          (g.d.getD (m - 1) (0, 0)).2 =
            monthSum envUTC.tz .resting "A" 2024 m (threeYears ++ []))) ∧
      GreatestBelow 2024 (yearsOf envUTC.tz "A" (threeYears ++ [])) g.prev ∧
      LeastAbove 2024 (yearsOf envUTC.tz "A" (threeYears ++ [])) g.nxt :=
  ⟨rfl, years_grid_and_anchors envUTC noFile (loaded threeYears []) "A" 2024 rfl (by decide)⟩

/-! ## The cursor: calls in both directions -/

theorem next_loaded (env : GoEnv) (disk : Disk) (l : logger) (hl : l.bread = true) :
    l.next env disk =
      if l.bidx < l.buffered.length then
        .ok (l.buffered.getD l.bidx entry.zero, none, { l with bidx := l.bidx + 1 })
      else if l.sidx < l.session.length then
        .ok (l.session.getD l.sidx entry.zero, none, { l with sidx := l.sidx + 1 })
      else .ok (entry.zero, some .EOF, l) := by
  simp only [logger.next, fill_loaded env disk l hl, Nat.add_sub_cancel]

theorem prev_loaded (env : GoEnv) (disk : Disk) (l : logger) (hl : l.bread = true) :
    l.prev env disk =
      if l.sidx < l.session.length then
        .ok (l.session.getD (l.session.length - (l.sidx + 1)) entry.zero, none,
          { l with sidx := l.sidx + 1 })
      else if l.bidx < l.buffered.length then
        .ok (l.buffered.getD (l.buffered.length - (l.bidx + 1)) entry.zero, none,
          { l with bidx := l.bidx + 1 })
      else .ok (entry.zero, some .EOF, l) := by
  simp only [logger.prev, fill_loaded env disk l hl]

/-- One call of `next` or `prev` on a loaded logger whose indices are within
the slices. -/
theorem call_in_bounds (env : GoEnv) (disk : Disk) (d : Bool) (l : logger)
    (hl : l.bread = true) (hb : l.bidx ≤ l.buffered.length) (hs : l.sidx ≤ l.session.length) :
    ∃ e err l1, (if d then l.next env disk else l.prev env disk) = .ok (e, err, l1) ∧
      CallInBounds l.buffered l.session ⟨d, l, e, err, l1⟩ ∧
      (err = none ↔ l.bidx + l.sidx < l.buffered.length + l.session.length) ∧
      l1.bidx + l1.sidx =
        min (l.bidx + l.sidx + 1) (l.buffered.length + l.session.length) := by
  cases d with
  | true =>
    rw [if_pos rfl, next_loaded env disk l hl]
    by_cases h1 : l.bidx < l.buffered.length
    · rw [if_pos h1]
      refine ⟨_, _, _, rfl, ⟨hl, rfl, rfl, h1, hs, fun _ => Or.inl ⟨rfl, rfl, ?_, ?_⟩,
        fun h => absurd rfl h⟩, ?_, ?_⟩
      · simpa using h1
      · simp only [if_true, Nat.add_sub_cancel]
        rw [List.getD_eq_getElem _ _ h1]
        exact List.getElem?_eq_getElem h1
      · simp; omega
      · simp only; omega
    · rw [if_neg h1]
      by_cases h2 : l.sidx < l.session.length
      · rw [if_pos h2]
        refine ⟨_, _, _, rfl, ⟨hl, rfl, rfl, hb, h2, fun _ => Or.inr ⟨rfl, rfl, ?_, ?_⟩,
          fun h => absurd rfl h⟩, ?_, ?_⟩
        · simpa using h2
        · simp only [if_true, Nat.add_sub_cancel]
          rw [List.getD_eq_getElem _ _ h2]
          exact List.getElem?_eq_getElem h2
        · simp; omega
        · simp only; omega
      · rw [if_neg h2]
        refine ⟨_, _, _, rfl, ⟨hl, rfl, rfl, hb, hs, fun h => ?_, fun _ => ⟨rfl, rfl, rfl⟩⟩,
          ?_, ?_⟩
        · simp at h
        · simp; omega
        · omega
  | false =>
    rw [if_neg (by decide), prev_loaded env disk l hl]
    by_cases h2 : l.sidx < l.session.length
    · rw [if_pos h2]
      have hi : l.session.length - (l.sidx + 1) < l.session.length := by omega
      refine ⟨_, _, _, rfl, ⟨hl, rfl, rfl, hb, h2, fun _ => Or.inr ⟨rfl, rfl, ?_, ?_⟩,
        fun h => absurd rfl h⟩, ?_, ?_⟩
      · simpa using hi
      · simp only [Bool.false_eq_true, if_false]
        rw [List.getD_eq_getElem _ _ hi]
        exact List.getElem?_eq_getElem hi
      · simp; omega
      · simp only; omega
    · rw [if_neg h2]
      by_cases h1 : l.bidx < l.buffered.length
      · rw [if_pos h1]
        have hi : l.buffered.length - (l.bidx + 1) < l.buffered.length := by omega
        refine ⟨_, _, _, rfl, ⟨hl, rfl, rfl, h1, hs, fun _ => Or.inl ⟨rfl, rfl, ?_, ?_⟩,
          fun h => absurd rfl h⟩, ?_, ?_⟩
        · simpa using hi
        · simp only [Bool.false_eq_true, if_false]
          rw [List.getD_eq_getElem _ _ hi]
          exact List.getElem?_eq_getElem hi
        · simp; omega
        · simp only; omega
      · rw [if_neg h1]
        refine ⟨_, _, _, rfl, ⟨hl, rfl, rfl, hb, hs, fun h => ?_, fun _ => ⟨rfl, rfl, rfl⟩⟩,
          ?_, ?_⟩
        · simp at h
        · simp; omega
        · omega
/-- Calls of `next` and `prev` in any directions on a loaded logger whose
indices are within the slices: the calls follow one another, each keeps the
indices within the slices, and the number of entries returned so far is the
sum of the two indices. -/
theorem mixedCalls_in_bounds (env : GoEnv) (disk : Disk) (B S : List entry) :
    ∀ (dirs : List Bool) (l : logger), Loaded B S l → l.bidx ≤ B.length →
      l.sidx ≤ S.length →
      ∃ tr, mixedCalls env disk dirs l = .ok tr ∧ tr.length = dirs.length ∧
        (∀ c, tr[0]? = some c → c.before = l) ∧
        (∀ i c c1, tr[i]? = some c → tr[i + 1]? = some c1 → c1.before = c.after) ∧
        ∀ i c, tr[i]? = some c →
          dirs[i]? = some c.forward ∧ CallInBounds B S c ∧
          c.before.bidx + c.before.sidx = min (l.bidx + l.sidx + i) (B.length + S.length) ∧
          (c.err = none ↔ l.bidx + l.sidx + i < B.length + S.length) := by
  intro dirs
  induction dirs with
  | nil =>
    intro l _ _ _
    refine ⟨[], rfl, rfl, ?_, ?_, ?_⟩
    · intro c h; simp at h
    · intro i c c1 h; simp at h
    · intro i c h; simp at h
  | cons d ds ih =>
    intro l hL hb hs
    obtain ⟨hl, hB, hS⟩ := hL
    subst hB hS
    obtain ⟨e, err, l1, hcall, hin, herr, hsum⟩ := call_in_bounds env disk d l hl hb hs
    obtain ⟨tr, htr, hlen, hfirst, hchain, hall⟩ := ih l1 ⟨hin.1, hin.2.1, hin.2.2.1⟩
      hin.2.2.2.1 hin.2.2.2.2.1
    refine ⟨⟨d, l, e, err, l1⟩ :: tr, ?_, by simp [hlen], ?_, ?_, ?_⟩
    · simp only [mixedCalls, hcall, htr]
    · intro c h
      simp only [List.getElem?_cons_zero, Option.some.injEq] at h
      rw [← h]
    · intro i c c1 h h1
      cases i with
      | zero =>
        simp only [List.getElem?_cons_zero, Option.some.injEq] at h
        simp only [zero_add, List.getElem?_cons_succ] at h1
        rw [← h]
        exact hfirst c1 h1
      | succ i =>
        simp only [List.getElem?_cons_succ] at h h1
        exact hchain i c c1 h h1
    · intro i c h
      cases i with
      | zero =>
        simp only [List.getElem?_cons_zero, Option.some.injEq] at h
        subst h
        refine ⟨by simp, hin, ?_, ?_⟩
        · simp only [add_zero]; omega
        · simpa using herr
      | succ i =>
        simp only [List.getElem?_cons_succ] at h
        obtain ⟨a1, a2, a3, a4⟩ := hall i c h
        refine ⟨by simpa using a1, a2, ?_, ?_⟩
        · rw [a3, hsum]; omega
        · rw [a4, hsum]; omega

/-- **C23** (cursor index invariant).  With the `K` committed entries loaded
and `M` session entries, starting from reset indices, every finite sequence of
calls of `next` and `prev`, in any mix of directions and without resets, runs
to its end without a panic.  The first call starts from the reset logger and
every call starts from the logger that the call before it left.  Every call
leaves `bidx ≤ K` and `sidx ≤ M` and the slices as they were; a call that
succeeds advances exactly one index by one and returns the element of that
slice at the index that the method reads, which is within the slice; a call
that fails returns `entry{}` and `io.EOF` and changes nothing.  Before call
`i` (from 0) the two indices add up to `min i (K + M)`, and call `i` succeeds
exactly when `i < K + M`: exactly `K + M` calls succeed, and every further
call returns `io.EOF`. -/
theorem cursor_index_invariant (env : GoEnv) (disk : Disk) (l : logger) (dirs : List Bool)
    (hl : l.bread = true) :
    ∃ tr, mixedCalls env disk dirs l.reset = .ok tr ∧ tr.length = dirs.length ∧
      (∀ c, tr[0]? = some c → c.before = l.reset) ∧
      (∀ i c c1, tr[i]? = some c → tr[i + 1]? = some c1 → c1.before = c.after) ∧
      ∀ i c, tr[i]? = some c →
        dirs[i]? = some c.forward ∧ CallInBounds l.buffered l.session c ∧
        c.before.bidx + c.before.sidx = min i (l.buffered.length + l.session.length) ∧
        (c.err = none ↔ i < l.buffered.length + l.session.length) := by
  obtain ⟨tr, h1, h2, h3, h4, h5⟩ := mixedCalls_in_bounds env disk l.buffered l.session dirs
    l.reset (reset_loaded l hl) (Nat.zero_le _) (Nat.zero_le _)
  refine ⟨tr, h1, h2, h3, h4, fun i c h => ?_⟩
  obtain ⟨a1, a2, a3, a4⟩ := h5 i c h
  have hb : l.reset.bidx = 0 := rfl
  have hs : l.reset.sidx = 0 := rfl
  rw [hb, hs] at a3 a4
  simp only [zero_add] at a3 a4
  exact ⟨a1, a2, a3, a4⟩

/-- Witness of C23: three committed entries and one session entry, read by
`next`, `prev`, `prev`, `next`, `next`.  The four first calls succeed, each
advancing one index, and the fifth returns `io.EOF`. -/
theorem cursor_index_invariant_witness :
    (mixedCalls envUTC noFile [true, false, false, true, true]
        (loaded threeWeeks [mkEntry "A" .resting mon29 5]).reset).map
      (fun tr => tr.map (fun c => (c.after.bidx, c.after.sidx, c.err))) =
      .ok [(1, 0, none), (1, 1, none), (2, 1, none), (3, 1, none), (3, 1, some .EOF)] ∧
    ∃ tr, mixedCalls envUTC noFile [true, false, false, true, true]
        (loaded threeWeeks [mkEntry "A" .resting mon29 5]).reset = .ok tr ∧
      tr.length = [true, false, false, true, true].length ∧
      (∀ c, tr[0]? = some c → c.before = (loaded threeWeeks [mkEntry "A" .resting mon29 5]).reset) ∧
      (∀ i c c1, tr[i]? = some c → tr[i + 1]? = some c1 → c1.before = c.after) ∧
      ∀ i c, tr[i]? = some c →
        [true, false, false, true, true][i]? = some c.forward ∧
        CallInBounds threeWeeks [mkEntry "A" .resting mon29 5] c ∧
        c.before.bidx + c.before.sidx =
          min i (threeWeeks.length + [mkEntry "A" .resting mon29 5].length) ∧
        (c.err = none ↔ i < threeWeeks.length + [mkEntry "A" .resting mon29 5].length) :=
  ⟨rfl, cursor_index_invariant envUTC noFile (loaded threeWeeks [mkEntry "A" .resting mon29 5])
    [true, false, false, true, true] rfl⟩

/-! ## `refresh` after `shrink` -/

/-- The method `refresh` on a new logger reads the log file: its activity list
is the one of the entries that `loadAll` returns. -/
theorem refresh_reload (env : GoEnv) (disk : Disk) (text : List Char) (es : List entry)
    (hfile : disk.file = some text) (hload : loadAll env text = .ok (es, none))
    (hlen : es.length ≤ text.length) :
    ∃ r1 l1, newlogger.refresh env disk = .ok (r1, l1) ∧
      r1.activities = sortStrings (foldFlow refreshBody1 es []) := by
  have hb : newlogger.bound disk = (text.length + 1) + 1 := by
    simp [logger.bound, newlogger, hfile]
  have hstep : logger.next env disk newlogger.reset = logger.next env disk (loaded es []) := by
    simp [logger.next, logger.fill, newlogger, logger.reset, loaded, hfile, hload]
  have key : ∀ (l0 : logger), Loaded es [] l0 →
      Loaded es [] l0.reset ∧ l0.reset.bwd = es.reverse ∧ es.length < l0.bound disk := by
    intro l0 h0
    refine ⟨⟨h0.1, h0.2.1, h0.2.2⟩, ?_, ?_⟩
    · rw [reset_bwd]; simp [logger.all, h0.2.1, h0.2.2]
    · simp [logger.bound, logger.all, h0.2.1, h0.2.2]; omega
  have hfwd : (loaded es []).fwd = es := by simp [logger.fwd, loaded]
  obtain ⟨l1, e1, p1⟩ := forCursor_yields (next_yields env disk es [])
    refreshBody1 ((text.length + 1) + 1) (loaded es []) [] ⟨rfl, rfl, rfl⟩
    (by rw [hfwd]; omega)
  rw [hfwd, ← forCursor_first (logger.next env disk) refreshBody1 (text.length + 1)
    newlogger.reset (loaded es []) [] hstep] at e1
  obtain ⟨m1, m3, m4⟩ := key l1 p1
  obtain ⟨l2, e2, p2⟩ := forCursor_yields (prev_yields env disk es [])
    (refreshBody2 (foldFlow refreshBody1 es [])) (l1.bound disk) l1.reset "" m1
    (by rw [m3]; simpa using m4)
  obtain ⟨n1, n3, n4⟩ := key l2 p2
  obtain ⟨l3, e3, -⟩ := forCursor_yields (prev_yields env disk es [])
    (refreshBody3 env.tz (foldFlow refreshBody1 es [])) (l2.bound disk) l2.reset
    ⟨(0, 0), (0, 0), 0⟩ n1 (by rw [n3]; simpa using n4)
  have h : ∃ r1, newlogger.refresh env disk = .ok (r1, l3) ∧
      r1.activities = sortStrings (foldFlow refreshBody1 es []) := by
    simp only [logger.refresh, hb, e1, e2, e3]
    exact ⟨_, rfl, rfl⟩
  obtain ⟨r1, h1, h2⟩ := h
  exact ⟨r1, l3, h1, h2⟩

/-- In a sequence of Work and Break entries the alive activities are those
that have an entry. -/
theorem liveIn_workBreak (seq : List entry)
    (h : ∀ v ∈ seq, v.typ = .working ∨ v.typ = .resting) (name : String) :
    liveIn seq name ↔ ∃ v ∈ seq, v.a = name := by
  unfold liveIn lastOf
  constructor
  · rintro ⟨e, he, -⟩
    have hm := List.mem_of_getLast?_eq_some he
    rw [List.mem_filter] at hm
    exact ⟨e, hm.1, by simpa using hm.2⟩
  · rintro ⟨v, hv, hn⟩
    have hne : seq.filter (fun e => decide (e.a = name)) ≠ [] := by
      intro hc
      have : v ∈ seq.filter (fun e => decide (e.a = name)) := by
        rw [List.mem_filter]
        exact ⟨hv, by simpa using hn⟩
      rw [hc] at this
      simp at this
    refine ⟨(seq.filter (fun e => decide (e.a = name))).getLast hne,
      List.getLast?_eq_getLast _ hne, ?_⟩
    have hm := List.getLast_mem hne
    rw [List.mem_filter] at hm
    rcases h _ hm.1 with hk | hk <;> rw [hk] <;> decide

/-- Two lists of strings in strictly ascending order that have the same
members are equal. -/
theorem sorted_ext (xs ys : List String) (hx : xs.Sorted (fun a b => a < b))
    (hy : ys.Sorted (fun a b => a < b)) (h : ∀ a, a ∈ xs ↔ a ∈ ys) : xs = ys := by
  have hp : xs.Perm ys := (List.perm_ext_iff_of_nodup hx.nodup hy.nodup).mpr h
  exact List.eq_of_perm_of_sorted hp hx hy
theorem idleCreated_fit (a : String) (k : state) (dy : Int × Nat × Int) :
    bucketSum envUTC.tz a k dy ([] ++ idleCreated) ≤ maxDuration :=
  le_trans (bucketSum_le_total envUTC.tz a k dy ([] ++ idleCreated) (by decide)) (by decide)

/-- On the session `idleCreated` the activity list of `refresh` is "A", "B". -/
theorem idleCreated_refresh :
    ∃ r0 l0, (loaded [] idleCreated).refresh envUTC noFile = .ok (r0, l0) ∧
      r0.activities = ["A", "B"] := by
  obtain ⟨l3, h, -⟩ := refresh_loaded envUTC noFile (loaded [] idleCreated) rfl
  have s1 : foldFlow refreshBody1 (loaded [] idleCreated).all [] = ["A", "B"] := by
    simp [foldFlow, refreshBody1, logger.all, loaded, idleCreated, mkEntry]
  have s2 : sortStrings ["A", "B"] = ["A", "B"] := by decide!
  rw [s1, s2] at h
  exact ⟨_, l3, h, rfl⟩

/-- **C24, as amended** (the activities after compaction).  For a logger whose
committed entries are loaded, a log file that can be created, and a sequence
`committed ++ session` whose active names have no newline or final carriage
return and fit the scanner, whose times have a four-digit year and a
whole-minute zone offset of less than a day, and whose durations are whole,
non-negative numbers of seconds with daily totals within `time.Duration`: if
`A` is the activity list that `refresh` computes and `shrink(A)` returns, then
`refresh` on a new logger, which reads the file that `shrink` wrote, with an
empty session, returns the activities of `A` for which `shrink` wrote an
entry, in the order of `A`; it is again `A` exactly when every activity of `A`
has a Work or Break entry written by `shrink`. -/
theorem shrink_keeps_written_activities (fuel : Nat) (env : GoEnv) (disk : Disk) (l : logger)
    (A : List String) (r : Shrunk)
    (hl : l.bread = true) (hw : disk.writable = true)
    (href : ∃ r0 l0, l.refresh env disk = .ok (r0, l0) ∧ r0.activities = A)
    (hA : ∀ a ∈ A, NameOK a)
    (ht : ∀ e ∈ l.buffered ++ l.session, TimeOK env.tz e.t)
    (hsec : ∀ e ∈ l.buffered ++ l.session, 0 ≤ e.d ∧ e.d % Second = 0)
    (hfit : ∀ a k dy, bucketSum env.tz a k dy (l.buffered ++ l.session) ≤ maxDuration)
    (hr : l.shrink fuel env disk A = some (.ok r)) :
    ∃ r1 l1, newlogger.refresh env r.disk = .ok (r1, l1) ∧
      r1.activities = A.filter (fun a => decide (∃ v ∈ r.written, v.a = a)) ∧
      (r1.activities = A ↔ ∀ a ∈ A, ∃ v ∈ r.written, v.a = a) := by
  obtain ⟨r0, l0, h0, hA0⟩ := href
  obtain ⟨l3, h3, -⟩ := refresh_loaded env disk l hl
  have hAeq : A = sortStrings (foldFlow refreshBody1 l.all []) := by
    rw [h3] at h0
    simp only [Except.ok.injEq, Prod.mk.injEq] at h0
    rw [← hA0, ← h0.1]
  have hAs : A.Sorted (fun a b => a < b) := by
    rw [hAeq]
    exact sortStrings_sorted _ (scratch_spec l.all).1
  obtain ⟨h1, -, -⟩ := shrink_returns fuel env disk l A r hl hw hr
  have hfile := shrink_file fuel env disk l A r hw hr
  have hall : l.all = l.buffered ++ l.session := rfl
  rw [hall] at h1
  have hWw : Writable A r.written := by
    rw [h1]
    exact written_writable env.tz A _
  have hWt : ∀ v ∈ r.written, TimeOK env.tz v.t := by
    rw [h1]
    exact written_times (TimeOK env.tz) (TimeOK_zero env.tz) env.tz A _ ht
  have hWs : ∀ v ∈ r.written, 0 ≤ v.d ∧ v.d % Second = 0 := by
    rw [h1]
    exact written_whole env.tz A _ hsec hfit
  have hload := loadAll_logText env r.written (fun w hw1 =>
    ⟨(hWw w hw1).1, hA w.a (hWw w hw1).2.1, hWt w hw1, (hWs w hw1).1, (hWs w hw1).2,
      (hWw w hw1).2.2.2⟩)
  have hlen : (r.written.map (entry.reread env.tz)).length ≤ (logText env.tz r.written).length := by
    rw [List.length_map]
    exact logText_length env.tz r.written (fun w hw1 => (hWw w hw1).1)
  obtain ⟨r1, l1, e1, e2⟩ := refresh_reload env r.disk (logText env.tz r.written)
    (r.written.map (entry.reread env.tz)) (by rw [hfile]) hload hlen
  obtain ⟨hnd, hmem⟩ := scratch_spec (r.written.map (entry.reread env.tz))
  have hkind : ∀ v ∈ r.written.map (entry.reread env.tz),
      v.typ = .working ∨ v.typ = .resting := by
    intro v hv
    obtain ⟨w, hw1, e⟩ := List.mem_map.mp hv
    rw [← e]
    exact (hWw w hw1).1
  have hfilter : r1.activities = A.filter (fun a => decide (∃ v ∈ r.written, v.a = a)) := by
    apply sorted_ext
    · rw [e2]
      exact sortStrings_sorted _ hnd
    · exact List.Pairwise.filter _ hAs
    · intro a
      rw [e2, mem_sortStrings, hmem, liveIn_workBreak _ hkind, List.mem_filter]
      constructor
      · rintro ⟨v, hv, hn⟩
        obtain ⟨w, hw1, e⟩ := List.mem_map.mp hv
        have hwa : w.a = a := by rw [← hn, ← e]; rfl
        exact ⟨hwa ▸ (hWw w hw1).2.1, by simpa using ⟨w, hw1, hwa⟩⟩
      · rintro ⟨-, hex⟩
        obtain ⟨w, hw1, hwa⟩ := of_decide_eq_true hex
        exact ⟨w.reread env.tz, List.mem_map_of_mem _ hw1, hwa⟩
  refine ⟨r1, l1, e1, hfilter, ?_⟩
  rw [hfilter, List.filter_eq_self]
  constructor
  · intro h a ha
    exact of_decide_eq_true (h a ha)
  · intro h a ha
    exact decide_eq_true (h a ha)

/-- Counterexample to C24: "A" is created and worked on, "B" is created and not
worked on.  The activity list of `refresh` is "A", "B"; `shrink` with this list
writes the one Work entry of "A"; on the file it wrote, `refresh` returns the
list "A": the activity "B" is gone. -/
theorem shrink_drops_idle_activity :
    (∃ r0 l0, (loaded [] idleCreated).refresh envUTC noFile = .ok (r0, l0) ∧
      r0.activities = ["A", "B"]) ∧
    (loaded [] idleCreated).shrink 10 envUTC noFile ["A", "B"] = some (.ok idleCreatedResult) ∧
    (newlogger.refresh envUTC idleCreatedResult.disk).map (fun x => x.1.activities) =
      .ok ["A"] ∧
    ["A"] ≠ ["A", "B"] :=
  ⟨idleCreated_refresh, rfl, rfl, by decide⟩

/-- Witness of C24 as amended, on the session of the counterexample. -/
theorem shrink_keeps_written_activities_witness :
    ∃ r1 l1, newlogger.refresh envUTC idleCreatedResult.disk = .ok (r1, l1) ∧
      r1.activities =
        ["A", "B"].filter (fun a => decide (∃ v ∈ idleCreatedResult.written, v.a = a)) ∧
      (r1.activities = ["A", "B"] ↔ ∀ a ∈ ["A", "B"], ∃ v ∈ idleCreatedResult.written, v.a = a) :=
  shrink_keeps_written_activities 10 envUTC noFile (loaded [] idleCreated) ["A", "B"]
    idleCreatedResult rfl rfl idleCreated_refresh (by unfold NameOK; decide)
    (by unfold TimeOK; decide) (by decide) idleCreated_fit rfl

/-! ## Entries read back with the zero time -/

/-- **C2** (daily tally), evaluated on the code.  A session of one Monday: ten
minutes of work on "A", then "B" is created and worked on for twenty minutes.
In the session `tally` reports ten minutes for "A" and twenty for "B".  Once
the session is flushed, `loadAll` reads the `c` line back with the zero time;
`tally` tests the date of every entry before its kind, so its reverse pass
stops at the Created entry and reports nothing for "A", whose Work entry dated
today has ten minutes. -/
theorem tally_drops_work_before_reloaded_line :
    ((loaded [] mondaySession).tally envUTC noFile mon15 ["A", "B"]).map Prod.fst =
      .ok [(600000000000, 0), (1200000000000, 0)] ∧
    (loaded [] mondaySession).flush envUTC.tz ⟨some [], true⟩ =
      ⟨some (logText envUTC.tz mondaySession), true⟩ ∧
    loadAll envUTC (logText envUTC.tz mondaySession) = .ok (mondayReloaded, none) ∧
    (newlogger.tally envUTC ⟨some (logText envUTC.tz mondaySession), true⟩ mon15
        ["A", "B"]).map Prod.fst = .ok [(0, 0), (1200000000000, 0)] ∧
    kindSum .working "A" (datedToday envUTC.tz (mon15.Date envUTC.tz) mondayReloaded) =
      600000000000 :=
  ⟨rfl, rfl, rfl, rfl, by decide⟩

/-- **C10** (compaction yields one entry per bucket), evaluated on the code.  A
session of one Monday: ten minutes of work on "A", the creation of "B", twenty
more minutes of work on "A".  In the session `shrink` writes one Work entry of
thirty minutes for "A" on Monday.  Once the session is flushed, `loadAll` reads
the `c` line back with the zero time; `shrink` tests the day of every entry
before its kind, so it flushes at the Created entry and writes two Work entries
of "A" for Monday. -/
theorem shrink_splits_day_after_reload :
    loadAll envUTC (logText envUTC.tz splitDaySession) = .ok (splitDay, none) ∧
    ((loaded [] splitDaySession).shrink 10 envUTC noFile ["A", "B"]).map
      (Except.map (fun r => bucket envUTC.tz "A" .working (dayOf envUTC.tz mon15) r.written)) =
        some (.ok [mkEntry "A" .working mon15 30]) ∧
    ((loaded splitDay []).shrink 10 envUTC noFile ["A", "B"]).map
      (Except.map (fun r => bucket envUTC.tz "A" .working (dayOf envUTC.tz mon15) r.written)) =
        some (.ok [mkEntry "A" .working mon15 10, mkEntry "A" .working mon15 20]) :=
  ⟨rfl, rfl, rfl⟩

end Clockon
